import Mathlib

/-!
# Half-edge construction of `SubdivMesh` (embree, `kernels/common/scene_subdiv_mesh.cpp`)

A shallow embedding of `SubdivMesh::initializeHalfEdgeStructures` (the sort-based variant that is
compiled) and of `pair64`, followed by theorems about the half-edge structure it builds.

Conventions of the embedding.

* Buffers and `std::vector`s are lists, read with `List.getD`.
* A `HalfEdge*` into the array `halfEdges` is the index of the half-edge in that array.
* `unsigned int` and `size_t` values are natural numbers; the places where the source relies on
  wrap-around (`-(N-1)` and `-1` computed in `size_t`, the key `-1`) are written with explicit
  `% 2 ^ 64`.
* The three offset fields of `HalfEdge` are signed integers of `w` bits. The declaration of
  `HalfEdge` (`scene_subdivision.h`) is not among the sources, so `w` is a parameter; storing a
  value into such a field is `wrap w`.
* A `float` is its IEEE-754 single precision bit pattern; the construction only copies floats,
  writes the constants `0.0f`, `1.0f` and `inf`, and tests `edge_level >= 0.0f`.
-/

namespace Embree

/-! ## Machine arithmetic -/

/-- The value held by a signed `w`-bit field after the integer `z` is stored in it
(wrap-around of the two-complement representation). -/
def wrap (w : Nat) (z : Int) : Int :=
  (z + 2 ^ (w - 1)) % 2 ^ w - 2 ^ (w - 1)

/-- Bit pattern of `0.0f`. -/
def f32_zero : Nat := 0

/-- Bit pattern of `1.0f`. -/
def f32_one : Nat := 0x3F800000

/-- Bit pattern of `+infinity` (the constant `inf` converted to `float`). -/
def f32_inf : Nat := 0x7F800000

/-- The comparison `x >= 0.0f` on the bit pattern of `x`: true for `+0`, the positive finite
numbers and `+infinity` (patterns up to `0x7F800000`) and for `-0` (`0x80000000`); false for
negative numbers and for NaN. -/
def f32_ge_zero (x : Nat) : Bool :=
  decide (x ≤ 0x7F800000) || decide (x = 0x80000000)

/-! ## `pair64` and the edge key -/

/-- Source: `pair64` (scene_subdiv_mesh.cpp:195-198).
`if (x<y) std::swap(x,y); return (((uint64)x) << 32) | (uint64)y;` -/
def pair64 (x y : Nat) : Nat :=
  if x < y then ((y <<< 32) ||| x) % 2 ^ 64 else ((x <<< 32) ||| y) % 2 ^ 64

/-- Modelled from the spec: the conversion of `Edge(v0,v1)` (declared in `scene_subdiv_mesh.h`,
not among the sources) to its 64-bit key. The spec describes a canonical, order-independent
identifier formed from the two endpoint indices with the larger index in the high bits, which is
what `pair64` computes. -/
def Edge (v0 v1 : Nat) : Nat := pair64 v0 v1

/-- The key `-1` of `KeyHalfEdge(-1,edge)` and of the test `key == -1`, as a `uint64`. -/
def sentinel : Nat := 2 ^ 64 - 1

/-! ## Data -/

/-- Modelled from the spec: the `HalfEdge` record (declared in `scene_subdivision.h`, not among
the sources) with the seven fields that the construction writes. -/
structure HalfEdge where
  vtx_index : Nat
  next_half_edge_ofs : Int
  prev_half_edge_ofs : Int
  opposite_half_edge_ofs : Int
  edge_crease_weight : Nat
  vertex_crease_weight : Nat
  edge_level : Nat
deriving DecidableEq, Repr

instance : Inhabited HalfEdge := ⟨⟨0, 0, 0, 0, 0, 0, 0⟩⟩

/-- Modelled from the spec: the companion key record `KeyHalfEdge(key,edge)`; `edge` is the
index in `halfEdges` of the half-edge the record points to. -/
structure KeyHalfEdge where
  key : Nat
  edge : Nat
deriving DecidableEq, Repr

instance : Inhabited KeyHalfEdge := ⟨⟨0, 0⟩⟩

/-- The inputs of the construction: the constructor arguments and the user buffers of
`SubdivMesh`, and whether the parent scene is static. `levels` is `none` when no level buffer
was set (`if (levels)`). -/
structure SubdivMesh where
  isStatic : Bool
  numFaces : Nat
  numEdges : Nat
  numVertices : Nat
  faceVertices : List Nat
  vertexIndices : List Nat
  holes : List Nat
  edge_creases : List (Nat × Nat)
  edge_crease_weights : List Nat
  vertex_creases : List Nat
  vertex_crease_weights : List Nat
  levels : Option (List Nat)
deriving Repr

/-- The members of `SubdivMesh` that `initializeHalfEdgeStructures` writes. The hole set and the
two crease maps are represented by the entries they were initialised with. -/
structure State where
  halfEdges : List HalfEdge
  halfEdges0 : List KeyHalfEdge
  halfEdges1 : List KeyHalfEdge
  faceStartEdge : List Nat
  holeSet : List Nat
  vertexCreaseMap : List (Nat × Nat)
  edgeCreaseMap : List (Nat × Nat)
deriving DecidableEq, Repr

/-! ## Face offsets -/

/-- Source: the sequential loop of the reference variant (scene_subdiv_mesh.cpp:235-238),
`for (size_t f=0, ofs=0; f<numFaces; ofs+=faceVertices[f++]) faceStartEdge[f] = ofs;`
started at offset `ofs`: the start offsets of the faces, and the final value of `ofs`. -/
def faceStartLoop : List Nat → Nat → List Nat × Nat
  | [], ofs => ([], ofs)
  | c :: cs, ofs => let r := faceStartLoop cs (ofs + c); (ofs :: r.1, r.2)

/-- Modelled from the spec: `parallel_prefix_sum(faceVertices,faceStartEdge,numFaces)` of
`algorithms/prefix.h`, which is not among the sources. The spec (4.2) describes it as local
per-chunk sums, followed by a serial chunk-offset pass, followed by a parallel apply. The chunks
of the input are given as a list of consecutive blocks. First pass: the sum of each block. -/
def prefixLocalSums (blocks : List (List Nat)) : List Nat :=
  blocks.map List.sum

/-- Second pass of the prefix sum (serial): the offset of every block, and the grand total. -/
def prefixChunkOffsets (sums : List Nat) : List Nat × Nat :=
  faceStartLoop sums 0

/-- Third pass of the prefix sum: every block writes the running sums of its entries, starting
from the offset of the block. -/
def prefixApply : List (List Nat) → List Nat → List Nat
  | [], _ => []
  | _ :: _, [] => []
  | b :: bs, o :: os => (faceStartLoop b o).1 ++ prefixApply bs os

/-- Modelled from the spec: `parallel_prefix_sum` on the input split into `blocks`; returns the
output array (`faceStartEdge`) and the total (`numHalfEdges`). -/
def parallel_prefix_sum (blocks : List (List Nat)) : List Nat × Nat :=
  let offsets := prefixChunkOffsets (prefixLocalSums blocks)
  (prefixApply blocks offsets.1, offsets.2)

/-- Splits the first `numFaces` entries of a buffer into consecutive blocks of the given sizes
(the last block takes what remains). -/
def splitBlocks : List Nat → List Nat → List (List Nat)
  | [], xs => [xs]
  | s :: ss, xs => xs.take s :: splitBlocks ss (xs.drop s)

/-! ## Override lookup structures -/

/-- Modelled from the spec: `holeSet.lookup(f)`, a membership test over the list of hole face
indices the set was initialised with. -/
def holeSetLookup (holeSet : List Nat) (f : Nat) : Bool :=
  holeSet.contains f

/-- Modelled from the spec: `lookup(key,default)` of the vertex and edge crease maps: the weight
stored for the key, the default for a key that was not set. When a key was given more than once
the last entry counts, as in the reference variant (`creaseMap[...] = weight` in input order). -/
def mapLookup (entries : List (Nat × Nat)) (key : Nat) (dflt : Nat) : Nat :=
  match entries.reverse.find? (fun kv => kv.1 == key) with
  | some kv => kv.2
  | none => dflt

/-- Modelled from the spec: `vertexCreaseMap.init(vertex_creases,vertex_crease_weights)`. -/
def vertexCreaseMapInit (m : SubdivMesh) : List (Nat × Nat) :=
  m.vertex_creases.zip m.vertex_crease_weights

/-- Modelled from the spec: `edgeCreaseMap.init(edge_creases,edge_crease_weights)`; the key of
an edge crease `(v0,v1)` is its edge key. -/
def edgeCreaseMapInit (m : SubdivMesh) : List (Nat × Nat) :=
  (m.edge_creases.map (fun e => Edge e.1 e.2)).zip m.edge_crease_weights

/-! ## Fill stage -/

/-- The arrays written by the fill stage. -/
structure FillState where
  halfEdges : List HalfEdge
  halfEdges1 : List KeyHalfEdge
deriving DecidableEq, Repr

/-- Source: scene_subdiv_mesh.cpp:387-388, `float edge_level = 1.0f; if (levels) edge_level =
levels[e+de];` for the half-edge at flat position `i = e+de`. -/
def edgeLevel (m : SubdivMesh) (i : Nat) : Nat :=
  match m.levels with
  | some l => l.getD i 0
  | none => f32_one

/-- Source: scene_subdiv_mesh.cpp:383-385, the key of local edge `de` of a face with `N`
vertices starting at `e`. -/
def edgeKey (m : SubdivMesh) (N e de : Nat) : Nat :=
  let startVertex := m.vertexIndices.getD (e + de) 0
  let endVertex := m.vertexIndices.getD (e + (de + 1) % N) 0
  Edge startVertex endVertex

/-- Source: scene_subdiv_mesh.cpp:391-397, the half-edge written for local edge `de` of a face
with `N` vertices starting at `e`. The two conditional expressions have type `size_t` (`N` and
`de` are `size_t`), so `-(N-1)` and `-1` are computed modulo `2^64` and then stored in the
signed offset field. -/
def mkHalfEdge (w : Nat) (m : SubdivMesh) (st : State) (N e de : Nat) : HalfEdge :=
  let startVertex := m.vertexIndices.getD (e + de) 0
  let key := edgeKey m N e de
  { vtx_index := startVertex
    next_half_edge_ofs := wrap w (((if de = N - 1 then (2 ^ 64 - (N - 1)) % 2 ^ 64 else 1 : Nat) : Int))
    prev_half_edge_ofs := wrap w (((if de = 0 then N - 1 else 2 ^ 64 - 1 : Nat) : Int))
    opposite_half_edge_ofs := 0
    edge_crease_weight := mapLookup st.edgeCreaseMap key f32_zero
    vertex_crease_weight := mapLookup st.vertexCreaseMap startVertex f32_zero
    edge_level := edgeLevel m (e + de) }

/-- Source: scene_subdiv_mesh.cpp:398-399, the key record written for local edge `de` of
face `f`. -/
def mkKeyHalfEdge (m : SubdivMesh) (st : State) (f N e de : Nat) : KeyHalfEdge :=
  if holeSetLookup st.holeSet f then ⟨sentinel, e + de⟩ else ⟨edgeKey m N e de, e + de⟩

/-- Source: the stores of the body of the loop over `de` (scene_subdiv_mesh.cpp:391-399): the
half-edge `halfEdges[e+de]` and the key record `halfEdges1[e+de]`. -/
def writeEdge (w : Nat) (m : SubdivMesh) (st : State) (f N e : Nat) (fs : FillState) (de : Nat) :
    FillState :=
  { halfEdges := fs.halfEdges.set (e + de) (mkHalfEdge w m st N e de)
    halfEdges1 := fs.halfEdges1.set (e + de) (mkKeyHalfEdge m st f N e de) }

/-- Source: the body of the loop over `de` (scene_subdiv_mesh.cpp:381-400). `none` when
`assert( edge_level >= 0.0f )` fails. -/
def fillEdge (w : Nat) (m : SubdivMesh) (st : State) (f N e : Nat) (fs : FillState) (de : Nat) :
    Option FillState :=
  if f32_ge_zero (edgeLevel m (e + de)) then some (writeEdge w m st f N e fs de) else none

/-- Source: the body of the loop over `f` (scene_subdiv_mesh.cpp:376-401). -/
def fillFace (w : Nat) (m : SubdivMesh) (st : State) (fs : FillState) (f : Nat) : Option FillState :=
  let N := m.faceVertices.getD f 0
  let e := st.faceStartEdge.getD f 0
  (List.range N).foldlM (fillEdge w m st f N e) fs

/-- Source: the `parallel_for` over the faces (scene_subdiv_mesh.cpp:373-402). The body for a
face writes only the positions `e+de` of that face, so the ranges handed out by `parallel_for`
are run here one face after the other, in increasing order. -/
def fill (w : Nat) (m : SubdivMesh) (st : State) : Option FillState :=
  (List.range m.numFaces).foldlM (fillFace w m st) ⟨st.halfEdges, st.halfEdges1⟩

/-- The condition under which no `assert( edge_level >= 0.0f )` of the fill stage fails. -/
def fillOk (m : SubdivMesh) (st : State) : Bool :=
  (List.range m.numFaces).all (fun f =>
    (List.range (m.faceVertices.getD f 0)).all (fun de =>
      f32_ge_zero (edgeLevel m (st.faceStartEdge.getD f 0 + de))))

/-- The stores of the fill stage, in the order of the two loops, without the assertions. -/
def fillWrites (w : Nat) (m : SubdivMesh) (st : State) : FillState :=
  (List.range m.numFaces).foldl
    (fun fs f =>
      (List.range (m.faceVertices.getD f 0)).foldl
        (writeEdge w m st f (m.faceVertices.getD f 0) (st.faceStartEdge.getD f 0)) fs)
    ⟨st.halfEdges, st.halfEdges1⟩

/-- The pairs `(f,de)` visited by the two loops of the fill stage, in order. -/
def fillPairs (m : SubdivMesh) : List (Nat × Nat) :=
  (List.range m.numFaces).flatMap
    (fun f => (List.range (m.faceVertices.getD f 0)).map (fun de => (f, de)))

/-- The inputs the construction is meant for: the buffers have the sizes given to the
constructor, `numEdges` is the total of the per-face vertex counts, vertex indices are
`unsigned int` values, and the number of half-edges is below `2^31` (the linking pass counts the
records of a run in an `int`, and differences of half-edge indices are stored in the signed
offset fields). -/
def WellFormed (m : SubdivMesh) : Prop :=
  m.faceVertices.length = m.numFaces ∧
  m.vertexIndices.length = m.numEdges ∧
  m.faceVertices.sum = m.numEdges ∧
  m.numEdges < 2 ^ 31 ∧
  ∀ v ∈ m.vertexIndices, v < 2 ^ 32

instance (m : SubdivMesh) : Decidable (WellFormed m) := by
  unfold WellFormed; infer_instance

/-! ## Sorting -/

/-- Modelled from the spec: `radix_sort_u64(&halfEdges1[0],&halfEdges0[0],numHalfEdges)` of
`algorithms/sort.h`, which is not among the sources: the first `n` key records are sorted by key
(the spec leaves the order among equal keys open; this model keeps their input order). -/
def radix_sort_u64 (halfEdges1 : List KeyHalfEdge) (n : Nat) : List KeyHalfEdge :=
  (halfEdges1.take n).insertionSort (fun a b => a.key ≤ b.key) ++ halfEdges1.drop n

/-- The order on key records that the sort uses is total. -/
instance keyLe_total : IsTotal KeyHalfEdge (fun a b => a.key ≤ b.key) :=
  ⟨fun a b => Nat.le_total a.key b.key⟩

/-- The order on key records that the sort uses is transitive. -/
instance keyLe_trans : IsTrans KeyHalfEdge (fun a b => a.key ≤ b.key) :=
  ⟨fun _ _ _ h1 h2 => Nat.le_trans h1 h2⟩

/-! ## Linking pass -/

/-- The access `halfEdges1[i].key`. -/
def keyAt (halfEdges1 : List KeyHalfEdge) (i : Nat) : Nat := (halfEdges1.getD i default).key

/-- The access `halfEdges1[i].edge`. -/
def edgeAt (halfEdges1 : List KeyHalfEdge) (i : Nat) : Nat := (halfEdges1.getD i default).edge

/-- Modelled from the spec: `HalfEdge::setOpposite`, called on the half-edge at index `self`:
stores the signed array-index difference to the other half-edge. -/
def setOpposite (w : Nat) (halfEdges : List HalfEdge) (self other : Nat) : List HalfEdge :=
  halfEdges.modify (fun h => { h with opposite_half_edge_ofs := wrap w ((other : Int) - (self : Int)) }) self

/-- Modelled from the spec: `HalfEdge::next`, the index of the next half-edge of the face of the
half-edge at index `self`. -/
def next (halfEdges : List HalfEdge) (self : Nat) : Nat :=
  ((self : Int) + (halfEdges.getD self default).next_half_edge_ofs).toNat

/-- Modelled from the spec: `HalfEdge::prev`. -/
def prev (halfEdges : List HalfEdge) (self : Nat) : Nat :=
  ((self : Int) + (halfEdges.getD self default).prev_half_edge_ofs).toNat

/-- Modelled from the spec: `HalfEdge::opposite`. -/
def opposite (halfEdges : List HalfEdge) (self : Nat) : Nat :=
  ((self : Int) + (halfEdges.getD self default).opposite_half_edge_ofs).toNat

/-- The origin vertex of the half-edge at index `self` (the field `vtx_index`). -/
def origin (halfEdges : List HalfEdge) (self : Nat) : Nat :=
  (halfEdges.getD self default).vtx_index

/-- The assignment `halfEdges[i].vertex_crease_weight = x`. -/
def setVertexCreaseWeight (halfEdges : List HalfEdge) (i x : Nat) : List HalfEdge :=
  halfEdges.modify (fun h => { h with vertex_crease_weight := x }) i

/-- Source: scene_subdiv_mesh.cpp:417, `while (e<numHalfEdges && halfEdges1[e].key == key) e++;`
run for at most `fuel` iterations. -/
def skipRun (halfEdges1 : List KeyHalfEdge) (numHalfEdges key : Nat) : Nat → Nat → Nat
  | 0, e => e
  | fuel + 1, e =>
    if e < numHalfEdges ∧ keyAt halfEdges1 e = key then
      skipRun halfEdges1 numHalfEdges key fuel (e + 1)
    else e

/-- Source: scene_subdiv_mesh.cpp:424,
`int N=1; while (e+N<numHalfEdges && halfEdges1[e+N].key == key) N++;` started from the current
value of `N` and run for at most `fuel` iterations. -/
def countRun (halfEdges1 : List KeyHalfEdge) (numHalfEdges key e : Nat) : Nat → Nat → Nat
  | 0, N => N
  | fuel + 1, N =>
    if e + N < numHalfEdges ∧ keyAt halfEdges1 (e + N) = key then
      countRun halfEdges1 numHalfEdges key e fuel (N + 1)
    else N

/-- The length `N` that the linking pass measures for the run starting at `e`; the loop ends
within `numHalfEdges - e` iterations. -/
def runLength (halfEdges1 : List KeyHalfEdge) (numHalfEdges e : Nat) : Nat :=
  countRun halfEdges1 numHalfEdges (keyAt halfEdges1 e) e (numHalfEdges - e) 1

/-- Source: scene_subdiv_mesh.cpp:432-433, the body of the loop over the records of a
non-manifold run starting at `e`, for the record `e+i`. -/
def markStep (halfEdges1 : List KeyHalfEdge) (e : Nat) (halfEdges : List HalfEdge) (i : Nat) :
    List HalfEdge :=
  let he1 := setVertexCreaseWeight halfEdges (edgeAt halfEdges1 (e + i)) f32_inf
  setVertexCreaseWeight he1 (next he1 (edgeAt halfEdges1 (e + i))) f32_inf

/-- Source: scene_subdiv_mesh.cpp:431-434, the loop `for (size_t i=0; i<N; i++)` over the `N`
records of a non-manifold run starting at `e`. -/
def markNonManifold (halfEdges1 : List KeyHalfEdge) (e N : Nat) (halfEdges : List HalfEdge) :
    List HalfEdge :=
  (List.range N).foldl (markStep halfEdges1 e) halfEdges

/-- Source: scene_subdiv_mesh.cpp:425-435, what is done with a run of `N` equal keys starting
at `e`. -/
def processRun (w : Nat) (halfEdges1 : List KeyHalfEdge) (halfEdges : List HalfEdge)
    (run : Nat × Nat) : List HalfEdge :=
  let e := run.1
  let N := run.2
  if N = 1 then halfEdges
  else if N = 2 then
    let he1 := setOpposite w halfEdges (edgeAt halfEdges1 (e + 0)) (edgeAt halfEdges1 (e + 1))
    setOpposite w he1 (edgeAt halfEdges1 (e + 1)) (edgeAt halfEdges1 (e + 0))
  else markNonManifold halfEdges1 e N halfEdges

/-- Source: scene_subdiv_mesh.cpp:420-437, the loop `while (e<r.end())` run for at most `fuel`
iterations. -/
def linkLoop (w : Nat) (halfEdges1 : List KeyHalfEdge) (numHalfEdges rend : Nat) :
    Nat → Nat → List HalfEdge → List HalfEdge
  | 0, _, halfEdges => halfEdges
  | fuel + 1, e, halfEdges =>
    if e < rend then
      if keyAt halfEdges1 e = sentinel then halfEdges
      else
        let N := runLength halfEdges1 numHalfEdges e
        linkLoop w halfEdges1 numHalfEdges rend fuel (e + N)
          (processRun w halfEdges1 halfEdges (e, N))
    else halfEdges

/-- Source: scene_subdiv_mesh.cpp:414-418, the position at which the range starting at `rbegin`
begins its work: past the rest of a run that started before the range. -/
def linkStart (halfEdges1 : List KeyHalfEdge) (numHalfEdges rbegin : Nat) : Nat :=
  if rbegin ≠ 0 ∧ keyAt halfEdges1 rbegin = keyAt halfEdges1 (rbegin - 1) then
    skipRun halfEdges1 numHalfEdges (keyAt halfEdges1 rbegin) (numHalfEdges - rbegin) rbegin
  else rbegin

/-- Source: scene_subdiv_mesh.cpp:412-438, the body of the `parallel_for` for one range
`r = (r.begin, r.end)`. Every iteration of the loop advances `e` by at least one, so
`r.end - e` iterations are enough. -/
def linkChunk (w : Nat) (halfEdges1 : List KeyHalfEdge) (numHalfEdges : Nat)
    (halfEdges : List HalfEdge) (r : Nat × Nat) : List HalfEdge :=
  let e := linkStart halfEdges1 numHalfEdges r.1
  linkLoop w halfEdges1 numHalfEdges r.2 (r.2 - e) e halfEdges

/-- Source: the `parallel_for` of the linking pass (scene_subdiv_mesh.cpp:412-438) for the
ranges `chunks`, run in the order of the list. The ranges that `parallel_for`
(`algorithms/parallel_for.h`, not among the sources) hands out and the order in which they run
are a parameter. -/
def linkPass (w : Nat) (halfEdges1 : List KeyHalfEdge) (numHalfEdges : Nat)
    (chunks : List (Nat × Nat)) (halfEdges : List HalfEdge) : List HalfEdge :=
  chunks.foldl (linkChunk w halfEdges1 numHalfEdges) halfEdges

/-- The runs `(e,N)` that the loop `while (e<r.end())` processes, in order: the same loop as
`linkLoop`, recording the runs instead of updating the half-edges. -/
def loopRuns (halfEdges1 : List KeyHalfEdge) (numHalfEdges rend : Nat) :
    Nat → Nat → List (Nat × Nat)
  | 0, _ => []
  | fuel + 1, e =>
    if e < rend then
      if keyAt halfEdges1 e = sentinel then []
      else
        let N := runLength halfEdges1 numHalfEdges e
        (e, N) :: loopRuns halfEdges1 numHalfEdges rend fuel (e + N)
    else []

/-- The runs processed by the body of the `parallel_for` for the range `r`. -/
def chunkRuns (halfEdges1 : List KeyHalfEdge) (numHalfEdges : Nat) (r : Nat × Nat) :
    List (Nat × Nat) :=
  let e := linkStart halfEdges1 numHalfEdges r.1
  loopRuns halfEdges1 numHalfEdges r.2 (r.2 - e) e

/-! ## Runs and ranges -/

/-- The keys of the first `n` records are in ascending order. -/
def SortedKeys (halfEdges1 : List KeyHalfEdge) (n : Nat) : Prop :=
  ∀ i j, i ≤ j → j < n → keyAt halfEdges1 i ≤ keyAt halfEdges1 j

instance (halfEdges1 : List KeyHalfEdge) (n : Nat) : Decidable (SortedKeys halfEdges1 n) :=
  decidable_of_iff
    (∀ j, j < n → ∀ i, i < j + 1 → keyAt halfEdges1 i ≤ keyAt halfEdges1 j)
    ⟨fun h i j hij hj => h j hj i (Nat.lt_succ_of_le hij),
     fun h j hj i hi => h i j (Nat.le_of_lt_succ hi) hj⟩

/-- Position `s` is the first index of a maximal block of equal keys among the first `n`
records. -/
def IsRunStart (halfEdges1 : List KeyHalfEdge) (n s : Nat) : Prop :=
  s < n ∧ (s = 0 ∨ keyAt halfEdges1 (s - 1) ≠ keyAt halfEdges1 s)

/-- The pair `(s,N)` is a maximal run of `N` equal keys starting at `s`: it starts where the key
changes (or at 0), all `N` keys are equal, and it ends where the key changes (or at `n`). -/
def IsMaxRun (halfEdges1 : List KeyHalfEdge) (n : Nat) (r : Nat × Nat) : Prop :=
  IsRunStart halfEdges1 n r.1 ∧ 1 ≤ r.2 ∧ r.1 + r.2 ≤ n ∧
  (∀ i, i < r.2 → keyAt halfEdges1 (r.1 + i) = keyAt halfEdges1 r.1) ∧
  (r.1 + r.2 = n ∨ keyAt halfEdges1 (r.1 + r.2) ≠ keyAt halfEdges1 r.1)

/-- A maximal run of equal keys other than the sentinel. -/
def IsRun (halfEdges1 : List KeyHalfEdge) (n : Nat) (r : Nat × Nat) : Prop :=
  IsMaxRun halfEdges1 n r ∧ keyAt halfEdges1 r.1 ≠ sentinel

instance (halfEdges1 : List KeyHalfEdge) (n : Nat) (r : Nat × Nat) :
    Decidable (IsRun halfEdges1 n r) := by
  unfold IsRun IsMaxRun IsRunStart; infer_instance

/-- The ranges `cs` are non-empty, contiguous, and cover `[a,n)` in order. -/
def IsPartition : Nat → Nat → List (Nat × Nat) → Prop
  | a, n, [] => a = n
  | a, n, c :: cs => c.1 = a ∧ c.1 < c.2 ∧ IsPartition c.2 n cs

instance decIsPartition : (a n : Nat) → (cs : List (Nat × Nat)) → Decidable (IsPartition a n cs)
  | a, n, [] => by unfold IsPartition; infer_instance
  | a, n, c :: cs => by
    unfold IsPartition
    have := decIsPartition c.2 n cs
    infer_instance

/-- The ranges `cs` are, in some order, a partition of `[0,n)` into non-empty contiguous
ranges. -/
def IsChunking (n : Nat) (cs : List (Nat × Nat)) : Prop :=
  ∃ cs0, IsPartition 0 n cs0 ∧ cs.Perm cs0

/-- The half-edge arrays `he` and `he2` have the same length and agree, at every index, on the
origin vertex, the next and previous offsets, the edge crease weight and the edge level. -/
def FrameEq (he he2 : List HalfEdge) : Prop :=
  he2.length = he.length ∧
  ∀ q, (he2.getD q default).vtx_index = (he.getD q default).vtx_index ∧
    (he2.getD q default).next_half_edge_ofs = (he.getD q default).next_half_edge_ofs ∧
    (he2.getD q default).prev_half_edge_ofs = (he.getD q default).prev_half_edge_ofs ∧
    (he2.getD q default).edge_crease_weight = (he.getD q default).edge_crease_weight ∧
    (he2.getD q default).edge_level = (he.getD q default).edge_level

/-- The first `n` key records point to pairwise different half-edges of an array of length
`len`. -/
def DistinctEdges (halfEdges1 : List KeyHalfEdge) (n len : Nat) : Prop :=
  (∀ i, i < n → edgeAt halfEdges1 i < len) ∧
  ∀ i j, i < n → j < n → edgeAt halfEdges1 i = edgeAt halfEdges1 j → i = j

/-- What the linking pass is given by the fill stage and the sort: `n` half-edges `he0` with
opposite offset 0 whose next half-edge is inside the array, and `n` key records `recs`, sorted by
key, that point to pairwise different half-edges, each half-edge `p` carrying the key `K p`.
Differences of indices fit the signed offset field of `w` bits. -/
structure LinkInput (w n : Nat) (recs : List KeyHalfEdge) (he0 : List HalfEdge)
    (K : Nat → Nat) : Prop where
  hw : 32 ≤ w
  hn : n < 2 ^ 31
  hlen : he0.length = n
  hsorted : SortedKeys recs n
  hle : ∀ i, i < n → keyAt recs i ≤ sentinel
  hd : DistinctEdges recs n n
  hK : ∀ i, i < n → keyAt recs i = K (edgeAt recs i)
  hsurj : ∀ p, p < n → ∃ i, i < n ∧ edgeAt recs i = p
  hopp : ∀ p, (he0.getD p default).opposite_half_edge_ofs = 0
  hnext : ∀ p, p < n → next he0 p < n

/-- Local edge `d` of face `f` runs along the undirected edge `{a,b}`: its start and end vertex
(scene_subdiv_mesh.cpp:383-384) are `a` and `b` in one of the two orders. -/
def AlongEdge (m : SubdivMesh) (faceStartEdge : List Nat) (f d a b : Nat) : Prop :=
  f < m.numFaces ∧ d < m.faceVertices.getD f 0 ∧
  ((m.vertexIndices.getD (faceStartEdge.getD f 0 + d) 0 = a ∧
      m.vertexIndices.getD (faceStartEdge.getD f 0 + (d + 1) % m.faceVertices.getD f 0) 0 = b) ∨
   (m.vertexIndices.getD (faceStartEdge.getD f 0 + d) 0 = b ∧
      m.vertexIndices.getD (faceStartEdge.getD f 0 + (d + 1) % m.faceVertices.getD f 0) 0 = a))

instance (m : SubdivMesh) (faceStartEdge : List Nat) (f d a b : Nat) :
    Decidable (AlongEdge m faceStartEdge f d a b) := by
  unfold AlongEdge; infer_instance

/-! ## The construction -/

/-- The scheduling choices of the parallel primitives, which are outside the sources: the sizes
of the blocks of the prefix sum and the ranges of the linking pass in the order they run. -/
structure Schedule where
  prefixBlocks : List Nat
  linkChunks : List (Nat × Nat)
deriving Repr

/-- Source: scene_subdiv_mesh.cpp:442-450, the cleanup for static scenes. -/
def cleanup (m : SubdivMesh) (st : State) : State :=
  if m.isStatic then
    { st with holeSet := [], halfEdges0 := [], halfEdges1 := [], vertexCreaseMap := [],
              edgeCreaseMap := [] }
  else st

/-- Source: scene_subdiv_mesh.cpp:228-231 and 340-357: the state after the three `resize`
calls, the prefix sum and the initialisation of the lookup structures, together with
`numHalfEdges`. -/
def prepare (m : SubdivMesh) (s : Schedule) : State × Nat :=
  let ps := parallel_prefix_sum (splitBlocks s.prefixBlocks (m.faceVertices.take m.numFaces))
  ({ halfEdges := List.replicate m.numEdges default
     halfEdges0 := List.replicate m.numEdges default
     halfEdges1 := List.replicate m.numEdges default
     faceStartEdge := ps.1
     holeSet := m.holes
     vertexCreaseMap := vertexCreaseMapInit m
     edgeCreaseMap := edgeCreaseMapInit m }, ps.2)

/-- Source: scene_subdiv_mesh.cpp:340-438, the state after the linking pass, before the cleanup;
`none` when an `assert( edge_level >= 0.0f )` of the fill stage fails. The sort leaves its
result in `halfEdges1`; what it leaves in its scratch buffer `halfEdges0` is not modelled, the
buffer is kept as allocated. -/
def linked (w : Nat) (m : SubdivMesh) (s : Schedule) : Option State :=
  let p := prepare m s
  match fill w m p.1 with
  | none => none
  | some fs =>
    let sorted := radix_sort_u64 fs.halfEdges1 p.2
    some { p.1 with halfEdges := linkPass w sorted p.2 s.linkChunks fs.halfEdges
                    halfEdges1 := sorted }

/-- Source: `SubdivMesh::initializeHalfEdgeStructures` (scene_subdiv_mesh.cpp:226-482, the
variant that is compiled), without the timing and statistics output, the two scheduler tests
and the `parallel_for` with an empty body. -/
def initializeHalfEdgeStructures (w : Nat) (m : SubdivMesh) (s : Schedule) : Option State :=
  (linked w m s).map (cleanup m)

/-! ## Example meshes -/

/-- A mesh with the given faces (vertex counts and vertex indices), holes and no other
override data, in a scene that is not static. -/
def exampleMesh (faceVertices vertexIndices holes : List Nat) : SubdivMesh :=
  { isStatic := false
    numFaces := faceVertices.length
    numEdges := vertexIndices.length
    numVertices := 5
    faceVertices := faceVertices
    vertexIndices := vertexIndices
    holes := holes
    edge_creases := []
    edge_crease_weights := []
    vertex_creases := []
    vertex_crease_weights := []
    levels := none }

/-- Two triangles `[0,1,2]` and `[1,2,3]`: both list the shared edge as `1,2`. -/
def twoTriangles : SubdivMesh := exampleMesh [3, 3] [0, 1, 2, 1, 2, 3] []

/-- Two triangles `[0,1,2]` and `[2,1,3]` that run along the shared edge in opposite
directions. -/
def twoTrianglesOriented : SubdivMesh := exampleMesh [3, 3] [0, 1, 2, 2, 1, 3] []

/-- Three triangles `[0,1,2]`, `[1,0,3]`, `[0,1,4]` around the edge `(0,1)`. -/
def threeTriangles : SubdivMesh := exampleMesh [3, 3, 3] [0, 1, 2, 1, 0, 3, 0, 1, 4] []

/-- The three triangles around the edge `(0,1)`, the third one listed as a hole. -/
def threeTrianglesHole : SubdivMesh := exampleMesh [3, 3, 3] [0, 1, 2, 1, 0, 3, 0, 1, 4] [2]

/-- Two triangles `[0,1,2]` and `[2,1,3]`, the second one listed as a hole. -/
def triangleAndHole : SubdivMesh := exampleMesh [3, 3] [0, 1, 2, 2, 1, 3] [1]

/-- Two quads `[v,v,0,1]` and `[v,v,2,3]` whose first edge is the self-loop on vertex `v`; they
have no other edge in common. -/
def loopQuads (v : Nat) : SubdivMesh := exampleMesh [4, 4] [v, v, 0, 1, v, v, 2, 3] []

/-- The comparison `x < 0.0f` on the bit pattern of `x`: true for the patterns with the sign bit
set other than `-0` and the NaN patterns, that is from `0x80000001` to `0xFF800000`
(`-infinity`). -/
def f32_lt_zero (x : Nat) : Bool :=
  decide (0x80000000 < x) && decide (x ≤ 0xFF800000)

/-- A triangle `[0,1,2]` with a level buffer. -/
def levelTriangle (levels : List Nat) : SubdivMesh :=
  { exampleMesh [3] [0, 1, 2] [] with levels := some levels }

/-- Two triangles `[0,1,2]` and `[1,0,3]`, the second one listed as a hole, with the edge crease
`(0,1)` of weight `2.5f` (bit pattern `0x40200000`) and the vertex crease `2` of weight
`1.0f`. -/
def creasedTriangles : SubdivMesh :=
  { exampleMesh [3, 3] [0, 1, 2, 1, 0, 3] [1] with
    edge_creases := [(0, 1)]
    edge_crease_weights := [0x40200000]
    vertex_creases := [2]
    vertex_crease_weights := [f32_one] }

/-- A triangle `[0,1,2]` in a mesh declared with four edges: the vertex counts sum to 3, the
index buffer and the half-edge array have 4 entries. -/
def shortMesh : SubdivMesh := exampleMesh [3] [0, 1, 2, 9] []

/-! ## Vertex bounds verification (`SubdivMesh::verify`) -/

/-- A vertex position `Vec3fa`: the bit patterns of its four single-precision components. -/
structure Vec3fa where
  x : Nat
  y : Nat
  z : Nat
  w : Nat
deriving DecidableEq, Repr

instance : Inhabited Vec3fa := ⟨⟨0, 0, 0, 0⟩⟩

/-- Whether a bit pattern is a NaN: exponent field all ones and a non-zero fraction. -/
def f32_isNaN (x : Nat) : Bool := decide (0x7F800000 < x % 2 ^ 31)

/-- The magnitude of a single-precision number in units of `2^-149`, from the 31 low bits of
its pattern: `m` for a subnormal, `(2^23 + m) * 2^(e-1)` for exponent field `e >= 1`
(infinity included, as a value above every finite one). -/
def f32_mag (x : Nat) : Nat :=
  let e := x % 2 ^ 31 / 2 ^ 23
  let m := x % 2 ^ 23
  if e = 0 then m else (2 ^ 23 + m) * 2 ^ (e - 1)

/-- The value of a single-precision number in units of `2^-149`: the magnitude with the sign
of bit 31. -/
def f32_val (x : Nat) : Int :=
  if x / 2 ^ 31 % 2 = 1 then -(f32_mag x : Int) else (f32_mag x : Int)

/-- The comparison `a < b` of two single-precision numbers: false when either is a NaN. -/
def f32_lt (a b : Nat) : Bool :=
  !f32_isNaN a && !f32_isNaN b && decide (f32_val a < f32_val b)

/-- Unary minus on a bit pattern: the sign bit is flipped. -/
def f32_neg (x : Nat) : Nat := (x + 2 ^ 31) % 2 ^ 32

/-- The local `range = sqrtf(0.5f*FLT_MAX)` of `verify`: `0.5f*FLT_MAX` is
`(2^24 - 1) * 2^103`, and its correctly rounded square root is `11863283 * 2^40`, of bit
pattern `0x5F3504F3`. -/
def range : Nat := 0x5F3504F3

/-- The test `x > -range && x < range` on one component. -/
def inRange (x : Nat) : Bool := f32_lt (f32_neg range) x && f32_lt x range

/-- The body of the inner loop of `verify` for one vertex: the three tests on `x`, `y`, `z`,
each returning false from `verify` when it fails. -/
def verifyVertex (v : Vec3fa) : Bool := inRange v.x && inRange v.y && inRange v.z

/-- `SubdivMesh::verify`: for every time step `j < numTimeSteps` and every vertex
`i < numVertices` of the buffer `vertices[j]`, the three component tests; false at the first
failure, true when the loops run to their end. -/
def verify (numTimeSteps numVertices : Nat) (vertices : List (List Vec3fa)) : Bool :=
  (List.range numTimeSteps).all fun j =>
    (List.range numVertices).all fun i =>
      verifyVertex ((vertices.getD j []).getD i default)

/-! ## The jagged executor (`parallel_for_for.h`) -/

/-- Arithmetic on `size_t`, a 64-bit unsigned integer: results are reduced modulo `2^64`. -/
def size_t (x : Nat) : Nat := x % 2 ^ 64

/-- One invocation `f(array2[i], range<size_t>(r0, r1))` of the caller's function. -/
structure Call where
  i : Nat
  r0 : Nat
  r1 : Nat
deriving DecidableEq, Repr

/-- The elements `(i, j)`, `r0 <= j < r1`, a call hands to the caller's function. -/
def Call.elems (c : Call) : List (Nat × Nat) :=
  (List.range' c.r0 (c.r1 - c.r0)).map fun j => (c.i, j)

/-- The elements handed over by a list of calls, in call order. -/
def elements (calls : List Call) : List (Nat × Nat) := calls.flatMap Call.elems

/-- The loop of `sequential_for_for` from item `i` on, over the sizes of the remaining
items: one call with the range `(0, N)` for every item of size `N != 0`. -/
def sequentialLoop (i : Nat) : List Nat → List Call
  | [] => []
  | N :: rest => (if N ≠ 0 then [⟨i, 0, N⟩] else []) ++ sequentialLoop (i + 1) rest

/-- `sequential_for_for` on an array of sub-arrays given by their sizes. -/
def sequential_for_for (array2 : List Nat) : List Call := sequentialLoop 0 array2

/-- The size `array2[i] ? array2[i]->size() : 0` the constructor records for an entry: a null
entry is `none`. -/
def subSize : Option Nat → Nat
  | some N => N
  | none => 0

/-- The prefix-sum loop of the constructor, from running total `sum`: the arrays
`prefix_sum` and `sizes` and the final total. -/
def prefixLoop (sum : Nat) : List (Option Nat) → List Nat × List Nat × Nat
  | [] => ([], [], sum)
  | a :: rest =>
    let r := prefixLoop (size_t (sum + subSize a)) rest
    (sum :: r.1, subSize a :: r.2.1, r.2.2)

/-- The members of `ParallelForForTask` the claims are about. -/
structure ParallelForForTask where
  minStepSize : Nat
  prefix_sum : List Nat
  sizes : List Nat
  K : Nat
deriving DecidableEq, Repr

/-- The first part of the constructor: `prefix_sum`, `sizes` and `K`. -/
def ParallelForForTask.init (array2 : List (Option Nat)) (minStepSize : Nat) :
    ParallelForForTask :=
  let r := prefixLoop 0 array2
  { minStepSize := minStepSize, prefix_sum := r.1, sizes := r.2.1, K := r.2.2 }

/-- The local `blocks = (K+minStepSize-1)/minStepSize` of the constructor; the division is
undefined for `minStepSize = 0`. -/
def blocks (task : ParallelForForTask) : Option Nat :=
  if task.minStepSize = 0 then none
  else some (size_t (size_t (task.K + task.minStepSize) + 2 ^ 64 - 1) / task.minStepSize)

/-- The number of tasks `min(threads, blocks)` the constructor dispatches, `threads` being
the scheduler's thread count. -/
def taskCount (task : ParallelForForTask) (threads : Nat) : Option Nat :=
  (blocks task).map fun b => min threads b

/-- `std::upper_bound` of `v` in a range: the position of the first entry greater than `v`,
or the length of the range when there is none. -/
def upper_bound (l : List Nat) (v : Nat) : Nat := l.findIdx fun x => decide (v < x)

/-- The loop `for (size_t i=i0; k<k1; i++)` of `for_for`, from the state `(i, j0, k)`: the
calls it makes, or `none` when it reads `sizes[i]` out of bounds. Every iteration advances
`i`, so a loop that makes more iterations than `sizes` has entries has read out of bounds
before; the fuel counts the iterations. -/
def itemLoop (sizes : List Nat) (k1 : Nat) : Nat → Nat → Nat → Nat → Option (List Call)
  | 0, _, _, _ => none
  | fuel + 1, i, j0, k =>
    if k < k1 then
      match sizes.get? i with
      | none => none
      | some N =>
        let r0 := j0
        let r1 := min N (size_t (size_t (r0 + k1) + 2 ^ 64 - k))
        (itemLoop sizes k1 fuel (i + 1) 0 (size_t (k + size_t (r1 + 2 ^ 64 - r0)))).map
          fun calls => if r0 < r1 then ⟨i, r0, r1⟩ :: calls else calls
    else some []

/-- `ParallelForForTask::for_for` for one task: the calls it makes, or `none` when it reads
`prefix_sum` or `sizes` out of bounds. -/
def for_for (task : ParallelForForTask) (taskIndex taskCount : Nat) : Option (List Call) :=
  let k0 := size_t ((taskIndex + 0) * task.K) / taskCount
  let k1 := size_t ((taskIndex + 1) * task.K) / taskCount
  let iter := upper_bound task.prefix_sum k0
  let i0 := size_t (iter + 2 ^ 64 - 1)
  match task.prefix_sum.get? i0 with
  | none => none
  | some p =>
    let j0 := size_t (k0 + 2 ^ 64 - p)
    itemLoop task.sizes k1 (task.sizes.length + 1) i0 j0 k0

/-- The results of a list of tasks, when all of them completed. -/
def collect {α : Type} : List (Option α) → Option (List α)
  | [] => some []
  | none :: _ => none
  | some x :: rest => (collect rest).map fun xs => x :: xs

/-- Modelled from the spec: `LockStepTaskScheduler::dispatchTaskSet`, whose code is not in the
sources, invokes the task function once per task index `0 .. taskCount-1`, each with the same
`taskCount`; the result lists the calls of each task by task index. -/
def dispatchTaskSet (task_for_for : Nat → Nat → Option (List Call)) (taskCount : Nat) :
    Option (List (List Call)) :=
  collect ((List.range taskCount).map fun taskIndex => task_for_for taskIndex taskCount)

/-- `parallel_for_for`: the constructor of `ParallelForForTask` run with `threads` scheduler
threads. -/
def parallel_for_for (array2 : List (Option Nat)) (minStepSize threads : Nat) :
    Option (List (List Call)) :=
  match taskCount (ParallelForForTask.init array2 minStepSize) threads with
  | none => none
  | some n => dispatchTaskSet (for_for (ParallelForForTask.init array2 minStepSize)) n

/-- The elements `(i', j)` of the items `i, i+1, ..` of the given sizes, item by item and in
increasing `j`: the order in which one sequential pass meets them. -/
def enumLoop (i : Nat) : List Nat → List (Nat × Nat)
  | [] => []
  | N :: rest => ((List.range N).map fun j => (i, j)) ++ enumLoop (i + 1) rest

/-- Three quads `[0,1,2,3]`, `[0,1,4,5]`, `[0,1,6,7]` around the edge `(0,1)`. -/
def threeQuads : SubdivMesh := exampleMesh [4, 4, 4] [0, 1, 2, 3, 0, 1, 4, 5, 0, 1, 6, 7] []

/-- A single quad `[0,1,2,3]`. -/
def singleQuad : SubdivMesh := exampleMesh [4] [0, 1, 2, 3] []

/-- The indices of `vertexIndices` that the body of the loop over `f`
(scene_subdiv_mesh.cpp:376-401) reads for face `f`: `e+de` and `e + (de+1) % N` for every
`de < N`. -/
def faceReads (m : SubdivMesh) (st : State) (f : Nat) : List Nat :=
  (List.range (m.faceVertices.getD f 0)).flatMap fun de =>
    [st.faceStartEdge.getD f 0 + de,
      st.faceStartEdge.getD f 0 + (de + 1) % m.faceVertices.getD f 0]

/-- The triangles `[0,1,2]` and `[2,1,3]` with a face of zero vertices between them. -/
def emptyFaceMesh : SubdivMesh := exampleMesh [3, 0, 3] [0, 1, 2, 2, 1, 3] []

/-- Source: parallel_for_for.h:68-69, the item index `i0` at which a task whose range starts at
flat position `k0` begins: `upper_bound(prefix_sum, k0) - begin - 1` in `size_t`. -/
def startIndex (task : ParallelForForTask) (k0 : Nat) : Nat :=
  size_t (upper_bound task.prefix_sum k0 + 2 ^ 64 - 1)

/-- Source: parallel_for_for.h:70, the local start `j0 = k0 - prefix_sum[i0]`; `none` when
`prefix_sum[i0]` is read out of bounds. -/
def startLocal (task : ParallelForForTask) (k0 : Nat) : Option Nat :=
  (task.prefix_sum.get? (startIndex task k0)).map fun p => size_t (k0 + 2 ^ 64 - p)

/-- Source: parallel_for_for.h:65, `k0 = (taskIndex+0)*K/taskCount`. -/
def taskBegin (task : ParallelForForTask) (taskIndex taskCount : Nat) : Nat :=
  size_t ((taskIndex + 0) * task.K) / taskCount

/-- Source: parallel_for_for.h:66, `k1 = (taskIndex+1)*K/taskCount`. -/
def taskEnd (task : ParallelForForTask) (taskIndex taskCount : Nat) : Nat :=
  size_t ((taskIndex + 1) * task.K) / taskCount

/-- The loop `for (size_t i=i0; k<k1; i++)` of `for_for` as in `itemLoop`, recording for every
iteration the index `i` at which `sizes[i]` and `array2[i]` are read and the value of `k` at the
loop test, together with the value of `k` when the loop ends; `none` when `sizes[i]` is read out
of bounds. -/
def itemLoopTrace (sizes : List Nat) (k1 : Nat) :
    Nat → Nat → Nat → Nat → Option (List (Nat × Nat) × Nat)
  | 0, _, _, _ => none
  | fuel + 1, i, j0, k =>
    if k < k1 then
      match sizes.get? i with
      | none => none
      | some N =>
        let r0 := j0
        let r1 := min N (size_t (size_t (r0 + k1) + 2 ^ 64 - k))
        (itemLoopTrace sizes k1 fuel (i + 1) 0 (size_t (k + size_t (r1 + 2 ^ 64 - r0)))).map
          fun tr => ((i, k) :: tr.1, tr.2)
    else some ([], k)

/-- `for_for` for one task with the iterations of its loop recorded as in `itemLoopTrace`. -/
def for_for_trace (task : ParallelForForTask) (taskIndex taskCount : Nat) :
    Option (List (Nat × Nat) × Nat) :=
  match startLocal task (taskBegin task taskIndex taskCount) with
  | none => none
  | some j0 =>
    itemLoopTrace task.sizes (taskEnd task taskIndex taskCount) (task.sizes.length + 1)
      (startIndex task (taskBegin task taskIndex taskCount)) j0
      (taskBegin task taskIndex taskCount)

/-- The half-edges whose opposite offset is written while the run `(e, N)` is processed
(scene_subdiv_mesh.cpp:427-430): the targets of the two `setOpposite` calls of a run of two
records, in the order of the calls; no offset is written for a run of any other length. -/
def runOppositeWrites (halfEdges1 : List KeyHalfEdge) (run : Nat × Nat) : List Nat :=
  if run.2 = 2 then [edgeAt halfEdges1 (run.1 + 0), edgeAt halfEdges1 (run.1 + 1)] else []

/-- The half-edges whose opposite offset is written by the linking pass, one entry per write,
in the order in which the ranges `chunks` and their runs are processed. -/
def oppositeWrites (halfEdges1 : List KeyHalfEdge) (numHalfEdges : Nat)
    (chunks : List (Nat × Nat)) : List Nat :=
  (chunks.flatMap (chunkRuns halfEdges1 numHalfEdges)).flatMap (runOppositeWrites halfEdges1)

/-! ## Modifying a geometry (`setMask`, `setBuffer`, `map`, `unmap`,
`setDisplacementFunction`) -/

/-- The error codes that the operations on a geometry report. -/
inductive RTCError where
  | RTC_INVALID_ARGUMENT
  | RTC_INVALID_OPERATION
deriving DecidableEq, Repr

/-- The buffer types of the `switch` statements; `other` stands for every value that reaches
the `default` label. -/
inductive RTCBufferType where
  | RTC_INDEX_BUFFER
  | RTC_FACE_BUFFER
  | RTC_HOLE_BUFFER
  | RTC_EDGE_CREASE_BUFFER
  | RTC_EDGE_CREASE_WEIGHT_BUFFER
  | RTC_VERTEX_CREASE_BUFFER
  | RTC_VERTEX_CREASE_WEIGHT_BUFFER
  | RTC_LEVEL_BUFFER
  | RTC_VERTEX_BUFFER0
  | RTC_VERTEX_BUFFER1
  | other
deriving DecidableEq, Repr

/-- The members of the parent `Scene` that the operations read or update. -/
structure Scene where
  isStatic : Bool
  isBuild : Bool
  numMappedBuffers : Nat
deriving DecidableEq, Repr

/-- The members of `SubdivMesh` that the operations can modify: the mask, the ten buffers (of a
type `B` that stands for `BufferT`), the displacement function (a function pointer, `none` for
`NULL`) and the displacement bounds. -/
structure Geometry (B : Type) where
  mask : Nat
  vertexIndices : B
  faceVertices : B
  holes : B
  edge_creases : B
  edge_crease_weights : B
  vertex_creases : B
  vertex_crease_weights : B
  levels : B
  vertices0 : B
  vertices1 : B
  displFunc : Option Nat
  displBounds : List Nat
deriving DecidableEq, Repr

/-- The operations of `BufferT` (`common/buffer.h`, not among the sources) that the geometry
calls: `set(ptr,offset,stride)`, `map(numMappedBuffers)`, which returns a pointer (0 for
`NULL`), the buffer and the counter, and `unmap(numMappedBuffers)`. -/
structure BufferOps (B : Type) where
  set : B → Nat → Nat → Nat → B
  map : B → Nat → Nat × B × Nat
  unmap : B → Nat → B × Nat

/-- The outcome of an operation: the geometry, the parent scene, and the codes passed to
`process_error` (not among the sources; a call is recorded by its code), in call order. -/
structure Outcome (B : Type) where
  geometry : Geometry B
  parent : Scene
  errors : List RTCError

/-- Source: `SubdivMesh::setMask` (scene_subdiv_mesh.cpp:66-73). -/
def setMask {B : Type} (g : Geometry B) (parent : Scene) (mask : Nat) : Outcome B :=
  if parent.isStatic && parent.isBuild then
    ⟨g, parent, [RTCError.RTC_INVALID_OPERATION]⟩
  else ⟨{ g with mask := mask }, parent, []⟩

/-- Source: `SubdivMesh::setBuffer` (scene_subdiv_mesh.cpp:75-128). `mic` tells whether
`__MIC__` is defined; `ptr` is the address `size_t(ptr)`. The read that tests the padding of a
vertex buffer changes nothing and is left out. -/
def setBuffer {B : Type} (ops : BufferOps B) (mic : Bool) (g : Geometry B) (parent : Scene)
    (type : RTCBufferType) (ptr offset stride : Nat) : Outcome B :=
  if parent.isStatic && parent.isBuild then
    ⟨g, parent, [RTCError.RTC_INVALID_OPERATION]⟩
  else if ((ptr + offset) % 2 ^ 64) % 4 ≠ 0 ∨ stride % 4 ≠ 0 then
    ⟨g, parent, [RTCError.RTC_INVALID_OPERATION]⟩
  else if mic ∧ (type = RTCBufferType.RTC_VERTEX_BUFFER0 ∨ type = RTCBufferType.RTC_VERTEX_BUFFER1)
      ∧ (((ptr + offset) % 2 ^ 64) % 16 ≠ 0 ∨ stride % 16 ≠ 0) then
    ⟨g, parent, [RTCError.RTC_INVALID_OPERATION]⟩
  else
    match type with
    | RTCBufferType.RTC_INDEX_BUFFER =>
      ⟨{ g with vertexIndices := ops.set g.vertexIndices ptr offset stride }, parent, []⟩
    | RTCBufferType.RTC_FACE_BUFFER =>
      ⟨{ g with faceVertices := ops.set g.faceVertices ptr offset stride }, parent, []⟩
    | RTCBufferType.RTC_HOLE_BUFFER =>
      ⟨{ g with holes := ops.set g.holes ptr offset stride }, parent, []⟩
    | RTCBufferType.RTC_EDGE_CREASE_BUFFER =>
      ⟨{ g with edge_creases := ops.set g.edge_creases ptr offset stride }, parent, []⟩
    | RTCBufferType.RTC_EDGE_CREASE_WEIGHT_BUFFER =>
      ⟨{ g with edge_crease_weights := ops.set g.edge_crease_weights ptr offset stride },
        parent, []⟩
    | RTCBufferType.RTC_VERTEX_CREASE_BUFFER =>
      ⟨{ g with vertex_creases := ops.set g.vertex_creases ptr offset stride }, parent, []⟩
    | RTCBufferType.RTC_VERTEX_CREASE_WEIGHT_BUFFER =>
      ⟨{ g with vertex_crease_weights := ops.set g.vertex_crease_weights ptr offset stride },
        parent, []⟩
    | RTCBufferType.RTC_LEVEL_BUFFER =>
      ⟨{ g with levels := ops.set g.levels ptr offset stride }, parent, []⟩
    | RTCBufferType.RTC_VERTEX_BUFFER0 =>
      ⟨{ g with vertices0 := ops.set g.vertices0 ptr offset stride }, parent, []⟩
    | RTCBufferType.RTC_VERTEX_BUFFER1 =>
      ⟨{ g with vertices1 := ops.set g.vertices1 ptr offset stride }, parent, []⟩
    | RTCBufferType.other => ⟨g, parent, [RTCError.RTC_INVALID_ARGUMENT]⟩

/-- The buffer of a geometry that a buffer type names in `map` and `unmap`. -/
def Geometry.buffer {B : Type} (g : Geometry B) : RTCBufferType → Option B
  | RTCBufferType.RTC_INDEX_BUFFER => some g.vertexIndices
  | RTCBufferType.RTC_FACE_BUFFER => some g.faceVertices
  | RTCBufferType.RTC_HOLE_BUFFER => some g.holes
  | RTCBufferType.RTC_EDGE_CREASE_BUFFER => some g.edge_creases
  | RTCBufferType.RTC_EDGE_CREASE_WEIGHT_BUFFER => some g.edge_crease_weights
  | RTCBufferType.RTC_VERTEX_CREASE_BUFFER => some g.vertex_creases
  | RTCBufferType.RTC_VERTEX_CREASE_WEIGHT_BUFFER => some g.vertex_crease_weights
  | RTCBufferType.RTC_LEVEL_BUFFER => some g.levels
  | RTCBufferType.RTC_VERTEX_BUFFER0 => some g.vertices0
  | RTCBufferType.RTC_VERTEX_BUFFER1 => some g.vertices1
  | RTCBufferType.other => none

/-- The geometry with the buffer that a buffer type names replaced. -/
def Geometry.withBuffer {B : Type} (g : Geometry B) (b : B) : RTCBufferType → Geometry B
  | RTCBufferType.RTC_INDEX_BUFFER => { g with vertexIndices := b }
  | RTCBufferType.RTC_FACE_BUFFER => { g with faceVertices := b }
  | RTCBufferType.RTC_HOLE_BUFFER => { g with holes := b }
  | RTCBufferType.RTC_EDGE_CREASE_BUFFER => { g with edge_creases := b }
  | RTCBufferType.RTC_EDGE_CREASE_WEIGHT_BUFFER => { g with edge_crease_weights := b }
  | RTCBufferType.RTC_VERTEX_CREASE_BUFFER => { g with vertex_creases := b }
  | RTCBufferType.RTC_VERTEX_CREASE_WEIGHT_BUFFER => { g with vertex_crease_weights := b }
  | RTCBufferType.RTC_LEVEL_BUFFER => { g with levels := b }
  | RTCBufferType.RTC_VERTEX_BUFFER0 => { g with vertices0 := b }
  | RTCBufferType.RTC_VERTEX_BUFFER1 => { g with vertices1 := b }
  | RTCBufferType.other => g

/-- Source: `SubdivMesh::map` (scene_subdiv_mesh.cpp:130-150): the pointer returned (0 for
`NULL`) and the outcome. -/
def map {B : Type} (ops : BufferOps B) (g : Geometry B) (parent : Scene)
    (type : RTCBufferType) : Nat × Outcome B :=
  if parent.isStatic && parent.isBuild then
    (0, ⟨g, parent, [RTCError.RTC_INVALID_OPERATION]⟩)
  else
    match g.buffer type with
    | some b =>
      let r := ops.map b parent.numMappedBuffers
      (r.1, ⟨g.withBuffer r.2.1 type, { parent with numMappedBuffers := r.2.2 }, []⟩)
    | none => (0, ⟨g, parent, [RTCError.RTC_INVALID_ARGUMENT]⟩)

/-- Source: `SubdivMesh::unmap` (scene_subdiv_mesh.cpp:152-172). -/
def unmap {B : Type} (ops : BufferOps B) (g : Geometry B) (parent : Scene)
    (type : RTCBufferType) : Outcome B :=
  if parent.isStatic && parent.isBuild then
    ⟨g, parent, [RTCError.RTC_INVALID_OPERATION]⟩
  else
    match g.buffer type with
    | some b =>
      let r := ops.unmap b parent.numMappedBuffers
      ⟨g.withBuffer r.1 type, { parent with numMappedBuffers := r.2 }, []⟩
    | none => ⟨g, parent, [RTCError.RTC_INVALID_ARGUMENT]⟩

/-- Source: `SubdivMesh::setDisplacementFunction` (scene_subdiv_mesh.cpp:178-186); `func` is
the function pointer and `bounds` the bounds reinterpreted as a `BBox3fa`. -/
def setDisplacementFunction {B : Type} (g : Geometry B) (parent : Scene) (func : Option Nat)
    (bounds : List Nat) : Outcome B :=
  if parent.isStatic && parent.isBuild then
    ⟨g, parent, [RTCError.RTC_INVALID_OPERATION]⟩
  else ⟨{ g with displFunc := func, displBounds := bounds }, parent, []⟩

/-- Buffer operations on a buffer given by its binding `(ptr, offset, stride)` and a flag that
tells whether it is mapped, for evaluating the operations on an example. -/
def exampleOps : BufferOps ((Nat × Nat × Nat) × Bool) where
  set := fun b ptr offset stride => ((ptr, offset, stride), b.2)
  map := fun b n => (b.1.1 + b.1.2.1, (b.1, true), n + 1)
  unmap := fun b n => ((b.1, false), n - 1)

/-- A geometry with mask `-1` (as after the constructor), all buffers bound at address 64 with
stride 4, and no displacement function. -/
def exampleGeometry : Geometry ((Nat × Nat × Nat) × Bool) :=
  { mask := 0xFFFFFFFF
    vertexIndices := ((64, 0, 4), false)
    faceVertices := ((64, 0, 4), false)
    holes := ((64, 0, 4), false)
    edge_creases := ((64, 0, 4), false)
    edge_crease_weights := ((64, 0, 4), false)
    vertex_creases := ((64, 0, 4), false)
    vertex_crease_weights := ((64, 0, 4), false)
    levels := ((64, 0, 4), false)
    vertices0 := ((64, 0, 4), false)
    vertices1 := ((64, 0, 4), false)
    displFunc := none
    displBounds := [] }

/-! ## The map-based reference variant (`#if 0`, scene_subdiv_mesh.cpp:233-325) -/

/-- Modelled from the spec: `HalfEdge::hasOpposite` (declared in `scene_subdivision.h`, not
among the sources); an opposite offset of 0 means that there is no opposite. -/
def hasOpposite (h : HalfEdge) : Bool := decide (h.opposite_half_edge_ofs ≠ 0)

/-- Source: scene_subdiv_mesh.cpp:240-243, the `std::map` `creaseMap` as the list of its
assignments `creaseMap[pair64(v0,v1)] = edge_crease_weights[i]` in order; a later assignment
to a key replaces an earlier one, which is how `mapLookup` reads the list. -/
def creaseMap (m : SubdivMesh) : List (Nat × Nat) :=
  (List.range m.edge_creases.length).map fun i =>
    (pair64 (m.edge_creases.getD i (0, 0)).1 (m.edge_creases.getD i (0, 0)).2,
      m.edge_crease_weights.getD i 0)

/-- Source: scene_subdiv_mesh.cpp:245-250, the vector `full_vertex_crease_weights`. -/
def full_vertex_crease_weights (m : SubdivMesh) : List Nat :=
  (List.range m.vertex_creases.length).foldl
    (fun a i => a.set (m.vertex_creases.getD i 0) (m.vertex_crease_weights.getD i 0))
    (List.replicate m.numVertices f32_zero)

/-- Source: scene_subdiv_mesh.cpp:252-255, the vector `full_holes`. -/
def full_holes (m : SubdivMesh) : List Nat :=
  (List.range m.holes.length).foldl (fun a i => a.set (m.holes.getD i 0) 1)
    (List.replicate m.numFaces 0)

/-- The half-edge array and the two maps of the reference variant: `edgeMap` as the list of
its entries `(key, half-edge)` and `nonManifoldEdges` as the list of the keys set to true. -/
structure RefState where
  halfEdges : List HalfEdge
  edgeMap : List (Nat × Nat)
  nonManifoldEdges : List Nat
deriving DecidableEq, Repr

/-- Source: scene_subdiv_mesh.cpp:280-286, the half-edge written for local edge `dj` of a face
with `N` vertices starting at `j`. `N` is an `ssize_t` here, so `-(N-1)` is a signed value. -/
def refHalfEdge (w : Nat) (m : SubdivMesh) (N j dj : Nat) : HalfEdge :=
  let startVertex := m.vertexIndices.getD (j + dj) 0
  let endVertex := m.vertexIndices.getD (j + (dj + 1) % N) 0
  let value := pair64 startVertex endVertex
  { vtx_index := startVertex
    next_half_edge_ofs := wrap w (if dj = N - 1 then -((N : Int) - 1) else 1)
    prev_half_edge_ofs := wrap w (if dj = 0 then (N : Int) - 1 else -1)
    opposite_half_edge_ofs := 0
    edge_crease_weight := mapLookup (creaseMap m) value f32_zero
    vertex_crease_weight := (full_vertex_crease_weights m).getD startVertex 0
    edge_level := edgeLevel m (j + dj) }

/-- Source: scene_subdiv_mesh.cpp:266-300, the stores of the body of the loop over `dj` of the
first pass, for face `i` with `N` vertices starting at `j`. -/
def refWrite (w : Nat) (m : SubdivMesh) (i N j : Nat) (st : RefState) (dj : Nat) : RefState :=
  let value := pair64 (m.vertexIndices.getD (j + dj) 0)
    (m.vertexIndices.getD (j + (dj + 1) % N) 0)
  let he := st.halfEdges.set (j + dj) (refHalfEdge w m N j dj)
  if (full_holes m).getD i 0 ≠ 0 then { st with halfEdges := he }
  else
    match st.edgeMap.find? (fun kv => kv.1 == value) with
    | none =>
      { halfEdges := he, edgeMap := st.edgeMap ++ [(value, j + dj)],
        nonManifoldEdges := st.nonManifoldEdges }
    | some kv =>
      { halfEdges := setOpposite w (setOpposite w he (j + dj) kv.2) kv.2 (j + dj)
        edgeMap := st.edgeMap
        nonManifoldEdges :=
          if hasOpposite (he.getD kv.2 default) then value :: st.nonManifoldEdges
          else st.nonManifoldEdges }

/-- Source: the body of the loop over `dj` of the first pass (scene_subdiv_mesh.cpp:266-300);
`none` when `assert( edge_level >= 0.0f )` fails. -/
def refEdge (w : Nat) (m : SubdivMesh) (i N j : Nat) (st : RefState) (dj : Nat) :
    Option RefState :=
  if f32_ge_zero (edgeLevel m (j + dj)) then some (refWrite w m i N j st dj) else none

/-- Source: the body of the loop over the faces of the first pass
(scene_subdiv_mesh.cpp:262-302), on the pair of the running offset `j` and the state. -/
def refFace (w : Nat) (m : SubdivMesh) (acc : Nat × RefState) (i : Nat) :
    Option (Nat × RefState) :=
  ((List.range (m.faceVertices.getD i 0)).foldlM
      (refEdge w m i (m.faceVertices.getD i 0) acc.1) acc.2).map
    fun st => (acc.1 + m.faceVertices.getD i 0, st)

/-- Source: scene_subdiv_mesh.cpp:304-323, the body of the loop over `dj` of the second
pass. -/
def refMark (m : SubdivMesh) (nonManifoldEdges : List Nat) (N j : Nat)
    (halfEdges : List HalfEdge) (dj : Nat) : List HalfEdge :=
  let value := pair64 (m.vertexIndices.getD (j + dj) 0)
    (m.vertexIndices.getD (j + (dj + 1) % N) 0)
  if nonManifoldEdges.contains value then
    let he0 := halfEdges.modify (fun h => { h with opposite_half_edge_ofs := 0 }) (j + dj)
    let he1 := setVertexCreaseWeight he0 (j + dj) f32_inf
    setVertexCreaseWeight he1 (next he1 (j + dj)) f32_inf
  else halfEdges

/-- Source: the body of the loop over the faces of the second pass. -/
def refMarkFace (m : SubdivMesh) (nonManifoldEdges : List Nat) (acc : Nat × List HalfEdge)
    (i : Nat) : Nat × List HalfEdge :=
  (acc.1 + m.faceVertices.getD i 0,
    (List.range (m.faceVertices.getD i 0)).foldl
      (refMark m nonManifoldEdges (m.faceVertices.getD i 0) acc.1) acc.2)

/-- Source: the map-based variant of `initializeHalfEdgeStructures`
(scene_subdiv_mesh.cpp:228-325): the half-edge array and `faceStartEdge`; `none` when an
`assert( edge_level >= 0.0f )` fails. -/
def referenceVariant (w : Nat) (m : SubdivMesh) : Option (List HalfEdge × List Nat) :=
  ((List.range m.numFaces).foldlM (refFace w m)
      (0, ⟨List.replicate m.numEdges default, [], []⟩)).map
    fun r =>
      (((List.range m.numFaces).foldl (refMarkFace m r.2.nonManifoldEdges) (0, r.2.halfEdges)).2,
        (faceStartLoop (m.faceVertices.take m.numFaces) 0).1)

/-- Four triangles `[0,1,2]`, `[1,0,3]`, `[0,1,4]`, `[1,0,5]` around the edge `(0,1)`. -/
def fourTriangles : SubdivMesh :=
  exampleMesh [3, 3, 3, 3] [0, 1, 2, 1, 0, 3, 0, 1, 4, 1, 0, 5] []

/-- A face `[0,1]` of two vertices and a face `[5,5,6]` with a repeated vertex. -/
def degenerateFaces : SubdivMesh := exampleMesh [2, 3] [0, 1, 5, 5, 6] []

/-- The stores of `refWrite` for a face that is not a hole, as a function of the flat position
`t = j+dj` of the half-edge: `key t` is the key `value` of the half-edge and `val t` the
half-edge written at `t`. -/
def refStep (w : Nat) (key : Nat → Nat) (val : Nat → HalfEdge) (st : RefState) (t : Nat) :
    RefState :=
  let he := st.halfEdges.set t (val t)
  match st.edgeMap.find? (fun kv => kv.1 == key t) with
  | none =>
    { halfEdges := he, edgeMap := st.edgeMap ++ [(key t, t)],
      nonManifoldEdges := st.nonManifoldEdges }
  | some kv =>
    { halfEdges := setOpposite w (setOpposite w he t kv.2) kv.2 t
      edgeMap := st.edgeMap
      nonManifoldEdges :=
        if hasOpposite (he.getD kv.2 default) then key t :: st.nonManifoldEdges
        else st.nonManifoldEdges }

/-- The stores of `refMark` as a function of the flat position `t = j+dj` of the half-edge with
key `key t`. -/
def refMarkStep (key : Nat → Nat) (nonManifoldEdges : List Nat) (halfEdges : List HalfEdge)
    (t : Nat) : List HalfEdge :=
  if nonManifoldEdges.contains (key t) then
    let he0 := halfEdges.modify (fun h => { h with opposite_half_edge_ofs := 0 }) t
    let he1 := setVertexCreaseWeight he0 t f32_inf
    setVertexCreaseWeight he1 (next he1 t) f32_inf
  else halfEdges

/-- The state of the first pass of the reference variant after the half-edges at the positions
below `t` were handled, in terms of the keys `key` and written half-edges `val` of the
positions: every handled half-edge is the written one up to its opposite offset; `edgeMap`
holds, for every key seen, the first position with that key; a position that is not the first
of its key is linked to the first; the first position of a key is linked to the last handled
position of the key; and `nonManifoldEdges` holds the keys seen at least three times. -/
structure RefInv (n : Nat) (key : Nat → Nat) (val : Nat → HalfEdge) (t : Nat) (st : RefState) :
    Prop where
  len : st.halfEdges.length = n
  shape : ∀ i, i < t →
    ∃ o, st.halfEdges.getD i default = { val i with opposite_half_edge_ofs := o }
  mapNone : ∀ k, (∀ i, i < t → key i ≠ k) → st.edgeMap.find? (fun kv => kv.1 == k) = none
  mapSome : ∀ F, F < t → (∀ j, j < F → key j ≠ key F) →
    st.edgeMap.find? (fun kv => kv.1 == key F) = some (key F, F)
  oppLater : ∀ i F, i < t → F < i → key F = key i → (∀ j, j < F → key j ≠ key i) →
    (st.halfEdges.getD i default).opposite_half_edge_ofs = (F : Int) - (i : Int)
  oppFirst : ∀ F L, F ≤ L → L < t → key L = key F → (∀ j, j < F → key j ≠ key F) →
    (∀ j, L < j → j < t → key j ≠ key F) →
    (st.halfEdges.getD F default).opposite_half_edge_ofs = (L : Int) - (F : Int)
  nm : ∀ k, k ∈ st.nonManifoldEdges ↔
    ∃ i1 i2 i3, i1 < i2 ∧ i2 < i3 ∧ i3 < t ∧ key i1 = k ∧ key i2 = k ∧ key i3 = k

/-- The pair `(f,de)` of the face and the local index of the half-edge at flat position `t`. -/
def pairAt (m : SubdivMesh) (t : Nat) : Nat × Nat := (fillPairs m).getD t (0, 0)

/-- The key of the half-edge at flat position `t`: the key `pair64(startVertex,endVertex)`
computed for it in both variants (scene_subdiv_mesh.cpp:275-277 and 383-385). -/
def refKeyAt (m : SubdivMesh) (t : Nat) : Nat :=
  edgeKey m (m.faceVertices.getD (pairAt m t).1 0) (m.faceVertices.take (pairAt m t).1).sum
    (pairAt m t).2

/-- The half-edge that the reference variant writes at flat position `t`. -/
def refValAt (w : Nat) (m : SubdivMesh) (t : Nat) : HalfEdge :=
  refHalfEdge w m (m.faceVertices.getD (pairAt m t).1 0) (m.faceVertices.take (pairAt m t).1).sum
    (pairAt m t).2

/-- The flat position of the next half-edge in the face of the half-edge at flat position `q`
(the successor of its local index modulo the vertex count of the face). -/
def nextAt (m : SubdivMesh) (q : Nat) : Nat :=
  (m.faceVertices.take (pairAt m q).1).sum
    + ((pairAt m q).2 + 1) % m.faceVertices.getD (pairAt m q).1 0

/-- The half-edge at flat position `q` lies on a non-manifold edge: at least two further
half-edges have its key. -/
def OnNonManifoldEdge (m : SubdivMesh) (q : Nat) : Prop :=
  ∃ q1, q1 < m.numEdges ∧ ∃ q2, q2 < m.numEdges ∧ q1 ≠ q ∧ q2 ≠ q ∧ q1 ≠ q2 ∧
    refKeyAt m q1 = refKeyAt m q ∧ refKeyAt m q2 = refKeyAt m q

instance (m : SubdivMesh) (q : Nat) : Decidable (OnNonManifoldEdge m q) := by
  unfold OnNonManifoldEdge; infer_instance

/-- The half-edge at flat position `p` is a half-edge on a non-manifold edge or the next
half-edge of one: the half-edges on which the linking forces the vertex crease weight. -/
def ForcedVertexCrease (m : SubdivMesh) (p : Nat) : Prop :=
  ∃ q, q < m.numEdges ∧ OnNonManifoldEdge m q ∧ (p = q ∨ p = nextAt m q)

instance (m : SubdivMesh) (p : Nat) : Decidable (ForcedVertexCrease m p) := by
  unfold ForcedVertexCrease; infer_instance


/-! ## Machine arithmetic: lemmas -/

theorem two_pow_pred_add (w : Nat) (hw : 1 ≤ w) : (2 : Int) ^ (w - 1) + 2 ^ (w - 1) = 2 ^ w := by
  obtain ⟨k, rfl⟩ : ∃ k, w = k + 1 := ⟨w - 1, by omega⟩
  simp [pow_succ]; ring

theorem wrap_of_bounds (w : Nat) (z : Int) (hw : 1 ≤ w) (h1 : -(2 : Int) ^ (w - 1) ≤ z)
    (h2 : z < 2 ^ (w - 1)) : wrap w z = z := by
  unfold wrap
  have h := two_pow_pred_add w hw
  rw [Int.emod_eq_of_lt (by linarith) (by linarith)]
  ring

theorem wrap_add_two_pow (w : Nat) (z : Int) (hw : w ≤ 64) : wrap w (z + 2 ^ 64) = wrap w z := by
  unfold wrap
  have h64 : (2 : Int) ^ 64 = 2 ^ w * 2 ^ (64 - w) := by
    rw [← pow_add]; congr 1; omega
  have : z + 2 ^ 64 + 2 ^ (w - 1) = z + 2 ^ (w - 1) + 2 ^ w * 2 ^ (64 - w) := by
    rw [h64]; ring
  rw [this, Int.add_mul_emod_self_left]

theorem pair64_eq_of_le (x y : Nat) (hx : x < 2 ^ 32) (hyx : y ≤ x) :
    ((x <<< 32) ||| y) % 2 ^ 64 = x * 2 ^ 32 + y := by
  have hy : y < 2 ^ 32 := by omega
  rw [Nat.shiftLeft_eq, Nat.mul_comm, ← Nat.mul_add_lt_is_or hy, Nat.mod_eq_of_lt]
  calc 2 ^ 32 * x + y < 2 ^ 32 * x + 2 ^ 32 := by omega
    _ = 2 ^ 32 * (x + 1) := by ring
    _ ≤ 2 ^ 32 * 2 ^ 32 := Nat.mul_le_mul_left _ (by omega)
    _ = 2 ^ 64 := by norm_num

theorem pair64_value (a b : Nat) (ha : a < 2 ^ 32) (hb : b < 2 ^ 32) :
    pair64 a b = max a b * 2 ^ 32 + min a b := by
  unfold pair64
  split
  · rename_i h
    rw [pair64_eq_of_le b a hb (by omega), max_eq_right (by omega), min_eq_left (by omega)]
  · rename_i h
    rw [pair64_eq_of_le a b ha (by omega), max_eq_left (by omega), min_eq_right (by omega)]

/-! ## Face offsets: the prefix sum -/

theorem faceStartLoop_length (cs : List Nat) (ofs : Nat) :
    (faceStartLoop cs ofs).1.length = cs.length := by
  induction cs generalizing ofs with
  | nil => rfl
  | cons c cs ih => simp [faceStartLoop, ih]

theorem faceStartLoop_total (cs : List Nat) (ofs : Nat) :
    (faceStartLoop cs ofs).2 = ofs + cs.sum := by
  induction cs generalizing ofs with
  | nil => simp [faceStartLoop]
  | cons c cs ih => simp [faceStartLoop, ih, Nat.add_assoc]

theorem faceStartLoop_getD (cs : List Nat) (ofs i : Nat) (h : i < cs.length) :
    (faceStartLoop cs ofs).1.getD i 0 = ofs + (cs.take i).sum := by
  induction cs generalizing ofs i with
  | nil => simp at h
  | cons c cs ih =>
    cases i with
    | zero => simp [faceStartLoop]
    | succ i =>
      have hi : i < cs.length := by simpa using h
      have := ih (ofs + c) i hi
      simp only [faceStartLoop, List.getD_cons_succ, List.take_succ_cons, List.sum_cons]
      rw [this, Nat.add_assoc]

theorem faceStartLoop_append (a b : List Nat) (ofs : Nat) :
    (faceStartLoop (a ++ b) ofs).1 = (faceStartLoop a ofs).1 ++ (faceStartLoop b (ofs + a.sum)).1 := by
  induction a generalizing ofs with
  | nil => simp [faceStartLoop]
  | cons c cs ih => simp [faceStartLoop, ih, Nat.add_assoc]

theorem prefixApply_offsets (blocks : List (List Nat)) (ofs : Nat) :
    prefixApply blocks (faceStartLoop (prefixLocalSums blocks) ofs).1
      = (faceStartLoop blocks.flatten ofs).1 := by
  induction blocks generalizing ofs with
  | nil => simp [prefixApply, faceStartLoop]
  | cons b bs ih =>
    simp only [prefixLocalSums, List.map_cons, faceStartLoop, prefixApply, List.flatten_cons,
      faceStartLoop_append]
    rw [← ih (ofs + b.sum)]
    rfl

theorem parallel_prefix_sum_eq (blocks : List (List Nat)) :
    parallel_prefix_sum blocks = faceStartLoop blocks.flatten 0 := by
  unfold parallel_prefix_sum prefixChunkOffsets
  apply Prod.ext
  · exact prefixApply_offsets blocks 0
  · simp [faceStartLoop_total, prefixLocalSums, List.sum_flatten]

theorem splitBlocks_flatten (ss xs : List Nat) : (splitBlocks ss xs).flatten = xs := by
  induction ss generalizing xs with
  | nil => simp [splitBlocks]
  | cons s ss ih => simp [splitBlocks, ih]

theorem prefix_sum_blocks (ss counts : List Nat) :
    parallel_prefix_sum (splitBlocks ss counts) = faceStartLoop counts 0 := by
  rw [parallel_prefix_sum_eq, splitBlocks_flatten]

/-! ## Folds of stores -/

theorem foldlM_guard {σ ι : Type} (ok : ι → Bool) (g : σ → ι → σ) (l : List ι) (init : σ) :
    l.foldlM (fun s x => if ok x then some (g s x) else none) init
      = if l.all ok then some (l.foldl g init) else none := by
  induction l generalizing init with
  | nil => simp
  | cons x l ih =>
    simp only [List.foldlM_cons, List.all_cons, List.foldl_cons]
    cases hx : ok x
    · simp
    · simp [ih]

theorem foldlM_option_all {σ ι : Type} (ok : ι → Bool) (g : σ → ι → σ) (F : σ → ι → Option σ)
    (hF : ∀ s x, F s x = if ok x then some (g s x) else none) (l : List ι) (init : σ) :
    l.foldlM F init = if l.all ok then some (l.foldl g init) else none := by
  have : F = fun s x => if ok x then some (g s x) else none := by
    funext s x; exact hF s x
  rw [this]; exact foldlM_guard ok g l init

theorem foldl_set_length {ι α : Type} (pos : ι → Nat) (val : ι → α) (l : List ι) (a : List α) :
    (l.foldl (fun a i => a.set (pos i) (val i)) a).length = a.length := by
  induction l generalizing a with
  | nil => rfl
  | cons x l ih => simp [ih]

theorem foldl_set_getD_of_not_mem {ι α : Type} (pos : ι → Nat) (val : ι → α) (l : List ι)
    (a : List α) (p : Nat) (d : α) (h : ∀ i ∈ l, pos i ≠ p) :
    (l.foldl (fun a i => a.set (pos i) (val i)) a).getD p d = a.getD p d := by
  induction l generalizing a with
  | nil => rfl
  | cons x l ih =>
    simp only [List.foldl_cons]
    rw [ih _ (fun i hi => h i (List.mem_cons_of_mem _ hi))]
    have hx : pos x ≠ p := h x (List.mem_cons_self _ _)
    simp [List.getD_eq_getElem?_getD, List.getElem?_set_ne hx]

theorem foldl_set_getD_of_mem {ι α : Type} (pos : ι → Nat) (val : ι → α) (l : List ι)
    (a : List α) (p : Nat) (v d : α) (hex : ∃ i ∈ l, pos i = p) (hlt : p < a.length)
    (hsame : ∀ j ∈ l, pos j = p → val j = v) :
    (l.foldl (fun a i => a.set (pos i) (val i)) a).getD p d = v := by
  induction l generalizing a with
  | nil => simp at hex
  | cons x l ih =>
    simp only [List.foldl_cons]
    by_cases hpos : ∃ j ∈ l, pos j = p
    · exact ih _ hpos (by simpa using hlt) (fun j hj => hsame j (List.mem_cons_of_mem _ hj))
    · have hnot : ∀ j ∈ l, pos j ≠ p := fun j hj hjp => hpos ⟨j, hj, hjp⟩
      rw [foldl_set_getD_of_not_mem pos val l _ p d hnot]
      obtain ⟨i, hi, hip⟩ := hex
      have hxi : pos x = p := by
        rcases List.mem_cons.1 hi with rfl | hil
        · exact hip
        · exact absurd hip (hnot i hil)
      have hv : val x = v := hsame x (List.mem_cons_self _ _) hxi
      subst hxi
      simp [List.getD_eq_getElem?_getD, hlt, hv]

/-! ## Flat positions of the half-edges of a face -/

theorem sum_take_succ_getD (cs : List Nat) (f : Nat) (hf : f < cs.length) :
    (cs.take (f + 1)).sum = (cs.take f).sum + cs.getD f 0 := by
  induction cs generalizing f with
  | nil => simp at hf
  | cons c cs ih =>
    cases f with
    | zero => simp
    | succ f =>
      have := ih f (by simpa using hf)
      simp only [List.take_succ_cons, List.sum_cons, List.getD_cons_succ] at this ⊢
      omega

theorem sum_take_mono (cs : List Nat) (a b : Nat) (hab : a ≤ b) :
    (cs.take a).sum ≤ (cs.take b).sum := by
  induction cs generalizing a b with
  | nil => simp
  | cons c cs ih =>
    cases a with
    | zero => simp
    | succ a =>
      cases b with
      | zero => omega
      | succ b =>
        have := ih a b (by omega)
        simp only [List.take_succ_cons, List.sum_cons]
        omega

theorem sum_take_le (cs : List Nat) (a : Nat) : (cs.take a).sum ≤ cs.sum := by
  induction cs generalizing a with
  | nil => simp
  | cons c cs ih =>
    cases a with
    | zero => simp
    | succ a =>
      have := ih a
      simp only [List.take_succ_cons, List.sum_cons]
      omega

theorem flat_lt_sum (cs : List Nat) (f d : Nat) (hf : f < cs.length) (hd : d < cs.getD f 0) :
    (cs.take f).sum + d < cs.sum := by
  have h1 := sum_take_succ_getD cs f hf
  have h2 := sum_take_le cs (f + 1)
  omega

theorem flat_lt_of_face_lt (cs : List Nat) (f g d : Nat) (hg : g < cs.length) (hfg : f < g)
    (hd : d < cs.getD f 0) : (cs.take f).sum + d < (cs.take g).sum := by
  have h1 := sum_take_succ_getD cs f (by omega)
  have h2 := sum_take_mono cs (f + 1) g (by omega)
  omega

theorem flat_inj (cs : List Nat) (f d g c : Nat) (hf : f < cs.length) (hg : g < cs.length)
    (hd : d < cs.getD f 0) (hc : c < cs.getD g 0)
    (h : (cs.take f).sum + d = (cs.take g).sum + c) : f = g ∧ d = c := by
  rcases Nat.lt_trichotomy f g with hlt | heq | hgt
  · have := flat_lt_of_face_lt cs f g d hg hlt hd
    omega
  · subst heq
    exact ⟨rfl, by omega⟩
  · have := flat_lt_of_face_lt cs g f c hf hgt hc
    omega

theorem flat_locate (cs : List Nat) (p : Nat) (hp : p < cs.sum) :
    ∃ f d, f < cs.length ∧ d < cs.getD f 0 ∧ p = (cs.take f).sum + d := by
  induction cs generalizing p with
  | nil => simp at hp
  | cons c cs ih =>
    by_cases hpc : p < c
    · exact ⟨0, p, by simp, by simpa using hpc, by simp⟩
    · have hp2 : p - c < cs.sum := by
        simp only [List.sum_cons] at hp
        omega
      obtain ⟨f, d, hf, hd, hpd⟩ := ih (p - c) hp2
      refine ⟨f + 1, d, by simpa using hf, by simpa using hd, ?_⟩
      simp only [List.take_succ_cons, List.sum_cons]
      omega

/-! ## The fill stage -/

theorem fill_eq (w : Nat) (m : SubdivMesh) (st : State) :
    fill w m st = if fillOk m st then some (fillWrites w m st) else none := by
  unfold fill fillOk fillWrites
  apply foldlM_option_all
  intro fs f
  unfold fillFace
  apply foldlM_option_all
  intro fs de
  rfl

theorem fillWrites_eq_pairs (w : Nat) (m : SubdivMesh) (st : State) :
    fillWrites w m st = (fillPairs m).foldl
      (fun fs p => writeEdge w m st p.1 (m.faceVertices.getD p.1 0)
        (st.faceStartEdge.getD p.1 0) fs p.2) ⟨st.halfEdges, st.halfEdges1⟩ := by
  unfold fillWrites fillPairs
  rw [List.flatMap, List.foldl_flatten, List.foldl_map]
  congr 1
  funext fs f
  rw [List.foldl_map]

theorem foldl_writeEdge_halfEdges (w : Nat) (m : SubdivMesh) (st : State) (l : List (Nat × Nat))
    (fs : FillState) :
    (l.foldl (fun fs p => writeEdge w m st p.1 (m.faceVertices.getD p.1 0)
        (st.faceStartEdge.getD p.1 0) fs p.2) fs).halfEdges
      = l.foldl (fun a p => a.set (st.faceStartEdge.getD p.1 0 + p.2)
          (mkHalfEdge w m st (m.faceVertices.getD p.1 0) (st.faceStartEdge.getD p.1 0) p.2))
          fs.halfEdges := by
  induction l generalizing fs with
  | nil => rfl
  | cons x l ih => simp only [List.foldl_cons]; rw [ih]; rfl

theorem foldl_writeEdge_halfEdges1 (w : Nat) (m : SubdivMesh) (st : State) (l : List (Nat × Nat))
    (fs : FillState) :
    (l.foldl (fun fs p => writeEdge w m st p.1 (m.faceVertices.getD p.1 0)
        (st.faceStartEdge.getD p.1 0) fs p.2) fs).halfEdges1
      = l.foldl (fun a p => a.set (st.faceStartEdge.getD p.1 0 + p.2)
          (mkKeyHalfEdge m st p.1 (m.faceVertices.getD p.1 0) (st.faceStartEdge.getD p.1 0) p.2))
          fs.halfEdges1 := by
  induction l generalizing fs with
  | nil => rfl
  | cons x l ih => simp only [List.foldl_cons]; rw [ih]; rfl

theorem mem_fillPairs (m : SubdivMesh) (p : Nat × Nat) :
    p ∈ fillPairs m ↔ p.1 < m.numFaces ∧ p.2 < m.faceVertices.getD p.1 0 := by
  unfold fillPairs
  simp only [List.mem_flatMap, List.mem_range, List.mem_map]
  constructor
  · rintro ⟨f, hf, d, hd, rfl⟩
    exact ⟨hf, hd⟩
  · rintro ⟨hf, hd⟩
    exact ⟨p.1, hf, p.2, hd, rfl⟩

theorem prepare_faceStartEdge (m : SubdivMesh) (s : Schedule) (hwf : WellFormed m) (f : Nat)
    (hf : f < m.numFaces) :
    (prepare m s).1.faceStartEdge.getD f 0 = (m.faceVertices.take f).sum := by
  obtain ⟨hlen, -, -, -, -⟩ := hwf
  simp only [prepare, prefix_sum_blocks]
  rw [← hlen, List.take_length, faceStartLoop_getD _ _ _ (by omega)]
  simp

theorem prepare_numHalfEdges (m : SubdivMesh) (s : Schedule) (hwf : WellFormed m) :
    (prepare m s).2 = m.numEdges := by
  obtain ⟨hlen, -, hsum, -, -⟩ := hwf
  simp only [prepare, prefix_sum_blocks]
  rw [← hlen, List.take_length, faceStartLoop_total, hsum]
  simp

theorem fillWrites_halfEdges_length (w : Nat) (m : SubdivMesh) (s : Schedule) :
    (fillWrites w m (prepare m s).1).halfEdges.length = m.numEdges := by
  rw [fillWrites_eq_pairs, foldl_writeEdge_halfEdges, foldl_set_length]
  simp [prepare]

theorem fillWrites_halfEdges1_length (w : Nat) (m : SubdivMesh) (s : Schedule) :
    (fillWrites w m (prepare m s).1).halfEdges1.length = m.numEdges := by
  rw [fillWrites_eq_pairs, foldl_writeEdge_halfEdges1, foldl_set_length]
  simp [prepare]

theorem fillPairs_pos_inj (m : SubdivMesh) (s : Schedule) (hwf : WellFormed m) (p q : Nat × Nat)
    (hp : p ∈ fillPairs m) (hq : q ∈ fillPairs m)
    (h : (prepare m s).1.faceStartEdge.getD p.1 0 + p.2
       = (prepare m s).1.faceStartEdge.getD q.1 0 + q.2) : p = q := by
  rw [mem_fillPairs] at hp hq
  rw [prepare_faceStartEdge m s hwf _ hp.1, prepare_faceStartEdge m s hwf _ hq.1] at h
  have hlen := hwf.1
  have := flat_inj m.faceVertices p.1 p.2 q.1 q.2 (by omega) (by omega) hp.2 hq.2 h
  exact Prod.ext this.1 this.2

theorem fillPairs_pos_lt (m : SubdivMesh) (s : Schedule) (hwf : WellFormed m) (f d : Nat)
    (hf : f < m.numFaces) (hd : d < m.faceVertices.getD f 0) :
    (prepare m s).1.faceStartEdge.getD f 0 + d < m.numEdges := by
  rw [prepare_faceStartEdge m s hwf _ hf]
  have hlen := hwf.1
  have := flat_lt_sum m.faceVertices f d (by omega) hd
  have hsum := hwf.2.2.1
  omega

theorem fillWrites_halfEdges (w : Nat) (m : SubdivMesh) (s : Schedule) (hwf : WellFormed m)
    (f d : Nat) (hf : f < m.numFaces) (hd : d < m.faceVertices.getD f 0) :
    (fillWrites w m (prepare m s).1).halfEdges.getD
        ((prepare m s).1.faceStartEdge.getD f 0 + d) default
      = mkHalfEdge w m (prepare m s).1 (m.faceVertices.getD f 0)
          ((prepare m s).1.faceStartEdge.getD f 0) d := by
  rw [fillWrites_eq_pairs, foldl_writeEdge_halfEdges]
  have hmem : (f, d) ∈ fillPairs m := (mem_fillPairs m (f, d)).2 ⟨hf, hd⟩
  apply foldl_set_getD_of_mem
    (fun p : Nat × Nat => (prepare m s).1.faceStartEdge.getD p.1 0 + p.2)
    (fun p : Nat × Nat => mkHalfEdge w m (prepare m s).1 (m.faceVertices.getD p.1 0)
      ((prepare m s).1.faceStartEdge.getD p.1 0) p.2)
  · exact ⟨(f, d), hmem, rfl⟩
  · have := fillPairs_pos_lt m s hwf f d hf hd
    simpa [prepare] using this
  · intro j hj hpos
    have := fillPairs_pos_inj m s hwf j (f, d) hj hmem hpos
    subst this
    rfl

theorem fillWrites_halfEdges1 (w : Nat) (m : SubdivMesh) (s : Schedule) (hwf : WellFormed m)
    (f d : Nat) (hf : f < m.numFaces) (hd : d < m.faceVertices.getD f 0) :
    (fillWrites w m (prepare m s).1).halfEdges1.getD
        ((prepare m s).1.faceStartEdge.getD f 0 + d) default
      = mkKeyHalfEdge m (prepare m s).1 f (m.faceVertices.getD f 0)
          ((prepare m s).1.faceStartEdge.getD f 0) d := by
  rw [fillWrites_eq_pairs, foldl_writeEdge_halfEdges1]
  have hmem : (f, d) ∈ fillPairs m := (mem_fillPairs m (f, d)).2 ⟨hf, hd⟩
  apply foldl_set_getD_of_mem
    (fun p : Nat × Nat => (prepare m s).1.faceStartEdge.getD p.1 0 + p.2)
    (fun p : Nat × Nat => mkKeyHalfEdge m (prepare m s).1 p.1 (m.faceVertices.getD p.1 0)
      ((prepare m s).1.faceStartEdge.getD p.1 0) p.2)
  · exact ⟨(f, d), hmem, rfl⟩
  · have := fillPairs_pos_lt m s hwf f d hf hd
    simpa [prepare] using this
  · intro j hj hpos
    have := fillPairs_pos_inj m s hwf j (f, d) hj hmem hpos
    subst this
    rfl

theorem flat_locate_mesh (m : SubdivMesh) (s : Schedule) (hwf : WellFormed m) (p : Nat)
    (hp : p < m.numEdges) :
    ∃ f d, f < m.numFaces ∧ d < m.faceVertices.getD f 0 ∧
      p = (prepare m s).1.faceStartEdge.getD f 0 + d := by
  have hsum := hwf.2.2.1
  have hlen := hwf.1
  obtain ⟨f, d, hf, hd, hpd⟩ := flat_locate m.faceVertices p (by omega)
  refine ⟨f, d, by omega, hd, ?_⟩
  rw [prepare_faceStartEdge m s hwf f (by omega)]
  exact hpd

theorem mkKeyHalfEdge_edge (m : SubdivMesh) (st : State) (f N e d : Nat) :
    (mkKeyHalfEdge m st f N e d).edge = e + d := by
  unfold mkKeyHalfEdge
  split <;> rfl

theorem fillWrites_edge (w : Nat) (m : SubdivMesh) (s : Schedule) (hwf : WellFormed m) (p : Nat)
    (hp : p < m.numEdges) :
    ((fillWrites w m (prepare m s).1).halfEdges1.getD p default).edge = p := by
  obtain ⟨f, d, hf, hd, rfl⟩ := flat_locate_mesh m s hwf p hp
  rw [fillWrites_halfEdges1 w m s hwf f d hf hd, mkKeyHalfEdge_edge]

/-! ## Measuring runs -/

theorem countRun_spec (recs : List KeyHalfEdge) (n key e : Nat) (fuel N0 : Nat) :
    N0 ≤ countRun recs n key e fuel N0 ∧
    (∀ i, N0 ≤ i → i < countRun recs n key e fuel N0 → e + i < n ∧ keyAt recs (e + i) = key) ∧
    (n - (e + N0) ≤ fuel →
      ¬ (e + countRun recs n key e fuel N0 < n ∧
          keyAt recs (e + countRun recs n key e fuel N0) = key)) := by
  induction fuel generalizing N0 with
  | zero =>
    refine ⟨Nat.le_refl _, ?_, ?_⟩
    · intro i h1 h2; simp only [countRun] at h2; omega
    · intro hf; simp only [countRun]; omega
  | succ fuel ih =>
    simp only [countRun]
    split
    · rename_i hc
      obtain ⟨h1, h2, h3⟩ := ih (N0 + 1)
      refine ⟨by omega, ?_, ?_⟩
      · intro i hi1 hi2
        by_cases hi : i = N0
        · subst hi; exact hc
        · exact h2 i (by omega) hi2
      · intro hf; exact h3 (by omega)
    · rename_i hc
      refine ⟨Nat.le_refl _, ?_, ?_⟩
      · intro i h1 h2; omega
      · intro _; exact hc

theorem runLength_spec (recs : List KeyHalfEdge) (n s : Nat) (hs : s < n) :
    1 ≤ runLength recs n s ∧ s + runLength recs n s ≤ n ∧
    (∀ i, i < runLength recs n s → keyAt recs (s + i) = keyAt recs s) ∧
    (s + runLength recs n s = n ∨ keyAt recs (s + runLength recs n s) ≠ keyAt recs s) := by
  obtain ⟨h1, h2, h3⟩ := countRun_spec recs n (keyAt recs s) s (n - s) 1
  have h3 := h3 (by omega)
  refine ⟨h1, ?_, ?_, ?_⟩
  · unfold runLength
    by_cases hN : countRun recs n (keyAt recs s) s (n - s) 1 = 1
    · omega
    · have := (h2 (countRun recs n (keyAt recs s) s (n - s) 1 - 1) (by omega) (by omega)).1
      omega
  · intro i hi
    by_cases h0 : i = 0
    · subst h0; rfl
    · exact (h2 i (by omega) hi).2
  · unfold runLength
    by_cases hlt : s + countRun recs n (keyAt recs s) s (n - s) 1 < n
    · right
      intro heq
      exact h3 ⟨hlt, heq⟩
    · left
      by_cases hN : countRun recs n (keyAt recs s) s (n - s) 1 = 1
      · omega
      · have := (h2 (countRun recs n (keyAt recs s) s (n - s) 1 - 1) (by omega) (by omega)).1
        omega

theorem skipRun_spec (recs : List KeyHalfEdge) (n key : Nat) (fuel e : Nat) :
    e ≤ skipRun recs n key fuel e ∧
    (∀ i, e ≤ i → i < skipRun recs n key fuel e → i < n ∧ keyAt recs i = key) ∧
    (n - e ≤ fuel →
      ¬ (skipRun recs n key fuel e < n ∧ keyAt recs (skipRun recs n key fuel e) = key)) := by
  induction fuel generalizing e with
  | zero =>
    refine ⟨Nat.le_refl _, ?_, ?_⟩
    · intro i h1 h2; simp only [skipRun] at h2; omega
    · intro hf; simp only [skipRun]; omega
  | succ fuel ih =>
    simp only [skipRun]
    split
    · rename_i hc
      obtain ⟨h1, h2, h3⟩ := ih (e + 1)
      refine ⟨by omega, ?_, ?_⟩
      · intro i hi1 hi2
        by_cases hi : i = e
        · subst hi; exact hc
        · exact h2 i (by omega) hi2
      · intro hf; exact h3 (by omega)
    · rename_i hc
      refine ⟨Nat.le_refl _, ?_, ?_⟩
      · intro i h1 h2; omega
      · intro _; exact hc

theorem isMaxRun_runLength (recs : List KeyHalfEdge) (n s : Nat) (hs : IsRunStart recs n s) :
    IsMaxRun recs n (s, runLength recs n s) := by
  obtain ⟨h1, h2, h3, h4⟩ := runLength_spec recs n s hs.1
  exact ⟨hs, h1, h2, h3, h4⟩

/-- Two maximal runs that share a position are the same run. -/
theorem isMaxRun_eq_of_overlap (recs : List KeyHalfEdge) (n : Nat) (r r' : Nat × Nat)
    (hr : IsMaxRun recs n r) (hr' : IsMaxRun recs n r') (i i' : Nat) (hi : i < r.2)
    (hi' : i' < r'.2) (h : r.1 + i = r'.1 + i') : r = r' := by
  obtain ⟨⟨hs, hst⟩, hN, hle, hkeys, hend⟩ := hr
  obtain ⟨⟨hs', hst'⟩, hN', hle', hkeys', hend'⟩ := hr'
  have hstart : r.1 = r'.1 := by
    rcases Nat.lt_trichotomy r.1 r'.1 with hlt | heq | hgt
    · exfalso
      rcases hst' with h0 | hne
      · omega
      · apply hne
        have a := hkeys (r'.1 - 1 - r.1) (by omega)
        have b := hkeys (r'.1 - r.1) (by omega)
        have e1 : r.1 + (r'.1 - 1 - r.1) = r'.1 - 1 := by omega
        have e2 : r.1 + (r'.1 - r.1) = r'.1 := by omega
        rw [e1] at a; rw [e2] at b
        rw [a, b]
    · exact heq
    · exfalso
      rcases hst with h0 | hne
      · omega
      · apply hne
        have a := hkeys' (r.1 - 1 - r'.1) (by omega)
        have b := hkeys' (r.1 - r'.1) (by omega)
        have e1 : r'.1 + (r.1 - 1 - r'.1) = r.1 - 1 := by omega
        have e2 : r'.1 + (r.1 - r'.1) = r.1 := by omega
        rw [e1] at a; rw [e2] at b
        rw [a, b]
  have hlen : r.2 = r'.2 := by
    rcases Nat.lt_trichotomy r.2 r'.2 with hlt | heq | hgt
    · exfalso
      rcases hend with h0 | hne
      · omega
      · apply hne
        have a := hkeys' r.2 hlt
        rw [← hstart] at a
        exact a
    · exact heq
    · exfalso
      rcases hend' with h0 | hne
      · omega
      · apply hne
        have a := hkeys r'.2 hgt
        rw [hstart] at a
        exact a
  exact Prod.ext hstart hlen

/-! ## The runs processed by one range -/

theorem isRunStart_after_run (recs : List KeyHalfEdge) (n : Nat) (r : Nat × Nat)
    (hr : IsMaxRun recs n r) : n ≤ r.1 + r.2 ∨ IsRunStart recs n (r.1 + r.2) := by
  obtain ⟨-, hN, hle, hkeys, hend⟩ := hr
  by_cases hn : r.1 + r.2 = n
  · left; omega
  · right
    rcases hend with h | h
    · exact absurd h hn
    · refine ⟨by omega, Or.inr ?_⟩
      have a := hkeys (r.2 - 1) (by omega)
      have e1 : r.1 + (r.2 - 1) = r.1 + r.2 - 1 := by omega
      rw [e1] at a
      rw [a]
      exact fun h' => h h'.symm

theorem loopRuns_sound (recs : List KeyHalfEdge) (n rend : Nat) (hrend : rend ≤ n)
    (fuel e : Nat) (he : n ≤ e ∨ IsRunStart recs n e) (r : Nat × Nat)
    (hr : r ∈ loopRuns recs n rend fuel e) :
    IsRun recs n r ∧ e ≤ r.1 ∧ r.1 < rend := by
  induction fuel generalizing e with
  | zero => simp [loopRuns] at hr
  | succ fuel ih =>
    simp only [loopRuns] at hr
    split at hr
    · rename_i hlt
      split at hr
      · simp at hr
      · rename_i hkey
        have hstart : IsRunStart recs n e := by
          rcases he with h | h
          · omega
          · exact h
        have hmax := isMaxRun_runLength recs n e hstart
        rcases List.mem_cons.1 hr with rfl | hmem
        · exact ⟨⟨hmax, hkey⟩, Nat.le_refl _, hlt⟩
        · have := ih (e + runLength recs n e) (isRunStart_after_run recs n _ hmax) hmem
          exact ⟨this.1, by omega, this.2.2⟩
    · simp at hr

theorem loopRuns_complete (recs : List KeyHalfEdge) (n rend : Nat) (hrend : rend ≤ n)
    (hsorted : SortedKeys recs n) (hle : ∀ i, i < n → keyAt recs i ≤ sentinel)
    (fuel e : Nat) (hfuel : rend - e ≤ fuel) (he : n ≤ e ∨ IsRunStart recs n e)
    (r : Nat × Nat) (hr : IsRun recs n r) (h1 : e ≤ r.1) (h2 : r.1 < rend) :
    r ∈ loopRuns recs n rend fuel e := by
  induction fuel generalizing e with
  | zero => omega
  | succ fuel ih =>
    simp only [loopRuns]
    have hlt : e < rend := by omega
    rw [if_pos hlt]
    have hstart : IsRunStart recs n e := by
      rcases he with h | h
      · omega
      · exact h
    have hmax := isMaxRun_runLength recs n e hstart
    split
    · rename_i hkey
      exfalso
      apply hr.2
      have a := hsorted e r.1 h1 (by omega)
      have b := hle r.1 (by omega)
      omega
    · rename_i hkey
      by_cases heq : r.1 = e
      · have := isMaxRun_eq_of_overlap recs n r (e, runLength recs n e) hr.1 hmax 0 0
          (by have := hr.1.2.1; omega) (by have := hmax.2.1; exact this) (by simpa using heq)
        rw [this]
        exact List.mem_cons_self _ _
      · apply List.mem_cons_of_mem
        have hge : e + runLength recs n e ≤ r.1 := by
          by_contra hcon
          have := isMaxRun_eq_of_overlap recs n r (e, runLength recs n e) hr.1 hmax 0 (r.1 - e)
            (by have := hr.1.2.1; omega) (by simp only; omega) (by simp only; omega)
          apply heq
          rw [this]
        have hN := hmax.2.1
        simp only at hN
        exact ih (e + runLength recs n e) (by omega) (isRunStart_after_run recs n _ hmax) hge

theorem loopRuns_pairwise (recs : List KeyHalfEdge) (n rend : Nat) (hrend : rend ≤ n)
    (fuel e : Nat) (he : n ≤ e ∨ IsRunStart recs n e) :
    (loopRuns recs n rend fuel e).Pairwise (fun a b => a.1 < b.1) := by
  induction fuel generalizing e with
  | zero => simp [loopRuns]
  | succ fuel ih =>
    simp only [loopRuns]
    split
    · rename_i hlt
      split
      · simp
      · rename_i hkey
        have hstart : IsRunStart recs n e := by
          rcases he with h | h
          · omega
          · exact h
        have hmax := isMaxRun_runLength recs n e hstart
        have hb := isRunStart_after_run recs n _ hmax
        rw [List.pairwise_cons]
        refine ⟨?_, ih _ hb⟩
        intro r hr
        have := (loopRuns_sound recs n rend hrend fuel _ hb r hr).2.1
        have hN := hmax.2.1
        simp only at hN this ⊢
        omega
    · simp

theorem linkStart_spec (recs : List KeyHalfEdge) (n rb : Nat) (hrb : rb < n) :
    rb ≤ linkStart recs n rb ∧
    (n ≤ linkStart recs n rb ∨ IsRunStart recs n (linkStart recs n rb)) ∧
    ∀ s, rb ≤ s → s < linkStart recs n rb → ¬ IsRunStart recs n s := by
  unfold linkStart
  split
  · rename_i hc
    obtain ⟨h1, h2, h3⟩ := skipRun_spec recs n (keyAt recs rb) (n - rb) rb
    have h3 := h3 (Nat.le_refl _)
    have hgt : rb < skipRun recs n (keyAt recs rb) (n - rb) rb := by
      rcases Nat.lt_or_ge rb (skipRun recs n (keyAt recs rb) (n - rb) rb) with h | h
      · exact h
      · exfalso
        have heq : skipRun recs n (keyAt recs rb) (n - rb) rb = rb := by omega
        rw [heq] at h3
        exact h3 ⟨hrb, rfl⟩
    refine ⟨h1, ?_, ?_⟩
    · by_cases hn : n ≤ skipRun recs n (keyAt recs rb) (n - rb) rb
      · left; exact hn
      · right
        refine ⟨by omega, Or.inr ?_⟩
        have a := (h2 (skipRun recs n (keyAt recs rb) (n - rb) rb - 1) (by omega) (by omega)).2
        rw [a]
        intro heq
        exact h3 ⟨by omega, heq.symm⟩
    · intro s hs1 hs2 hstart
      rcases hstart.2 with h0 | hne
      · omega
      · apply hne
        by_cases hs : s = rb
        · subst hs; exact hc.2.symm
        · have a := (h2 (s - 1) (by omega) (by omega)).2
          have b := (h2 s hs1 hs2).2
          rw [a, b]
  · rename_i hc
    refine ⟨Nat.le_refl _, Or.inr ⟨hrb, ?_⟩, fun s h1 h2 => by omega⟩
    by_cases h0 : rb = 0
    · left; exact h0
    · right
      intro heq
      exact hc ⟨h0, heq.symm⟩

theorem mem_chunkRuns (recs : List KeyHalfEdge) (n : Nat) (hsorted : SortedKeys recs n)
    (hle : ∀ i, i < n → keyAt recs i ≤ sentinel) (c : Nat × Nat) (hc1 : c.1 < c.2)
    (hc2 : c.2 ≤ n) (r : Nat × Nat) :
    r ∈ chunkRuns recs n c ↔ IsRun recs n r ∧ c.1 ≤ r.1 ∧ r.1 < c.2 := by
  obtain ⟨h1, h2, h3⟩ := linkStart_spec recs n c.1 (by omega)
  unfold chunkRuns
  constructor
  · intro hr
    have := loopRuns_sound recs n c.2 hc2 _ _ h2 r hr
    exact ⟨this.1, by omega, this.2.2⟩
  · rintro ⟨hr, hr1, hr2⟩
    apply loopRuns_complete recs n c.2 hc2 hsorted hle _ _ (Nat.le_refl _) h2 r hr _ hr2
    by_contra hcon
    exact h3 r.1 hr1 (by omega) hr.1.1

theorem chunkRuns_nodup (recs : List KeyHalfEdge) (n : Nat) (c : Nat × Nat) (hc1 : c.1 < c.2)
    (hc2 : c.2 ≤ n) : (chunkRuns recs n c).Nodup := by
  obtain ⟨h1, h2, h3⟩ := linkStart_spec recs n c.1 (by omega)
  have := loopRuns_pairwise recs n c.2 hc2 (c.2 - linkStart recs n c.1) _ h2
  unfold chunkRuns
  refine List.Pairwise.imp ?_ this
  intro a b hab heq
  rw [heq] at hab
  exact Nat.lt_irrefl _ hab

/-! ## Partitions into ranges -/

theorem isPartition_bounds (a n : Nat) (cs : List (Nat × Nat)) (h : IsPartition a n cs) :
    a ≤ n ∧ ∀ c ∈ cs, a ≤ c.1 ∧ c.1 < c.2 ∧ c.2 ≤ n := by
  induction cs generalizing a with
  | nil => simp only [IsPartition] at h; subst h; simp
  | cons c cs ih =>
    obtain ⟨h1, h2, h3⟩ := h
    obtain ⟨i1, i2⟩ := ih c.2 h3
    refine ⟨by omega, ?_⟩
    intro c' hc'
    rcases List.mem_cons.1 hc' with rfl | hmem
    · exact ⟨by omega, h2, i1⟩
    · have := i2 c' hmem
      exact ⟨by omega, this.2.1, this.2.2⟩

theorem isPartition_cover (a n : Nat) (cs : List (Nat × Nat)) (h : IsPartition a n cs)
    (s : Nat) (hs1 : a ≤ s) (hs2 : s < n) : ∃ c ∈ cs, c.1 ≤ s ∧ s < c.2 := by
  induction cs generalizing a with
  | nil => simp only [IsPartition] at h; omega
  | cons c cs ih =>
    obtain ⟨h1, h2, h3⟩ := h
    by_cases hsc : s < c.2
    · exact ⟨c, List.mem_cons_self _ _, by omega, hsc⟩
    · obtain ⟨c', hc', hc'2⟩ := ih c.2 h3 (by omega)
      exact ⟨c', List.mem_cons_of_mem _ hc', hc'2⟩

theorem isPartition_pairwise (a n : Nat) (cs : List (Nat × Nat)) (h : IsPartition a n cs) :
    cs.Pairwise (fun c c' => c.2 ≤ c'.1) := by
  induction cs generalizing a with
  | nil => exact List.Pairwise.nil
  | cons c cs ih =>
    obtain ⟨h1, h2, h3⟩ := h
    rw [List.pairwise_cons]
    exact ⟨fun c' hc' => ((isPartition_bounds c.2 n cs h3).2 c' hc').1, ih c.2 h3⟩

/-- In a partition, the range that contains a given position is unique. -/
theorem isPartition_unique (a n : Nat) (cs : List (Nat × Nat)) (h : IsPartition a n cs)
    (c c' : Nat × Nat) (hc : c ∈ cs) (hc' : c' ∈ cs) (s : Nat) (h1 : c.1 ≤ s ∧ s < c.2)
    (h2 : c'.1 ≤ s ∧ s < c'.2) : c = c' := by
  induction cs generalizing a with
  | nil => simp at hc
  | cons c0 cs ih =>
    obtain ⟨p1, p2, p3⟩ := h
    have hb := (isPartition_bounds c0.2 n cs p3).2
    rcases List.mem_cons.1 hc with rfl | hmem
    · rcases List.mem_cons.1 hc' with rfl | hmem'
      · rfl
      · have := (hb c' hmem').1
        omega
    · rcases List.mem_cons.1 hc' with rfl | hmem'
      · have := (hb c hmem).1
        omega
      · exact ih c0.2 p3 hmem hmem'

theorem isPartition_nodup (a n : Nat) (cs : List (Nat × Nat)) (h : IsPartition a n cs) :
    cs.Nodup := by
  induction cs generalizing a with
  | nil => exact List.nodup_nil
  | cons c0 cs ih =>
    obtain ⟨p1, p2, p3⟩ := h
    rw [List.nodup_cons]
    refine ⟨?_, ih c0.2 p3⟩
    intro hmem
    have := ((isPartition_bounds c0.2 n cs p3).2 c0 hmem).1
    omega

theorem isChunking_bounds (n : Nat) (cs : List (Nat × Nat)) (h : IsChunking n cs) :
    ∀ c ∈ cs, c.1 < c.2 ∧ c.2 ≤ n := by
  obtain ⟨cs0, hp, hperm⟩ := h
  intro c hc
  have := (isPartition_bounds 0 n cs0 hp).2 c (hperm.mem_iff.1 hc)
  exact ⟨this.2.1, this.2.2⟩

theorem isChunking_cover (n : Nat) (cs : List (Nat × Nat)) (h : IsChunking n cs) (s : Nat)
    (hs : s < n) : ∃ c ∈ cs, c.1 ≤ s ∧ s < c.2 := by
  obtain ⟨cs0, hp, hperm⟩ := h
  obtain ⟨c, hc, hc2⟩ := isPartition_cover 0 n cs0 hp s (Nat.zero_le _) hs
  exact ⟨c, hperm.mem_iff.2 hc, hc2⟩

theorem isChunking_unique (n : Nat) (cs : List (Nat × Nat)) (h : IsChunking n cs)
    (c c' : Nat × Nat) (hc : c ∈ cs) (hc' : c' ∈ cs) (s : Nat) (h1 : c.1 ≤ s ∧ s < c.2)
    (h2 : c'.1 ≤ s ∧ s < c'.2) : c = c' := by
  obtain ⟨cs0, hp, hperm⟩ := h
  exact isPartition_unique 0 n cs0 hp c c' (hperm.mem_iff.1 hc) (hperm.mem_iff.1 hc') s h1 h2

theorem isChunking_nodup (n : Nat) (cs : List (Nat × Nat)) (h : IsChunking n cs) : cs.Nodup := by
  obtain ⟨cs0, hp, hperm⟩ := h
  rw [hperm.nodup_iff]
  exact isPartition_nodup 0 n cs0 hp

/-! ## The linking pass as a fold over runs -/

theorem linkLoop_eq (w : Nat) (recs : List KeyHalfEdge) (n rend : Nat) (fuel e : Nat)
    (he : List HalfEdge) :
    linkLoop w recs n rend fuel e he
      = (loopRuns recs n rend fuel e).foldl (processRun w recs) he := by
  induction fuel generalizing e he with
  | zero => rfl
  | succ fuel ih =>
    simp only [linkLoop, loopRuns]
    split
    · split
      · rfl
      · simp only [List.foldl_cons]; exact ih _ _
    · rfl

theorem linkChunk_eq (w : Nat) (recs : List KeyHalfEdge) (n : Nat) (he : List HalfEdge)
    (c : Nat × Nat) :
    linkChunk w recs n he c = (chunkRuns recs n c).foldl (processRun w recs) he := by
  unfold linkChunk chunkRuns
  exact linkLoop_eq _ _ _ _ _ _ _

theorem linkPass_eq (w : Nat) (recs : List KeyHalfEdge) (n : Nat) (cs : List (Nat × Nat))
    (he : List HalfEdge) :
    linkPass w recs n cs he = (cs.flatMap (chunkRuns recs n)).foldl (processRun w recs) he := by
  unfold linkPass
  rw [List.flatMap, List.foldl_flatten, List.foldl_map]
  congr 1
  funext he c
  exact linkChunk_eq w recs n he c

theorem mem_allRuns (recs : List KeyHalfEdge) (n : Nat) (hsorted : SortedKeys recs n)
    (hle : ∀ i, i < n → keyAt recs i ≤ sentinel) (cs : List (Nat × Nat))
    (hcs : IsChunking n cs) (r : Nat × Nat) :
    r ∈ cs.flatMap (chunkRuns recs n) ↔ IsRun recs n r := by
  rw [List.mem_flatMap]
  constructor
  · rintro ⟨c, hc, hr⟩
    have hb := isChunking_bounds n cs hcs c hc
    exact ((mem_chunkRuns recs n hsorted hle c hb.1 hb.2 r).1 hr).1
  · intro hr
    obtain ⟨c, hc, hc2⟩ := isChunking_cover n cs hcs r.1 hr.1.1.1
    have hb := isChunking_bounds n cs hcs c hc
    exact ⟨c, hc, (mem_chunkRuns recs n hsorted hle c hb.1 hb.2 r).2 ⟨hr, hc2.1, hc2.2⟩⟩

/-! ## Stores into the half-edge array -/

theorem getD_modify {α : Type} (f : α → α) (l : List α) (n q : Nat) (d : α) :
    (l.modify f n).getD q d = if n = q ∧ q < l.length then f (l.getD q d) else l.getD q d := by
  simp only [List.getD_eq_getElem?_getD, List.getElem?_modify]
  by_cases hq : q < l.length
  · rw [List.getElem?_eq_getElem hq]
    by_cases hn : n = q
    · simp [hn, hq]
    · simp [hn]
  · rw [List.getElem?_eq_none (by omega)]
    simp [hq]

theorem frameEq_refl (he : List HalfEdge) : FrameEq he he :=
  ⟨rfl, fun _ => ⟨rfl, rfl, rfl, rfl, rfl⟩⟩

theorem frameEq_trans (a b c : List HalfEdge) (h1 : FrameEq a b) (h2 : FrameEq b c) :
    FrameEq a c := by
  refine ⟨h2.1.trans h1.1, fun q => ?_⟩
  obtain ⟨x1, x2, x3, x4, x5⟩ := h1.2 q
  obtain ⟨y1, y2, y3, y4, y5⟩ := h2.2 q
  exact ⟨y1.trans x1, y2.trans x2, y3.trans x3, y4.trans x4, y5.trans x5⟩

theorem next_frameEq (a b : List HalfEdge) (h : FrameEq a b) (q : Nat) : next b q = next a q := by
  unfold next
  rw [(h.2 q).2.1]

theorem setOpposite_frame (w : Nat) (he : List HalfEdge) (p o : Nat) :
    FrameEq he (setOpposite w he p o) := by
  refine ⟨by simp [setOpposite], fun q => ?_⟩
  unfold setOpposite
  rw [getD_modify]
  split <;> exact ⟨rfl, rfl, rfl, rfl, rfl⟩

theorem setOpposite_vcw (w : Nat) (he : List HalfEdge) (p o q : Nat) :
    ((setOpposite w he p o).getD q default).vertex_crease_weight
      = (he.getD q default).vertex_crease_weight := by
  unfold setOpposite
  rw [getD_modify]
  split <;> rfl

theorem setOpposite_opp (w : Nat) (he : List HalfEdge) (p o q : Nat) :
    ((setOpposite w he p o).getD q default).opposite_half_edge_ofs
      = if p = q ∧ q < he.length then wrap w ((o : Int) - (p : Int))
        else (he.getD q default).opposite_half_edge_ofs := by
  unfold setOpposite
  rw [getD_modify]
  split <;> rfl

theorem setVertexCreaseWeight_frame (he : List HalfEdge) (p x : Nat) :
    FrameEq he (setVertexCreaseWeight he p x) := by
  refine ⟨by simp [setVertexCreaseWeight], fun q => ?_⟩
  unfold setVertexCreaseWeight
  rw [getD_modify]
  split <;> exact ⟨rfl, rfl, rfl, rfl, rfl⟩

theorem setVertexCreaseWeight_opp (he : List HalfEdge) (p x q : Nat) :
    ((setVertexCreaseWeight he p x).getD q default).opposite_half_edge_ofs
      = (he.getD q default).opposite_half_edge_ofs := by
  unfold setVertexCreaseWeight
  rw [getD_modify]
  split <;> rfl

theorem setVertexCreaseWeight_vcw (he : List HalfEdge) (p x q : Nat) :
    ((setVertexCreaseWeight he p x).getD q default).vertex_crease_weight
      = if p = q ∧ q < he.length then x else (he.getD q default).vertex_crease_weight := by
  unfold setVertexCreaseWeight
  rw [getD_modify]
  split <;> rfl

/-! ## Effect of a non-manifold run -/

theorem markStep_frame (recs : List KeyHalfEdge) (e : Nat) (he : List HalfEdge) (i : Nat) :
    FrameEq he (markStep recs e he i) := by
  unfold markStep
  exact frameEq_trans _ _ _ (setVertexCreaseWeight_frame _ _ _)
    (setVertexCreaseWeight_frame _ _ _)

theorem markStep_opp (recs : List KeyHalfEdge) (e : Nat) (he : List HalfEdge) (i q : Nat) :
    ((markStep recs e he i).getD q default).opposite_half_edge_ofs
      = (he.getD q default).opposite_half_edge_ofs := by
  unfold markStep
  simp only [setVertexCreaseWeight_opp]

theorem markStep_vcw (recs : List KeyHalfEdge) (e : Nat) (he : List HalfEdge) (i q : Nat) :
    ((markStep recs e he i).getD q default).vertex_crease_weight
      = if (edgeAt recs (e + i) = q ∨ next he (edgeAt recs (e + i)) = q) ∧ q < he.length
        then f32_inf else (he.getD q default).vertex_crease_weight := by
  unfold markStep
  simp only [setVertexCreaseWeight_vcw]
  rw [next_frameEq _ _ (setVertexCreaseWeight_frame _ _ _),
    (setVertexCreaseWeight_frame he _ _).1]
  by_cases h1 : edgeAt recs (e + i) = q <;> by_cases h2 : next he (edgeAt recs (e + i)) = q <;>
    by_cases h3 : q < he.length <;> simp [h1, h2, h3]

theorem foldl_markStep_frame (recs : List KeyHalfEdge) (e : Nat) (is : List Nat)
    (he : List HalfEdge) : FrameEq he (is.foldl (markStep recs e) he) := by
  induction is generalizing he with
  | nil => exact frameEq_refl he
  | cons i is ih =>
    exact frameEq_trans _ _ _ (markStep_frame recs e he i) (ih _)

theorem foldl_markStep_opp (recs : List KeyHalfEdge) (e : Nat) (is : List Nat)
    (he : List HalfEdge) (q : Nat) :
    ((is.foldl (markStep recs e) he).getD q default).opposite_half_edge_ofs
      = (he.getD q default).opposite_half_edge_ofs := by
  induction is generalizing he with
  | nil => rfl
  | cons i is ih => simp only [List.foldl_cons]; rw [ih, markStep_opp]

theorem foldl_markStep_vcw_cases (recs : List KeyHalfEdge) (e : Nat) (is : List Nat)
    (he : List HalfEdge) (q : Nat) :
    ((is.foldl (markStep recs e) he).getD q default).vertex_crease_weight
        = (he.getD q default).vertex_crease_weight ∨
    ((is.foldl (markStep recs e) he).getD q default).vertex_crease_weight = f32_inf := by
  induction is generalizing he with
  | nil => left; rfl
  | cons i is ih =>
    simp only [List.foldl_cons]
    rcases ih (markStep recs e he i) with h | h
    · rw [h, markStep_vcw]
      split
      · right; rfl
      · left; rfl
    · right; exact h

theorem foldl_markStep_vcw_other (recs : List KeyHalfEdge) (e : Nat) (is : List Nat)
    (he : List HalfEdge) (q : Nat)
    (h : ∀ i ∈ is, q ≠ edgeAt recs (e + i) ∧ q ≠ next he (edgeAt recs (e + i))) :
    ((is.foldl (markStep recs e) he).getD q default).vertex_crease_weight
      = (he.getD q default).vertex_crease_weight := by
  induction is generalizing he with
  | nil => rfl
  | cons i is ih =>
    simp only [List.foldl_cons]
    have hf := markStep_frame recs e he i
    rw [ih (markStep recs e he i) (fun j hj => by
      rw [next_frameEq _ _ hf]
      exact h j (List.mem_cons_of_mem _ hj)), markStep_vcw]
    have := h i (List.mem_cons_self _ _)
    rw [if_neg]
    rintro ⟨h1 | h1, -⟩
    · exact this.1 h1.symm
    · exact this.2 h1.symm

theorem foldl_markStep_vcw_targets (recs : List KeyHalfEdge) (e : Nat) (is : List Nat)
    (he : List HalfEdge) (i : Nat) (hi : i ∈ is) (q : Nat) (hq : q < he.length)
    (hqi : q = edgeAt recs (e + i) ∨ q = next he (edgeAt recs (e + i))) :
    ((is.foldl (markStep recs e) he).getD q default).vertex_crease_weight = f32_inf := by
  induction is generalizing he with
  | nil => simp at hi
  | cons j is ih =>
    simp only [List.foldl_cons]
    have hf := markStep_frame recs e he j
    rcases List.mem_cons.1 hi with rfl | hmem
    · rcases foldl_markStep_vcw_cases recs e is (markStep recs e he i) q with h | h
      · rw [h, markStep_vcw, if_pos]
        refine ⟨?_, hq⟩
        rcases hqi with h1 | h1
        · left; exact h1.symm
        · right; exact h1.symm
      · exact h
    · apply ih _ hmem
      · rw [hf.1]; exact hq
      · rw [next_frameEq _ _ hf]; exact hqi

/-! ## Effect of one run -/

theorem processRun_frame (w : Nat) (recs : List KeyHalfEdge) (he : List HalfEdge)
    (r : Nat × Nat) : FrameEq he (processRun w recs he r) := by
  unfold processRun
  simp only
  split
  · exact frameEq_refl he
  · split
    · exact frameEq_trans _ _ _ (setOpposite_frame _ _ _ _) (setOpposite_frame _ _ _ _)
    · exact foldl_markStep_frame _ _ _ _

theorem processRun_opp_other (w : Nat) (recs : List KeyHalfEdge) (he : List HalfEdge)
    (r : Nat × Nat) (q : Nat)
    (h : r.2 = 2 → q ≠ edgeAt recs r.1 ∧ q ≠ edgeAt recs (r.1 + 1)) :
    ((processRun w recs he r).getD q default).opposite_half_edge_ofs
      = (he.getD q default).opposite_half_edge_ofs := by
  unfold processRun
  simp only
  split
  · rfl
  · split
    · rename_i h2
      have := h h2
      rw [setOpposite_opp, if_neg (fun hc => this.2 hc.1.symm), setOpposite_opp,
        if_neg (fun hc => this.1 hc.1.symm)]
    · exact foldl_markStep_opp _ _ _ _ _

theorem processRun_opp_pair (w : Nat) (recs : List KeyHalfEdge) (he : List HalfEdge)
    (r : Nat × Nat) (h2 : r.2 = 2) (ha : edgeAt recs r.1 < he.length)
    (hb : edgeAt recs (r.1 + 1) < he.length) (hab : edgeAt recs r.1 ≠ edgeAt recs (r.1 + 1)) :
    ((processRun w recs he r).getD (edgeAt recs r.1) default).opposite_half_edge_ofs
        = wrap w ((edgeAt recs (r.1 + 1) : Int) - (edgeAt recs r.1 : Int)) ∧
    ((processRun w recs he r).getD (edgeAt recs (r.1 + 1)) default).opposite_half_edge_ofs
        = wrap w ((edgeAt recs r.1 : Int) - (edgeAt recs (r.1 + 1) : Int)) := by
  unfold processRun
  simp only [h2, Nat.add_zero]
  rw [if_neg (by decide), if_pos trivial]
  constructor
  · rw [setOpposite_opp, if_neg (fun hc => hab hc.1.symm), setOpposite_opp, if_pos ⟨rfl, ha⟩]
  · rw [setOpposite_opp, if_pos ⟨rfl, by rw [(setOpposite_frame _ _ _ _).1]; exact hb⟩]

theorem processRun_vcw_cases (w : Nat) (recs : List KeyHalfEdge) (he : List HalfEdge)
    (r : Nat × Nat) (q : Nat) :
    ((processRun w recs he r).getD q default).vertex_crease_weight
        = (he.getD q default).vertex_crease_weight ∨
    ((processRun w recs he r).getD q default).vertex_crease_weight = f32_inf := by
  unfold processRun
  simp only
  split
  · left; rfl
  · split
    · left; rw [setOpposite_vcw, setOpposite_vcw]
    · exact foldl_markStep_vcw_cases _ _ _ _ _

theorem processRun_vcw_other (w : Nat) (recs : List KeyHalfEdge) (he : List HalfEdge)
    (r : Nat × Nat) (q : Nat)
    (h : 3 ≤ r.2 → ∀ i, i < r.2 →
      q ≠ edgeAt recs (r.1 + i) ∧ q ≠ next he (edgeAt recs (r.1 + i))) :
    ((processRun w recs he r).getD q default).vertex_crease_weight
      = (he.getD q default).vertex_crease_weight := by
  unfold processRun
  simp only
  split
  · rfl
  · split
    · rw [setOpposite_vcw, setOpposite_vcw]
    · rename_i h1 h2
      unfold markNonManifold
      by_cases h0 : r.2 = 0
      · rw [h0]; rfl
      · apply foldl_markStep_vcw_other
        intro i hi
        exact h (by omega) i (List.mem_range.1 hi)

theorem processRun_vcw_targets (w : Nat) (recs : List KeyHalfEdge) (he : List HalfEdge)
    (r : Nat × Nat) (h3 : 3 ≤ r.2) (i : Nat) (hi : i < r.2) (q : Nat) (hq : q < he.length)
    (hqi : q = edgeAt recs (r.1 + i) ∨ q = next he (edgeAt recs (r.1 + i))) :
    ((processRun w recs he r).getD q default).vertex_crease_weight = f32_inf := by
  unfold processRun
  simp only
  rw [if_neg (by omega), if_neg (by omega)]
  exact foldl_markStep_vcw_targets recs r.1 _ he i (List.mem_range.2 hi) q hq hqi

/-! ## Effect of a sequence of runs -/

theorem foldl_processRun_frame (w : Nat) (recs : List KeyHalfEdge) (R : List (Nat × Nat))
    (he : List HalfEdge) : FrameEq he (R.foldl (processRun w recs) he) := by
  induction R generalizing he with
  | nil => exact frameEq_refl he
  | cons r R ih => exact frameEq_trans _ _ _ (processRun_frame w recs he r) (ih _)

theorem foldl_processRun_opp_other (w : Nat) (recs : List KeyHalfEdge) (R : List (Nat × Nat))
    (he : List HalfEdge) (q : Nat)
    (h : ∀ r ∈ R, r.2 = 2 → q ≠ edgeAt recs r.1 ∧ q ≠ edgeAt recs (r.1 + 1)) :
    ((R.foldl (processRun w recs) he).getD q default).opposite_half_edge_ofs
      = (he.getD q default).opposite_half_edge_ofs := by
  induction R generalizing he with
  | nil => rfl
  | cons r R ih =>
    simp only [List.foldl_cons]
    rw [ih _ (fun r' hr' => h r' (List.mem_cons_of_mem _ hr')),
      processRun_opp_other w recs he r q (h r (List.mem_cons_self _ _))]

theorem foldl_processRun_vcw_cases (w : Nat) (recs : List KeyHalfEdge) (R : List (Nat × Nat))
    (he : List HalfEdge) (q : Nat) :
    ((R.foldl (processRun w recs) he).getD q default).vertex_crease_weight
        = (he.getD q default).vertex_crease_weight ∨
    ((R.foldl (processRun w recs) he).getD q default).vertex_crease_weight = f32_inf := by
  induction R generalizing he with
  | nil => left; rfl
  | cons r R ih =>
    simp only [List.foldl_cons]
    rcases ih (processRun w recs he r) with h | h
    · rw [h]; exact processRun_vcw_cases w recs he r q
    · right; exact h

theorem foldl_processRun_vcw_other (w : Nat) (recs : List KeyHalfEdge) (R : List (Nat × Nat))
    (he : List HalfEdge) (q : Nat)
    (h : ∀ r ∈ R, 3 ≤ r.2 → ∀ i, i < r.2 →
      q ≠ edgeAt recs (r.1 + i) ∧ q ≠ next he (edgeAt recs (r.1 + i))) :
    ((R.foldl (processRun w recs) he).getD q default).vertex_crease_weight
      = (he.getD q default).vertex_crease_weight := by
  induction R generalizing he with
  | nil => rfl
  | cons r R ih =>
    simp only [List.foldl_cons]
    have hf := processRun_frame w recs he r
    rw [ih _ (fun r' hr' h3 i hi => by
        rw [next_frameEq _ _ hf]
        exact h r' (List.mem_cons_of_mem _ hr') h3 i hi),
      processRun_vcw_other w recs he r q (h r (List.mem_cons_self _ _))]

theorem foldl_processRun_vcw_targets (w : Nat) (recs : List KeyHalfEdge) (R : List (Nat × Nat))
    (he : List HalfEdge) (r : Nat × Nat) (hr : r ∈ R) (h3 : 3 ≤ r.2) (i : Nat) (hi : i < r.2)
    (q : Nat) (hq : q < he.length)
    (hqi : q = edgeAt recs (r.1 + i) ∨ q = next he (edgeAt recs (r.1 + i))) :
    ((R.foldl (processRun w recs) he).getD q default).vertex_crease_weight = f32_inf := by
  induction R generalizing he with
  | nil => simp at hr
  | cons r0 R ih =>
    simp only [List.foldl_cons]
    have hf := processRun_frame w recs he r0
    rcases List.mem_cons.1 hr with rfl | hmem
    · rcases foldl_processRun_vcw_cases w recs R (processRun w recs he r) q with h | h
      · rw [h]; exact processRun_vcw_targets w recs he r h3 i hi q hq hqi
      · exact h
    · apply ih _ hmem
      · rw [hf.1]; exact hq
      · rw [next_frameEq _ _ hf]; exact hqi

theorem foldl_processRun_opp_pair (w : Nat) (recs : List KeyHalfEdge) (n : Nat)
    (R : List (Nat × Nat)) (he : List HalfEdge) (hR : ∀ r ∈ R, IsMaxRun recs n r)
    (hd : DistinctEdges recs n he.length) (r : Nat × Nat) (hr : r ∈ R) (h2 : r.2 = 2) :
    ((R.foldl (processRun w recs) he).getD (edgeAt recs r.1) default).opposite_half_edge_ofs
        = wrap w ((edgeAt recs (r.1 + 1) : Int) - (edgeAt recs r.1 : Int)) ∧
    ((R.foldl (processRun w recs) he).getD (edgeAt recs (r.1 + 1)) default).opposite_half_edge_ofs
        = wrap w ((edgeAt recs r.1 : Int) - (edgeAt recs (r.1 + 1) : Int)) := by
  induction R generalizing he with
  | nil => simp at hr
  | cons r0 R ih =>
    simp only [List.foldl_cons]
    have hf := processRun_frame w recs he r0
    by_cases hmem : r ∈ R
    · exact ih _ (fun r' hr' => hR r' (List.mem_cons_of_mem _ hr')) (by rw [hf.1]; exact hd) hmem
    · have hr0 : r = r0 := by
        rcases List.mem_cons.1 hr with h | h
        · exact h
        · exact absurd h hmem
      subst hr0
      have hmax := hR r (List.mem_cons_self _ _)
      have hle : r.1 + r.2 ≤ n := hmax.2.2.1
      have hother : ∀ p, (p = r.1 ∨ p = r.1 + 1) → ∀ r' ∈ R, r'.2 = 2 →
          edgeAt recs p ≠ edgeAt recs r'.1 ∧ edgeAt recs p ≠ edgeAt recs (r'.1 + 1) := by
        intro p hp r' hr' h2'
        have hmax' := hR r' (List.mem_cons_of_mem _ hr')
        have hle' : r'.1 + r'.2 ≤ n := hmax'.2.2.1
        constructor
        · intro heq
          have hpos := hd.2 p r'.1 (by omega) (by omega) heq
          apply hmem
          have : r = r' := isMaxRun_eq_of_overlap recs n r r' hmax hmax' (p - r.1) 0
            (by omega) (by omega) (by omega)
          rw [this]; exact hr'
        · intro heq
          have hpos := hd.2 p (r'.1 + 1) (by omega) (by omega) heq
          apply hmem
          have : r = r' := isMaxRun_eq_of_overlap recs n r r' hmax hmax' (p - r.1) 1
            (by omega) (by omega) (by omega)
          rw [this]; exact hr'
      have hab : edgeAt recs r.1 ≠ edgeAt recs (r.1 + 1) := by
        intro heq
        have := hd.2 r.1 (r.1 + 1) (by omega) (by omega) heq
        omega
      have hpair := processRun_opp_pair w recs he r h2 (hd.1 r.1 (by omega))
        (hd.1 (r.1 + 1) (by omega)) hab
      constructor
      · rw [foldl_processRun_opp_other w recs R _ _ (hother r.1 (Or.inl rfl))]
        exact hpair.1
      · rw [foldl_processRun_opp_other w recs R _ _ (hother (r.1 + 1) (Or.inr rfl))]
        exact hpair.2

/-! ## Independence of the order of the runs -/

theorem halfEdge_ext (a b : HalfEdge) (h1 : a.vtx_index = b.vtx_index)
    (h2 : a.next_half_edge_ofs = b.next_half_edge_ofs)
    (h3 : a.prev_half_edge_ofs = b.prev_half_edge_ofs)
    (h4 : a.opposite_half_edge_ofs = b.opposite_half_edge_ofs)
    (h5 : a.edge_crease_weight = b.edge_crease_weight)
    (h6 : a.vertex_crease_weight = b.vertex_crease_weight)
    (h7 : a.edge_level = b.edge_level) : a = b := by
  cases a; cases b; simp only [HalfEdge.mk.injEq]; exact ⟨h1, h2, h3, h4, h5, h6, h7⟩

theorem list_ext_getD (a b : List HalfEdge) (hlen : a.length = b.length)
    (h : ∀ q, q < a.length → a.getD q default = b.getD q default) : a = b := by
  apply List.ext_getElem hlen
  intro q h1 h2
  have := h q h1
  rw [List.getD_eq_getElem _ _ h1, List.getD_eq_getElem _ _ h2] at this
  exact this

theorem foldl_processRun_congr (w : Nat) (recs : List KeyHalfEdge) (n : Nat)
    (R R' : List (Nat × Nat)) (he : List HalfEdge) (hR : ∀ r ∈ R, IsMaxRun recs n r)
    (hmem : ∀ r, r ∈ R ↔ r ∈ R') (hd : DistinctEdges recs n he.length) :
    R.foldl (processRun w recs) he = R'.foldl (processRun w recs) he := by
  have hR' : ∀ r ∈ R', IsMaxRun recs n r := fun r hr => hR r ((hmem r).2 hr)
  have hf := foldl_processRun_frame w recs R he
  have hf' := foldl_processRun_frame w recs R' he
  apply list_ext_getD _ _ (hf.1.trans hf'.1.symm)
  intro q hq
  rw [hf.1] at hq
  obtain ⟨a1, a2, a3, a4, a5⟩ := hf.2 q
  obtain ⟨b1, b2, b3, b4, b5⟩ := hf'.2 q
  apply halfEdge_ext
  · rw [a1, b1]
  · rw [a2, b2]
  · rw [a3, b3]
  · by_cases h : ∃ r ∈ R, r.2 = 2 ∧ (q = edgeAt recs r.1 ∨ q = edgeAt recs (r.1 + 1))
    · obtain ⟨r, hr, h2, hq2⟩ := h
      have p := foldl_processRun_opp_pair w recs n R he hR hd r hr h2
      have p' := foldl_processRun_opp_pair w recs n R' he hR' hd r ((hmem r).1 hr) h2
      rcases hq2 with rfl | rfl
      · rw [p.1, p'.1]
      · rw [p.2, p'.2]
    · have hno : ∀ r ∈ R, r.2 = 2 → q ≠ edgeAt recs r.1 ∧ q ≠ edgeAt recs (r.1 + 1) := by
        intro r hr h2
        constructor
        · intro hc; exact h ⟨r, hr, h2, Or.inl hc⟩
        · intro hc; exact h ⟨r, hr, h2, Or.inr hc⟩
      rw [foldl_processRun_opp_other w recs R he q hno,
        foldl_processRun_opp_other w recs R' he q (fun r hr => hno r ((hmem r).2 hr))]
  · rw [a4, b4]
  · by_cases h : ∃ r ∈ R, 3 ≤ r.2 ∧ ∃ i, i < r.2 ∧
        (q = edgeAt recs (r.1 + i) ∨ q = next he (edgeAt recs (r.1 + i)))
    · obtain ⟨r, hr, h3, i, hi, hqi⟩ := h
      rw [foldl_processRun_vcw_targets w recs R he r hr h3 i hi q hq hqi,
        foldl_processRun_vcw_targets w recs R' he r ((hmem r).1 hr) h3 i hi q hq hqi]
    · have hno : ∀ r ∈ R, 3 ≤ r.2 → ∀ i, i < r.2 →
          q ≠ edgeAt recs (r.1 + i) ∧ q ≠ next he (edgeAt recs (r.1 + i)) := by
        intro r hr h3 i hi
        constructor
        · intro hc; exact h ⟨r, hr, h3, i, hi, Or.inl hc⟩
        · intro hc; exact h ⟨r, hr, h3, i, hi, Or.inr hc⟩
      rw [foldl_processRun_vcw_other w recs R he q hno,
        foldl_processRun_vcw_other w recs R' he q (fun r hr => hno r ((hmem r).2 hr))]
  · rw [a5, b5]

/-- The linking pass gives the same half-edge array for any two ways of cutting `[0,n)` into
ranges and any order of the ranges. -/
theorem linkPass_chunking_irrelevant (w : Nat) (recs : List KeyHalfEdge) (n : Nat)
    (hsorted : SortedKeys recs n) (hle : ∀ i, i < n → keyAt recs i ≤ sentinel)
    (he : List HalfEdge) (hd : DistinctEdges recs n he.length) (cs cs' : List (Nat × Nat))
    (hcs : IsChunking n cs) (hcs' : IsChunking n cs') :
    linkPass w recs n cs he = linkPass w recs n cs' he := by
  rw [linkPass_eq, linkPass_eq]
  apply foldl_processRun_congr w recs n _ _ he
  · intro r hr
    exact ((mem_allRuns recs n hsorted hle cs hcs r).1 hr).1
  · intro r
    rw [mem_allRuns recs n hsorted hle cs hcs r, mem_allRuns recs n hsorted hle cs' hcs' r]
  · exact hd

/-! ## The sorted key records -/

theorem radix_sort_perm (l : List KeyHalfEdge) (n : Nat) : (radix_sort_u64 l n).Perm l := by
  unfold radix_sort_u64
  have h1 := List.perm_insertionSort (fun a b : KeyHalfEdge => a.key ≤ b.key) (l.take n)
  have h2 := h1.append_right (l.drop n)
  rw [List.take_append_drop] at h2
  exact h2

theorem radix_sort_length (l : List KeyHalfEdge) (n : Nat) :
    (radix_sort_u64 l n).length = l.length :=
  (radix_sort_perm l n).length_eq

theorem radix_sort_sorted (l : List KeyHalfEdge) (n : Nat) (hn : n ≤ l.length) :
    SortedKeys (radix_sort_u64 l n) n := by
  intro i j hij hj
  have hs := List.sorted_insertionSort (fun a b : KeyHalfEdge => a.key ≤ b.key) (l.take n)
  have hlen : ((l.take n).insertionSort (fun a b : KeyHalfEdge => a.key ≤ b.key)).length = n := by
    rw [List.length_insertionSort, List.length_take]; omega
  unfold keyAt radix_sort_u64
  rw [List.getD_eq_getElem?_getD, List.getD_eq_getElem?_getD,
    List.getElem?_append_left (by omega), List.getElem?_append_left (by omega),
    List.getElem?_eq_getElem (by omega), List.getElem?_eq_getElem (by omega)]
  simp only [Option.getD_some]
  rcases Nat.lt_or_ge i j with hlt | hge
  · exact (List.pairwise_iff_getElem.1 hs) i j (by omega) (by omega) hlt
  · have : i = j := by omega
    subst this
    exact Nat.le_refl _

theorem getD_mem_of_lt {α : Type} (l : List α) (i : Nat) (d : α) (hi : i < l.length) :
    l.getD i d ∈ l := by
  rw [List.getD_eq_getElem _ _ hi]
  exact List.getElem_mem _

theorem exists_getD_of_mem {α : Type} (l : List α) (a d : α) (ha : a ∈ l) :
    ∃ i, i < l.length ∧ l.getD i d = a := by
  obtain ⟨i, hi, h⟩ := List.getElem_of_mem ha
  exact ⟨i, hi, by rw [List.getD_eq_getElem _ _ hi]; exact h⟩

/-- If the record at every index `p` of `l` points to the half-edge `p`, the sorted records
point to pairwise different half-edges, every half-edge is pointed to, and the key of a sorted
record is the key that `l` holds for its half-edge. -/
theorem radix_sort_records (l : List KeyHalfEdge)
    (hedge : ∀ p, p < l.length → edgeAt l p = p) :
    DistinctEdges (radix_sort_u64 l l.length) l.length l.length ∧
    (∀ i, i < l.length → keyAt (radix_sort_u64 l l.length) i
        = keyAt l (edgeAt (radix_sort_u64 l l.length) i)) ∧
    (∀ p, p < l.length → ∃ i, i < l.length ∧ edgeAt (radix_sort_u64 l l.length) i = p) := by
  have hperm := radix_sort_perm l l.length
  have hlen := radix_sort_length l l.length
  have hrec : ∀ i, i < l.length →
      ∃ p, p < l.length ∧ (radix_sort_u64 l l.length).getD i default = l.getD p default := by
    intro i hi
    have hm := getD_mem_of_lt (radix_sort_u64 l l.length) i default (by omega)
    obtain ⟨p, hp, h⟩ := exists_getD_of_mem l _ default (hperm.mem_iff.1 hm)
    exact ⟨p, hp, h.symm⟩
  have hmap : ((radix_sort_u64 l l.length).map KeyHalfEdge.edge).Nodup := by
    rw [(hperm.map KeyHalfEdge.edge).nodup_iff]
    have : l.map KeyHalfEdge.edge = List.range l.length := by
      apply List.ext_getElem (by simp)
      intro p h1 h2
      have := hedge p (by simpa using h1)
      unfold edgeAt at this
      rw [List.getD_eq_getElem _ _ (by simpa using h1)] at this
      simp [this]
    rw [this]
    exact List.nodup_range _
  refine ⟨⟨?_, ?_⟩, ?_, ?_⟩
  · intro i hi
    obtain ⟨p, hp, h⟩ := hrec i hi
    unfold edgeAt
    rw [h]
    have := hedge p hp
    unfold edgeAt at this
    omega
  · intro i j hi hj heq
    have h1 : i < ((radix_sort_u64 l l.length).map KeyHalfEdge.edge).length := by
      simp; omega
    have h2 : j < ((radix_sort_u64 l l.length).map KeyHalfEdge.edge).length := by
      simp; omega
    apply (@List.Nodup.getElem_inj_iff _ _ hmap i h1 j h2).1
    unfold edgeAt at heq
    rw [List.getD_eq_getElem _ default (show i < _ by omega),
      List.getD_eq_getElem _ default (show j < _ by omega)] at heq
    simpa using heq
  · intro i hi
    obtain ⟨p, hp, h⟩ := hrec i hi
    unfold keyAt edgeAt
    rw [h]
    have := hedge p hp
    unfold edgeAt at this
    rw [this]
  · intro p hp
    have hm := getD_mem_of_lt l p default hp
    obtain ⟨i, hi, h⟩ := exists_getD_of_mem _ _ default (hperm.mem_iff.2 hm)
    refine ⟨i, by omega, ?_⟩
    unfold edgeAt
    rw [h]
    exact hedge p hp

/-! ## Runs and classes of equal keys -/

theorem wrap_index_diff (w : Nat) (hw : 32 ≤ w) (a b : Nat) (ha : a < 2 ^ 31) (hb : b < 2 ^ 31) :
    wrap w ((a : Int) - (b : Int)) = (a : Int) - (b : Int) := by
  have hpow : (2 : Int) ^ 31 ≤ 2 ^ (w - 1) := by
    apply pow_le_pow_right₀ (by norm_num) (by omega)
  have ha' : (a : Int) < 2 ^ 31 := by exact_mod_cast ha
  have hb' : (b : Int) < 2 ^ 31 := by exact_mod_cast hb
  apply wrap_of_bounds w _ (by omega)
  · have : (0 : Int) ≤ a := Int.ofNat_nonneg a
    linarith
  · have : (0 : Int) ≤ b := Int.ofNat_nonneg b
    linarith

theorem run_of_pos (recs : List KeyHalfEdge) (n i : Nat) (hi : i < n) :
    ∃ r, IsMaxRun recs n r ∧ r.1 ≤ i ∧ i < r.1 + r.2 := by
  induction i with
  | zero =>
    have hs : IsRunStart recs n 0 := ⟨hi, Or.inl rfl⟩
    have hm := isMaxRun_runLength recs n 0 hs
    exact ⟨_, hm, Nat.le_refl _, by have := hm.2.1; simp only at this ⊢; omega⟩
  | succ i ih =>
    by_cases hk : keyAt recs i = keyAt recs (i + 1)
    · obtain ⟨r, hr, h1, h2⟩ := ih (by omega)
      refine ⟨r, hr, by omega, ?_⟩
      by_contra hcon
      have heq : r.1 + r.2 = i + 1 := by omega
      rcases hr.2.2.2.2 with h | h
      · omega
      · apply h
        have a := hr.2.2.2.1 (i - r.1) (by omega)
        have e1 : r.1 + (i - r.1) = i := by omega
        rw [e1] at a
        rw [heq, ← a, hk]
    · have hs : IsRunStart recs n (i + 1) := ⟨hi, Or.inr (by simpa using hk)⟩
      have hm := isMaxRun_runLength recs n (i + 1) hs
      exact ⟨_, hm, Nat.le_refl _, by have := hm.2.1; simp only at this ⊢; omega⟩

theorem run_key (recs : List KeyHalfEdge) (n : Nat) (r : Nat × Nat) (hr : IsMaxRun recs n r)
    (i : Nat) (h1 : r.1 ≤ i) (h2 : i < r.1 + r.2) : keyAt recs i = keyAt recs r.1 := by
  have a := hr.2.2.2.1 (i - r.1) (by omega)
  have e1 : r.1 + (i - r.1) = i := by omega
  rw [e1] at a
  exact a

theorem run_keyclass (recs : List KeyHalfEdge) (n : Nat) (hsorted : SortedKeys recs n)
    (r : Nat × Nat) (hr : IsMaxRun recs n r) (j : Nat) (hj : j < n)
    (hk : keyAt recs j = keyAt recs r.1) : r.1 ≤ j ∧ j < r.1 + r.2 := by
  obtain ⟨⟨hs, hst⟩, hN, hle, hkeys, hend⟩ := hr
  constructor
  · by_contra hcon
    rcases hst with h0 | hne
    · omega
    · apply hne
      have a := hsorted j (r.1 - 1) (by omega) (by omega)
      have b := hsorted (r.1 - 1) r.1 (by omega) (by omega)
      omega
  · by_contra hcon
    rcases hend with h0 | hne
    · omega
    · apply hne
      have a := hsorted r.1 (r.1 + r.2) (by omega) (by omega)
      have b := hsorted (r.1 + r.2) j (by omega) hj
      omega

/-! ## The half-edges after the linking pass -/

theorem hub_run2 (w n : Nat) (recs : List KeyHalfEdge) (he0 : List HalfEdge) (K : Nat → Nat)
    (hin : LinkInput w n recs he0 K) (R : List (Nat × Nat))
    (hR : ∀ r, r ∈ R ↔ IsRun recs n r) (r : Nat × Nat) (hr : r ∈ R) (h2 : r.2 = 2) :
    edgeAt recs r.1 < n ∧ edgeAt recs (r.1 + 1) < n ∧
    edgeAt recs r.1 ≠ edgeAt recs (r.1 + 1) ∧
    K (edgeAt recs r.1) = keyAt recs r.1 ∧ K (edgeAt recs (r.1 + 1)) = keyAt recs r.1 ∧
    keyAt recs r.1 ≠ sentinel ∧
    (∀ q, q < n → K q = keyAt recs r.1 → q = edgeAt recs r.1 ∨ q = edgeAt recs (r.1 + 1)) ∧
    ((R.foldl (processRun w recs) he0).getD (edgeAt recs r.1) default).opposite_half_edge_ofs
        = (edgeAt recs (r.1 + 1) : Int) - (edgeAt recs r.1 : Int) ∧
    ((R.foldl (processRun w recs) he0).getD (edgeAt recs (r.1 + 1)) default).opposite_half_edge_ofs
        = (edgeAt recs r.1 : Int) - (edgeAt recs (r.1 + 1) : Int) := by
  have hrun := (hR r).1 hr
  have hmax := hrun.1
  have hle : r.1 + r.2 ≤ n := hmax.2.2.1
  have ha := hin.hd.1 r.1 (by omega)
  have hb := hin.hd.1 (r.1 + 1) (by omega)
  have hn := hin.hn
  have hpair := foldl_processRun_opp_pair w recs n R he0 (fun r' hr' => ((hR r').1 hr').1)
    (by rw [hin.hlen]; exact hin.hd) r hr h2
  rw [wrap_index_diff w hin.hw _ _ (by omega) (by omega),
    wrap_index_diff w hin.hw _ _ (by omega) (by omega)] at hpair
  refine ⟨ha, hb, ?_, ?_, ?_, hrun.2, ?_, hpair.1, hpair.2⟩
  · intro heq
    have := hin.hd.2 r.1 (r.1 + 1) (by omega) (by omega) heq
    omega
  · exact (hin.hK r.1 (by omega)).symm
  · rw [← hin.hK (r.1 + 1) (by omega)]
    exact run_key recs n r hmax (r.1 + 1) (by omega) (by omega)
  · intro q hq hKq
    obtain ⟨j, hj, hjq⟩ := hin.hsurj q hq
    have hkj : keyAt recs j = keyAt recs r.1 := by
      rw [hin.hK j hj, hjq, hKq]
    have := run_keyclass recs n hin.hsorted r hmax j hj hkj
    have hj2 : j = r.1 ∨ j = r.1 + 1 := by omega
    rcases hj2 with h | h
    · left; rw [← hjq, h]
    · right; rw [← hjq, h]

theorem hub_opp_nonzero (w n : Nat) (recs : List KeyHalfEdge) (he0 : List HalfEdge)
    (K : Nat → Nat) (hin : LinkInput w n recs he0 K) (R : List (Nat × Nat))
    (hR : ∀ r, r ∈ R ↔ IsRun recs n r) (p : Nat)
    (hp : ((R.foldl (processRun w recs) he0).getD p default).opposite_half_edge_ofs ≠ 0) :
    ∃ q, p < n ∧ q < n ∧ q ≠ p ∧ K q = K p ∧ K p ≠ sentinel ∧
      ((R.foldl (processRun w recs) he0).getD p default).opposite_half_edge_ofs
        = (q : Int) - (p : Int) ∧
      ((R.foldl (processRun w recs) he0).getD q default).opposite_half_edge_ofs
        = (p : Int) - (q : Int) ∧
      ∀ q', q' < n → K q' = K p → q' = p ∨ q' = q := by
  have hex : ∃ r ∈ R, r.2 = 2 ∧ (p = edgeAt recs r.1 ∨ p = edgeAt recs (r.1 + 1)) := by
    by_contra hcon
    apply hp
    rw [foldl_processRun_opp_other w recs R he0 p, hin.hopp]
    intro r hr h2
    constructor
    · intro hc; exact hcon ⟨r, hr, h2, Or.inl hc⟩
    · intro hc; exact hcon ⟨r, hr, h2, Or.inr hc⟩
  obtain ⟨r, hr, h2, hpr⟩ := hex
  obtain ⟨ha, hb, hab, hKa, hKb, hsent, hclass, hoa, hob⟩ := hub_run2 w n recs he0 K hin R hR r hr h2
  rcases hpr with rfl | rfl
  · refine ⟨edgeAt recs (r.1 + 1), ha, hb, fun h => hab h.symm, by rw [hKa, hKb],
      by rw [hKa]; exact hsent, hoa, hob, ?_⟩
    intro q' hq' hK'
    exact hclass q' hq' (by rw [hK', hKa])
  · refine ⟨edgeAt recs r.1, hb, ha, hab, by rw [hKa, hKb], by rw [hKb]; exact hsent,
      hob, hoa, ?_⟩
    intro q' hq' hK'
    rcases hclass q' hq' (by rw [hK', hKb]) with h | h
    · right; exact h
    · left; exact h

theorem hub_run_of_edge (w n : Nat) (recs : List KeyHalfEdge) (he0 : List HalfEdge)
    (K : Nat → Nat) (hin : LinkInput w n recs he0 K) (p : Nat) (hp : p < n) :
    ∃ i r, i < n ∧ edgeAt recs i = p ∧ IsMaxRun recs n r ∧ r.1 ≤ i ∧ i < r.1 + r.2 ∧
      keyAt recs r.1 = K p ∧
      ∀ q, q < n → K q = K p → ∃ j, r.1 ≤ j ∧ j < r.1 + r.2 ∧ edgeAt recs j = q := by
  obtain ⟨i, hi, hip⟩ := hin.hsurj p hp
  obtain ⟨r, hr, h1, h2⟩ := run_of_pos recs n i hi
  have hkey : keyAt recs r.1 = K p := by
    rw [← run_key recs n r hr i h1 h2, hin.hK i hi, hip]
  refine ⟨i, r, hi, hip, hr, h1, h2, hkey, ?_⟩
  intro q hq hKq
  obtain ⟨j, hj, hjq⟩ := hin.hsurj q hq
  have hkj : keyAt recs j = keyAt recs r.1 := by
    rw [hin.hK j hj, hjq, hKq, hkey]
  have := run_keyclass recs n hin.hsorted r hr j hj hkj
  exact ⟨j, this.1, this.2, hjq⟩

theorem hub_pair (w n : Nat) (recs : List KeyHalfEdge) (he0 : List HalfEdge) (K : Nat → Nat)
    (hin : LinkInput w n recs he0 K) (R : List (Nat × Nat))
    (hR : ∀ r, r ∈ R ↔ IsRun recs n r) (p q : Nat) (hp : p < n) (hq : q < n) (hpq : p ≠ q)
    (hK : K q = K p) (hsent : K p ≠ sentinel)
    (hclass : ∀ q', q' < n → K q' = K p → q' = p ∨ q' = q) :
    ((R.foldl (processRun w recs) he0).getD p default).opposite_half_edge_ofs
        = (q : Int) - (p : Int) ∧
    ((R.foldl (processRun w recs) he0).getD q default).opposite_half_edge_ofs
        = (p : Int) - (q : Int) := by
  obtain ⟨i, r, hi, hip, hr, h1, h2, hkey, hall⟩ := hub_run_of_edge w n recs he0 K hin p hp
  obtain ⟨j, hj1, hj2, hjq⟩ := hall q hq hK
  have hle : r.1 + r.2 ≤ n := hr.2.2.1
  have hij : i ≠ j := by
    intro h; apply hpq; rw [← hip, ← hjq, h]
  have hmem : ∀ k, r.1 ≤ k → k < r.1 + r.2 → k = i ∨ k = j := by
    intro k hk1 hk2
    have hkk : K (edgeAt recs k) = K p := by
      rw [← hin.hK k (by omega), run_key recs n r hr k hk1 hk2, hkey]
    rcases hclass _ (hin.hd.1 k (by omega)) hkk with h | h
    · left; exact hin.hd.2 k i (by omega) hi (by rw [h, hip])
    · right; exact hin.hd.2 k j (by omega) (by omega) (by rw [h, hjq])
  have h2' : r.2 = 2 := by
    by_contra hne
    have h3 : 3 ≤ r.2 := by omega
    have a := hmem r.1 (by omega) (by omega)
    have b := hmem (r.1 + 1) (by omega) (by omega)
    have c := hmem (r.1 + 2) (by omega) (by omega)
    omega
  have hrR : r ∈ R := (hR r).2 ⟨hr, by rw [hkey]; exact hsent⟩
  obtain ⟨-, -, -, -, -, -, -, hoa, hob⟩ := hub_run2 w n recs he0 K hin R hR r hrR h2'
  have hcase : (i = r.1 ∧ j = r.1 + 1) ∨ (i = r.1 + 1 ∧ j = r.1) := by omega
  rcases hcase with ⟨e1, e2⟩ | ⟨e1, e2⟩
  · rw [← hip, ← hjq, e1, e2]; exact ⟨hoa, hob⟩
  · rw [← hip, ← hjq, e1, e2]; exact ⟨hob, hoa⟩

theorem hub_not_in_pair (w n : Nat) (recs : List KeyHalfEdge) (he0 : List HalfEdge)
    (K : Nat → Nat) (hin : LinkInput w n recs he0 K) (R : List (Nat × Nat))
    (hR : ∀ r, r ∈ R ↔ IsRun recs n r) (p : Nat)
    (hno : ∀ r, IsRun recs n r → r.2 = 2 → ∀ i, r.1 ≤ i → i < r.1 + r.2 → edgeAt recs i ≠ p) :
    ((R.foldl (processRun w recs) he0).getD p default).opposite_half_edge_ofs = 0 := by
  rw [foldl_processRun_opp_other w recs R he0 p, hin.hopp]
  intro r hr h2
  have hrun := (hR r).1 hr
  constructor
  · intro hc; exact hno r hrun h2 r.1 (Nat.le_refl _) (by omega) hc.symm
  · intro hc; exact hno r hrun h2 (r.1 + 1) (by omega) (by omega) hc.symm

theorem hub_sentinel (w n : Nat) (recs : List KeyHalfEdge) (he0 : List HalfEdge)
    (K : Nat → Nat) (hin : LinkInput w n recs he0 K) (R : List (Nat × Nat))
    (hR : ∀ r, r ∈ R ↔ IsRun recs n r) (p : Nat) (hK : K p = sentinel) :
    ((R.foldl (processRun w recs) he0).getD p default).opposite_half_edge_ofs = 0 := by
  apply hub_not_in_pair w n recs he0 K hin R hR p
  intro r hrun h2 i hi1 hi2 hip
  apply hrun.2
  have hle : r.1 + r.2 ≤ n := hrun.1.2.2.1
  rw [← run_key recs n r hrun.1 i hi1 hi2, hin.hK i (by omega), hip, hK]

theorem hub_nonmanifold (w n : Nat) (recs : List KeyHalfEdge) (he0 : List HalfEdge)
    (K : Nat → Nat) (hin : LinkInput w n recs he0 K) (R : List (Nat × Nat))
    (hR : ∀ r, r ∈ R ↔ IsRun recs n r) (p q1 q2 : Nat) (hp : p < n) (hq1 : q1 < n)
    (hq2 : q2 < n) (h1 : q1 ≠ p) (h2 : q2 ≠ p) (h12 : q1 ≠ q2) (hK1 : K q1 = K p)
    (hK2 : K q2 = K p) (hsent : K p ≠ sentinel) :
    ((R.foldl (processRun w recs) he0).getD p default).opposite_half_edge_ofs = 0 ∧
    ((R.foldl (processRun w recs) he0).getD p default).vertex_crease_weight = f32_inf ∧
    ((R.foldl (processRun w recs) he0).getD (next he0 p) default).vertex_crease_weight
      = f32_inf := by
  obtain ⟨i, r, hi, hip, hr, hr1, hr2, hkey, hall⟩ := hub_run_of_edge w n recs he0 K hin p hp
  obtain ⟨j1, a1, a2, a3⟩ := hall q1 hq1 hK1
  obtain ⟨j2, b1, b2, b3⟩ := hall q2 hq2 hK2
  have hi1 : i ≠ j1 := by intro h; apply h1; rw [← a3, ← hip, h]
  have hi2 : i ≠ j2 := by intro h; apply h2; rw [← b3, ← hip, h]
  have hj : j1 ≠ j2 := by intro h; apply h12; rw [← a3, ← b3, h]
  have h3 : 3 ≤ r.2 := by omega
  have hrR : r ∈ R := (hR r).2 ⟨hr, by rw [hkey]; exact hsent⟩
  have hle : r.1 + r.2 ≤ n := hr.2.2.1
  have hidx : r.1 + (i - r.1) = i := by omega
  refine ⟨?_, ?_, ?_⟩
  · apply hub_not_in_pair w n recs he0 K hin R hR p
    intro r' hrun' h2' k hk1 hk2 hkp
    have hle' : r'.1 + r'.2 ≤ n := hrun'.1.2.2.1
    have hki : k = i := hin.hd.2 k i (by omega) hi (by rw [hkp, hip])
    have := isMaxRun_eq_of_overlap recs n r r' hr hrun'.1 (i - r.1) (k - r'.1) (by omega)
      (by omega) (by omega)
    rw [← this] at h2'
    omega
  · apply foldl_processRun_vcw_targets w recs R he0 r hrR h3 (i - r.1) (by omega) p
      (by rw [hin.hlen]; exact hp)
    left; rw [hidx, hip]
  · apply foldl_processRun_vcw_targets w recs R he0 r hrR h3 (i - r.1) (by omega) (next he0 p)
      (by rw [hin.hlen]; exact hin.hnext p hp)
    right; rw [hidx, hip]

/-! ## The offsets written by the fill stage -/

theorem wrap_nat_small (w : Nat) (hw : 1 ≤ w) (k : Nat) (hk : (k : Int) < 2 ^ (w - 1)) :
    wrap w (k : Int) = (k : Int) := by
  apply wrap_of_bounds w _ hw _ hk
  have h1 : (0 : Int) ≤ k := Int.ofNat_nonneg k
  have h2 : (0 : Int) < 2 ^ (w - 1) := by positivity
  linarith

theorem wrap_size_t_neg (w : Nat) (hw : 1 ≤ w) (hw64 : w ≤ 64) (k : Nat)
    (hk : (k : Int) ≤ 2 ^ (w - 1)) :
    wrap w (((2 ^ 64 - k) % 2 ^ 64 : Nat) : Int) = -(k : Int) := by
  have hpow : (2 : Int) ^ (w - 1) ≤ 2 ^ 63 := by
    apply pow_le_pow_right₀ (by norm_num) (by omega)
  have hk64 : k ≤ 2 ^ 63 := by
    have : (k : Int) ≤ 2 ^ 63 := le_trans hk hpow
    exact_mod_cast this
  have hcast : (((2 ^ 64 - k) % 2 ^ 64 : Nat) : Int) = -(k : Int) + 2 ^ 64 ∨
      (((2 ^ 64 - k) % 2 ^ 64 : Nat) : Int) = -(k : Int) := by
    by_cases h0 : k = 0
    · right; subst h0; simp
    · left
      rw [Nat.mod_eq_of_lt (by omega)]
      have : ((2 ^ 64 - k : Nat) : Int) = (2 ^ 64 : Int) - k := by
        rw [Nat.cast_sub (by omega)]; norm_num
      rw [this]; ring
  have hb : wrap w (-(k : Int)) = -(k : Int) := by
    apply wrap_of_bounds w _ hw
    · linarith
    · have h1 : (0 : Int) ≤ k := Int.ofNat_nonneg k
      have h2 : (0 : Int) < 2 ^ (w - 1) := by positivity
      linarith
  rcases hcast with h | h
  · rw [h, wrap_add_two_pow w _ hw64, hb]
  · rw [h, hb]

theorem mkHalfEdge_offsets (w : Nat) (m : SubdivMesh) (st : State) (N e d : Nat) (hw : 2 ≤ w)
    (hw64 : w ≤ 64) (hN : N ≤ 2 ^ (w - 1)) (hd : d < N) :
    (mkHalfEdge w m st N e d).next_half_edge_ofs
        = (if d = N - 1 then -((N : Int) - 1) else 1) ∧
    (mkHalfEdge w m st N e d).prev_half_edge_ofs
        = (if d = 0 then (N : Int) - 1 else -1) := by
  have hN1 : ((N - 1 : Nat) : Int) = (N : Int) - 1 := by
    rw [Nat.cast_sub (by omega)]; norm_num
  have hNi : (N : Int) ≤ 2 ^ (w - 1) := by exact_mod_cast hN
  have hone : (1 : Int) < 2 ^ (w - 1) := by
    have : (2 : Int) ^ 1 ≤ 2 ^ (w - 1) := pow_le_pow_right₀ (by norm_num) (by omega)
    linarith
  unfold mkHalfEdge
  simp only
  constructor
  · split
    · rw [wrap_size_t_neg w (by omega) hw64 (N - 1) (by rw [hN1]; linarith), hN1]
    · exact wrap_nat_small w (by omega) 1 (by exact_mod_cast hone)
  · split
    · rw [wrap_nat_small w (by omega) (N - 1) (by rw [hN1]; linarith), hN1]
    · have := wrap_size_t_neg w (by omega) hw64 1 (by exact_mod_cast hone.le)
      simpa using this

/-! ## From the fill stage to the linking pass -/

theorem face_count_le (m : SubdivMesh) (hwf : WellFormed m) (f : Nat) (hf : f < m.numFaces) :
    m.faceVertices.getD f 0 ≤ m.numEdges := by
  obtain ⟨hlen, -, hsum, -, -⟩ := hwf
  have h1 := sum_take_succ_getD m.faceVertices f (by omega)
  have h2 := sum_take_le m.faceVertices (f + 1)
  omega

theorem pow31_le (w : Nat) (hw : 32 ≤ w) : 2 ^ 31 ≤ 2 ^ (w - 1) :=
  Nat.pow_le_pow_right (by norm_num) (by omega)

theorem fill_next (w : Nat) (m : SubdivMesh) (s : Schedule) (hw : 32 ≤ w) (hw64 : w ≤ 64)
    (hwf : WellFormed m) (f d : Nat) (hf : f < m.numFaces) (hd : d < m.faceVertices.getD f 0) :
    next (fillWrites w m (prepare m s).1).halfEdges
        ((prepare m s).1.faceStartEdge.getD f 0 + d)
      = (prepare m s).1.faceStartEdge.getD f 0 + (d + 1) % m.faceVertices.getD f 0 := by
  have hN := face_count_le m hwf f hf
  have hn := hwf.2.2.2.1
  have hp := pow31_le w hw
  unfold next
  rw [fillWrites_halfEdges w m s hwf f d hf hd,
    (mkHalfEdge_offsets w m _ _ _ d (by omega) hw64 (by omega) hd).1]
  split
  · rename_i h
    have : (d + 1) % m.faceVertices.getD f 0 = 0 := by
      have : d + 1 = m.faceVertices.getD f 0 := by omega
      rw [this, Nat.mod_self]
    rw [this]
    have hd' : (d : Int) = (m.faceVertices.getD f 0 : Int) - 1 := by
      rw [h, Nat.cast_sub (by omega)]; norm_num
    have : (((prepare m s).1.faceStartEdge.getD f 0 + d : Nat) : Int)
        + -((m.faceVertices.getD f 0 : Int) - 1)
        = (((prepare m s).1.faceStartEdge.getD f 0 + 0 : Nat) : Int) := by
      push_cast; rw [hd']; ring
    rw [this, Int.toNat_ofNat]
  · rename_i h
    rw [Nat.mod_eq_of_lt (by omega)]
    have : (((prepare m s).1.faceStartEdge.getD f 0 + d : Nat) : Int) + 1
        = (((prepare m s).1.faceStartEdge.getD f 0 + (d + 1) : Nat) : Int) := by
      push_cast; ring
    rw [this, Int.toNat_ofNat]

theorem pair64_lt (x y : Nat) : pair64 x y < 2 ^ 64 := by
  unfold pair64
  split <;> exact Nat.mod_lt _ (by norm_num)

theorem mkKeyHalfEdge_key_le (m : SubdivMesh) (st : State) (f N e d : Nat) :
    (mkKeyHalfEdge m st f N e d).key ≤ sentinel := by
  unfold mkKeyHalfEdge
  split
  · exact Nat.le_refl _
  · have := pair64_lt (m.vertexIndices.getD (e + d) 0) (m.vertexIndices.getD (e + (d + 1) % N) 0)
    simp only [edgeKey, Edge, sentinel]
    omega

theorem linkInput_of_mesh (w : Nat) (m : SubdivMesh) (s : Schedule) (hw : 32 ≤ w)
    (hw64 : w ≤ 64) (hwf : WellFormed m) :
    LinkInput w m.numEdges
      (radix_sort_u64 (fillWrites w m (prepare m s).1).halfEdges1 m.numEdges)
      (fillWrites w m (prepare m s).1).halfEdges
      (fun p => keyAt (fillWrites w m (prepare m s).1).halfEdges1 p) := by
  have hlen1 := fillWrites_halfEdges1_length w m s
  have hrec := radix_sort_records (fillWrites w m (prepare m s).1).halfEdges1
    (by intro p hp; rw [hlen1] at hp; exact fillWrites_edge w m s hwf p hp)
  rw [hlen1] at hrec
  obtain ⟨hd, hK, hsurj⟩ := hrec
  have hKle : ∀ p, p < m.numEdges →
      keyAt (fillWrites w m (prepare m s).1).halfEdges1 p ≤ sentinel := by
    intro p hp
    obtain ⟨f, d, hf, hd', rfl⟩ := flat_locate_mesh m s hwf p hp
    unfold keyAt
    rw [fillWrites_halfEdges1 w m s hwf f d hf hd']
    exact mkKeyHalfEdge_key_le _ _ _ _ _ _
  refine ⟨hw, hwf.2.2.2.1, fillWrites_halfEdges_length w m s, ?_, ?_, hd, hK, hsurj, ?_, ?_⟩
  · have := radix_sort_sorted (fillWrites w m (prepare m s).1).halfEdges1 m.numEdges
      (by rw [hlen1])
    exact this
  · intro i hi
    rw [hK i hi]
    exact hKle _ (hd.1 i hi)
  · intro p
    by_cases hp : p < m.numEdges
    · obtain ⟨f, d, hf, hd', rfl⟩ := flat_locate_mesh m s hwf p hp
      rw [fillWrites_halfEdges w m s hwf f d hf hd']
      rfl
    · rw [List.getD_eq_default _ _ (by rw [fillWrites_halfEdges_length]; omega)]
      rfl
  · intro p hp
    obtain ⟨f, d, hf, hd', rfl⟩ := flat_locate_mesh m s hwf p hp
    rw [fill_next w m s hw hw64 hwf f d hf hd']
    have hpos : 0 < m.faceVertices.getD f 0 := by omega
    exact fillPairs_pos_lt m s hwf f _ hf (Nat.mod_lt _ hpos)

/-! ## Keys and endpoints -/

theorem pair64_comm (x y : Nat) : pair64 x y = pair64 y x := by
  unfold pair64
  by_cases h1 : x < y
  · rw [if_pos h1, if_neg (by omega)]
  · by_cases h2 : y < x
    · rw [if_neg h1, if_pos h2]
    · have : x = y := by omega
      subst this
      rfl

theorem pair64_inj (a b c d : Nat) (ha : a < 2 ^ 32) (hb : b < 2 ^ 32) (hc : c < 2 ^ 32)
    (hd : d < 2 ^ 32) (h : pair64 a b = pair64 c d) :
    (a = c ∧ b = d) ∨ (a = d ∧ b = c) := by
  rw [pair64_value a b ha hb, pair64_value c d hc hd] at h
  have h1 : min a b < 2 ^ 32 := by omega
  have h2 : min c d < 2 ^ 32 := by omega
  have hmax : max a b = max c d := by omega
  have hmin : min a b = min c d := by omega
  omega

/-! ## The construction on a well-formed mesh -/

theorem linked_some (w : Nat) (m : SubdivMesh) (s : Schedule) (st : State)
    (h : linked w m s = some st) :
    fillOk m (prepare m s).1 = true ∧
    st = { (prepare m s).1 with
      halfEdges := linkPass w
        (radix_sort_u64 (fillWrites w m (prepare m s).1).halfEdges1 (prepare m s).2)
        (prepare m s).2 s.linkChunks (fillWrites w m (prepare m s).1).halfEdges
      halfEdges1 := radix_sort_u64 (fillWrites w m (prepare m s).1).halfEdges1 (prepare m s).2 } := by
  unfold linked at h
  simp only [fill_eq] at h
  by_cases hok : fillOk m (prepare m s).1 = true
  · rw [if_pos hok] at h
    simp only [Option.some.injEq] at h
    exact ⟨hok, h.symm⟩
  · rw [if_neg hok] at h
    simp at h

theorem cleanup_halfEdges (m : SubdivMesh) (st : State) :
    (cleanup m st).halfEdges = st.halfEdges ∧ (cleanup m st).faceStartEdge = st.faceStartEdge := by
  unfold cleanup
  split <;> exact ⟨rfl, rfl⟩

theorem init_some (w : Nat) (m : SubdivMesh) (s : Schedule) (st : State) (hwf : WellFormed m)
    (h : initializeHalfEdgeStructures w m s = some st) :
    fillOk m (prepare m s).1 = true ∧
    st.halfEdges = linkPass w
        (radix_sort_u64 (fillWrites w m (prepare m s).1).halfEdges1 m.numEdges)
        m.numEdges s.linkChunks (fillWrites w m (prepare m s).1).halfEdges ∧
    st.faceStartEdge = (prepare m s).1.faceStartEdge := by
  unfold initializeHalfEdgeStructures at h
  rw [Option.map_eq_some'] at h
  obtain ⟨st', hst', hc⟩ := h
  obtain ⟨hok, heq⟩ := linked_some w m s st' hst'
  rw [prepare_numHalfEdges m s hwf] at heq
  have := cleanup_halfEdges m st'
  rw [hc] at this
  refine ⟨hok, ?_, ?_⟩
  · rw [this.1, heq]
  · rw [this.2, heq]

/-- The half-edge array built on a well-formed mesh is the fold of `processRun` over a list
that holds exactly the maximal runs of non-sentinel keys of the sorted records. -/
theorem init_runs (w : Nat) (m : SubdivMesh) (s : Schedule) (st : State) (hw : 32 ≤ w)
    (hw64 : w ≤ 64) (hwf : WellFormed m) (hcs : IsChunking m.numEdges s.linkChunks)
    (h : initializeHalfEdgeStructures w m s = some st) :
    ∃ R : List (Nat × Nat),
      (∀ r, r ∈ R ↔ IsRun
        (radix_sort_u64 (fillWrites w m (prepare m s).1).halfEdges1 m.numEdges) m.numEdges r) ∧
      st.halfEdges = R.foldl
        (processRun w (radix_sort_u64 (fillWrites w m (prepare m s).1).halfEdges1 m.numEdges))
        (fillWrites w m (prepare m s).1).halfEdges ∧
      st.faceStartEdge = (prepare m s).1.faceStartEdge := by
  obtain ⟨-, h1, h2⟩ := init_some w m s st hwf h
  have hin := linkInput_of_mesh w m s hw hw64 hwf
  refine ⟨s.linkChunks.flatMap (chunkRuns
    (radix_sort_u64 (fillWrites w m (prepare m s).1).halfEdges1 m.numEdges) m.numEdges),
    fun r => mem_allRuns _ _ hin.hsorted hin.hle _ hcs r, ?_, h2⟩
  rw [h1, linkPass_eq]

theorem fill_key (w : Nat) (m : SubdivMesh) (s : Schedule) (hwf : WellFormed m) (f d : Nat)
    (hf : f < m.numFaces) (hd : d < m.faceVertices.getD f 0) :
    keyAt (fillWrites w m (prepare m s).1).halfEdges1
        ((prepare m s).1.faceStartEdge.getD f 0 + d)
      = if holeSetLookup m.holes f then sentinel
        else Edge (m.vertexIndices.getD ((prepare m s).1.faceStartEdge.getD f 0 + d) 0)
          (m.vertexIndices.getD ((prepare m s).1.faceStartEdge.getD f 0
            + (d + 1) % m.faceVertices.getD f 0) 0) := by
  unfold keyAt
  rw [fillWrites_halfEdges1 w m s hwf f d hf hd]
  unfold mkKeyHalfEdge
  have : (prepare m s).1.holeSet = m.holes := rfl
  rw [this]
  split <;> rfl

theorem fill_origin (w : Nat) (m : SubdivMesh) (s : Schedule) (hwf : WellFormed m) (f d : Nat)
    (hf : f < m.numFaces) (hd : d < m.faceVertices.getD f 0) :
    ((fillWrites w m (prepare m s).1).halfEdges.getD
        ((prepare m s).1.faceStartEdge.getD f 0 + d) default).vtx_index
      = m.vertexIndices.getD ((prepare m s).1.faceStartEdge.getD f 0 + d) 0 := by
  rw [fillWrites_halfEdges w m s hwf f d hf hd]
  rfl

theorem vertex_lt (m : SubdivMesh) (hwf : WellFormed m) (i : Nat) :
    m.vertexIndices.getD i 0 < 2 ^ 32 := by
  by_cases hi : i < m.vertexIndices.length
  · exact hwf.2.2.2.2 _ (getD_mem_of_lt _ _ _ hi)
  · rw [List.getD_eq_default _ _ (by omega)]
    norm_num

theorem holeSetLookup_iff (holes : List Nat) (f : Nat) :
    holeSetLookup holes f = true ↔ f ∈ holes := by
  unfold holeSetLookup
  simp

/-! ## Claims -/

/-- C10. The canonical edge key does not depend on the order of the two vertex indices, and for
32-bit indices it is `max(a,b) * 2^32 + min(a,b)`: the larger index is in the high 32 bits. -/
theorem pair64_canonical (a b : Nat) (ha : a < 2 ^ 32) (hb : b < 2 ^ 32) :
    pair64 a b = pair64 b a ∧ pair64 a b = max a b * 2 ^ 32 + min a b :=
  ⟨pair64_comm a b, pair64_value a b ha hb⟩

theorem pair64_canonical_witness :
    (7 < 2 ^ 32 ∧ 4294967295 < 2 ^ 32) ∧
    pair64 7 4294967295 = pair64 4294967295 7 ∧
    pair64 7 4294967295 = max 7 4294967295 * 2 ^ 32 + min 7 4294967295 :=
  ⟨by decide, pair64_canonical 7 4294967295 (by decide) (by decide)⟩

/-- C8. Face offset index: for every sequence of per-face vertex counts and every way of
cutting it into blocks, the prefix sum returns an array of the same length whose entry `i` is
the sum of the counts before `i` (so entry 0 is 0 and consecutive entries differ by the count
between them), and a total that is the sum of all counts, which is the last entry plus the last
count when there is a face; it agrees with the sequential loop of the reference variant. -/
theorem parallel_prefix_sum_correct (blockSizes faceVertices : List Nat) :
    (parallel_prefix_sum (splitBlocks blockSizes faceVertices)).1.length = faceVertices.length ∧
    (0 < faceVertices.length →
      (parallel_prefix_sum (splitBlocks blockSizes faceVertices)).1.getD 0 0 = 0) ∧
    (∀ i, i + 1 < faceVertices.length →
      (parallel_prefix_sum (splitBlocks blockSizes faceVertices)).1.getD (i + 1) 0
        - (parallel_prefix_sum (splitBlocks blockSizes faceVertices)).1.getD i 0
        = faceVertices.getD i 0 ∧
      (parallel_prefix_sum (splitBlocks blockSizes faceVertices)).1.getD i 0
        ≤ (parallel_prefix_sum (splitBlocks blockSizes faceVertices)).1.getD (i + 1) 0) ∧
    (parallel_prefix_sum (splitBlocks blockSizes faceVertices)).2 = faceVertices.sum ∧
    (∀ last, faceVertices.length = last + 1 →
      (parallel_prefix_sum (splitBlocks blockSizes faceVertices)).2
        = (parallel_prefix_sum (splitBlocks blockSizes faceVertices)).1.getD last 0
          + faceVertices.getD last 0) ∧
    parallel_prefix_sum (splitBlocks blockSizes faceVertices) = faceStartLoop faceVertices 0 := by
  rw [prefix_sum_blocks]
  refine ⟨faceStartLoop_length _ _, ?_, ?_, ?_, ?_, rfl⟩
  · intro h
    rw [faceStartLoop_getD _ _ _ h]
    simp
  · intro i hi
    rw [faceStartLoop_getD _ _ _ hi, faceStartLoop_getD _ _ _ (by omega),
      sum_take_succ_getD _ _ (by omega)]
    omega
  · rw [faceStartLoop_total]; simp
  · intro last hlast
    rw [faceStartLoop_total, faceStartLoop_getD _ _ _ (by omega)]
    have h1 := sum_take_succ_getD faceVertices last (by omega)
    rw [← hlast, List.take_length] at h1
    omega

theorem parallel_prefix_sum_correct_witness :
    parallel_prefix_sum (splitBlocks [2, 1] [4, 3, 0, 5]) = ([0, 4, 7, 7], 12) ∧
    (parallel_prefix_sum (splitBlocks [2, 1] [4, 3, 0, 5])).1.length = [4, 3, 0, 5].length ∧
    (parallel_prefix_sum (splitBlocks [2, 1] [4, 3, 0, 5])).2 = [4, 3, 0, 5].sum :=
  ⟨by decide, (parallel_prefix_sum_correct [2, 1] [4, 3, 0, 5]).1,
    (parallel_prefix_sum_correct [2, 1] [4, 3, 0, 5]).2.2.2.1⟩

/-- C9. Local topology of the fill stage: on a well-formed mesh, for every face `f` with
`N = faceVertices[f] >= 1` vertices and every `d < N`, the half-edge that the fill stage leaves
at flat position `faceStartEdge[f]+d` has origin `vertexIndices[faceStartEdge[f]+d]`, next
offset `+1` unless `d = N-1` in which case `-(N-1)`, previous offset `-1` unless `d = 0` in
which case `+(N-1)`, and opposite offset 0: the `size_t` values of the source, stored in a
signed offset field of 32 to 64 bits, are exactly these signed values. -/
theorem fill_local_topology (w : Nat) (m : SubdivMesh) (s : Schedule) (fs : FillState)
    (hw : 32 ≤ w) (hw64 : w ≤ 64) (hwf : WellFormed m)
    (hfill : fill w m (prepare m s).1 = some fs) (f d : Nat) (hf : f < m.numFaces)
    (hd : d < m.faceVertices.getD f 0) :
    (fs.halfEdges.getD ((prepare m s).1.faceStartEdge.getD f 0 + d) default).vtx_index
      = m.vertexIndices.getD ((prepare m s).1.faceStartEdge.getD f 0 + d) 0 ∧
    (fs.halfEdges.getD ((prepare m s).1.faceStartEdge.getD f 0 + d) default).next_half_edge_ofs
      = (if d = m.faceVertices.getD f 0 - 1 then -((m.faceVertices.getD f 0 : Int) - 1) else 1) ∧
    (fs.halfEdges.getD ((prepare m s).1.faceStartEdge.getD f 0 + d) default).prev_half_edge_ofs
      = (if d = 0 then (m.faceVertices.getD f 0 : Int) - 1 else -1) ∧
    (fs.halfEdges.getD ((prepare m s).1.faceStartEdge.getD f 0 + d) default).opposite_half_edge_ofs
      = 0 := by
  have hfs : fs = fillWrites w m (prepare m s).1 := by
    rw [fill_eq] at hfill
    by_cases hok : fillOk m (prepare m s).1 = true
    · rw [if_pos hok] at hfill
      exact (Option.some.inj hfill).symm
    · rw [if_neg hok] at hfill
      simp at hfill
  have hN := face_count_le m hwf f hf
  have hn := hwf.2.2.2.1
  have hp := pow31_le w hw
  have hofs := mkHalfEdge_offsets w m (prepare m s).1 (m.faceVertices.getD f 0)
    ((prepare m s).1.faceStartEdge.getD f 0) d (by omega) hw64 (by omega) hd
  rw [hfs, fillWrites_halfEdges w m s hwf f d hf hd]
  exact ⟨rfl, hofs.1, hofs.2, rfl⟩

theorem fill_local_topology_witness :
    WellFormed twoTriangles ∧
    ∃ fs, fill 32 twoTriangles (prepare twoTriangles ⟨[], [(0, 6)]⟩).1 = some fs ∧
      (fs.halfEdges.getD 5 default).vtx_index = 3 ∧
      (fs.halfEdges.getD 5 default).next_half_edge_ofs = -2 ∧
      (fs.halfEdges.getD 5 default).prev_half_edge_ofs = -1 ∧
      (fs.halfEdges.getD 5 default).opposite_half_edge_ofs = 0 :=
  ⟨by decide, fillWrites 32 twoTriangles (prepare twoTriangles ⟨[], [(0, 6)]⟩).1, by decide,
    fill_local_topology 32 twoTriangles ⟨[], [(0, 6)]⟩ _ (by decide) (by decide) (by decide)
      (by decide) 1 2 (by decide) (by decide)⟩

/-- C1. Symmetry: on a well-formed mesh, after `initializeHalfEdgeStructures` every half-edge
`h` whose opposite offset is not zero has an opposite whose stored offset is the negation of the
offset stored at `h`, so that `opposite(opposite(h)) = h`. -/
theorem opposite_symmetry (w : Nat) (m : SubdivMesh) (s : Schedule) (st : State) (hw : 32 ≤ w)
    (hw64 : w ≤ 64) (hwf : WellFormed m) (hcs : IsChunking m.numEdges s.linkChunks)
    (hst : initializeHalfEdgeStructures w m s = some st) (h : Nat)
    (hopp : (st.halfEdges.getD h default).opposite_half_edge_ofs ≠ 0) :
    (st.halfEdges.getD (opposite st.halfEdges h) default).opposite_half_edge_ofs
      = -(st.halfEdges.getD h default).opposite_half_edge_ofs ∧
    opposite st.halfEdges (opposite st.halfEdges h) = h := by
  obtain ⟨R, hR, hhe, -⟩ := init_runs w m s st hw hw64 hwf hcs hst
  have hin := linkInput_of_mesh w m s hw hw64 hwf
  rw [hhe] at hopp ⊢
  obtain ⟨q, hh, hq, hqh, -, -, h1, h2, -⟩ := hub_opp_nonzero w _ _ _ _ hin R hR h hopp
  have ho : opposite (R.foldl
      (processRun w (radix_sort_u64 (fillWrites w m (prepare m s).1).halfEdges1 m.numEdges))
      (fillWrites w m (prepare m s).1).halfEdges) h = q := by
    unfold opposite
    rw [h1]
    have : (h : Int) + ((q : Int) - (h : Int)) = (q : Int) := by ring
    rw [this, Int.toNat_ofNat]
  rw [ho]
  refine ⟨by rw [h1, h2]; ring, ?_⟩
  unfold opposite
  rw [h2]
  have : (q : Int) + ((h : Int) - (q : Int)) = (h : Int) := by ring
  rw [this, Int.toNat_ofNat]

theorem opposite_symmetry_witness :
    WellFormed twoTrianglesOriented ∧ IsChunking 6 [(3, 6), (0, 3)] ∧
    ∃ st, initializeHalfEdgeStructures 32 twoTrianglesOriented ⟨[1], [(3, 6), (0, 3)]⟩ = some st ∧
      (st.halfEdges.getD 1 default).opposite_half_edge_ofs ≠ 0 ∧
      (st.halfEdges.getD (opposite st.halfEdges 1) default).opposite_half_edge_ofs
        = -(st.halfEdges.getD 1 default).opposite_half_edge_ofs ∧
      opposite st.halfEdges (opposite st.halfEdges 1) = 1 :=
  ⟨by decide, ⟨[(0, 3), (3, 6)], by decide, by decide⟩,
    (initializeHalfEdgeStructures 32 twoTrianglesOriented ⟨[1], [(3, 6), (0, 3)]⟩).get (by decide),
    by decide, by decide,
    opposite_symmetry 32 twoTrianglesOriented ⟨[1], [(3, 6), (0, 3)]⟩ _ (by decide) (by decide)
      (by decide) ⟨[(0, 3), (3, 6)], by decide, by decide⟩ (by decide) 1 (by decide)⟩

/-- C2. Manifold linking: for every array of `n` key records sorted by key that point to
pairwise different half-edges, every way of cutting `[0,n)` into ranges, and every maximal run
of exactly two records with the same non-sentinel key, after the linking pass each of the two
half-edges has an opposite offset equal to the index of the other minus its own, which is not
zero, and the two half-edges are opposites of each other. -/
theorem manifold_linking (w n : Nat) (recs : List KeyHalfEdge) (he0 : List HalfEdge)
    (cs : List (Nat × Nat)) (hw : 32 ≤ w) (hn : n < 2 ^ 31) (hlen : he0.length = n)
    (hsorted : SortedKeys recs n) (hle : ∀ i, i < n → keyAt recs i ≤ sentinel)
    (hd : DistinctEdges recs n n) (hcs : IsChunking n cs) (r : Nat × Nat)
    (hr : IsRun recs n r) (h2 : r.2 = 2) :
    ((linkPass w recs n cs he0).getD (edgeAt recs r.1) default).opposite_half_edge_ofs
      = (edgeAt recs (r.1 + 1) : Int) - (edgeAt recs r.1 : Int) ∧
    ((linkPass w recs n cs he0).getD (edgeAt recs (r.1 + 1)) default).opposite_half_edge_ofs
      = (edgeAt recs r.1 : Int) - (edgeAt recs (r.1 + 1) : Int) ∧
    ((linkPass w recs n cs he0).getD (edgeAt recs r.1) default).opposite_half_edge_ofs ≠ 0 ∧
    ((linkPass w recs n cs he0).getD (edgeAt recs (r.1 + 1)) default).opposite_half_edge_ofs ≠ 0 ∧
    opposite (linkPass w recs n cs he0) (edgeAt recs r.1) = edgeAt recs (r.1 + 1) ∧
    opposite (linkPass w recs n cs he0) (edgeAt recs (r.1 + 1)) = edgeAt recs r.1 := by
  have hle2 : r.1 + r.2 ≤ n := hr.1.2.2.1
  have ha := hd.1 r.1 (by omega)
  have hb := hd.1 (r.1 + 1) (by omega)
  have hab : edgeAt recs r.1 ≠ edgeAt recs (r.1 + 1) := by
    intro heq
    have := hd.2 r.1 (r.1 + 1) (by omega) (by omega) heq
    omega
  have hR := mem_allRuns recs n hsorted hle cs hcs
  have hpair := foldl_processRun_opp_pair w recs n (cs.flatMap (chunkRuns recs n)) he0
    (fun r' hr' => ((hR r').1 hr').1) (by rw [hlen]; exact hd) r ((hR r).2 hr) h2
  rw [wrap_index_diff w hw _ _ (by omega) (by omega),
    wrap_index_diff w hw _ _ (by omega) (by omega), ← linkPass_eq] at hpair
  have hne : (edgeAt recs (r.1 + 1) : Int) ≠ (edgeAt recs r.1 : Int) := by
    intro h; apply hab; exact_mod_cast h.symm
  refine ⟨hpair.1, hpair.2, ?_, ?_, ?_, ?_⟩
  · rw [hpair.1]; intro h; apply hne; linarith
  · rw [hpair.2]; intro h; apply hne; linarith
  · unfold opposite
    rw [hpair.1]
    have : (edgeAt recs r.1 : Int) + ((edgeAt recs (r.1 + 1) : Int) - (edgeAt recs r.1 : Int))
        = (edgeAt recs (r.1 + 1) : Int) := by ring
    rw [this, Int.toNat_ofNat]
  · unfold opposite
    rw [hpair.2]
    have : (edgeAt recs (r.1 + 1) : Int) + ((edgeAt recs r.1 : Int) - (edgeAt recs (r.1 + 1) : Int))
        = (edgeAt recs r.1 : Int) := by ring
    rw [this, Int.toNat_ofNat]

theorem manifold_linking_witness :
    radix_sort_u64 (fillWrites 32 twoTriangles (prepare twoTriangles ⟨[], [(0, 6)]⟩).1).halfEdges1 6
      = [⟨4294967296, 0⟩, ⟨8589934592, 2⟩, ⟨8589934593, 1⟩, ⟨8589934593, 3⟩,
          ⟨12884901889, 5⟩, ⟨12884901890, 4⟩] ∧
    IsRun [⟨4294967296, 0⟩, ⟨8589934592, 2⟩, ⟨8589934593, 1⟩, ⟨8589934593, 3⟩,
          ⟨12884901889, 5⟩, ⟨12884901890, 4⟩] 6 (2, 2) ∧
    IsChunking 6 [(3, 6), (0, 3)] ∧
    (initializeHalfEdgeStructures 32 twoTriangles ⟨[], [(3, 6), (0, 3)]⟩).map
        (fun st => st.halfEdges.map (fun h => h.opposite_half_edge_ofs))
      = some [0, 2, 0, -2, 0, 0] ∧
    opposite (linkPass 32
        (radix_sort_u64 (fillWrites 32 twoTriangles (prepare twoTriangles ⟨[], [(0, 6)]⟩).1).halfEdges1 6)
        6 [(3, 6), (0, 3)] (fillWrites 32 twoTriangles (prepare twoTriangles ⟨[], [(0, 6)]⟩).1).halfEdges)
      1 = 3 :=
  ⟨by decide, by decide, ⟨[(0, 3), (3, 6)], by decide, by decide⟩, by decide,
    (manifold_linking 32 6
      (radix_sort_u64 (fillWrites 32 twoTriangles (prepare twoTriangles ⟨[], [(0, 6)]⟩).1).halfEdges1 6)
      (fillWrites 32 twoTriangles (prepare twoTriangles ⟨[], [(0, 6)]⟩).1).halfEdges
      [(3, 6), (0, 3)] (by decide) (by decide) (by decide)
      (linkInput_of_mesh 32 twoTriangles ⟨[], [(0, 6)]⟩ (by decide) (by decide) (by decide)).hsorted
      (linkInput_of_mesh 32 twoTriangles ⟨[], [(0, 6)]⟩ (by decide) (by decide) (by decide)).hle
      (linkInput_of_mesh 32 twoTriangles ⟨[], [(0, 6)]⟩ (by decide) (by decide) (by decide)).hd
      ⟨[(0, 3), (3, 6)], by decide, by decide⟩ (2, 2) (by decide) rfl).2.2.2.2.1⟩

/-- A half-edge of a well-formed mesh that received an opposite: it and its opposite are two
different half-edges of faces that are not holes, with the same edge key, and no third
half-edge of a face that is not a hole has that key. -/
theorem mesh_opp_nonzero (w : Nat) (m : SubdivMesh) (s : Schedule) (st : State) (hw : 32 ≤ w)
    (hw64 : w ≤ 64) (hwf : WellFormed m) (hcs : IsChunking m.numEdges s.linkChunks)
    (hst : initializeHalfEdgeStructures w m s = some st) (p : Nat)
    (hopp : (st.halfEdges.getD p default).opposite_half_edge_ofs ≠ 0) :
    ∃ f d f' d', f < m.numFaces ∧ d < m.faceVertices.getD f 0 ∧
      f' < m.numFaces ∧ d' < m.faceVertices.getD f' 0 ∧
      p = st.faceStartEdge.getD f 0 + d ∧
      st.faceStartEdge.getD f' 0 + d' ≠ p ∧
      opposite st.halfEdges p = st.faceStartEdge.getD f' 0 + d' ∧
      opposite st.halfEdges (st.faceStartEdge.getD f' 0 + d') = p ∧
      f ∉ m.holes ∧ f' ∉ m.holes ∧
      Edge (m.vertexIndices.getD (st.faceStartEdge.getD f' 0 + d') 0)
          (m.vertexIndices.getD (st.faceStartEdge.getD f' 0
            + (d' + 1) % m.faceVertices.getD f' 0) 0)
        = Edge (m.vertexIndices.getD (st.faceStartEdge.getD f 0 + d) 0)
          (m.vertexIndices.getD (st.faceStartEdge.getD f 0
            + (d + 1) % m.faceVertices.getD f 0) 0) := by
  obtain ⟨R, hR, hhe, hfse⟩ := init_runs w m s st hw hw64 hwf hcs hst
  have hin := linkInput_of_mesh w m s hw hw64 hwf
  rw [hhe] at hopp
  obtain ⟨q, hp, hq, hqp, hK, hsent, h1, h2, -⟩ := hub_opp_nonzero w _ _ _ _ hin R hR p hopp
  obtain ⟨f, d, hf, hd, rfl⟩ := flat_locate_mesh m s hwf p hp
  obtain ⟨f', d', hf', hd', rfl⟩ := flat_locate_mesh m s hwf q hq
  have hK' : keyAt (fillWrites w m (prepare m s).1).halfEdges1
        ((prepare m s).1.faceStartEdge.getD f' 0 + d')
      = keyAt (fillWrites w m (prepare m s).1).halfEdges1
        ((prepare m s).1.faceStartEdge.getD f 0 + d) := hK
  have hsent' : keyAt (fillWrites w m (prepare m s).1).halfEdges1
        ((prepare m s).1.faceStartEdge.getD f 0 + d) ≠ sentinel := hsent
  have hkp := fill_key w m s hwf f d hf hd
  have hkq := fill_key w m s hwf f' d' hf' hd'
  have hnh : f ∉ m.holes := by
    intro hmem
    rw [if_pos ((holeSetLookup_iff _ _).2 hmem)] at hkp
    exact hsent' hkp
  have hnh' : f' ∉ m.holes := by
    intro hmem
    rw [if_pos ((holeSetLookup_iff _ _).2 hmem)] at hkq
    exact hsent' (hK'.symm.trans hkq)
  rw [if_neg (by rw [holeSetLookup_iff]; exact hnh)] at hkp
  rw [if_neg (by rw [holeSetLookup_iff]; exact hnh')] at hkq
  have hKE := hkq.symm.trans (hK'.trans hkp)
  rw [hhe, hfse]
  refine ⟨f, d, f', d', hf, hd, hf', hd', rfl, hqp, ?_, ?_, hnh, hnh', hKE⟩
  · unfold opposite
    rw [h1]
    have : ((((prepare m s).1.faceStartEdge.getD f 0 + d : Nat) : Int)
        + ((((prepare m s).1.faceStartEdge.getD f' 0 + d' : Nat) : Int)
          - (((prepare m s).1.faceStartEdge.getD f 0 + d : Nat) : Int)))
        = (((prepare m s).1.faceStartEdge.getD f' 0 + d' : Nat) : Int) := by ring
    rw [this, Int.toNat_ofNat]
  · unfold opposite
    rw [h2]
    have : ((((prepare m s).1.faceStartEdge.getD f' 0 + d' : Nat) : Int)
        + ((((prepare m s).1.faceStartEdge.getD f 0 + d : Nat) : Int)
          - (((prepare m s).1.faceStartEdge.getD f' 0 + d' : Nat) : Int)))
        = (((prepare m s).1.faceStartEdge.getD f 0 + d : Nat) : Int) := by ring
    rw [this, Int.toNat_ofNat]

theorem alongEdge_key (m : SubdivMesh) (fse : List Nat) (f d a b : Nat)
    (h : AlongEdge m fse f d a b) :
    Edge (m.vertexIndices.getD (fse.getD f 0 + d) 0)
        (m.vertexIndices.getD (fse.getD f 0 + (d + 1) % m.faceVertices.getD f 0) 0)
      = Edge a b := by
  obtain ⟨-, -, h⟩ := h
  rcases h with ⟨h1, h2⟩ | ⟨h1, h2⟩
  · rw [h1, h2]
  · rw [h1, h2]; exact pair64_comm b a

theorem mesh_frame (w : Nat) (m : SubdivMesh) (s : Schedule) (st : State) (hw : 32 ≤ w)
    (hw64 : w ≤ 64) (hwf : WellFormed m) (hcs : IsChunking m.numEdges s.linkChunks)
    (hst : initializeHalfEdgeStructures w m s = some st) (f d : Nat) (hf : f < m.numFaces)
    (hd : d < m.faceVertices.getD f 0) :
    origin st.halfEdges (st.faceStartEdge.getD f 0 + d)
      = m.vertexIndices.getD (st.faceStartEdge.getD f 0 + d) 0 ∧
    next st.halfEdges (st.faceStartEdge.getD f 0 + d)
      = st.faceStartEdge.getD f 0 + (d + 1) % m.faceVertices.getD f 0 ∧
    origin st.halfEdges (next st.halfEdges (st.faceStartEdge.getD f 0 + d))
      = m.vertexIndices.getD (st.faceStartEdge.getD f 0
          + (d + 1) % m.faceVertices.getD f 0) 0 := by
  obtain ⟨R, hR, hhe, hfse⟩ := init_runs w m s st hw hw64 hwf hcs hst
  have hfr := foldl_processRun_frame w
    (radix_sort_u64 (fillWrites w m (prepare m s).1).halfEdges1 m.numEdges) R
    (fillWrites w m (prepare m s).1).halfEdges
  rw [← hhe] at hfr
  have hpos : 0 < m.faceVertices.getD f 0 := by omega
  have hnext : next st.halfEdges (st.faceStartEdge.getD f 0 + d)
      = st.faceStartEdge.getD f 0 + (d + 1) % m.faceVertices.getD f 0 := by
    rw [next_frameEq _ _ hfr, hfse]
    exact fill_next w m s hw hw64 hwf f d hf hd
  refine ⟨?_, hnext, ?_⟩
  · unfold origin
    rw [(hfr.2 _).1, hfse]
    exact fill_origin w m s hwf f d hf hd
  · rw [hnext]
    unfold origin
    rw [(hfr.2 _).1, hfse]
    exact fill_origin w m s hwf f _ hf (Nat.mod_lt _ hpos)

/-- C3 (as amended). Endpoints of linked half-edges: on a well-formed mesh, a half-edge `h`
that received an opposite `o` runs along the same undirected edge as `o`: either the origins
are swapped (`h.origin = next(o).origin` and `o.origin = next(h).origin`) or the two faces list
the edge in the same direction (`h.origin = o.origin` and `next(h).origin = next(o).origin`);
the origins are swapped whenever `h.origin` differs from `o.origin`. -/
theorem endpoint_swap (w : Nat) (m : SubdivMesh) (s : Schedule) (st : State) (hw : 32 ≤ w)
    (hw64 : w ≤ 64) (hwf : WellFormed m) (hcs : IsChunking m.numEdges s.linkChunks)
    (hst : initializeHalfEdgeStructures w m s = some st) (h : Nat)
    (hopp : (st.halfEdges.getD h default).opposite_half_edge_ofs ≠ 0) :
    ((origin st.halfEdges h = origin st.halfEdges (next st.halfEdges (opposite st.halfEdges h)) ∧
      origin st.halfEdges (opposite st.halfEdges h) = origin st.halfEdges (next st.halfEdges h)) ∨
     (origin st.halfEdges h = origin st.halfEdges (opposite st.halfEdges h) ∧
      origin st.halfEdges (next st.halfEdges h)
        = origin st.halfEdges (next st.halfEdges (opposite st.halfEdges h)))) ∧
    (origin st.halfEdges h ≠ origin st.halfEdges (opposite st.halfEdges h) →
      origin st.halfEdges h = origin st.halfEdges (next st.halfEdges (opposite st.halfEdges h)) ∧
      origin st.halfEdges (opposite st.halfEdges h) = origin st.halfEdges (next st.halfEdges h)) := by
  obtain ⟨f, d, f', d', hf, hd, hf', hd', rfl, -, ho, -, -, -, hK⟩ :=
    mesh_opp_nonzero w m s st hw hw64 hwf hcs hst h hopp
  obtain ⟨a1, -, a3⟩ := mesh_frame w m s st hw hw64 hwf hcs hst f d hf hd
  obtain ⟨b1, -, b3⟩ := mesh_frame w m s st hw hw64 hwf hcs hst f' d' hf' hd'
  rw [ho, a1, a3, b1, b3]
  have hinj := pair64_inj _ _ _ _ (vertex_lt m hwf _) (vertex_lt m hwf _) (vertex_lt m hwf _)
    (vertex_lt m hwf _) hK
  rcases hinj with ⟨e1, e2⟩ | ⟨e1, e2⟩
  · refine ⟨Or.inr ⟨e1.symm, e2.symm⟩, fun hne => absurd e1.symm hne⟩
  · exact ⟨Or.inl ⟨e2.symm, e1⟩, fun _ => ⟨e2.symm, e1⟩⟩

theorem endpoint_swap_witness :
    WellFormed twoTrianglesOriented ∧ IsChunking 6 [(0, 6)] ∧
    ∃ st, initializeHalfEdgeStructures 32 twoTrianglesOriented ⟨[], [(0, 6)]⟩ = some st ∧
      (st.halfEdges.getD 1 default).opposite_half_edge_ofs ≠ 0 ∧
      origin st.halfEdges 1 ≠ origin st.halfEdges (opposite st.halfEdges 1) ∧
      origin st.halfEdges 1 = origin st.halfEdges (next st.halfEdges (opposite st.halfEdges 1)) ∧
      origin st.halfEdges (opposite st.halfEdges 1) = origin st.halfEdges (next st.halfEdges 1) :=
  ⟨by decide, ⟨[(0, 6)], by decide, by decide⟩,
    (initializeHalfEdgeStructures 32 twoTrianglesOriented ⟨[], [(0, 6)]⟩).get (by decide),
    by decide, by decide, by decide,
    (endpoint_swap 32 twoTrianglesOriented ⟨[], [(0, 6)]⟩ _ (by decide) (by decide)
      (by decide) ⟨[(0, 6)], by decide, by decide⟩ (by decide) 1 (by decide)).2 (by decide)⟩

/-- C3 (counterexample). For the two triangles `[0,1,2]` and `[1,2,3]`, half-edge 1 (from
vertex 1 to vertex 2) is linked to half-edge 3 of the second triangle, which also starts at
vertex 1: the opposite offset of half-edge 1 is 2, its origin is 1, and the origin of
`next(opposite(1))` is 2. -/
theorem endpoint_swap_counterexample :
    WellFormed twoTriangles ∧ IsChunking 6 [(0, 6)] ∧
    (initializeHalfEdgeStructures 32 twoTriangles ⟨[], [(0, 6)]⟩).map
      (fun st => ((st.halfEdges.getD 1 default).opposite_half_edge_ofs,
        opposite st.halfEdges 1, origin st.halfEdges 1,
        origin st.halfEdges (next st.halfEdges (opposite st.halfEdges 1))))
      = some (2, 3, 1, 2) :=
  ⟨by decide, ⟨[(0, 6)], by decide, by decide⟩, by decide⟩

theorem mesh_key_alongEdge (w : Nat) (m : SubdivMesh) (s : Schedule) (hwf : WellFormed m)
    (f d a b : Nat) (h : AlongEdge m (prepare m s).1.faceStartEdge f d a b)
    (hnh : f ∉ m.holes) :
    keyAt (fillWrites w m (prepare m s).1).halfEdges1
      ((prepare m s).1.faceStartEdge.getD f 0 + d) = Edge a b := by
  rw [fill_key w m s hwf f d h.1 h.2.1, if_neg (by rw [holeSetLookup_iff]; exact hnh)]
  exact alongEdge_key m _ f d a b h

/-- C4 (as amended). Non-manifold quarantine: on a well-formed mesh, for every undirected edge
`{a,b}` whose key is not the sentinel and that is carried by more than two half-edges of faces
that are not holes, after construction every such half-edge has opposite offset 0, and the
vertex crease weight of the half-edge and of its next half-edge (the two endpoints of the edge
in that face) is `+infinity`. -/
theorem nonmanifold_quarantine (w : Nat) (m : SubdivMesh) (s : Schedule) (st : State)
    (hw : 32 ≤ w) (hw64 : w ≤ 64) (hwf : WellFormed m)
    (hcs : IsChunking m.numEdges s.linkChunks)
    (hst : initializeHalfEdgeStructures w m s = some st) (a b : Nat)
    (hkey : Edge a b ≠ sentinel) (f d f1 d1 f2 d2 : Nat)
    (h0 : AlongEdge m st.faceStartEdge f d a b) (h1 : AlongEdge m st.faceStartEdge f1 d1 a b)
    (h2 : AlongEdge m st.faceStartEdge f2 d2 a b) (hn0 : f ∉ m.holes) (hn1 : f1 ∉ m.holes)
    (hn2 : f2 ∉ m.holes) (d01 : (f1, d1) ≠ (f, d)) (d02 : (f2, d2) ≠ (f, d))
    (d12 : (f1, d1) ≠ (f2, d2)) :
    (st.halfEdges.getD (st.faceStartEdge.getD f 0 + d) default).opposite_half_edge_ofs = 0 ∧
    (st.halfEdges.getD (st.faceStartEdge.getD f 0 + d) default).vertex_crease_weight = f32_inf ∧
    (st.halfEdges.getD (next st.halfEdges (st.faceStartEdge.getD f 0 + d)) default).vertex_crease_weight
      = f32_inf := by
  obtain ⟨R, hR, hhe, hfse⟩ := init_runs w m s st hw hw64 hwf hcs hst
  have hin := linkInput_of_mesh w m s hw hw64 hwf
  have hfr := foldl_processRun_frame w
    (radix_sort_u64 (fillWrites w m (prepare m s).1).halfEdges1 m.numEdges) R
    (fillWrites w m (prepare m s).1).halfEdges
  rw [← hhe] at hfr
  rw [next_frameEq _ _ hfr]
  rw [hfse] at h0 h1 h2 ⊢
  have k0 := mesh_key_alongEdge w m s hwf f d a b h0 hn0
  have k1 := mesh_key_alongEdge w m s hwf f1 d1 a b h1 hn1
  have k2 := mesh_key_alongEdge w m s hwf f2 d2 a b h2 hn2
  have m0 : (f, d) ∈ fillPairs m := (mem_fillPairs m (f, d)).2 ⟨h0.1, h0.2.1⟩
  have m1 : (f1, d1) ∈ fillPairs m := (mem_fillPairs m (f1, d1)).2 ⟨h1.1, h1.2.1⟩
  have m2 : (f2, d2) ∈ fillPairs m := (mem_fillPairs m (f2, d2)).2 ⟨h2.1, h2.2.1⟩
  rw [hhe]
  exact hub_nonmanifold w _ _ _ _ hin R hR
    ((prepare m s).1.faceStartEdge.getD f 0 + d)
    ((prepare m s).1.faceStartEdge.getD f1 0 + d1)
    ((prepare m s).1.faceStartEdge.getD f2 0 + d2)
    (fillPairs_pos_lt m s hwf f d h0.1 h0.2.1)
    (fillPairs_pos_lt m s hwf f1 d1 h1.1 h1.2.1)
    (fillPairs_pos_lt m s hwf f2 d2 h2.1 h2.2.1)
    (fun h => d01 (fillPairs_pos_inj m s hwf _ _ m1 m0 h))
    (fun h => d02 (fillPairs_pos_inj m s hwf _ _ m2 m0 h))
    (fun h => d12 (fillPairs_pos_inj m s hwf _ _ m1 m2 h))
    (by show keyAt _ _ = keyAt _ _; rw [k1, k0])
    (by show keyAt _ _ = keyAt _ _; rw [k2, k0])
    (by show keyAt _ _ ≠ sentinel; rw [k0]; exact hkey)

theorem nonmanifold_quarantine_witness :
    WellFormed threeTriangles ∧ IsChunking 9 [(4, 9), (0, 4)] ∧ Edge 0 1 ≠ sentinel ∧
    ∃ st, initializeHalfEdgeStructures 32 threeTriangles ⟨[2], [(4, 9), (0, 4)]⟩ = some st ∧
      AlongEdge threeTriangles st.faceStartEdge 1 0 0 1 ∧
      AlongEdge threeTriangles st.faceStartEdge 0 0 0 1 ∧
      AlongEdge threeTriangles st.faceStartEdge 2 0 0 1 ∧
      (st.halfEdges.getD (st.faceStartEdge.getD 1 0 + 0) default).opposite_half_edge_ofs = 0 ∧
      (st.halfEdges.getD (st.faceStartEdge.getD 1 0 + 0) default).vertex_crease_weight
        = f32_inf ∧
      (st.halfEdges.getD (next st.halfEdges (st.faceStartEdge.getD 1 0 + 0)) default).vertex_crease_weight
        = f32_inf :=
  ⟨by decide, ⟨[(0, 4), (4, 9)], by decide, by decide⟩, by decide,
    (initializeHalfEdgeStructures 32 threeTriangles ⟨[2], [(4, 9), (0, 4)]⟩).get (by decide),
    by decide, by decide, by decide, by decide,
    nonmanifold_quarantine 32 threeTriangles ⟨[2], [(4, 9), (0, 4)]⟩ _ (by decide) (by decide)
      (by decide) ⟨[(0, 4), (4, 9)], by decide, by decide⟩ (by decide) 0 1 (by decide)
      1 0 0 0 2 0 (by decide) (by decide) (by decide) (by decide) (by decide) (by decide)
      (by decide) (by decide) (by decide)⟩

/-- C4 (counterexample). Three triangles `[0,1,2]`, `[1,0,3]`, `[0,1,4]` share the edge
`(0,1)`, and the third one is listed as a hole: the half-edges 0, 3 and 6 all run along the edge
`{0,1}`, yet half-edge 0 is linked to half-edge 3 (opposite offset 3) and its vertex crease
weight stays 0. -/
theorem nonmanifold_quarantine_counterexample :
    WellFormed threeTrianglesHole ∧ IsChunking 9 [(0, 9)] ∧
    AlongEdge threeTrianglesHole [0, 3, 6] 0 0 0 1 ∧
    AlongEdge threeTrianglesHole [0, 3, 6] 1 0 0 1 ∧
    AlongEdge threeTrianglesHole [0, 3, 6] 2 0 0 1 ∧
    (initializeHalfEdgeStructures 32 threeTrianglesHole ⟨[], [(0, 9)]⟩).map
      (fun st => (st.faceStartEdge, (st.halfEdges.getD 0 default).opposite_half_edge_ofs,
        (st.halfEdges.getD 3 default).opposite_half_edge_ofs,
        (st.halfEdges.getD 0 default).vertex_crease_weight,
        (st.halfEdges.getD 1 default).vertex_crease_weight))
      = some ([0, 3, 6], 3, -3, 0, 0) :=
  ⟨by decide, ⟨[(0, 9)], by decide, by decide⟩, by decide, by decide, by decide, by decide⟩

/-- C5. Hole isolation: on a well-formed mesh, after construction every half-edge of a face
listed in the hole set has opposite offset 0; the opposite of a linked half-edge never belongs
to a hole face; and a half-edge of a face that shares its edge only with hole faces stays a
boundary edge (opposite offset 0). -/
theorem hole_isolation (w : Nat) (m : SubdivMesh) (s : Schedule) (st : State) (hw : 32 ≤ w)
    (hw64 : w ≤ 64) (hwf : WellFormed m) (hcs : IsChunking m.numEdges s.linkChunks)
    (hst : initializeHalfEdgeStructures w m s = some st) :
    (∀ f d, f < m.numFaces → d < m.faceVertices.getD f 0 → f ∈ m.holes →
      (st.halfEdges.getD (st.faceStartEdge.getD f 0 + d) default).opposite_half_edge_ofs = 0) ∧
    (∀ f d f' d', f < m.numFaces → d < m.faceVertices.getD f 0 → f' < m.numFaces →
      d' < m.faceVertices.getD f' 0 → f ∉ m.holes →
      (st.halfEdges.getD (st.faceStartEdge.getD f 0 + d) default).opposite_half_edge_ofs ≠ 0 →
      opposite st.halfEdges (st.faceStartEdge.getD f 0 + d) = st.faceStartEdge.getD f' 0 + d' →
      f' ∉ m.holes) ∧
    (∀ f d, f < m.numFaces → d < m.faceVertices.getD f 0 →
      (∀ f' d', (f', d') ≠ (f, d) →
        AlongEdge m st.faceStartEdge f' d'
          (m.vertexIndices.getD (st.faceStartEdge.getD f 0 + d) 0)
          (m.vertexIndices.getD (st.faceStartEdge.getD f 0
            + (d + 1) % m.faceVertices.getD f 0) 0) →
        f' ∈ m.holes) →
      (st.halfEdges.getD (st.faceStartEdge.getD f 0 + d) default).opposite_half_edge_ofs = 0) := by
  have hfse := (init_some w m s st hwf hst).2.2
  have hinj : ∀ f d f' d', f < m.numFaces → d < m.faceVertices.getD f 0 → f' < m.numFaces →
      d' < m.faceVertices.getD f' 0 →
      st.faceStartEdge.getD f 0 + d = st.faceStartEdge.getD f' 0 + d' → f = f' ∧ d = d' := by
    intro f d f' d' hf hd hf' hd' h
    rw [hfse] at h
    have := fillPairs_pos_inj m s hwf (f, d) (f', d') ((mem_fillPairs m _).2 ⟨hf, hd⟩)
      ((mem_fillPairs m _).2 ⟨hf', hd'⟩) h
    exact ⟨congrArg Prod.fst this, congrArg Prod.snd this⟩
  refine ⟨?_, ?_, ?_⟩
  · intro f d hf hd hhole
    by_contra hne
    obtain ⟨g, c, g', c', hg, hc, -, -, hp, -, -, -, hnh, -, -⟩ :=
      mesh_opp_nonzero w m s st hw hw64 hwf hcs hst _ hne
    have := hinj f d g c hf hd hg hc hp
    rw [this.1] at hhole
    exact hnh hhole
  · intro f d f' d' hf hd hf' hd' _ hne ho
    obtain ⟨g, c, g', c', hg, hc, hg', hc', hp, -, ho', -, -, hnh', -⟩ :=
      mesh_opp_nonzero w m s st hw hw64 hwf hcs hst _ hne
    rw [ho] at ho'
    have := hinj f' d' g' c' hf' hd' hg' hc' ho'
    rw [this.1]
    exact hnh'
  · intro f d hf hd hall
    by_contra hne
    obtain ⟨g, c, g', c', hg, hc, hg', hc', hp, hqp, -, -, -, hnh', hK⟩ :=
      mesh_opp_nonzero w m s st hw hw64 hwf hcs hst _ hne
    have hfg := hinj f d g c hf hd hg hc hp
    obtain ⟨rfl, rfl⟩ := hfg
    apply hnh'
    apply hall g' c'
    · intro heq
      apply hqp
      rw [(Prod.mk.inj heq).1, (Prod.mk.inj heq).2]
    · refine ⟨hg', hc', ?_⟩
      have := pair64_inj _ _ _ _ (vertex_lt m hwf _) (vertex_lt m hwf _) (vertex_lt m hwf _)
        (vertex_lt m hwf _) hK
      rcases this with ⟨e1, e2⟩ | ⟨e1, e2⟩
      · left; exact ⟨e1, e2⟩
      · right; exact ⟨e1, e2⟩

theorem hole_isolation_witness :
    WellFormed triangleAndHole ∧ IsChunking 6 [(0, 2), (2, 6)] ∧
    ∃ st, initializeHalfEdgeStructures 32 triangleAndHole ⟨[], [(0, 2), (2, 6)]⟩ = some st ∧
      st.halfEdges.map (fun h => h.opposite_half_edge_ofs) = [0, 0, 0, 0, 0, 0] ∧
      AlongEdge triangleAndHole st.faceStartEdge 1 0 1 2 ∧
      (∀ f d, f < triangleAndHole.numFaces → d < triangleAndHole.faceVertices.getD f 0 →
        f ∈ triangleAndHole.holes →
        (st.halfEdges.getD (st.faceStartEdge.getD f 0 + d) default).opposite_half_edge_ofs = 0) :=
  ⟨by decide, ⟨[(0, 2), (2, 6)], by decide, by decide⟩,
    (initializeHalfEdgeStructures 32 triangleAndHole ⟨[], [(0, 2), (2, 6)]⟩).get (by decide),
    by decide, by decide, by decide,
    (hole_isolation 32 triangleAndHole ⟨[], [(0, 2), (2, 6)]⟩ _ (by decide) (by decide)
      (by decide) ⟨[(0, 2), (2, 6)], by decide, by decide⟩ (by decide)).1⟩

theorem prepare_schedule (m : SubdivMesh) (s s' : Schedule) : prepare m s = prepare m s' := by
  simp only [prepare, prefix_sum_blocks]

/-- C6. Chunk invariance: on a well-formed mesh, the state built by the construction is the
same for any two ways of cutting `[0,numHalfEdges)` into non-empty contiguous ranges for the
linking pass, whatever the order in which the ranges are processed (and whatever the blocks of
the prefix sum). -/
theorem chunk_invariance (w : Nat) (m : SubdivMesh) (s s' : Schedule) (hw : 32 ≤ w)
    (hw64 : w ≤ 64) (hwf : WellFormed m) (hcs : IsChunking m.numEdges s.linkChunks)
    (hcs' : IsChunking m.numEdges s'.linkChunks) :
    linked w m s = linked w m s' ∧
    initializeHalfEdgeStructures w m s = initializeHalfEdgeStructures w m s' := by
  have hlinked : linked w m s = linked w m s' := by
    have hin := linkInput_of_mesh w m s hw hw64 hwf
    unfold linked
    simp only [← prepare_schedule m s s', fill_eq]
    by_cases hok : fillOk m (prepare m s).1 = true
    · simp only [if_pos hok, prepare_numHalfEdges m s hwf]
      rw [linkPass_chunking_irrelevant w _ m.numEdges hin.hsorted hin.hle _
        (by rw [hin.hlen]; exact hin.hd) s.linkChunks s'.linkChunks hcs hcs']
    · simp only [if_neg hok]
  exact ⟨hlinked, by unfold initializeHalfEdgeStructures; rw [hlinked]⟩

theorem chunk_invariance_witness :
    WellFormed threeTriangles ∧ IsChunking 9 [(0, 9)] ∧
    IsChunking 9 [(7, 9), (0, 1), (2, 7), (1, 2)] ∧
    (initializeHalfEdgeStructures 32 threeTriangles ⟨[], [(0, 9)]⟩).isSome = true ∧
    initializeHalfEdgeStructures 32 threeTriangles ⟨[], [(0, 9)]⟩
      = initializeHalfEdgeStructures 32 threeTriangles ⟨[1, 1], [(7, 9), (0, 1), (2, 7), (1, 2)]⟩ :=
  ⟨by decide, ⟨[(0, 9)], by decide, by decide⟩,
    ⟨[(0, 1), (1, 2), (2, 7), (7, 9)], by decide, by decide⟩, by decide,
    (chunk_invariance 32 threeTriangles ⟨[], [(0, 9)]⟩
      ⟨[1, 1], [(7, 9), (0, 1), (2, 7), (1, 2)]⟩ (by decide) (by decide) (by decide)
      ⟨[(0, 9)], by decide, by decide⟩
      ⟨[(0, 1), (1, 2), (2, 7), (7, 9)], by decide, by decide⟩).2⟩

theorem count_pair_eq_one (l : List (Nat × Nat)) (r : Nat × Nat) (hd : l.Nodup) (h : r ∈ l) :
    l.count r = 1 := by
  induction l with
  | nil => simp at h
  | cons x l ih =>
    rw [List.nodup_cons] at hd
    rw [List.count_cons]
    by_cases hx : x = r
    · subst hx
      have : List.count x l = 0 := List.count_eq_zero.2 hd.1
      simp [this]
    · have hm : r ∈ l := by
        rcases List.mem_cons.1 h with h | h
        · exact absurd h.symm hx
        · exact h
      have : (x == r) = false := by simpa using hx
      simp [this, ih hd.2 hm]

/-- C7. Run ownership: for every array of `n` key records sorted ascending by key and every
partition of `[0,n)` into non-empty contiguous ranges (in any order), the body of the linking
pass for a range applies `processRun` to the runs `chunkRuns` of that range, in order; the
ranges are pairwise different; every run that a range processes is a maximal run of equal
non-sentinel keys that starts inside the range and is measured to its true end (where the key
changes or the array ends, also beyond the end of the range); every maximal run of equal
non-sentinel keys is processed exactly once by the range that contains its first index and by no
other range; and a range whose first record has the same key as the record before it processes
only runs that start after its first record and have another key. -/
theorem run_ownership (n : Nat) (recs : List KeyHalfEdge) (cs : List (Nat × Nat))
    (hsorted : SortedKeys recs n) (hle : ∀ i, i < n → keyAt recs i ≤ sentinel)
    (hcs : IsChunking n cs) :
    (∀ w he c, linkChunk w recs n he c = (chunkRuns recs n c).foldl (processRun w recs) he) ∧
    cs.Nodup ∧
    (∀ c ∈ cs, ∀ r ∈ chunkRuns recs n c, IsRun recs n r ∧ c.1 ≤ r.1 ∧ r.1 < c.2) ∧
    (∀ r, IsRun recs n r → ∃ c ∈ cs, c.1 ≤ r.1 ∧ r.1 < c.2 ∧
      (chunkRuns recs n c).count r = 1 ∧ ∀ c' ∈ cs, r ∈ chunkRuns recs n c' → c' = c) ∧
    (∀ c ∈ cs, c.1 ≠ 0 → keyAt recs c.1 = keyAt recs (c.1 - 1) →
      ∀ r ∈ chunkRuns recs n c, c.1 < r.1 ∧ keyAt recs r.1 ≠ keyAt recs c.1) := by
  have hb := isChunking_bounds n cs hcs
  refine ⟨fun w he c => linkChunk_eq w recs n he c, isChunking_nodup n cs hcs, ?_, ?_, ?_⟩
  · intro c hc r hr
    exact (mem_chunkRuns recs n hsorted hle c (hb c hc).1 (hb c hc).2 r).1 hr
  · intro r hr
    obtain ⟨c, hc, hc1, hc2⟩ := isChunking_cover n cs hcs r.1 hr.1.1.1
    have hmem := (mem_chunkRuns recs n hsorted hle c (hb c hc).1 (hb c hc).2 r).2 ⟨hr, hc1, hc2⟩
    refine ⟨c, hc, hc1, hc2, ?_, ?_⟩
    · exact count_pair_eq_one _ r (chunkRuns_nodup recs n c (hb c hc).1 (hb c hc).2) hmem
    · intro c' hc' hr'
      have := (mem_chunkRuns recs n hsorted hle c' (hb c' hc').1 (hb c' hc').2 r).1 hr'
      exact isChunking_unique n cs hcs c' c hc' hc r.1 ⟨this.2.1, this.2.2⟩ ⟨hc1, hc2⟩
  · intro c hc h0 hkey r hr
    obtain ⟨hrun, h1, h2⟩ :=
      (mem_chunkRuns recs n hsorted hle c (hb c hc).1 (hb c hc).2 r).1 hr
    have hlt : c.1 < r.1 := by
      rcases Nat.lt_or_ge c.1 r.1 with h | h
      · exact h
      · exfalso
        have heq : r.1 = c.1 := by omega
        rcases hrun.1.1.2 with hz | hne
        · omega
        · apply hne; rw [heq]; exact hkey.symm
    refine ⟨hlt, ?_⟩
    intro heq
    rcases hrun.1.1.2 with hz | hne
    · omega
    · apply hne
      have a := hsorted c.1 (r.1 - 1) (by omega) (by have := hrun.1.1.1; omega)
      have b := hsorted (r.1 - 1) r.1 (by omega) hrun.1.1.1
      omega

theorem run_ownership_witness :
    SortedKeys [⟨5, 0⟩, ⟨5, 1⟩, ⟨5, 2⟩, ⟨7, 3⟩, ⟨9, 4⟩, ⟨9, 5⟩, ⟨sentinel, 6⟩] 7 ∧
    IsChunking 7 [(2, 5), (0, 2), (5, 7)] ∧
    chunkRuns [⟨5, 0⟩, ⟨5, 1⟩, ⟨5, 2⟩, ⟨7, 3⟩, ⟨9, 4⟩, ⟨9, 5⟩, ⟨sentinel, 6⟩] 7 (0, 2)
      = [(0, 3)] ∧
    chunkRuns [⟨5, 0⟩, ⟨5, 1⟩, ⟨5, 2⟩, ⟨7, 3⟩, ⟨9, 4⟩, ⟨9, 5⟩, ⟨sentinel, 6⟩] 7 (2, 5)
      = [(3, 1), (4, 2)] ∧
    chunkRuns [⟨5, 0⟩, ⟨5, 1⟩, ⟨5, 2⟩, ⟨7, 3⟩, ⟨9, 4⟩, ⟨9, 5⟩, ⟨sentinel, 6⟩] 7 (5, 7)
      = [] ∧
    ∃ c ∈ [(2, 5), (0, 2), (5, 7)], c.1 ≤ (0, 3).1 ∧ (0, 3).1 < c.2 ∧
      (chunkRuns [⟨5, 0⟩, ⟨5, 1⟩, ⟨5, 2⟩, ⟨7, 3⟩, ⟨9, 4⟩, ⟨9, 5⟩, ⟨sentinel, 6⟩] 7 c).count
        (0, 3) = 1 ∧
      ∀ c' ∈ [(2, 5), (0, 2), (5, 7)],
        (0, 3) ∈ chunkRuns [⟨5, 0⟩, ⟨5, 1⟩, ⟨5, 2⟩, ⟨7, 3⟩, ⟨9, 4⟩, ⟨9, 5⟩, ⟨sentinel, 6⟩] 7 c' →
        c' = c :=
  ⟨by decide, ⟨[(0, 2), (2, 5), (5, 7)], by decide, by decide⟩, by decide, by decide, by decide,
    (run_ownership 7 [⟨5, 0⟩, ⟨5, 1⟩, ⟨5, 2⟩, ⟨7, 3⟩, ⟨9, 4⟩, ⟨9, 5⟩, ⟨sentinel, 6⟩]
      [(2, 5), (0, 2), (5, 7)] (by decide) (by decide)
      ⟨[(0, 2), (2, 5), (5, 7)], by decide, by decide⟩).2.2.2.1 (0, 3) (by decide)⟩

theorem pair64_eq_sentinel_iff (a b : Nat) (ha : a < 2 ^ 32) (hb : b < 2 ^ 32) :
    pair64 a b = sentinel ↔ a = 2 ^ 32 - 1 ∧ b = 2 ^ 32 - 1 := by
  rw [pair64_value a b ha hb]
  unfold sentinel
  constructor
  · intro h
    have h1 : min a b < 2 ^ 32 := by omega
    have h2 : max a b < 2 ^ 32 := by omega
    have hmax : max a b = 2 ^ 32 - 1 := by omega
    have hmin : min a b = 2 ^ 32 - 1 := by omega
    omega
  · rintro ⟨rfl, rfl⟩
    norm_num

/-- C11 (failing input). The key of the self-loop on vertex `0xFFFFFFFF` is the sentinel, and
it is the only key of 32-bit indices that is: in the two quads `[v,v,0,1]`, `[v,v,2,3]` without
holes the two half-edges on the self-loop are linked when `v = 7` (offsets 4 and -4) and are
passed over like records of a hole when `v = 0xFFFFFFFF` (all offsets 0). -/
theorem sentinel_collision :
    pair64 4294967295 4294967295 = sentinel ∧
    (∀ a b, a < 2 ^ 32 → b < 2 ^ 32 →
      (pair64 a b = sentinel ↔ a = 2 ^ 32 - 1 ∧ b = 2 ^ 32 - 1)) ∧
    WellFormed (loopQuads 4294967295) ∧ (loopQuads 4294967295).holes = [] ∧
    (initializeHalfEdgeStructures 32 (loopQuads 4294967295) ⟨[], [(0, 8)]⟩).map
        (fun st => st.halfEdges.map (fun h => h.opposite_half_edge_ofs))
      = some [0, 0, 0, 0, 0, 0, 0, 0] ∧
    (initializeHalfEdgeStructures 32 (loopQuads 7) ⟨[], [(0, 8)]⟩).map
        (fun st => st.halfEdges.map (fun h => h.opposite_half_edge_ofs))
      = some [4, 0, 0, 0, -4, 0, 0, 0] :=
  ⟨by decide, pair64_eq_sentinel_iff, by decide, rfl, by decide, by decide⟩

/-! ## Fields that the linking pass leaves alone -/

theorem init_frame (w : Nat) (m : SubdivMesh) (s : Schedule) (st : State) (hwf : WellFormed m)
    (hst : initializeHalfEdgeStructures w m s = some st) :
    FrameEq (fillWrites w m (prepare m s).1).halfEdges st.halfEdges ∧
    st.faceStartEdge = (prepare m s).1.faceStartEdge := by
  obtain ⟨-, h1, h2⟩ := init_some w m s st hwf hst
  refine ⟨?_, h2⟩
  rw [h1, linkPass_eq]
  exact foldl_processRun_frame _ _ _ _

theorem fill_some_eq (w : Nat) (m : SubdivMesh) (st : State) (fs : FillState)
    (h : fill w m st = some fs) : fillOk m st = true ∧ fs = fillWrites w m st := by
  rw [fill_eq] at h
  by_cases hok : fillOk m st = true
  · rw [if_pos hok] at h
    exact ⟨hok, (Option.some.inj h).symm⟩
  · rw [if_neg hok] at h
    simp at h

/-- C14. Edge level: on a well-formed mesh, for every face `f` and local index `d`, the
half-edge at `faceStartEdge[f]+d` has, after the fill stage and after the whole construction,
an edge level equal to `levels[faceStartEdge[f]+d]` when a level buffer was supplied and equal
to `1.0f` otherwise. -/
theorem edge_level_value (w : Nat) (m : SubdivMesh) (s : Schedule) (hwf : WellFormed m)
    (f d : Nat) (hf : f < m.numFaces) (hd : d < m.faceVertices.getD f 0) :
    (∀ fs, fill w m (prepare m s).1 = some fs →
      (fs.halfEdges.getD ((prepare m s).1.faceStartEdge.getD f 0 + d) default).edge_level
        = match m.levels with
          | some levels => levels.getD ((prepare m s).1.faceStartEdge.getD f 0 + d) 0
          | none => f32_one) ∧
    (∀ st, initializeHalfEdgeStructures w m s = some st →
      (st.halfEdges.getD (st.faceStartEdge.getD f 0 + d) default).edge_level
        = match m.levels with
          | some levels => levels.getD (st.faceStartEdge.getD f 0 + d) 0
          | none => f32_one) := by
  have hfill : ((fillWrites w m (prepare m s).1).halfEdges.getD
      ((prepare m s).1.faceStartEdge.getD f 0 + d) default).edge_level
      = match m.levels with
        | some levels => levels.getD ((prepare m s).1.faceStartEdge.getD f 0 + d) 0
        | none => f32_one := by
    rw [fillWrites_halfEdges w m s hwf f d hf hd]
    rfl
  constructor
  · intro fs hfs
    rw [(fill_some_eq w m _ fs hfs).2]
    exact hfill
  · intro st hst
    obtain ⟨hfr, hfse⟩ := init_frame w m s st hwf hst
    rw [(hfr.2 _).2.2.2.2, hfse]
    exact hfill

theorem edge_level_value_witness :
    WellFormed (levelTriangle [5, 6, 7]) ∧ WellFormed twoTriangles ∧
    (∀ st, initializeHalfEdgeStructures 32 (levelTriangle [5, 6, 7]) ⟨[], [(0, 3)]⟩ = some st →
      (st.halfEdges.getD (st.faceStartEdge.getD 0 0 + 2) default).edge_level
        = match (levelTriangle [5, 6, 7]).levels with
          | some levels => levels.getD (st.faceStartEdge.getD 0 0 + 2) 0
          | none => f32_one) ∧
    (initializeHalfEdgeStructures 32 (levelTriangle [5, 6, 7]) ⟨[], [(0, 3)]⟩).map
        (fun st => st.halfEdges.map (fun h => h.edge_level)) = some [5, 6, 7] ∧
    (initializeHalfEdgeStructures 32 twoTriangles ⟨[], [(0, 6)]⟩).map
        (fun st => st.halfEdges.map (fun h => h.edge_level))
      = some [f32_one, f32_one, f32_one, f32_one, f32_one, f32_one] :=
  ⟨by decide, by decide,
    (edge_level_value 32 (levelTriangle [5, 6, 7]) ⟨[], [(0, 3)]⟩ (by decide) 0 2 (by decide)
      (by decide)).2,
    by decide, by decide⟩

/-- C18. Scratch release: when the linking pass has produced the state `st1`, the construction
returns a state with the same half-edge array and the same face offsets; when the scene is
static the hole set, the vertex and edge crease maps and both key-record buffers of the returned
state are empty, and when the scene is not static the returned state is `st1` unchanged. -/
theorem scratch_release (w : Nat) (m : SubdivMesh) (s : Schedule) (st1 : State)
    (h : linked w m s = some st1) :
    ∃ st, initializeHalfEdgeStructures w m s = some st ∧
      st.halfEdges = st1.halfEdges ∧ st.faceStartEdge = st1.faceStartEdge ∧
      (m.isStatic = true →
        st.holeSet = [] ∧ st.vertexCreaseMap = [] ∧ st.edgeCreaseMap = [] ∧
        st.halfEdges0 = [] ∧ st.halfEdges1 = []) ∧
      (m.isStatic = false → st = st1) := by
  refine ⟨cleanup m st1, by unfold initializeHalfEdgeStructures; rw [h]; rfl,
    (cleanup_halfEdges m st1).1, (cleanup_halfEdges m st1).2, ?_, ?_⟩
  · intro hs
    unfold cleanup
    rw [if_pos hs]
    exact ⟨rfl, rfl, rfl, rfl, rfl⟩
  · intro hs
    unfold cleanup
    rw [if_neg (by rw [hs]; decide)]

theorem scratch_release_witness :
    (linked 32 { triangleAndHole with isStatic := true } ⟨[], [(0, 6)]⟩).map
        (fun st => (st.holeSet, st.halfEdges0.length, st.halfEdges1.length))
      = some ([1], 6, 6) ∧
    (initializeHalfEdgeStructures 32 { triangleAndHole with isStatic := true } ⟨[], [(0, 6)]⟩).map
        (fun st => (st.holeSet, st.halfEdges0.length, st.halfEdges1.length, st.halfEdges.length,
          st.faceStartEdge))
      = some ([], 0, 0, 6, [0, 3]) ∧
    initializeHalfEdgeStructures 32 triangleAndHole ⟨[], [(0, 6)]⟩
      = linked 32 triangleAndHole ⟨[], [(0, 6)]⟩ ∧
    ∃ st, initializeHalfEdgeStructures 32 { triangleAndHole with isStatic := true }
        ⟨[], [(0, 6)]⟩ = some st ∧
      st.halfEdges = ((linked 32 { triangleAndHole with isStatic := true }
        ⟨[], [(0, 6)]⟩).get (by decide)).halfEdges :=
  ⟨by decide, by decide, by decide,
    (scratch_release 32 { triangleAndHole with isStatic := true } ⟨[], [(0, 6)]⟩
      ((linked 32 { triangleAndHole with isStatic := true } ⟨[], [(0, 6)]⟩).get (by decide))
      (by decide)).imp (fun _ hst => ⟨hst.1, hst.2.1⟩)⟩

/-! ## The assertion on the edge level -/

theorem fillOk_eq_false_iff (m : SubdivMesh) (st : State) :
    fillOk m st = false ↔
      ∃ f d, f < m.numFaces ∧ d < m.faceVertices.getD f 0 ∧
        f32_ge_zero (edgeLevel m (st.faceStartEdge.getD f 0 + d)) = false := by
  unfold fillOk
  rw [List.all_eq_false]
  constructor
  · rintro ⟨f, hf, hall⟩
    have hall' : (List.range (m.faceVertices.getD f 0)).all (fun de =>
        f32_ge_zero (edgeLevel m (st.faceStartEdge.getD f 0 + de))) = false := by
      simpa using hall
    rw [List.all_eq_false] at hall'
    obtain ⟨d, hd, hdd⟩ := hall'
    exact ⟨f, d, List.mem_range.1 hf, List.mem_range.1 hd, by simpa using hdd⟩
  · rintro ⟨f, d, hf, hd, h⟩
    refine ⟨f, List.mem_range.2 hf, ?_⟩
    have : (List.range (m.faceVertices.getD f 0)).all (fun de =>
        f32_ge_zero (edgeLevel m (st.faceStartEdge.getD f 0 + de))) = false := by
      rw [List.all_eq_false]
      exact ⟨d, List.mem_range.2 hd, by simpa using h⟩
    simpa using this

theorem init_eq_none_iff (w : Nat) (m : SubdivMesh) (s : Schedule) :
    initializeHalfEdgeStructures w m s = none ↔ fillOk m (prepare m s).1 = false := by
  unfold initializeHalfEdgeStructures linked
  simp only [fill_eq]
  by_cases hok : fillOk m (prepare m s).1 = true
  · simp [hok]
  · simp [hok]

/-- C19 (as amended). Edge-level contract: the construction fails exactly when a level buffer
was supplied and some level read for a half-edge of a face does not satisfy `level >= 0.0f`
(it is negative or NaN); on a well-formed mesh, whenever the construction completes, every
half-edge holds the level that was read for it (`levels[i]`, or `1.0f` without a level buffer),
unchanged, and that level satisfies `level >= 0.0f`. -/
theorem edge_level_contract (w : Nat) (m : SubdivMesh) (s : Schedule) :
    (initializeHalfEdgeStructures w m s = none ↔
      ∃ levels, m.levels = some levels ∧
        ∃ f d, f < m.numFaces ∧ d < m.faceVertices.getD f 0 ∧
          f32_ge_zero (levels.getD ((prepare m s).1.faceStartEdge.getD f 0 + d) 0) = false) ∧
    (WellFormed m → ∀ st, initializeHalfEdgeStructures w m s = some st →
      ∀ p, p < m.numEdges →
        (st.halfEdges.getD p default).edge_level = edgeLevel m p ∧
        f32_ge_zero (st.halfEdges.getD p default).edge_level = true) := by
  constructor
  · rw [init_eq_none_iff, fillOk_eq_false_iff]
    constructor
    · rintro ⟨f, d, hf, hd, h⟩
      cases hl : m.levels with
      | none =>
        exfalso
        simp only [edgeLevel, hl] at h
        revert h
        decide
      | some levels =>
        refine ⟨levels, rfl, f, d, hf, hd, ?_⟩
        simpa only [edgeLevel, hl] using h
    · rintro ⟨levels, hl, f, d, hf, hd, h⟩
      refine ⟨f, d, hf, hd, ?_⟩
      simpa only [edgeLevel, hl] using h
  · intro hwf st hst p hp
    obtain ⟨hfr, -⟩ := init_frame w m s st hwf hst
    obtain ⟨hok, -, -⟩ := init_some w m s st hwf hst
    obtain ⟨f, d, hf, hd, rfl⟩ := flat_locate_mesh m s hwf p hp
    have hlevel : (st.halfEdges.getD ((prepare m s).1.faceStartEdge.getD f 0 + d)
        default).edge_level = edgeLevel m ((prepare m s).1.faceStartEdge.getD f 0 + d) := by
      rw [(hfr.2 _).2.2.2.2, fillWrites_halfEdges w m s hwf f d hf hd]
      rfl
    refine ⟨hlevel, ?_⟩
    rw [hlevel]
    by_contra hne
    have hfalse : fillOk m (prepare m s).1 = false := by
      rw [fillOk_eq_false_iff]
      exact ⟨f, d, hf, hd, by simpa using hne⟩
    rw [hok] at hfalse
    exact absurd hfalse (by decide)

theorem edge_level_contract_witness :
    WellFormed (levelTriangle [f32_zero, f32_one, f32_inf]) ∧
    initializeHalfEdgeStructures 32 (levelTriangle [f32_zero, 0xBF800000, f32_inf])
      ⟨[], [(0, 3)]⟩ = none ∧
    ∃ st, initializeHalfEdgeStructures 32 (levelTriangle [f32_zero, f32_one, f32_inf])
        ⟨[], [(0, 3)]⟩ = some st ∧
      st.halfEdges.map (fun h => h.edge_level) = [f32_zero, f32_one, f32_inf] ∧
      ∀ p, p < (levelTriangle [f32_zero, f32_one, f32_inf]).numEdges →
        (st.halfEdges.getD p default).edge_level
          = edgeLevel (levelTriangle [f32_zero, f32_one, f32_inf]) p ∧
        f32_ge_zero (st.halfEdges.getD p default).edge_level = true :=
  ⟨by decide, by decide,
    (initializeHalfEdgeStructures 32 (levelTriangle [f32_zero, f32_one, f32_inf])
      ⟨[], [(0, 3)]⟩).get (by decide),
    by decide, by decide,
    (edge_level_contract 32 (levelTriangle [f32_zero, f32_one, f32_inf]) ⟨[], [(0, 3)]⟩).2
      (by decide) _ (by decide)⟩

/-- C19 (counterexample). A triangle whose level buffer holds a NaN (`0x7FC00000`) and twice
`1.0f`: none of the three levels is negative, and the construction fails, because
`NaN >= 0.0f` is false. -/
theorem edge_level_contract_counterexample :
    WellFormed (levelTriangle [0x7FC00000, f32_one, f32_one]) ∧
    ([0x7FC00000, f32_one, f32_one].map f32_lt_zero = [false, false, false]) ∧
    f32_ge_zero 0x7FC00000 = false ∧
    initializeHalfEdgeStructures 32 (levelTriangle [0x7FC00000, f32_one, f32_one])
      ⟨[], [(0, 3)]⟩ = none :=
  ⟨by decide, by decide, by decide, by decide⟩

/-! ## Crease lookups -/

theorem mapLookup_default (entries : List (Nat × Nat)) (key dflt : Nat)
    (h : ∀ kv ∈ entries, kv.1 ≠ key) : mapLookup entries key dflt = dflt := by
  unfold mapLookup
  have : entries.reverse.find? (fun kv => kv.1 == key) = none := by
    rw [List.find?_eq_none]
    intro kv hkv
    have := h kv (List.mem_reverse.1 hkv)
    simpa using this
  rw [this]

theorem mapLookup_value (entries : List (Nat × Nat)) (key dflt v : Nat)
    (hex : ∃ kv ∈ entries, kv.1 = key) (hall : ∀ kv ∈ entries, kv.1 = key → kv.2 = v) :
    mapLookup entries key dflt = v := by
  unfold mapLookup
  cases hf : entries.reverse.find? (fun kv => kv.1 == key) with
  | none =>
    exfalso
    rw [List.find?_eq_none] at hf
    obtain ⟨kv, hkv, hk⟩ := hex
    exact hf kv (List.mem_reverse.2 hkv) (by simpa using hk)
  | some kv =>
    have h1 := List.find?_some hf
    have h2 := List.mem_reverse.1 (List.mem_of_find?_eq_some hf)
    exact hall kv h2 (by simpa using h1)

theorem mem_edgeCreaseMapInit (m : SubdivMesh) (kv : Nat × Nat)
    (h : kv ∈ edgeCreaseMapInit m) :
    ∃ j, j < m.edge_creases.length ∧ j < m.edge_crease_weights.length ∧
      kv.1 = Edge (m.edge_creases.getD j (0, 0)).1 (m.edge_creases.getD j (0, 0)).2 ∧
      kv.2 = m.edge_crease_weights.getD j 0 := by
  unfold edgeCreaseMapInit at h
  obtain ⟨j, hj, hkv⟩ := List.getElem_of_mem h
  have hj' := hj
  simp only [List.length_zip, List.length_map] at hj'
  have h1 : j < m.edge_creases.length := by omega
  have h2 : j < m.edge_crease_weights.length := by omega
  refine ⟨j, h1, h2, ?_, ?_⟩
  · rw [← hkv, List.getElem_zip, List.getD_eq_getElem _ _ h1]
    simp
  · rw [← hkv, List.getElem_zip, List.getD_eq_getElem _ _ h2]

theorem getD_mem_edgeCreaseMapInit (m : SubdivMesh) (j : Nat) (h1 : j < m.edge_creases.length)
    (h2 : j < m.edge_crease_weights.length) :
    (Edge (m.edge_creases.getD j (0, 0)).1 (m.edge_creases.getD j (0, 0)).2,
      m.edge_crease_weights.getD j 0) ∈ edgeCreaseMapInit m := by
  unfold edgeCreaseMapInit
  have hj : j < ((m.edge_creases.map (fun e => Edge e.1 e.2)).zip m.edge_crease_weights).length := by
    simp only [List.length_zip, List.length_map]; omega
  have := List.getElem_mem hj
  rw [List.getElem_zip] at this
  rw [List.getD_eq_getElem _ _ h1, List.getD_eq_getElem _ _ h2]
  simpa using this

theorem fill_crease_weights (w : Nat) (m : SubdivMesh) (s : Schedule) (hwf : WellFormed m)
    (f d : Nat) (hf : f < m.numFaces) (hd : d < m.faceVertices.getD f 0) :
    ((fillWrites w m (prepare m s).1).halfEdges.getD
        ((prepare m s).1.faceStartEdge.getD f 0 + d) default).edge_crease_weight
      = mapLookup (edgeCreaseMapInit m)
          (Edge (m.vertexIndices.getD ((prepare m s).1.faceStartEdge.getD f 0 + d) 0)
            (m.vertexIndices.getD ((prepare m s).1.faceStartEdge.getD f 0
              + (d + 1) % m.faceVertices.getD f 0) 0)) f32_zero ∧
    ((fillWrites w m (prepare m s).1).halfEdges.getD
        ((prepare m s).1.faceStartEdge.getD f 0 + d) default).vertex_crease_weight
      = mapLookup (vertexCreaseMapInit m)
          (m.vertexIndices.getD ((prepare m s).1.faceStartEdge.getD f 0 + d) 0) f32_zero := by
  rw [fillWrites_halfEdges w m s hwf f d hf hd]
  exact ⟨rfl, rfl⟩

/-- C12. Crease default: on a well-formed mesh whose edge creases are given by 32-bit vertex
indices, after the fill stage a half-edge whose undirected edge is not in the edge-crease list
has edge crease weight `0.0f`, and a half-edge whose origin vertex is not in the vertex-crease
list has vertex crease weight `0.0f`. -/
theorem crease_default (w : Nat) (m : SubdivMesh) (s : Schedule) (fs : FillState)
    (hwf : WellFormed m) (hcr : ∀ e ∈ m.edge_creases, e.1 < 2 ^ 32 ∧ e.2 < 2 ^ 32)
    (hfill : fill w m (prepare m s).1 = some fs) (f d : Nat) (hf : f < m.numFaces)
    (hd : d < m.faceVertices.getD f 0) :
    ((∀ e ∈ m.edge_creases, ¬ AlongEdge m (prepare m s).1.faceStartEdge f d e.1 e.2) →
      (fs.halfEdges.getD ((prepare m s).1.faceStartEdge.getD f 0 + d) default).edge_crease_weight
        = f32_zero) ∧
    (m.vertexIndices.getD ((prepare m s).1.faceStartEdge.getD f 0 + d) 0 ∉ m.vertex_creases →
      (fs.halfEdges.getD ((prepare m s).1.faceStartEdge.getD f 0 + d) default).vertex_crease_weight
        = f32_zero) := by
  rw [(fill_some_eq w m _ fs hfill).2]
  obtain ⟨h1, h2⟩ := fill_crease_weights w m s hwf f d hf hd
  constructor
  · intro hno
    rw [h1]
    apply mapLookup_default
    intro kv hkv hkey
    obtain ⟨j, hj1, -, hk, -⟩ := mem_edgeCreaseMapInit m kv hkv
    have hmem := getD_mem_of_lt m.edge_creases j (0, 0) hj1
    have hb := hcr _ hmem
    rw [hk] at hkey
    apply hno _ hmem
    refine ⟨hf, hd, ?_⟩
    rcases pair64_inj _ _ _ _ hb.1 hb.2 (vertex_lt m hwf _) (vertex_lt m hwf _) hkey with
      ⟨e1, e2⟩ | ⟨e1, e2⟩
    · left; exact ⟨e1.symm, e2.symm⟩
    · right; exact ⟨e2.symm, e1.symm⟩
  · intro hno
    rw [h2]
    apply mapLookup_default
    intro kv hkv hkey
    apply hno
    rw [← hkey]
    unfold vertexCreaseMapInit at hkv
    exact (List.of_mem_zip (a := kv.1) (b := kv.2) hkv).1

theorem crease_default_witness :
    WellFormed creasedTriangles ∧
    (∀ e ∈ creasedTriangles.edge_creases, e.1 < 2 ^ 32 ∧ e.2 < 2 ^ 32) ∧
    (fill 32 creasedTriangles (prepare creasedTriangles ⟨[], [(0, 6)]⟩).1).map
        (fun fs => fs.halfEdges.map (fun h => (h.edge_crease_weight, h.vertex_crease_weight)))
      = some [(0x40200000, 0), (0, 0), (0, f32_one), (0x40200000, 0), (0, 0), (0, 0)] ∧
    ∃ fs, fill 32 creasedTriangles (prepare creasedTriangles ⟨[], [(0, 6)]⟩).1 = some fs ∧
      (fs.halfEdges.getD ((prepare creasedTriangles ⟨[], [(0, 6)]⟩).1.faceStartEdge.getD 0 0 + 1)
        default).edge_crease_weight = f32_zero ∧
      (fs.halfEdges.getD ((prepare creasedTriangles ⟨[], [(0, 6)]⟩).1.faceStartEdge.getD 0 0 + 1)
        default).vertex_crease_weight = f32_zero :=
  ⟨by decide, by decide, by decide,
    fillWrites 32 creasedTriangles (prepare creasedTriangles ⟨[], [(0, 6)]⟩).1, by decide,
    (crease_default 32 creasedTriangles ⟨[], [(0, 6)]⟩ _ (by decide) (by decide) (by decide)
      0 1 (by decide) (by decide)).1 (by decide),
    (crease_default 32 creasedTriangles ⟨[], [(0, 6)]⟩ _ (by decide) (by decide) (by decide)
      0 1 (by decide) (by decide)).2 (by decide)⟩

/-- C13. Edge crease override: on a well-formed mesh whose edge creases are given by 32-bit
vertex indices, if entry `i` of the edge-crease list is the only entry for its undirected edge
`{v0,v1}`, then after the construction every half-edge that runs along `{v0,v1}`, in either
direction and in any face (hole or not), has the weight of entry `i` as its edge crease
weight. -/
theorem edge_crease_override (w : Nat) (m : SubdivMesh) (s : Schedule) (st : State)
    (hwf : WellFormed m) (hcr : ∀ e ∈ m.edge_creases, e.1 < 2 ^ 32 ∧ e.2 < 2 ^ 32)
    (hst : initializeHalfEdgeStructures w m s = some st) (i : Nat)
    (hi : i < m.edge_creases.length) (hiw : i < m.edge_crease_weights.length)
    (honly : ∀ j, j < m.edge_creases.length → j ≠ i →
      ¬ (((m.edge_creases.getD j (0, 0)).1 = (m.edge_creases.getD i (0, 0)).1 ∧
          (m.edge_creases.getD j (0, 0)).2 = (m.edge_creases.getD i (0, 0)).2) ∨
         ((m.edge_creases.getD j (0, 0)).1 = (m.edge_creases.getD i (0, 0)).2 ∧
          (m.edge_creases.getD j (0, 0)).2 = (m.edge_creases.getD i (0, 0)).1)))
    (f d : Nat)
    (halong : AlongEdge m st.faceStartEdge f d (m.edge_creases.getD i (0, 0)).1
      (m.edge_creases.getD i (0, 0)).2) :
    (st.halfEdges.getD (st.faceStartEdge.getD f 0 + d) default).edge_crease_weight
      = m.edge_crease_weights.getD i 0 := by
  obtain ⟨hfr, hfse⟩ := init_frame w m s st hwf hst
  rw [hfse] at halong ⊢
  rw [(hfr.2 _).2.2.2.1, (fill_crease_weights w m s hwf f d halong.1 halong.2.1).1,
    alongEdge_key m _ f d _ _ halong]
  apply mapLookup_value
  · exact ⟨_, getD_mem_edgeCreaseMapInit m i hi hiw, rfl⟩
  · intro kv hkv hkey
    obtain ⟨j, hj1, hj2, hk, hv⟩ := mem_edgeCreaseMapInit m kv hkv
    have hbj := hcr _ (getD_mem_of_lt m.edge_creases j (0, 0) hj1)
    have hbi := hcr _ (getD_mem_of_lt m.edge_creases i (0, 0) hi)
    rw [hk] at hkey
    have hji : j = i := by
      by_contra hne
      exact honly j hj1 hne (pair64_inj _ _ _ _ hbj.1 hbj.2 hbi.1 hbi.2 hkey)
    rw [hv, hji]

theorem edge_crease_override_witness :
    WellFormed creasedTriangles ∧ creasedTriangles.holes = [1] ∧
    creasedTriangles.edge_creases = [(0, 1)] ∧
    creasedTriangles.edge_crease_weights = [0x40200000] ∧
    ∃ st, initializeHalfEdgeStructures 32 creasedTriangles ⟨[], [(0, 6)]⟩ = some st ∧
      AlongEdge creasedTriangles st.faceStartEdge 0 0 0 1 ∧
      AlongEdge creasedTriangles st.faceStartEdge 1 0 0 1 ∧
      st.halfEdges.map (fun h => h.edge_crease_weight) = [0x40200000, 0, 0, 0x40200000, 0, 0] ∧
      (st.halfEdges.getD (st.faceStartEdge.getD 1 0 + 0) default).edge_crease_weight
        = creasedTriangles.edge_crease_weights.getD 0 0 :=
  ⟨by decide, rfl, rfl, rfl,
    (initializeHalfEdgeStructures 32 creasedTriangles ⟨[], [(0, 6)]⟩).get (by decide),
    by decide, by decide, by decide, by decide,
    edge_crease_override 32 creasedTriangles ⟨[], [(0, 6)]⟩ _ (by decide) (by decide)
      (by decide) 0 (by decide) (by decide) (by decide) 1 0 (by decide)⟩

/-! ## Meshes with fewer half-edges than declared edges -/

theorem prepare_faceStartEdge_of_len (m : SubdivMesh) (s : Schedule)
    (hlen : m.faceVertices.length = m.numFaces) (f : Nat) (hf : f < m.numFaces) :
    (prepare m s).1.faceStartEdge.getD f 0 = (m.faceVertices.take f).sum := by
  simp only [prepare, prefix_sum_blocks]
  rw [← hlen, List.take_length, faceStartLoop_getD _ _ _ (by omega)]
  simp

theorem fillPairs_pos_inj_of_len (m : SubdivMesh) (s : Schedule)
    (hlen : m.faceVertices.length = m.numFaces) (p q : Nat × Nat)
    (hp : p ∈ fillPairs m) (hq : q ∈ fillPairs m)
    (h : (prepare m s).1.faceStartEdge.getD p.1 0 + p.2
       = (prepare m s).1.faceStartEdge.getD q.1 0 + q.2) : p = q := by
  rw [mem_fillPairs] at hp hq
  rw [prepare_faceStartEdge_of_len m s hlen _ hp.1,
    prepare_faceStartEdge_of_len m s hlen _ hq.1] at h
  have := flat_inj m.faceVertices p.1 p.2 q.1 q.2 (by omega) (by omega) hp.2 hq.2 h
  exact Prod.ext this.1 this.2

theorem fillWrites_halfEdges_of_le (w : Nat) (m : SubdivMesh) (s : Schedule)
    (hlen : m.faceVertices.length = m.numFaces) (hsum : m.faceVertices.sum ≤ m.numEdges)
    (f d : Nat) (hf : f < m.numFaces) (hd : d < m.faceVertices.getD f 0) :
    (fillWrites w m (prepare m s).1).halfEdges.getD
        ((prepare m s).1.faceStartEdge.getD f 0 + d) default
      = mkHalfEdge w m (prepare m s).1 (m.faceVertices.getD f 0)
          ((prepare m s).1.faceStartEdge.getD f 0) d := by
  rw [fillWrites_eq_pairs, foldl_writeEdge_halfEdges]
  have hmem : (f, d) ∈ fillPairs m := (mem_fillPairs m (f, d)).2 ⟨hf, hd⟩
  apply foldl_set_getD_of_mem
    (fun p : Nat × Nat => (prepare m s).1.faceStartEdge.getD p.1 0 + p.2)
    (fun p : Nat × Nat => mkHalfEdge w m (prepare m s).1 (m.faceVertices.getD p.1 0)
      ((prepare m s).1.faceStartEdge.getD p.1 0) p.2)
  · exact ⟨(f, d), hmem, rfl⟩
  · have h1 := flat_lt_sum m.faceVertices f d (by omega) hd
    have h2 := prepare_faceStartEdge_of_len m s hlen f hf
    have h3 : (prepare m s).1.halfEdges.length = m.numEdges := by simp [prepare]
    simp only
    omega
  · intro j hj hpos
    have := fillPairs_pos_inj_of_len m s hlen j (f, d) hj hmem hpos
    subst this
    rfl

theorem init_frame_general (w : Nat) (m : SubdivMesh) (s : Schedule) (st : State)
    (hst : initializeHalfEdgeStructures w m s = some st) :
    FrameEq (fillWrites w m (prepare m s).1).halfEdges st.halfEdges ∧
    st.faceStartEdge = (prepare m s).1.faceStartEdge := by
  unfold initializeHalfEdgeStructures at hst
  rw [Option.map_eq_some'] at hst
  obtain ⟨st1, hst1, hc⟩ := hst
  obtain ⟨-, heq⟩ := linked_some w m s st1 hst1
  have hcl := cleanup_halfEdges m st1
  rw [hc] at hcl
  constructor
  · rw [hcl.1, heq]
    simp only
    rw [linkPass_eq]
    exact foldl_processRun_frame _ _ _ _
  · rw [hcl.2, heq]

theorem init_isSome (w : Nat) (m : SubdivMesh) (s : Schedule) :
    (initializeHalfEdgeStructures w m s).isSome = fillOk m (prepare m s).1 := by
  unfold initializeHalfEdgeStructures linked
  simp only [fill_eq]
  by_cases hok : fillOk m (prepare m s).1 = true
  · simp [hok]
  · simp [hok]

/-- C20 (as amended). No size check: `initializeHalfEdgeStructures` does not compare the sum of
the per-face vertex counts with the declared number of edges. When the sum is smaller than
`numEdges` the construction reports nothing: it completes exactly when no edge-level assertion
fails, returns a half-edge array of `numEdges` entries, and has filled the half-edges of every
face (origin, next and previous offset, edge crease weight and edge level as written by the
fill stage). -/
theorem size_mismatch_unchecked (w : Nat) (m : SubdivMesh) (s : Schedule)
    (hlen : m.faceVertices.length = m.numFaces) (hsum : m.faceVertices.sum < m.numEdges) :
    (initializeHalfEdgeStructures w m s).isSome = fillOk m (prepare m s).1 ∧
    ∀ st, initializeHalfEdgeStructures w m s = some st →
      st.halfEdges.length = m.numEdges ∧
      ∀ f d, f < m.numFaces → d < m.faceVertices.getD f 0 →
        origin st.halfEdges (st.faceStartEdge.getD f 0 + d)
          = m.vertexIndices.getD (st.faceStartEdge.getD f 0 + d) 0 ∧
        (st.halfEdges.getD (st.faceStartEdge.getD f 0 + d) default).next_half_edge_ofs
          = (mkHalfEdge w m (prepare m s).1 (m.faceVertices.getD f 0)
              (st.faceStartEdge.getD f 0) d).next_half_edge_ofs ∧
        (st.halfEdges.getD (st.faceStartEdge.getD f 0 + d) default).prev_half_edge_ofs
          = (mkHalfEdge w m (prepare m s).1 (m.faceVertices.getD f 0)
              (st.faceStartEdge.getD f 0) d).prev_half_edge_ofs ∧
        (st.halfEdges.getD (st.faceStartEdge.getD f 0 + d) default).edge_crease_weight
          = (mkHalfEdge w m (prepare m s).1 (m.faceVertices.getD f 0)
              (st.faceStartEdge.getD f 0) d).edge_crease_weight ∧
        (st.halfEdges.getD (st.faceStartEdge.getD f 0 + d) default).edge_level
          = edgeLevel m (st.faceStartEdge.getD f 0 + d) := by
  refine ⟨init_isSome w m s, ?_⟩
  intro st hst
  obtain ⟨hfr, hfse⟩ := init_frame_general w m s st hst
  refine ⟨by rw [hfr.1, fillWrites_halfEdges_length], ?_⟩
  intro f d hf hd
  obtain ⟨a1, a2, a3, a4, a5⟩ := hfr.2 (st.faceStartEdge.getD f 0 + d)
  have hfill := fillWrites_halfEdges_of_le w m s hlen (Nat.le_of_lt hsum) f d hf hd
  rw [← hfse] at hfill
  unfold origin
  rw [a1, a2, a3, a4, a5, hfill]
  exact ⟨rfl, rfl, rfl, rfl, rfl⟩

theorem size_mismatch_unchecked_witness :
    shortMesh.faceVertices.length = shortMesh.numFaces ∧
    shortMesh.faceVertices.sum < shortMesh.numEdges ∧
    (initializeHalfEdgeStructures 32 shortMesh ⟨[], [(0, 3)]⟩).isSome
      = fillOk shortMesh (prepare shortMesh ⟨[], [(0, 3)]⟩).1 ∧
    fillOk shortMesh (prepare shortMesh ⟨[], [(0, 3)]⟩).1 = true :=
  ⟨rfl, by decide,
    (size_mismatch_unchecked 32 shortMesh ⟨[], [(0, 3)]⟩ rfl (by decide)).1, by decide⟩

/-- C20 (counterexample). A mesh declared with 4 edges whose only face has 3 vertices: the sum
of the vertex counts differs from the declared number of edges, and the construction completes
without reporting anything, with the three half-edges of the face filled (origins 0, 1, 2 and
next offsets 1, 1, -2). -/
theorem size_mismatch_counterexample :
    shortMesh.faceVertices.sum = 3 ∧ shortMesh.numEdges = 4 ∧
    shortMesh.vertexIndices.length = 4 ∧
    (initializeHalfEdgeStructures 32 shortMesh ⟨[], [(0, 3)]⟩).map
        (fun st => (st.halfEdges.length,
          (st.halfEdges.take 3).map (fun h => (h.vtx_index, h.next_half_edge_ofs))))
      = some (4, [(0, 1), (1, 1), (2, -2)]) :=
  ⟨by decide, rfl, rfl, by decide⟩

/-! ## Vertex bounds verification -/

theorem f32_mag_lt_pow (x : Nat) : f32_mag x < 2 ^ 23 * 2 ^ (x % 2 ^ 31 / 2 ^ 23) := by
  unfold f32_mag
  have hm : x % 2 ^ 23 < 2 ^ 23 := Nat.mod_lt _ (by norm_num)
  by_cases he : x % 2 ^ 31 / 2 ^ 23 = 0
  · simp only [he, if_true, pow_zero, mul_one]; exact hm
  · simp only [he, if_false]
    obtain ⟨e, hE⟩ : ∃ e, x % 2 ^ 31 / 2 ^ 23 = e + 1 := ⟨_, (Nat.succ_pred_eq_of_ne_zero he).symm⟩
    rw [hE, Nat.add_sub_cancel, pow_succ]
    have hpos : 0 < 2 ^ e := Nat.two_pow_pos e
    calc (2 ^ 23 + x % 2 ^ 23) * 2 ^ e < (2 ^ 23 * 2) * 2 ^ e :=
          Nat.mul_lt_mul_of_pos_right (by omega) hpos
      _ = 2 ^ 23 * (2 ^ e * 2) := by ring

theorem f32_mag_ge_pow (x : Nat) (he : x % 2 ^ 31 / 2 ^ 23 ≠ 0) :
    2 ^ 23 * 2 ^ (x % 2 ^ 31 / 2 ^ 23 - 1) ≤ f32_mag x := by
  unfold f32_mag
  simp only [he, if_false]
  exact Nat.mul_le_mul_right _ (Nat.le_add_right _ _)

theorem low_bits_split (x : Nat) :
    x % 2 ^ 31 = 2 ^ 23 * (x % 2 ^ 31 / 2 ^ 23) + x % 2 ^ 23 := by
  have h1 := Nat.div_add_mod (x % 2 ^ 31) (2 ^ 23)
  have h2 : x % 2 ^ 31 % 2 ^ 23 = x % 2 ^ 23 :=
    Nat.mod_mod_of_dvd x (pow_dvd_pow 2 (by norm_num))
  omega

/-- The magnitude is strictly increasing in the 31 low bits of the pattern. -/
theorem f32_mag_lt_of_bits_lt (a b : Nat) (h : a % 2 ^ 31 < b % 2 ^ 31) :
    f32_mag a < f32_mag b := by
  have ha := low_bits_split a
  have hb := low_bits_split b
  have hma : a % 2 ^ 23 < 2 ^ 23 := Nat.mod_lt _ (by norm_num)
  have hmb : b % 2 ^ 23 < 2 ^ 23 := Nat.mod_lt _ (by norm_num)
  rcases Nat.lt_trichotomy (a % 2 ^ 31 / 2 ^ 23) (b % 2 ^ 31 / 2 ^ 23) with hlt | heq | hgt
  · have hne : b % 2 ^ 31 / 2 ^ 23 ≠ 0 := by omega
    have h1 := f32_mag_lt_pow a
    have h2 := f32_mag_ge_pow b hne
    have h3 : 2 ^ (a % 2 ^ 31 / 2 ^ 23) ≤ 2 ^ (b % 2 ^ 31 / 2 ^ 23 - 1) :=
      Nat.pow_le_pow_right (by norm_num) (by omega)
    calc f32_mag a < 2 ^ 23 * 2 ^ (a % 2 ^ 31 / 2 ^ 23) := h1
      _ ≤ 2 ^ 23 * 2 ^ (b % 2 ^ 31 / 2 ^ 23 - 1) := Nat.mul_le_mul_left _ h3
      _ ≤ f32_mag b := h2
  · have hm : a % 2 ^ 23 < b % 2 ^ 23 := by omega
    unfold f32_mag
    simp only [heq]
    split
    · exact hm
    · exact Nat.mul_lt_mul_of_pos_right (by omega) (Nat.two_pow_pos _)
  · exfalso
    have : 2 ^ 23 * (b % 2 ^ 31 / 2 ^ 23 + 1) ≤ 2 ^ 23 * (a % 2 ^ 31 / 2 ^ 23) :=
      Nat.mul_le_mul_left _ hgt
    omega

theorem f32_mag_lt_iff (a b : Nat) : f32_mag a < f32_mag b ↔ a % 2 ^ 31 < b % 2 ^ 31 := by
  constructor
  · intro h
    by_contra hcon
    rcases Nat.lt_or_eq_of_le (Nat.le_of_not_lt hcon) with h1 | h1
    · exact absurd (f32_mag_lt_of_bits_lt b a h1) (by omega)
    · have h2 : a % 2 ^ 23 = b % 2 ^ 23 := by
        have e1 : a % 2 ^ 31 % 2 ^ 23 = a % 2 ^ 23 :=
          Nat.mod_mod_of_dvd a (pow_dvd_pow 2 (by norm_num))
        have e2 : b % 2 ^ 31 % 2 ^ 23 = b % 2 ^ 23 :=
          Nat.mod_mod_of_dvd b (pow_dvd_pow 2 (by norm_num))
        rw [← e1, ← e2, h1]
      have : f32_mag a = f32_mag b := by unfold f32_mag; rw [h1, h2]
      omega
  · exact f32_mag_lt_of_bits_lt a b

theorem f32_mag_range : f32_mag range = 11863283 * 2 ^ 189 := by
  unfold f32_mag range
  norm_num

/-- The constant is the correctly rounded square root: `range^2` is the nearest square of a
24-bit significand times `2^80` to `0.5*FLT_MAX = (2^24 - 1) * 2^103` (compared on
`(2 m ± 1)^2 * 2^78` against `(2^24 - 1) * 2^103`). -/
theorem range_rounding :
    (2 * 11863283 - 1) ^ 2 * 2 ^ 78 < (2 ^ 24 - 1) * 2 ^ 103 ∧
    (2 ^ 24 - 1) * 2 ^ 103 < (2 * 11863283 + 1) ^ 2 * 2 ^ 78 := by
  constructor <;> norm_num

/-- The component test on bit patterns: `x > -range && x < range` holds exactly when the 31
low bits of `x` are below the pattern of `range`; NaN and infinity fail it. -/
theorem inRange_iff (x : Nat) : inRange x = true ↔ x % 2 ^ 31 < range := by
  have hrange : range % 2 ^ 31 = range := by unfold range; norm_num
  have hnr : (f32_neg range) % 2 ^ 31 = range := by unfold f32_neg range; norm_num
  have hnan1 : f32_isNaN range = false := by unfold f32_isNaN range; norm_num
  have hnan2 : f32_isNaN (f32_neg range) = false := by
    unfold f32_isNaN; rw [hnr]; unfold range; norm_num
  have hvr : f32_val range = (f32_mag range : Int) := by
    unfold f32_val range; norm_num
  have hmn : f32_mag (f32_neg range) = f32_mag range := by
    unfold f32_mag f32_neg range; norm_num
  have hvn : f32_val (f32_neg range) = -(f32_mag range : Int) := by
    unfold f32_val; rw [hmn]; unfold f32_neg range; norm_num
  have hmag := f32_mag_lt_iff x range
  rw [hrange] at hmag
  unfold inRange f32_lt
  rw [hnan1, hnan2, hvr, hvn]
  simp only [Bool.not_false, Bool.true_and, Bool.and_true, Bool.and_eq_true,
    Bool.not_eq_true', decide_eq_true_eq]
  constructor
  · rintro ⟨⟨_, h1⟩, ⟨_, h2⟩⟩
    apply hmag.1
    unfold f32_val at h1 h2
    split at h1 <;> omega
  · intro h
    have hm := hmag.2 h
    have hn : f32_isNaN x = false := by
      unfold f32_isNaN
      simp only [decide_eq_false_iff_not, not_lt]
      unfold range at h
      omega
    refine ⟨⟨hn, ?_⟩, ⟨hn, ?_⟩⟩
    · unfold f32_val; split <;> omega
    · unfold f32_val; split <;> omega

theorem verify_eq_true_iff (numTimeSteps numVertices : Nat) (vertices : List (List Vec3fa)) :
    verify numTimeSteps numVertices vertices = true ↔
      ∀ j, j < numTimeSteps → ∀ i, i < numVertices →
        verifyVertex ((vertices.getD j []).getD i default) = true := by
  unfold verify
  simp only [List.all_eq_true, List.mem_range]

theorem verifyVertex_iff (v : Vec3fa) :
    verifyVertex v = true ↔
      v.x % 2 ^ 31 < range ∧ v.y % 2 ^ 31 < range ∧ v.z % 2 ^ 31 < range := by
  unfold verifyVertex
  rw [Bool.and_eq_true, Bool.and_eq_true, inRange_iff, inRange_iff, inRange_iff, and_assoc]

/-- C17. `verify` returns true exactly when, for every time step `j < numTimeSteps` and every
vertex `i < numVertices`, each of the components `x`, `y`, `z` is strictly greater than
`-range` and strictly less than `range`, with `range = sqrtf(0.5f*FLT_MAX)`. Hence it
returns false as soon as one of these components has a magnitude that is not below `range`
(or is a NaN), it does not depend on the `w` components, and it returns true when there is no
vertex or no time step. -/
theorem verify_bounds (numTimeSteps numVertices : Nat) (vertices : List (List Vec3fa)) :
    (verify numTimeSteps numVertices vertices = true ↔
      ∀ j, j < numTimeSteps → ∀ i, i < numVertices →
        (f32_lt (f32_neg range) ((vertices.getD j []).getD i default).x = true ∧
          f32_lt ((vertices.getD j []).getD i default).x range = true) ∧
        (f32_lt (f32_neg range) ((vertices.getD j []).getD i default).y = true ∧
          f32_lt ((vertices.getD j []).getD i default).y range = true) ∧
        (f32_lt (f32_neg range) ((vertices.getD j []).getD i default).z = true ∧
          f32_lt ((vertices.getD j []).getD i default).z range = true)) ∧
    (∀ j i, j < numTimeSteps → i < numVertices →
      (f32_mag range ≤ f32_mag ((vertices.getD j []).getD i default).x ∨
        f32_mag range ≤ f32_mag ((vertices.getD j []).getD i default).y ∨
        f32_mag range ≤ f32_mag ((vertices.getD j []).getD i default).z ∨
        f32_isNaN ((vertices.getD j []).getD i default).x = true ∨
        f32_isNaN ((vertices.getD j []).getD i default).y = true ∨
        f32_isNaN ((vertices.getD j []).getD i default).z = true) →
      verify numTimeSteps numVertices vertices = false) ∧
    (∀ other : List (List Vec3fa),
      (∀ j i, j < numTimeSteps → i < numVertices →
        ((other.getD j []).getD i default).x = ((vertices.getD j []).getD i default).x ∧
        ((other.getD j []).getD i default).y = ((vertices.getD j []).getD i default).y ∧
        ((other.getD j []).getD i default).z = ((vertices.getD j []).getD i default).z) →
      verify numTimeSteps numVertices other = verify numTimeSteps numVertices vertices) ∧
    (numVertices = 0 ∨ numTimeSteps = 0 → verify numTimeSteps numVertices vertices = true) := by
  refine ⟨?_, ?_, ?_, ?_⟩
  · rw [verify_eq_true_iff]
    constructor
    · intro h j hj i hi
      have := h j hj i hi
      unfold verifyVertex inRange at this
      simp only [Bool.and_eq_true] at this
      exact ⟨this.1.1, this.1.2, this.2⟩
    · intro h j hj i hi
      obtain ⟨h1, h2, h3⟩ := h j hj i hi
      unfold verifyVertex inRange
      simp only [Bool.and_eq_true]
      exact ⟨⟨h1, h2⟩, h3⟩
  · intro j i hj hi hbad
    rw [← Bool.not_eq_true, verify_eq_true_iff]
    intro hall
    have hv := (verifyVertex_iff _).1 (hall j hj i hi)
    have hx := (f32_mag_lt_iff ((vertices.getD j []).getD i default).x range).2
    have hy := (f32_mag_lt_iff ((vertices.getD j []).getD i default).y range).2
    have hz := (f32_mag_lt_iff ((vertices.getD j []).getD i default).z range).2
    have hr : range % 2 ^ 31 = range := by unfold range; norm_num
    rw [hr] at hx hy hz
    have hx1 := hx hv.1
    have hy1 := hy hv.2.1
    have hz1 := hz hv.2.2
    have hR : range = 0x5F3504F3 := rfl
    unfold f32_isNaN at hbad
    simp only [decide_eq_true_eq] at hbad
    omega
  · intro other hsame
    rw [Bool.eq_iff_iff, verify_eq_true_iff, verify_eq_true_iff]
    constructor
    · intro h j hj i hi
      have := h j hj i hi
      obtain ⟨e1, e2, e3⟩ := hsame j i hj hi
      unfold verifyVertex at this ⊢
      rw [e1, e2, e3] at this
      exact this
    · intro h j hj i hi
      have := h j hj i hi
      obtain ⟨e1, e2, e3⟩ := hsame j i hj hi
      unfold verifyVertex at this ⊢
      rw [e1, e2, e3]
      exact this
  · intro h0
    rw [verify_eq_true_iff]
    intro j hj i hi
    omega

theorem verify_bounds_witness :
    verify 2 1 [[⟨f32_one, 0x80000000, 0xDF3504F2, 0x7FC00000⟩], [⟨0, 0, 0, f32_inf⟩]] = true ∧
    verify 1 2 [[⟨0, 0, 0, 0⟩, ⟨0, 0xDF3504F3, 0, 0⟩]] = false ∧
    verify 1 1 [[⟨0, 0, 0x7FC00000, 0⟩]] = false :=
  ⟨by decide,
    (verify_bounds 1 2 [[⟨0, 0, 0, 0⟩, ⟨0, 0xDF3504F3, 0, 0⟩]]).2.1 0 1 (by decide) (by decide)
      (Or.inr (Or.inl (by decide))),
    (verify_bounds 1 1 [[⟨0, 0, 0x7FC00000, 0⟩]]).2.1 0 0 (by decide) (by decide)
      (Or.inr (Or.inr (Or.inr (Or.inr (Or.inr (by decide))))))⟩

/-! ## The jagged executor -/

theorem prefixLoop_sizes (array2 : List (Option Nat)) (sum : Nat) :
    (prefixLoop sum array2).2.1 = array2.map subSize := by
  induction array2 generalizing sum with
  | nil => rfl
  | cons a rest ih => simp [prefixLoop, ih]

theorem prefixLoop_length (array2 : List (Option Nat)) (sum : Nat) :
    (prefixLoop sum array2).1.length = array2.length := by
  induction array2 generalizing sum with
  | nil => rfl
  | cons a rest ih => simp [prefixLoop, ih]

theorem prefixLoop_total (array2 : List (Option Nat)) (sum : Nat)
    (h : sum + (array2.map subSize).sum < 2 ^ 64) :
    (prefixLoop sum array2).2.2 = sum + (array2.map subSize).sum := by
  induction array2 generalizing sum with
  | nil => simp [prefixLoop]
  | cons a rest ih =>
    simp only [List.map_cons, List.sum_cons] at h
    have hs : size_t (sum + subSize a) = sum + subSize a := by
      unfold size_t; exact Nat.mod_eq_of_lt (by omega)
    simp only [prefixLoop, hs, List.map_cons, List.sum_cons]
    rw [ih _ (by omega)]
    omega

theorem prefixLoop_getD (array2 : List (Option Nat)) (sum : Nat)
    (h : sum + (array2.map subSize).sum < 2 ^ 64) (i : Nat) (hi : i < array2.length) :
    (prefixLoop sum array2).1.getD i 0 = sum + ((array2.map subSize).take i).sum := by
  induction array2 generalizing sum i with
  | nil => simp at hi
  | cons a rest ih =>
    simp only [List.map_cons, List.sum_cons] at h
    have hs : size_t (sum + subSize a) = sum + subSize a := by
      unfold size_t; exact Nat.mod_eq_of_lt (by omega)
    cases i with
    | zero => simp [prefixLoop]
    | succ i =>
      simp only [prefixLoop, hs, List.map_cons, List.take_succ_cons, List.sum_cons,
        List.getD_cons_succ]
      rw [ih _ (by omega) i (by simpa using hi)]
      omega

theorem enumLoop_length (i : Nat) (l : List Nat) : (enumLoop i l).length = l.sum := by
  induction l generalizing i with
  | nil => rfl
  | cons N rest ih => simp [enumLoop, ih]

theorem enumLoop_append (i : Nat) (l1 l2 : List Nat) :
    enumLoop i (l1 ++ l2) = enumLoop i l1 ++ enumLoop (i + l1.length) l2 := by
  induction l1 generalizing i with
  | nil => simp [enumLoop]
  | cons N rest ih =>
    have h := ih (i + 1)
    rw [show i + 1 + rest.length = i + (rest.length + 1) by omega] at h
    show ((List.range N).map fun j => (i, j)) ++ enumLoop (i + 1) (rest ++ l2)
      = (((List.range N).map fun j => (i, j)) ++ enumLoop (i + 1) rest)
          ++ enumLoop (i + (rest.length + 1)) l2
    rw [h, List.append_assoc]

theorem mem_enumLoop (i : Nat) (l : List Nat) (a j : Nat) :
    (a, j) ∈ enumLoop i l ↔ i ≤ a ∧ a - i < l.length ∧ j < l.getD (a - i) 0 := by
  induction l generalizing i with
  | nil => simp [enumLoop]
  | cons N rest ih =>
    simp only [enumLoop, List.mem_append, List.mem_map, List.mem_range, Prod.mk.injEq, ih,
      List.length_cons]
    constructor
    · rintro (⟨j', hj', rfl, rfl⟩ | ⟨h1, h2, h3⟩)
      · simp [hj']
      · refine ⟨by omega, by omega, ?_⟩
        rw [show a - i = (a - (i + 1)) + 1 by omega, List.getD_cons_succ]
        exact h3
    · rintro ⟨h1, h2, h3⟩
      by_cases hai : a = i
      · subst hai
        left
        simp only [Nat.sub_self, List.getD_cons_zero] at h3
        exact ⟨j, h3, rfl, rfl⟩
      · right
        rw [show a - i = (a - (i + 1)) + 1 by omega, List.getD_cons_succ] at h3
        exact ⟨by omega, by omega, h3⟩

theorem enumLoop_nodup (i : Nat) (l : List Nat) : (enumLoop i l).Nodup := by
  induction l generalizing i with
  | nil => simp [enumLoop]
  | cons N rest ih =>
    simp only [enumLoop]
    rw [List.nodup_append]
    refine ⟨?_, ih (i + 1), ?_⟩
    · exact (List.nodup_range N).map (fun a b h => by simpa using h)
    · intro p hp hq
      obtain ⟨a, j⟩ := p
      rw [mem_enumLoop] at hq
      simp only [List.mem_map, List.mem_range, Prod.mk.injEq] at hp
      obtain ⟨_, _, h, _⟩ := hp
      omega

theorem elements_sequentialLoop (i : Nat) (l : List Nat) :
    elements (sequentialLoop i l) = enumLoop i l := by
  induction l generalizing i with
  | nil => rfl
  | cons N rest ih =>
    have ih1 := ih (i + 1)
    unfold elements at ih1 ⊢
    simp only [sequentialLoop, enumLoop, List.flatMap_append, ih1]
    congr 1
    by_cases hN : N = 0
    · subst hN; simp
    · simp [hN, Call.elems, List.range_eq_range']

theorem range_slice (N j0 d : Nat) :
    ((List.range N).drop j0).take d = List.range' j0 (min N (j0 + d) - j0) := by
  apply List.ext_getElem
  · simp only [List.length_take, List.length_drop, List.length_range, List.length_range']
    omega
  · intro n h1 h2
    simp [List.getElem_take, List.getElem_drop, List.getElem_range']

theorem size_t_sub (a k1 k : Nat) (hk : k ≤ k1) (hk1 : k1 < 2 ^ 64)
    (hr : a + (k1 - k) < 2 ^ 64) :
    size_t (size_t (a + k1) + 2 ^ 64 - k) = a + (k1 - k) := by
  unfold size_t
  omega

theorem size_t_advance (k r1 r0 : Nat) (h : r0 ≤ r1) (hr : k + (r1 - r0) < 2 ^ 64)
    (h1 : r1 < 2 ^ 64) :
    size_t (k + size_t (r1 + 2 ^ 64 - r0)) = k + (r1 - r0) := by
  unfold size_t
  omega

theorem drop_sum_cons (sizes : List Nat) (i : Nat) (hi : i < sizes.length) :
    sizes.drop i = sizes.getD i 0 :: sizes.drop (i + 1) := by
  rw [List.drop_eq_getElem_cons hi, List.getD_eq_getElem _ _ hi]

theorem sum_drop_pos_lt (sizes : List Nat) (i : Nat) (h : 0 < (sizes.drop i).sum) :
    i < sizes.length := by
  by_contra hcon
  rw [List.drop_eq_nil_of_le (by omega)] at h
  simp at h

/-- The item loop from a state `(i, j0, k)` inside the array: it reads in bounds, ends, and
hands over the next `k1 - k` elements in sequential order, in non-empty ranges inside the
items. -/
theorem itemLoop_spec (sizes : List Nat) (k1 : Nat) (hk1 : k1 < 2 ^ 64)
    (hsum : sizes.sum < 2 ^ 64) :
    ∀ fuel i j0 k, sizes.length < i + fuel → i ≤ sizes.length → k ≤ k1 →
      j0 ≤ sizes.getD i 0 → (k1 - k) + j0 ≤ (sizes.drop i).sum →
      ∃ calls, itemLoop sizes k1 fuel i j0 k = some calls ∧
        elements calls = ((enumLoop i (sizes.drop i)).drop j0).take (k1 - k) ∧
        ∀ c ∈ calls, c.r0 < c.r1 ∧ c.r1 ≤ sizes.getD c.i 0 ∧ c.i < sizes.length := by
  intro fuel
  induction fuel with
  | zero => intro i j0 k h1 h2; omega
  | succ fuel ih =>
    intro i j0 k hfuel hi hk hj0 hrem
    unfold itemLoop
    by_cases hlt : k < k1
    · have hiM : i < sizes.length := sum_drop_pos_lt sizes i (by omega)
      have hdrop := drop_sum_cons sizes i hiM
      have hget : sizes.get? i = some (sizes.getD i 0) := by
        rw [List.get?_eq_getElem?, List.getElem?_eq_getElem hiM, List.getD_eq_getElem _ _ hiM]
      have hdsum : (sizes.drop i).sum = sizes.getD i 0 + (sizes.drop (i + 1)).sum := by
        rw [hdrop, List.sum_cons]
      have hle : (sizes.drop i).sum ≤ sizes.sum := by
        have := List.sum_take_add_sum_drop sizes i
        omega
      have hsub : size_t (size_t (j0 + k1) + 2 ^ 64 - k) = j0 + (k1 - k) :=
        size_t_sub j0 k1 k hk hk1 (by omega)
      simp only [if_pos hlt, hget, hsub]
      have hr0 : j0 ≤ min (sizes.getD i 0) (j0 + (k1 - k)) := by
        rw [Nat.le_min]; exact ⟨hj0, by omega⟩
      have hr1 : min (sizes.getD i 0) (j0 + (k1 - k)) ≤ sizes.getD i 0 := Nat.min_le_left _ _
      have hadv := size_t_advance k (min (sizes.getD i 0) (j0 + (k1 - k))) j0 hr0
        (by omega) (by omega)
      rw [hadv]
      obtain ⟨calls, hcalls, helems, hprops⟩ :=
        ih (i + 1) 0 (k + (min (sizes.getD i 0) (j0 + (k1 - k)) - j0)) (by omega) (by omega)
          (by omega) (Nat.zero_le _) (by omega)
      rw [hcalls]
      refine ⟨if j0 < min (sizes.getD i 0) (j0 + (k1 - k))
          then ⟨i, j0, min (sizes.getD i 0) (j0 + (k1 - k))⟩ :: calls else calls, rfl, ?_, ?_⟩
      · rw [hdrop]
        simp only [enumLoop]
        rw [List.drop_append_of_le_length (by rw [List.length_map, List.length_range]; exact hj0), List.take_append_eq_append_take,
          ← List.map_drop, ← List.map_take, range_slice]
        simp only [List.length_drop, List.length_map, List.length_range]
        have hk' : k1 - (k + (min (sizes.getD i 0) (j0 + (k1 - k)) - j0))
            = k1 - k - (sizes.getD i 0 - j0) := by omega
        rw [List.drop_zero, hk'] at helems
        by_cases hcall : j0 < min (sizes.getD i 0) (j0 + (k1 - k))
        · rw [if_pos hcall]
          unfold elements at helems ⊢
          rw [List.flatMap_cons, helems]
          rfl
        · rw [if_neg hcall, helems]
          have : min (sizes.getD i 0) (j0 + (k1 - k)) - j0 = 0 := by omega
          rw [this]
          simp
      · intro c hc
        by_cases hcall : j0 < min (sizes.getD i 0) (j0 + (k1 - k))
        · rw [if_pos hcall] at hc
          rcases List.mem_cons.1 hc with rfl | hc
          · exact ⟨hcall, hr1, hiM⟩
          · exact hprops c hc
        · rw [if_neg hcall] at hc
          exact hprops c hc
    · simp only [if_neg hlt]
      refine ⟨[], rfl, ?_, by simp⟩
      rw [show k1 - k = 0 by omega]
      simp [elements]

theorem upper_bound_le (l : List Nat) (v : Nat) : upper_bound l v ≤ l.length :=
  List.findIdx_le_length _

theorem upper_bound_before (l : List Nat) (v i : Nat) (hi : i < upper_bound l v) :
    l.getD i 0 ≤ v := by
  induction l generalizing i with
  | nil => simp [upper_bound] at hi
  | cons b l ih =>
    unfold upper_bound at hi ih
    rw [List.findIdx_cons] at hi
    by_cases hb : v < b
    · simp [hb] at hi
    · simp only [hb, decide_False, cond_false] at hi
      cases i with
      | zero => simp only [List.getD_cons_zero]; omega
      | succ i => simp only [List.getD_cons_succ]; exact ih i (by omega)

theorem upper_bound_at (l : List Nat) (v : Nat) (h : upper_bound l v < l.length) :
    v < l.getD (upper_bound l v) 0 := by
  induction l with
  | nil => simp at h
  | cons b l ih =>
    unfold upper_bound at h ih ⊢
    rw [List.findIdx_cons] at h ⊢
    by_cases hb : v < b
    · simp [hb]
    · simp only [hb, decide_False, cond_false, List.length_cons, List.getD_cons_succ] at h ⊢
      exact ih (by omega)

theorem upper_bound_pos (l : List Nat) (v : Nat) (hl : 0 < l.length) (h0 : l.getD 0 0 ≤ v) :
    0 < upper_bound l v := by
  cases l with
  | nil => simp at hl
  | cons b l =>
    unfold upper_bound
    rw [List.findIdx_cons]
    simp only [List.getD_cons_zero] at h0
    have hb : ¬ v < b := by omega
    simp [hb]

theorem init_sizes (array2 : List (Option Nat)) (minStepSize : Nat) :
    (ParallelForForTask.init array2 minStepSize).sizes = array2.map subSize :=
  prefixLoop_sizes array2 0

theorem init_K (array2 : List (Option Nat)) (minStepSize : Nat)
    (hsum : (array2.map subSize).sum < 2 ^ 64) :
    (ParallelForForTask.init array2 minStepSize).K = (array2.map subSize).sum := by
  have := prefixLoop_total array2 0 (by omega)
  simp only [ParallelForForTask.init, this]
  omega

theorem init_prefix_length (array2 : List (Option Nat)) (minStepSize : Nat) :
    (ParallelForForTask.init array2 minStepSize).prefix_sum.length = array2.length :=
  prefixLoop_length array2 0

theorem init_prefix_getD (array2 : List (Option Nat)) (minStepSize : Nat)
    (hsum : (array2.map subSize).sum < 2 ^ 64) (i : Nat) (hi : i < array2.length) :
    (ParallelForForTask.init array2 minStepSize).prefix_sum.getD i 0
      = ((array2.map subSize).take i).sum := by
  have := prefixLoop_getD array2 0 (by omega) i hi
  simp only [ParallelForForTask.init, this]
  omega

/-- The bounds `t*K/n` of the task ranges increase with `t` and end at `K`. -/
theorem bounds_mono (K n t : Nat) : t * K / n ≤ (t + 1) * K / n :=
  Nat.div_le_div_right (Nat.mul_le_mul_right K (Nat.le_succ t))

theorem bounds_le (K n t : Nat) (ht : t < n) : (t + 1) * K / n ≤ K := by
  have h1 : (t + 1) * K ≤ n * K := Nat.mul_le_mul_right K ht
  calc (t + 1) * K / n ≤ n * K / n := Nat.div_le_div_right h1
    _ = K := Nat.mul_div_cancel_left K (by omega)

theorem enumLoop_drop (sizes : List Nat) (i j : Nat) (hi : i ≤ sizes.length) :
    (enumLoop 0 sizes).drop ((sizes.take i).sum + j) = (enumLoop i (sizes.drop i)).drop j := by
  have h := enumLoop_append 0 (sizes.take i) (sizes.drop i)
  rw [List.take_append_drop, List.length_take, Nat.min_eq_left hi, Nat.zero_add] at h
  rw [h, ← enumLoop_length 0 (sizes.take i), List.drop_append]

/-- One task of `for_for` on a non-empty array: it reads in bounds, ends, and hands over the
elements of flat positions `[t*K/n, (t+1)*K/n)` of the sequential order, in non-empty ranges
inside the items. -/
theorem for_for_spec (array2 : List (Option Nat)) (minStepSize n t : Nat)
    (hM : 0 < array2.length) (hMlt : array2.length < 2 ^ 64) (ht : t < n)
    (hov : n * (array2.map subSize).sum < 2 ^ 64) :
    ∃ calls, for_for (ParallelForForTask.init array2 minStepSize) t n = some calls ∧
      elements calls
        = ((enumLoop 0 (array2.map subSize)).drop (t * (array2.map subSize).sum / n)).take
            ((t + 1) * (array2.map subSize).sum / n - t * (array2.map subSize).sum / n) ∧
      ∀ c ∈ calls, c.r0 < c.r1 ∧ c.r1 ≤ (array2.map subSize).getD c.i 0 ∧
        c.i < array2.length := by
  have hn : 0 < n := by omega
  have hsum : (array2.map subSize).sum < 2 ^ 64 := by
    calc (array2.map subSize).sum = 1 * (array2.map subSize).sum := (Nat.one_mul _).symm
      _ ≤ n * (array2.map subSize).sum := Nat.mul_le_mul_right _ hn
      _ < 2 ^ 64 := hov
  have hK := init_K array2 minStepSize hsum
  have hsizes := init_sizes array2 minStepSize
  have hplen := init_prefix_length array2 minStepSize
  have hpget := init_prefix_getD array2 minStepSize hsum
  have hslen : (array2.map subSize).length = array2.length := List.length_map _ _
  generalize array2.map subSize = sizes at *
  generalize hKdef : sizes.sum = K at *
  have h01 := bounds_mono K n t
  have h1K := bounds_le K n t ht
  have hm0 : size_t ((t + 0) * K) = t * K := by
    unfold size_t
    have : t * K ≤ n * K := Nat.mul_le_mul_right K (Nat.le_of_lt ht)
    rw [Nat.add_zero]
    exact Nat.mod_eq_of_lt (by omega)
  have hm1 : size_t ((t + 1) * K) = (t + 1) * K := by
    unfold size_t
    have : (t + 1) * K ≤ n * K := Nat.mul_le_mul_right K ht
    exact Nat.mod_eq_of_lt (by omega)
  unfold for_for
  simp only [hK, hsizes, hm0, hm1]
  generalize t * K / n = k0 at *
  generalize (t + 1) * K / n = k1 at *
  generalize (ParallelForForTask.init array2 minStepSize).prefix_sum = P at *
  have hidxle := upper_bound_le P k0
  have hidxpos : 0 < upper_bound P k0 :=
    upper_bound_pos P k0 (by omega) (by rw [hpget 0 hM]; simp)
  have hbefore := upper_bound_before P k0
  have hat := upper_bound_at P k0
  generalize upper_bound P k0 = idx at *
  have hi0 : size_t (idx + 2 ^ 64 - 1) = idx - 1 := by
    unfold size_t
    omega
  have hi0lt : idx - 1 < P.length := by omega
  have hPget : P.get? (idx - 1) = some ((sizes.take (idx - 1)).sum) := by
    rw [List.get?_eq_getElem?, List.getElem?_eq_getElem hi0lt,
      ← List.getD_eq_getElem _ 0 hi0lt, hpget (idx - 1) (by omega)]
  have hple : (sizes.take (idx - 1)).sum ≤ k0 := by
    have := hbefore (idx - 1) (by omega)
    rw [hpget (idx - 1) (by omega)] at this
    exact this
  have hsplit : (sizes.take idx).sum
      = (sizes.take (idx - 1)).sum + sizes.getD (idx - 1) 0 := by
    have := sum_take_succ_getD sizes (idx - 1) (by omega)
    rw [show idx - 1 + 1 = idx by omega] at this
    exact this
  have hk0le : k0 ≤ (sizes.take idx).sum := by
    by_cases hlt : idx < P.length
    · have := hat hlt
      rw [hpget idx (by omega)] at this
      omega
    · rw [List.take_of_length_le (by omega), hKdef]
      omega
  have hparts := List.sum_take_add_sum_drop sizes (idx - 1)
  have hj0 : size_t (k0 + 2 ^ 64 - (sizes.take (idx - 1)).sum)
      = k0 - (sizes.take (idx - 1)).sum := by
    unfold size_t
    omega
  simp only [hi0, hPget, hj0]
  obtain ⟨calls, hcalls, helems, hprops⟩ :=
    itemLoop_spec sizes k1 (by omega) (by omega) (sizes.length + 1) (idx - 1)
      (k0 - (sizes.take (idx - 1)).sum) k0 (by omega) (by omega) h01 (by omega) (by omega)
  refine ⟨calls, hcalls, ?_, ?_⟩
  · rw [helems, ← enumLoop_drop sizes (idx - 1) _ (by omega)]
    rw [show (sizes.take (idx - 1)).sum + (k0 - (sizes.take (idx - 1)).sum) = k0 by omega]
  · intro c hc
    have := hprops c hc
    exact ⟨this.1, this.2.1, by omega⟩

theorem slices_concat {α : Type} (l : List α) (b : Nat → Nat) (n : Nat) (h0 : b 0 = 0)
    (hmono : ∀ t, t < n → b t ≤ b (t + 1)) :
    (List.range n).flatMap (fun t => (l.drop (b t)).take (b (t + 1) - b t)) = l.take (b n) := by
  induction n with
  | zero => simp [h0]
  | succ n ih =>
    rw [List.range_succ, List.flatMap_append, ih (fun t ht => hmono t (by omega))]
    simp only [List.flatMap_cons, List.flatMap_nil, List.append_nil]
    have := hmono n (by omega)
    rw [← List.take_add, show b n + (b (n + 1) - b n) = b (n + 1) by omega]

theorem collect_map {α β : Type} (f : α → Option β) (P : α → β → Prop) (l : List α)
    (h : ∀ t ∈ l, ∃ x, f t = some x ∧ P t x) :
    ∃ xs, collect (l.map f) = some xs ∧ List.Forall₂ P l xs := by
  induction l with
  | nil => exact ⟨[], rfl, List.Forall₂.nil⟩
  | cons a l ih =>
    obtain ⟨xs, hxs, hall⟩ := ih (fun t ht => h t (List.mem_cons_of_mem _ ht))
    obtain ⟨x, hx, hP⟩ := h a (List.mem_cons_self _ _)
    refine ⟨x :: xs, ?_, List.Forall₂.cons hP hall⟩
    simp only [List.map_cons, hx, collect, hxs, Option.map_some']

theorem elements_append (a b : List Call) : elements (a ++ b) = elements a ++ elements b := by
  unfold elements
  exact List.flatMap_append _ _ _

theorem elements_flatten (s : Nat → List (Nat × Nat)) (P : Call → Prop) (l : List Nat)
    (xs : List (List Call))
    (h : List.Forall₂ (fun t x => elements x = s t ∧ ∀ c ∈ x, P c) l xs) :
    elements xs.flatten = l.flatMap s ∧ xs.length = l.length ∧ ∀ x ∈ xs, ∀ c ∈ x, P c := by
  induction h with
  | nil => exact ⟨rfl, rfl, by simp⟩
  | cons hhead _ ih =>
    obtain ⟨h1, h2, h3⟩ := ih
    refine ⟨?_, by simp [h2], ?_⟩
    · rw [List.flatten_cons, elements_append, h1, hhead.1, List.flatMap_cons]
    · intro x hx c hc
      rcases List.mem_cons.1 hx with rfl | hx
      · exact hhead.2 c hc
      · exact h3 x hx c hc

/-- The tasks `0 .. n-1` of `for_for` on a non-empty array together: every task reads in
bounds and ends, and the elements handed over, task after task, are those of one sequential
pass, in the same order. -/
theorem dispatch_coverage (array2 : List (Option Nat)) (minStepSize n : Nat)
    (hM : 0 < array2.length) (hMlt : array2.length < 2 ^ 64) (hn : 0 < n)
    (hov : n * (array2.map subSize).sum < 2 ^ 64) :
    ∃ traces, dispatchTaskSet (for_for (ParallelForForTask.init array2 minStepSize)) n
        = some traces ∧
      traces.length = n ∧
      (∀ tr ∈ traces, ∀ c ∈ tr, c.r0 < c.r1 ∧ c.r1 ≤ (array2.map subSize).getD c.i 0 ∧
        c.i < array2.length) ∧
      elements traces.flatten = enumLoop 0 (array2.map subSize) := by
  obtain ⟨traces, htr, hall⟩ := collect_map
    (fun t => for_for (ParallelForForTask.init array2 minStepSize) t n)
    (fun t calls => elements calls
        = ((enumLoop 0 (array2.map subSize)).drop (t * (array2.map subSize).sum / n)).take
            ((t + 1) * (array2.map subSize).sum / n - t * (array2.map subSize).sum / n) ∧
      ∀ c ∈ calls, c.r0 < c.r1 ∧ c.r1 ≤ (array2.map subSize).getD c.i 0 ∧
        c.i < array2.length)
    (List.range n)
    (fun t ht => for_for_spec array2 minStepSize n t hM hMlt (List.mem_range.1 ht) hov)
  obtain ⟨h1, h2, h3⟩ := elements_flatten _ _ _ _ hall
  refine ⟨traces, htr, by rw [h2, List.length_range], h3, ?_⟩
  rw [h1, slices_concat (enumLoop 0 (array2.map subSize))
    (fun t => t * (array2.map subSize).sum / n) n (by simp)
    (fun t _ => bounds_mono _ n t)]
  rw [Nat.mul_div_cancel_left _ hn, List.take_of_length_le]
  rw [enumLoop_length]

/-- Without overflow of `K+minStepSize-1`, the constructor dispatches
`min(threads, ceil(K/minStepSize))` tasks. -/
theorem taskCount_spec (task : ParallelForForTask) (threads : Nat)
    (hm : 1 ≤ task.minStepSize) (hov : task.K + task.minStepSize ≤ 2 ^ 64) :
    taskCount task threads
      = some (min threads ((task.K + task.minStepSize - 1) / task.minStepSize)) := by
  unfold taskCount blocks
  have hne : task.minStepSize ≠ 0 := by omega
  have hs : size_t (size_t (task.K + task.minStepSize) + 2 ^ 64 - 1)
      = task.K + task.minStepSize - 1 := by
    unfold size_t
    omega
  simp only [if_neg hne, hs, Option.map_some']

theorem ceil_pos_iff (K m : Nat) (hm : 1 ≤ m) : 0 < (K + m - 1) / m ↔ 0 < K := by
  rw [Nat.div_pos_iff (by omega)]
  omega

theorem ceil_le (K m : Nat) (hm : 1 ≤ m) : (K + m - 1) / m ≤ K := by
  rw [← Nat.lt_succ_iff, Nat.div_lt_iff_lt_mul (by omega)]
  have : K * 1 ≤ K * m := Nat.mul_le_mul_left K hm
  calc K + m - 1 < K + m := by omega
    _ ≤ K * m + m := by omega
    _ = (K + 1) * m := by ring

/-- The task ranges `[t*K/n, (t+1)*K/n)`, `t < n`, for a task count `1 <= n <= K`: they start
at 0, end at `K`, each starts where the one before ends, and none is empty. -/
theorem task_ranges (K n : Nat) (hn : 1 ≤ n) (hnK : n ≤ K) :
    0 * K / n = 0 ∧ n * K / n = K ∧ ∀ t, t < n → t * K / n < (t + 1) * K / n := by
  refine ⟨by simp, Nat.mul_div_cancel_left K (by omega), ?_⟩
  intro t _
  have h1 : t * K / n + 1 = (t * K + n) / n := by
    rw [Nat.add_div_right _ (by omega)]
  have h2 : (t * K + n) / n ≤ (t + 1) * K / n := by
    apply Nat.div_le_div_right
    rw [Nat.add_mul, Nat.one_mul]
    omega
  omega

/-- C15 (failing input). One sub-array of 2 elements, `minStepSize = 2^64 - 1` and one
thread: `K = 2` and `ceil(K/minStepSize) = 1`, so one task is expected, but
`K+minStepSize-1` wraps around to 0 in `size_t`, `blocks` is 0 and the constructor
dispatches `min(1, 0) = 0` tasks: the caller's function is never invoked, while
`sequential_for_for` visits both elements. -/
theorem task_count_overflow :
    (ParallelForForTask.init [some 2] (2 ^ 64 - 1)).K = 2 ∧
    min 1 ((2 + (2 ^ 64 - 1) - 1) / (2 ^ 64 - 1)) = 1 ∧
    blocks (ParallelForForTask.init [some 2] (2 ^ 64 - 1)) = some 0 ∧
    taskCount (ParallelForForTask.init [some 2] (2 ^ 64 - 1)) 1 = some 0 ∧
    parallel_for_for [some 2] (2 ^ 64 - 1) 1 = some [] ∧
    sequential_for_for [2] = [⟨0, 0, 2⟩] := by
  decide

/-- Jagged coverage where the `size_t` arithmetic does not wrap around: on every array of
sub-arrays (a null entry counting as size 0), with the task count the constructor produces for
a minimal step size of at least 1 and at least one thread, and with `K+minStepSize` and
`threads*K` within `size_t`, every task of `for_for` completes, every range `(i, [r0,r1))`
passed to the caller's function is non-empty with `r1 <= sizes[i]`, and the elements passed
over all tasks are exactly the elements `(i, j)`, `j < sizes[i]`, each once: the elements
`sequential_for_for` visits, in the same order. -/
theorem jagged_coverage (array2 : List (Option Nat)) (minStepSize threads : Nat)
    (hm : 1 ≤ minStepSize) (hT : 1 ≤ threads) (hM : array2.length < 2 ^ 64)
    (hov1 : (array2.map subSize).sum + minStepSize ≤ 2 ^ 64)
    (hov2 : threads * (array2.map subSize).sum < 2 ^ 64) :
    ∃ traces, parallel_for_for array2 minStepSize threads = some traces ∧
      taskCount (ParallelForForTask.init array2 minStepSize) threads = some traces.length ∧
      (∀ tr ∈ traces, ∀ c ∈ tr, c.r0 < c.r1 ∧ c.r1 ≤ (array2.map subSize).getD c.i 0 ∧
        c.i < array2.length) ∧
      elements traces.flatten = elements (sequential_for_for (array2.map subSize)) ∧
      (elements traces.flatten).Nodup ∧
      ∀ i j, (i, j) ∈ elements traces.flatten ↔
        i < array2.length ∧ j < (array2.map subSize).getD i 0 := by
  have hsum : (array2.map subSize).sum < 2 ^ 64 := by omega
  have hK := init_K array2 minStepSize hsum
  have hcount := taskCount_spec (ParallelForForTask.init array2 minStepSize) threads hm
    (by rw [hK]; exact hov1)
  rw [hK] at hcount
  have hmin : (ParallelForForTask.init array2 minStepSize).minStepSize = minStepSize := rfl
  rw [hmin] at hcount
  have hcore : ∃ traces, parallel_for_for array2 minStepSize threads = some traces ∧
      taskCount (ParallelForForTask.init array2 minStepSize) threads = some traces.length ∧
      (∀ tr ∈ traces, ∀ c ∈ tr, c.r0 < c.r1 ∧ c.r1 ≤ (array2.map subSize).getD c.i 0 ∧
        c.i < array2.length) ∧
      elements traces.flatten = enumLoop 0 (array2.map subSize) := by
    unfold parallel_for_for
    rw [hcount]
    simp only
    by_cases hK0 : (array2.map subSize).sum = 0
    · have hc0 : ((array2.map subSize).sum + minStepSize - 1) / minStepSize = 0 := by
        rw [hK0, Nat.zero_add]
        exact Nat.div_eq_of_lt (by omega)
      rw [hc0, Nat.min_zero]
      refine ⟨[], rfl, rfl, by simp, ?_⟩
      have hlen := enumLoop_length 0 (array2.map subSize)
      rw [hK0] at hlen
      rw [List.length_eq_zero.1 hlen]
      rfl
    · have hcpos := (ceil_pos_iff (array2.map subSize).sum minStepSize hm).2 (by omega)
      have hMpos : 0 < array2.length := by
        rcases Nat.eq_zero_or_pos array2.length with h0 | h0
        · rw [List.length_eq_zero.1 h0] at hK0
          simp at hK0
        · exact h0
      have hnpos : 0 < min threads
          (((array2.map subSize).sum + minStepSize - 1) / minStepSize) := by
        rw [Nat.lt_min]; exact ⟨hT, hcpos⟩
      have hnov : min threads (((array2.map subSize).sum + minStepSize - 1) / minStepSize)
          * (array2.map subSize).sum < 2 ^ 64 :=
        Nat.lt_of_le_of_lt (Nat.mul_le_mul_right _ (Nat.min_le_left _ _)) hov2
      obtain ⟨traces, h1, h2, h3, h4⟩ :=
        dispatch_coverage array2 minStepSize _ hMpos hM hnpos hnov
      exact ⟨traces, h1, by rw [h2], h3, h4⟩
  obtain ⟨traces, h1, h2, h3, h4⟩ := hcore
  refine ⟨traces, h1, h2, h3, ?_, ?_, ?_⟩
  · rw [h4]
    exact (elements_sequentialLoop 0 _).symm
  · rw [h4]
    exact enumLoop_nodup 0 _
  · intro i j
    rw [h4, mem_enumLoop]
    simp

theorem jagged_coverage_witness :
    parallel_for_for [some 3, none, some 0, some 2] 2 2
      = some [[⟨0, 0, 2⟩], [⟨0, 2, 3⟩, ⟨3, 0, 2⟩]] ∧
    ∃ traces, parallel_for_for [some 3, none, some 0, some 2] 2 2 = some traces ∧
      taskCount (ParallelForForTask.init [some 3, none, some 0, some 2] 2) 2
        = some traces.length ∧
      (∀ tr ∈ traces, ∀ c ∈ tr, c.r0 < c.r1 ∧
        c.r1 ≤ ([some 3, none, some 0, some 2].map subSize).getD c.i 0 ∧
        c.i < [some 3, none, some 0, some 2].length) ∧
      elements traces.flatten
        = elements (sequential_for_for ([some 3, none, some 0, some 2].map subSize)) ∧
      (elements traces.flatten).Nodup ∧
      ∀ i j, (i, j) ∈ elements traces.flatten ↔
        i < [some 3, none, some 0, some 2].length ∧
          j < ([some 3, none, some 0, some 2].map subSize).getD i 0 :=
  ⟨by decide,
    jagged_coverage [some 3, none, some 0, some 2] 2 2 (by decide) (by decide) (by decide)
      (by decide) (by decide)⟩

/-- C16 (failing input). Jagged coverage fails where `K+minStepSize-1` wraps around: for one
sub-array of 2 elements, `minStepSize = 2^64 - 1` and one thread, the minimal step size and
the thread count are at least 1 and the constructor computes `K = 2`, but it produces the task
count 0, so the tasks of `parallel_for_for` pass no element to the caller's function, while
the two elements `(0,0)` and `(0,1)` that `sequential_for_for` visits are to be covered: neither
is passed to the function. -/
theorem jagged_coverage_overflow :
    (ParallelForForTask.init [some 2] (2 ^ 64 - 1)).K = 2 ∧
    taskCount (ParallelForForTask.init [some 2] (2 ^ 64 - 1)) 1 = some 0 ∧
    (parallel_for_for [some 2] (2 ^ 64 - 1) 1).map (fun traces => elements traces.flatten)
      = some [] ∧
    elements (sequential_for_for ([some 2].map subSize)) = [(0, 0), (0, 1)] ∧
    ∀ traces, parallel_for_for [some 2] (2 ^ 64 - 1) 1 = some traces →
      (0, 0) ∉ elements traces.flatten ∧ (0, 1) ∉ elements traces.flatten := by
  refine ⟨by decide, by decide, by decide, by decide, ?_⟩
  intro traces h
  have h0 : parallel_for_for [some 2] (2 ^ 64 - 1) 1 = some [] := by decide
  rw [h0] at h
  cases h
  decide

/-! ## Non-manifold runs -/

/-- C21. Non-manifold run rule: for key records sorted by key that point to pairwise different
half-edges, any ranges of the linking pass that partition the records, and every maximal run
of more than two records with the same key other than the sentinel, after the linking pass
every half-edge `h` the run points to has vertex crease weight `+infinity`, the half-edge
`next(h)` (inside the array) has vertex crease weight `+infinity`, and the opposite offset of
`h`, 0 before the pass, is still 0. -/
theorem nonmanifold_run (w n : Nat) (recs : List KeyHalfEdge) (he0 : List HalfEdge)
    (cs : List (Nat × Nat)) (hlen : he0.length = n) (hsorted : SortedKeys recs n)
    (hle : ∀ i, i < n → keyAt recs i ≤ sentinel) (hd : DistinctEdges recs n n)
    (hcs : IsChunking n cs) (r : Nat × Nat) (hr : IsRun recs n r) (h3 : 2 < r.2)
    (i : Nat) (hi : i < r.2) (hnext : next he0 (edgeAt recs (r.1 + i)) < n)
    (hzero : (he0.getD (edgeAt recs (r.1 + i)) default).opposite_half_edge_ofs = 0) :
    ((linkPass w recs n cs he0).getD (edgeAt recs (r.1 + i)) default).vertex_crease_weight
      = f32_inf ∧
    ((linkPass w recs n cs he0).getD
        (next (linkPass w recs n cs he0) (edgeAt recs (r.1 + i))) default).vertex_crease_weight
      = f32_inf ∧
    ((linkPass w recs n cs he0).getD (edgeAt recs (r.1 + i)) default).opposite_half_edge_ofs
      = 0 := by
  have hrR : r ∈ cs.flatMap (chunkRuns recs n) := (mem_allRuns recs n hsorted hle cs hcs r).2 hr
  have hbound : r.1 + r.2 ≤ n := hr.1.2.2.1
  have hframe := foldl_processRun_frame w recs (cs.flatMap (chunkRuns recs n)) he0
  rw [linkPass_eq, next_frameEq _ _ hframe]
  refine ⟨?_, ?_, ?_⟩
  · exact foldl_processRun_vcw_targets w recs _ he0 r hrR (by omega) i hi _
      (by rw [hlen]; exact hd.1 _ (by omega)) (Or.inl rfl)
  · exact foldl_processRun_vcw_targets w recs _ he0 r hrR (by omega) i hi _
      (by rw [hlen]; exact hnext) (Or.inr rfl)
  · rw [foldl_processRun_opp_other w recs _ he0 _ ?_, hzero]
    intro r' hr' h2
    have hrun' : IsRun recs n r' := (mem_allRuns recs n hsorted hle cs hcs r').1 hr'
    have hbound' : r'.1 + r'.2 ≤ n := hrun'.1.2.2.1
    constructor
    · intro heq
      have hidx := hd.2 (r.1 + i) r'.1 (by omega) (by omega) heq
      have := isMaxRun_eq_of_overlap recs n r r' hr.1 hrun'.1 i 0 hi (by omega) (by omega)
      rw [← this] at h2
      omega
    · intro heq
      have hidx := hd.2 (r.1 + i) (r'.1 + 1) (by omega) (by omega) heq
      have := isMaxRun_eq_of_overlap recs n r r' hr.1 hrun'.1 i 1 hi (by omega) (by omega)
      rw [← this] at h2
      omega

theorem nonmanifold_run_witness :
    IsRun (radix_sort_u64
      (fillWrites 32 threeQuads (prepare threeQuads ⟨[], [(0, 12)]⟩).1).halfEdges1 12) 12 (0, 3) ∧
    edgeAt (radix_sort_u64
      (fillWrites 32 threeQuads (prepare threeQuads ⟨[], [(0, 12)]⟩).1).halfEdges1 12) (0 + 1)
      = 4 ∧
    (initializeHalfEdgeStructures 32 threeQuads ⟨[], [(5, 12), (0, 5)]⟩).map
        (fun st => st.halfEdges.map
          (fun h => (h.vtx_index, h.opposite_half_edge_ofs, h.vertex_crease_weight)))
      = some [(0, 0, f32_inf), (1, 0, f32_inf), (2, 0, 0), (3, 0, 0),
          (0, 0, f32_inf), (1, 0, f32_inf), (4, 0, 0), (5, 0, 0),
          (0, 0, f32_inf), (1, 0, f32_inf), (6, 0, 0), (7, 0, 0)] ∧
    ((linkPass 32
        (radix_sort_u64
          (fillWrites 32 threeQuads (prepare threeQuads ⟨[], [(0, 12)]⟩).1).halfEdges1 12)
        12 [(5, 12), (0, 5)]
        (fillWrites 32 threeQuads (prepare threeQuads ⟨[], [(0, 12)]⟩).1).halfEdges).getD
      (edgeAt (radix_sort_u64
        (fillWrites 32 threeQuads (prepare threeQuads ⟨[], [(0, 12)]⟩).1).halfEdges1 12) (0 + 1))
      default).vertex_crease_weight = f32_inf :=
  ⟨by decide, by decide, by decide,
    (nonmanifold_run 32 12
      (radix_sort_u64
        (fillWrites 32 threeQuads (prepare threeQuads ⟨[], [(0, 12)]⟩).1).halfEdges1 12)
      (fillWrites 32 threeQuads (prepare threeQuads ⟨[], [(0, 12)]⟩).1).halfEdges
      [(5, 12), (0, 5)] (by decide)
      (linkInput_of_mesh 32 threeQuads ⟨[], [(0, 12)]⟩ (by decide) (by decide) (by decide)).hsorted
      (linkInput_of_mesh 32 threeQuads ⟨[], [(0, 12)]⟩ (by decide) (by decide) (by decide)).hle
      (linkInput_of_mesh 32 threeQuads ⟨[], [(0, 12)]⟩ (by decide) (by decide) (by decide)).hd
      ⟨[(0, 5), (5, 12)], by decide, by decide⟩ (0, 3) (by decide) (by decide) 1 (by decide)
      (by decide) (by decide)).1⟩

/-! ## Boundary edges -/

/-- In a run of at least three records, every record has two other records of the run, which
point to two further half-edges with the same key. -/
theorem run_members3 (w n : Nat) (recs : List KeyHalfEdge) (he0 : List HalfEdge)
    (K : Nat → Nat) (hin : LinkInput w n recs he0 K) (r : Nat × Nat) (hr : IsMaxRun recs n r)
    (h3 : 3 ≤ r.2) (i : Nat) (hi : i < r.2) :
    ∃ q1 q2, q1 < n ∧ q2 < n ∧ q1 ≠ q2 ∧ q1 ≠ edgeAt recs (r.1 + i) ∧
      q2 ≠ edgeAt recs (r.1 + i) ∧ K q1 = keyAt recs r.1 ∧ K q2 = keyAt recs r.1 ∧
      K (edgeAt recs (r.1 + i)) = keyAt recs r.1 ∧ edgeAt recs (r.1 + i) < n := by
  have hbound : r.1 + r.2 ≤ n := hr.2.2.1
  have hkey : ∀ j, j < r.2 → K (edgeAt recs (r.1 + j)) = keyAt recs r.1 := by
    intro j hj
    rw [← hin.hK (r.1 + j) (by omega)]
    exact hr.2.2.2.1 j hj
  have hne : ∀ a b, a < r.2 → b < r.2 → a ≠ b →
      edgeAt recs (r.1 + a) ≠ edgeAt recs (r.1 + b) := by
    intro a b ha hb hab heq
    have := hin.hd.2 (r.1 + a) (r.1 + b) (by omega) (by omega) heq
    omega
  have hlt : ∀ j, j < r.2 → edgeAt recs (r.1 + j) < n := fun j hj => hin.hd.1 _ (by omega)
  have pick : ∃ a b, a < r.2 ∧ b < r.2 ∧ a ≠ b ∧ a ≠ i ∧ b ≠ i := by
    by_cases h0 : i = 0
    · exact ⟨1, 2, by omega, by omega, by omega, by omega, by omega⟩
    · by_cases h1 : i = 1
      · exact ⟨0, 2, by omega, by omega, by omega, by omega, by omega⟩
      · exact ⟨0, 1, by omega, by omega, by omega, by omega, by omega⟩
  obtain ⟨a, b, ha, hb, hab, hai, hbi⟩ := pick
  exact ⟨edgeAt recs (r.1 + a), edgeAt recs (r.1 + b), hlt a ha, hlt b hb, hne a b ha hb hab,
    hne a i ha hi hai, hne b i hb hi hbi, hkey a ha, hkey b hb, hkey i hi, hlt i hi⟩

/-- A half-edge of a well-formed mesh whose key record does not carry the sentinel: it is a
half-edge of a face that is not a hole, and its key is the key of its edge. -/
theorem mesh_key_class (w : Nat) (m : SubdivMesh) (s : Schedule) (hwf : WellFormed m) (q : Nat)
    (hq : q < m.numEdges)
    (hk : keyAt (fillWrites w m (prepare m s).1).halfEdges1 q ≠ sentinel) :
    ∃ f d, f < m.numFaces ∧ d < m.faceVertices.getD f 0 ∧ f ∉ m.holes ∧
      q = (prepare m s).1.faceStartEdge.getD f 0 + d ∧
      keyAt (fillWrites w m (prepare m s).1).halfEdges1 q
        = edgeKey m (m.faceVertices.getD f 0) ((prepare m s).1.faceStartEdge.getD f 0) d := by
  obtain ⟨f, d, hf, hd, hpos⟩ := flat_locate_mesh m s hwf q hq
  have hkey := fill_key w m s hwf f d hf hd
  rw [hpos] at hk
  by_cases hh : holeSetLookup m.holes f = true
  · rw [if_pos hh] at hkey
    exact absurd hkey hk
  · rw [if_neg hh] at hkey
    refine ⟨f, d, hf, hd, fun h => hh ((holeSetLookup_iff _ _).2 h), hpos, ?_⟩
    rw [hpos]
    exact hkey

theorem mesh_key_nonhole (w : Nat) (m : SubdivMesh) (s : Schedule) (hwf : WellFormed m)
    (f d : Nat) (hf : f < m.numFaces) (hd : d < m.faceVertices.getD f 0) (hnh : f ∉ m.holes) :
    keyAt (fillWrites w m (prepare m s).1).halfEdges1
        ((prepare m s).1.faceStartEdge.getD f 0 + d)
      = edgeKey m (m.faceVertices.getD f 0) ((prepare m s).1.faceStartEdge.getD f 0) d := by
  rw [fill_key w m s hwf f d hf hd, if_neg]
  · rfl
  · intro hh
    exact hnh ((holeSetLookup_iff _ _).1 hh)

theorem pred_mod_succ (N d : Nat) (hd : d < N) : ((d + N - 1) % N + 1) % N = d := by
  by_cases h0 : d = 0
  · subst h0
    have h1 : (0 + N - 1) % N = N - 1 := by
      rw [Nat.zero_add]; exact Nat.mod_eq_of_lt (by omega)
    rw [h1, Nat.sub_add_cancel (by omega), Nat.mod_self]
  · have h1 : (d + N - 1) % N = d - 1 := by
      rw [show d + N - 1 = (d - 1) + N by omega, Nat.add_mod_right]
      exact Nat.mod_eq_of_lt (by omega)
    rw [h1, Nat.sub_add_cancel (by omega)]
    exact Nat.mod_eq_of_lt hd

theorem succ_mod_pred (N d g : Nat) (hd : d < N) (hg : g < N) (h : (g + 1) % N = d) :
    g = (d + N - 1) % N := by
  by_cases hlast : g + 1 = N
  · rw [hlast, Nat.mod_self] at h
    subst h
    have h1 : (0 + N - 1) % N = N - 1 := by
      rw [Nat.zero_add]; exact Nat.mod_eq_of_lt (by omega)
    omega
  · have h1 : (g + 1) % N = g + 1 := Nat.mod_eq_of_lt (by omega)
    rw [h1] at h
    subst h
    have h2 : (g + 1 + N - 1) % N = g := by
      rw [show g + 1 + N - 1 = g + N by omega, Nat.add_mod_right]
      exact Nat.mod_eq_of_lt hg
    omega

/-- C22 (as amended). Boundary edges: on a well-formed mesh, a half-edge of a face that is not
a hole whose key is shared by no other half-edge of a face that is not a hole ends with
opposite offset 0 and with the edge crease weight and the level written by the fill stage.
Its vertex crease weight is the one written by the fill stage or `+infinity`: it is unchanged
when the half-edge before it in its face is not on a non-manifold edge (no two further
half-edges of faces that are not holes share that half-edge's key), and it is `+infinity` when
that half-edge is on a non-manifold edge. -/
theorem boundary_edge (w : Nat) (m : SubdivMesh) (s : Schedule) (st : State) (hw : 32 ≤ w)
    (hw64 : w ≤ 64) (hwf : WellFormed m) (hcs : IsChunking m.numEdges s.linkChunks)
    (hst : initializeHalfEdgeStructures w m s = some st) (f d : Nat) (hf : f < m.numFaces)
    (hd : d < m.faceVertices.getD f 0) (hnh : f ∉ m.holes)
    (huniq : ∀ f', f' < m.numFaces → ∀ d', d' < m.faceVertices.getD f' 0 → f' ∉ m.holes →
      (f', d') ≠ (f, d) →
      edgeKey m (m.faceVertices.getD f' 0) (st.faceStartEdge.getD f' 0) d'
        ≠ edgeKey m (m.faceVertices.getD f 0) (st.faceStartEdge.getD f 0) d) :
    (st.halfEdges.getD (st.faceStartEdge.getD f 0 + d) default).opposite_half_edge_ofs = 0 ∧
    (st.halfEdges.getD (st.faceStartEdge.getD f 0 + d) default).edge_crease_weight
      = ((fillWrites w m (prepare m s).1).halfEdges.getD
          (st.faceStartEdge.getD f 0 + d) default).edge_crease_weight ∧
    (st.halfEdges.getD (st.faceStartEdge.getD f 0 + d) default).edge_level
      = ((fillWrites w m (prepare m s).1).halfEdges.getD
          (st.faceStartEdge.getD f 0 + d) default).edge_level ∧
    ((st.halfEdges.getD (st.faceStartEdge.getD f 0 + d) default).vertex_crease_weight
        = ((fillWrites w m (prepare m s).1).halfEdges.getD
            (st.faceStartEdge.getD f 0 + d) default).vertex_crease_weight ∨
      (st.halfEdges.getD (st.faceStartEdge.getD f 0 + d) default).vertex_crease_weight
        = f32_inf) ∧
    ((∀ f1 d1 f2 d2, f1 < m.numFaces → d1 < m.faceVertices.getD f1 0 → f2 < m.numFaces →
        d2 < m.faceVertices.getD f2 0 → f1 ∉ m.holes → f2 ∉ m.holes →
        (f1, d1) ≠ (f, (d + m.faceVertices.getD f 0 - 1) % m.faceVertices.getD f 0) →
        (f2, d2) ≠ (f, (d + m.faceVertices.getD f 0 - 1) % m.faceVertices.getD f 0) →
        (f1, d1) ≠ (f2, d2) →
        edgeKey m (m.faceVertices.getD f1 0) (st.faceStartEdge.getD f1 0) d1
          = edgeKey m (m.faceVertices.getD f 0) (st.faceStartEdge.getD f 0)
              ((d + m.faceVertices.getD f 0 - 1) % m.faceVertices.getD f 0) →
        edgeKey m (m.faceVertices.getD f2 0) (st.faceStartEdge.getD f2 0) d2
          ≠ edgeKey m (m.faceVertices.getD f 0) (st.faceStartEdge.getD f 0)
              ((d + m.faceVertices.getD f 0 - 1) % m.faceVertices.getD f 0)) →
      (st.halfEdges.getD (st.faceStartEdge.getD f 0 + d) default).vertex_crease_weight
        = ((fillWrites w m (prepare m s).1).halfEdges.getD
            (st.faceStartEdge.getD f 0 + d) default).vertex_crease_weight) ∧
    (∀ f1 d1 f2 d2, f1 < m.numFaces → d1 < m.faceVertices.getD f1 0 → f2 < m.numFaces →
        d2 < m.faceVertices.getD f2 0 → f1 ∉ m.holes → f2 ∉ m.holes →
        (f1, d1) ≠ (f, (d + m.faceVertices.getD f 0 - 1) % m.faceVertices.getD f 0) →
        (f2, d2) ≠ (f, (d + m.faceVertices.getD f 0 - 1) % m.faceVertices.getD f 0) →
        (f1, d1) ≠ (f2, d2) →
        edgeKey m (m.faceVertices.getD f 0) (st.faceStartEdge.getD f 0)
              ((d + m.faceVertices.getD f 0 - 1) % m.faceVertices.getD f 0) ≠ sentinel →
        edgeKey m (m.faceVertices.getD f1 0) (st.faceStartEdge.getD f1 0) d1
          = edgeKey m (m.faceVertices.getD f 0) (st.faceStartEdge.getD f 0)
              ((d + m.faceVertices.getD f 0 - 1) % m.faceVertices.getD f 0) →
        edgeKey m (m.faceVertices.getD f2 0) (st.faceStartEdge.getD f2 0) d2
          = edgeKey m (m.faceVertices.getD f 0) (st.faceStartEdge.getD f 0)
              ((d + m.faceVertices.getD f 0 - 1) % m.faceVertices.getD f 0) →
      (st.halfEdges.getD (st.faceStartEdge.getD f 0 + d) default).vertex_crease_weight
        = f32_inf) := by
  obtain ⟨R, hR, hhe, hfse⟩ := init_runs w m s st hw hw64 hwf hcs hst
  have hin := linkInput_of_mesh w m s hw hw64 hwf
  have hframe := foldl_processRun_frame w
    (radix_sort_u64 (fillWrites w m (prepare m s).1).halfEdges1 m.numEdges) R
    (fillWrites w m (prepare m s).1).halfEdges
  rw [hfse] at huniq ⊢
  rw [hhe]
  have hp : (prepare m s).1.faceStartEdge.getD f 0 + d < m.numEdges :=
    fillPairs_pos_lt m s hwf f d hf hd
  have hKp := mesh_key_nonhole w m s hwf f d hf hd hnh
  have hNpos : 0 < m.faceVertices.getD f 0 := by omega
  have hdp : (d + m.faceVertices.getD f 0 - 1) % m.faceVertices.getD f 0
      < m.faceVertices.getD f 0 := Nat.mod_lt _ hNpos
  have hinj : ∀ f1 d1 f2 d2, f1 < m.numFaces → d1 < m.faceVertices.getD f1 0 →
      f2 < m.numFaces → d2 < m.faceVertices.getD f2 0 →
      (prepare m s).1.faceStartEdge.getD f1 0 + d1
        = (prepare m s).1.faceStartEdge.getD f2 0 + d2 → (f1, d1) = (f2, d2) := by
    intro f1 d1 f2 d2 h1 h2 h3 h4 heq
    exact fillPairs_pos_inj m s hwf (f1, d1) (f2, d2) ((mem_fillPairs m _).2 ⟨h1, h2⟩)
      ((mem_fillPairs m _).2 ⟨h3, h4⟩) heq
  refine ⟨?_, (hframe.2 _).2.2.2.1, (hframe.2 _).2.2.2.2, foldl_processRun_vcw_cases _ _ _ _ _,
    ?_, ?_⟩
  · by_contra hne
    obtain ⟨q, -, hq, hqp, hKq, hsent, -⟩ := hub_opp_nonzero w _ _ _ _ hin R hR _ hne
    obtain ⟨f', d', hf', hd', hnh', hpos', hkey'⟩ :=
      mesh_key_class w m s hwf q hq (by rw [hKq]; exact hsent)
    apply huniq f' hf' d' hd' hnh'
    · intro heq
      rw [Prod.mk.injEq] at heq
      apply hqp
      rw [hpos', heq.1, heq.2]
    · rw [← hkey', hKq, hKp]
  · intro hprev
    apply foldl_processRun_vcw_other
    intro r hr h3 i hi
    have hrun := (hR r).1 hr
    obtain ⟨q1, q2, hq1, hq2, h12, h1g, h2g, hK1, hK2, hKg, hg⟩ :=
      run_members3 w _ _ _ _ hin r hrun.1 h3 i hi
    have hsent := hrun.2
    obtain ⟨f1, d1, hf1, hd1, hnh1, hpos1, hkey1⟩ :=
      mesh_key_class w m s hwf q1 hq1 (by rw [hK1]; exact hsent)
    obtain ⟨f2, d2, hf2, hd2, hnh2, hpos2, hkey2⟩ :=
      mesh_key_class w m s hwf q2 hq2 (by rw [hK2]; exact hsent)
    constructor
    · intro heq
      apply huniq f1 hf1 d1 hd1 hnh1
      · intro h
        rw [Prod.mk.injEq] at h
        apply h1g
        rw [← heq, hpos1, h.1, h.2]
      · rw [← hkey1, hK1, ← hKg, ← heq, hKp]
    · intro heq
      obtain ⟨fg, dg, hfg, hdg, hnhg, hposg, hkeyg⟩ :=
        mesh_key_class w m s hwf _ hg (by rw [hKg]; exact hsent)
      have hnext := fill_next w m s hw hw64 hwf fg dg hfg hdg
      rw [← hposg, ← heq] at hnext
      have hmod : (dg + 1) % m.faceVertices.getD fg 0 < m.faceVertices.getD fg 0 :=
        Nat.mod_lt _ (by omega)
      have hfd := hinj f d fg _ hf hd hfg hmod hnext
      rw [Prod.mk.injEq] at hfd
      obtain ⟨hff, hdd⟩ := hfd
      subst hff
      have hdg' := succ_mod_pred _ d dg hd hdg hdd.symm
      rw [hdg'] at hposg hkeyg
      apply hprev f1 d1 f2 d2 hf1 hd1 hf2 hd2 hnh1 hnh2
      · intro h
        rw [Prod.mk.injEq] at h
        apply h1g
        rw [hposg, hpos1, h.1, h.2]
      · intro h
        rw [Prod.mk.injEq] at h
        apply h2g
        rw [hposg, hpos2, h.1, h.2]
      · intro h
        rw [Prod.mk.injEq] at h
        apply h12
        rw [hpos1, hpos2, h.1, h.2]
      · rw [← hkey1, hK1, ← hKg, hkeyg]
      · rw [← hkey2, hK2, ← hKg, hkeyg]
  · intro f1 d1 f2 d2 hf1 hd1 hf2 hd2 hnh1 hnh2 h1 h2 h12 hsent hk1 hk2
    have hKg := mesh_key_nonhole w m s hwf f _ hf hdp hnh
    have hK1 := mesh_key_nonhole w m s hwf f1 d1 hf1 hd1 hnh1
    have hK2 := mesh_key_nonhole w m s hwf f2 d2 hf2 hd2 hnh2
    have hres := (hub_nonmanifold w _ _ _ _ hin R hR
      ((prepare m s).1.faceStartEdge.getD f 0
        + (d + m.faceVertices.getD f 0 - 1) % m.faceVertices.getD f 0)
      ((prepare m s).1.faceStartEdge.getD f1 0 + d1)
      ((prepare m s).1.faceStartEdge.getD f2 0 + d2)
      (fillPairs_pos_lt m s hwf f _ hf hdp) (fillPairs_pos_lt m s hwf f1 d1 hf1 hd1)
      (fillPairs_pos_lt m s hwf f2 d2 hf2 hd2)
      (fun h => h1 (hinj f1 d1 f _ hf1 hd1 hf hdp h))
      (fun h => h2 (hinj f2 d2 f _ hf2 hd2 hf hdp h))
      (fun h => h12 (hinj f1 d1 f2 d2 hf1 hd1 hf2 hd2 h))
      (by rw [hK1, hKg, hk1]) (by rw [hK2, hKg, hk2])
      (by rw [hKg]; exact hsent)).2.2
    rw [fill_next w m s hw hw64 hwf f _ hf hdp, pred_mod_succ _ d hd] at hres
    exact hres

theorem boundary_edge_witness :
    WellFormed singleQuad ∧ IsChunking 4 [(0, 4)] ∧
    (initializeHalfEdgeStructures 32 singleQuad ⟨[], [(0, 4)]⟩).map
        (fun st => st.halfEdges.map (fun h => (h.opposite_half_edge_ofs, h.edge_crease_weight,
          h.vertex_crease_weight, h.edge_level)))
      = some [(0, f32_zero, f32_zero, f32_one), (0, f32_zero, f32_zero, f32_one),
          (0, f32_zero, f32_zero, f32_one), (0, f32_zero, f32_zero, f32_one)] ∧
    ∃ st, initializeHalfEdgeStructures 32 singleQuad ⟨[], [(0, 4)]⟩ = some st ∧
      (st.halfEdges.getD (st.faceStartEdge.getD 0 0 + 2) default).opposite_half_edge_ofs = 0 :=
  ⟨by decide, ⟨[(0, 4)], by decide, by decide⟩, by decide,
    (initializeHalfEdgeStructures 32 singleQuad ⟨[], [(0, 4)]⟩).get (by decide), by decide,
    (boundary_edge 32 singleQuad ⟨[], [(0, 4)]⟩ _ (by decide) (by decide) (by decide)
      ⟨[(0, 4)], by decide, by decide⟩ (by decide) 0 2 (by decide) (by decide) (by decide)
      (fun f' hf' d' hd' _ hne =>
        (by decide : ∀ f', f' < singleQuad.numFaces →
          ∀ d', d' < singleQuad.faceVertices.getD f' 0 → (f', d') ≠ (0, 2) →
          edgeKey singleQuad (singleQuad.faceVertices.getD f' 0) ([0].getD f' 0) d'
            ≠ edgeKey singleQuad 4 0 2) f' hf' d' hd' hne)).1⟩

/-- C22 (counterexample). Three triangles `[0,1,2]`, `[1,0,3]`, `[0,1,4]` without holes and
creases: the half-edge 1 (from vertex 1 to vertex 2 in the first triangle) shares its key with
no other half-edge and the fill stage writes the vertex crease weight 0 for it, yet it ends
with vertex crease weight `+infinity`, being the next half-edge of half-edge 0 on the
non-manifold edge `(0,1)`. -/
theorem boundary_edge_counterexample :
    WellFormed threeTriangles ∧ threeTriangles.holes = [] ∧ IsChunking 9 [(0, 9)] ∧
    (∀ f', f' < 3 → ∀ d', d' < 3 → (f', d') ≠ (0, 1) →
      edgeKey threeTriangles 3 ([0, 3, 6].getD f' 0) d' ≠ edgeKey threeTriangles 3 0 1) ∧
    ((fillWrites 32 threeTriangles (prepare threeTriangles ⟨[], [(0, 9)]⟩).1).halfEdges.getD 1
      default).vertex_crease_weight = f32_zero ∧
    (initializeHalfEdgeStructures 32 threeTriangles ⟨[], [(0, 9)]⟩).map
        (fun st => (st.faceStartEdge, (st.halfEdges.getD 1 default).opposite_half_edge_ofs,
          (st.halfEdges.getD 1 default).vertex_crease_weight))
      = some ([0, 3, 6], 0, f32_inf) :=
  ⟨by decide, rfl, ⟨[(0, 9)], by decide, by decide⟩, by decide, by decide, by decide⟩

/-! ## Sentinel records -/

/-- C23. Sentinel records are trailing: in key records sorted ascending by their unsigned
64-bit key, every record after a record with the sentinel key has the sentinel key, so the
sentinel records form a suffix; and in every range of the linking pass, every record from the
position where the range begins its work on that does not have the sentinel key lies in a run
that the range processes: stopping at the first sentinel key leaves none of them out. -/
theorem sentinel_suffix (recs : List KeyHalfEdge) (n : Nat) (hsorted : SortedKeys recs n)
    (hle : ∀ i, i < n → keyAt recs i ≤ sentinel) :
    (∀ i j, i ≤ j → j < n → keyAt recs i = sentinel → keyAt recs j = sentinel) ∧
    (∀ c : Nat × Nat, c.1 < c.2 → c.2 ≤ n → ∀ j, linkStart recs n c.1 ≤ j → j < c.2 →
      keyAt recs j ≠ sentinel → ∃ r ∈ chunkRuns recs n c, r.1 ≤ j ∧ j < r.1 + r.2) := by
  constructor
  · intro i j hij hj hi
    have h1 := hsorted i j hij hj
    have h2 := hle j hj
    omega
  · intro c hc1 hc2 j hj1 hj2 hkey
    obtain ⟨r, hr, hr1, hr2⟩ := run_of_pos recs n j (by omega)
    have hk := run_key recs n r hr j hr1 hr2
    refine ⟨r, ?_, hr1, hr2⟩
    rw [mem_chunkRuns recs n hsorted hle c hc1 hc2]
    refine ⟨⟨hr, by rw [← hk]; exact hkey⟩, ?_, by omega⟩
    by_contra hlt
    obtain ⟨hs1, hs2, -⟩ := linkStart_spec recs n c.1 (by omega)
    rcases hs2 with hs2 | hs2
    · omega
    · rcases hs2.2 with h0 | hne
      · omega
      · apply hne
        have ha := run_key recs n r hr (linkStart recs n c.1 - 1) (by omega) (by omega)
        have hb := run_key recs n r hr (linkStart recs n c.1) (by omega) (by omega)
        rw [ha, hb]

theorem sentinel_suffix_witness :
    (radix_sort_u64
      (fillWrites 32 threeTrianglesHole (prepare threeTrianglesHole ⟨[], [(0, 9)]⟩).1).halfEdges1
      9).map (fun r => decide (r.key = sentinel))
      = [false, false, false, false, false, false, true, true, true] ∧
    keyAt (radix_sort_u64
      (fillWrites 32 threeTrianglesHole (prepare threeTrianglesHole ⟨[], [(0, 9)]⟩).1).halfEdges1
      9) 8 = sentinel :=
  ⟨by decide,
    (sentinel_suffix
      (radix_sort_u64
        (fillWrites 32 threeTrianglesHole
          (prepare threeTrianglesHole ⟨[], [(0, 9)]⟩).1).halfEdges1 9) 9
      (linkInput_of_mesh 32 threeTrianglesHole ⟨[], [(0, 9)]⟩ (by decide) (by decide)
        (by decide)).hsorted
      (linkInput_of_mesh 32 threeTrianglesHole ⟨[], [(0, 9)]⟩ (by decide) (by decide)
        (by decide)).hle).1 6 8 (by decide) (by decide) (by decide)⟩

/-! ## Ownership of the half-edge positions -/

theorem prepare_numHalfEdges_of_len (m : SubdivMesh) (s : Schedule)
    (hlen : m.faceVertices.length = m.numFaces) : (prepare m s).2 = m.faceVertices.sum := by
  simp only [prepare, prefix_sum_blocks]
  rw [← hlen, List.take_length, faceStartLoop_total]
  simp

theorem flatMap_congr_mem {α β : Type} (l : List α) (f g : α → List β)
    (h : ∀ x ∈ l, f x = g x) : l.flatMap f = l.flatMap g := by
  induction l with
  | nil => rfl
  | cons a l ih =>
    rw [List.flatMap_cons, List.flatMap_cons, h a (List.mem_cons_self _ _),
      ih (fun x hx => h x (List.mem_cons_of_mem _ hx))]

/-- The positions of the faces `0 .. k-1`, face by face, are `0, 1, .., sum - 1`. -/
theorem face_positions (cs : List Nat) (k : Nat) (hk : k ≤ cs.length) :
    (List.range k).flatMap (fun f => (List.range (cs.getD f 0)).map
        (fun d => (cs.take f).sum + d))
      = List.range (cs.take k).sum := by
  induction k with
  | zero => simp
  | succ k ih =>
    rw [List.range_succ, List.flatMap_append, ih (by omega), sum_take_succ_getD cs k (by omega),
      List.range_add]
    simp only [List.flatMap_cons, List.flatMap_nil, List.append_nil]

theorem fillPairs_positions (m : SubdivMesh) (s : Schedule)
    (hlen : m.faceVertices.length = m.numFaces) :
    (fillPairs m).map (fun p => (prepare m s).1.faceStartEdge.getD p.1 0 + p.2)
      = List.range (prepare m s).2 := by
  rw [prepare_numHalfEdges_of_len m s hlen]
  have h := face_positions m.faceVertices m.faceVertices.length (Nat.le_refl _)
  rw [List.take_length, hlen] at h
  rw [← h]
  unfold fillPairs
  rw [List.map_flatMap]
  apply flatMap_congr_mem
  intro f hf
  rw [List.mem_range] at hf
  rw [List.map_map]
  apply List.map_congr_left
  intro d _
  simp only [Function.comp]
  rw [prepare_faceStartEdge_of_len m s hlen f hf]

theorem foldl_set_perm {ι α : Type} (pos : ι → Nat) (val : ι → α) (l l' : List ι)
    (a : List α) (hperm : l.Perm l')
    (hinj : ∀ i ∈ l, ∀ j ∈ l, pos i = pos j → i = j) :
    l.foldl (fun a i => a.set (pos i) (val i)) a
      = l'.foldl (fun a i => a.set (pos i) (val i)) a := by
  apply List.ext_getElem
  · rw [foldl_set_length, foldl_set_length]
  · intro q h1 h2
    have hq : q < a.length := by rw [foldl_set_length] at h1; exact h1
    rw [← List.getD_eq_getElem _ (a.get ⟨q, hq⟩) h1, ← List.getD_eq_getElem _ (a.get ⟨q, hq⟩) h2]
    by_cases hex : ∃ i ∈ l, pos i = q
    · obtain ⟨i, hi, hpi⟩ := hex
      rw [foldl_set_getD_of_mem pos val l a q (val i) _ ⟨i, hi, hpi⟩ hq
          (fun j hj hpj => by rw [hinj j hj i hi (by rw [hpj, hpi])]),
        foldl_set_getD_of_mem pos val l' a q (val i) _ ⟨i, hperm.mem_iff.1 hi, hpi⟩ hq
          (fun j hj hpj => by rw [hinj j (hperm.mem_iff.2 hj) i hi (by rw [hpj, hpi])])]
    · rw [foldl_set_getD_of_not_mem pos val l a q _ (fun i hi h => hex ⟨i, hi, h⟩),
        foldl_set_getD_of_not_mem pos val l' a q _
          (fun i hi h => hex ⟨i, hperm.mem_iff.2 hi, h⟩)]

/-- C24. Disjoint face ownership: with `faceStartEdge` the exclusive prefix sum of
`faceVertices`, the map `(f, d) -> faceStartEdge[f] + d` on the faces `f` and `d <
faceVertices[f]` goes into `[0, numHalfEdges)`, is injective and onto; the positions written by
the two loops of the fill stage, in order, are `0, 1, .., numHalfEdges-1`, so every half-edge
and every key record is written exactly once; and the stores of the faces do not interfere: run
for the pairs `(f, d)` in any other order they produce the same two arrays. -/
theorem face_ownership (w : Nat) (m : SubdivMesh) (s : Schedule)
    (hlen : m.faceVertices.length = m.numFaces) :
    (∀ f d, f < m.numFaces → d < m.faceVertices.getD f 0 →
      (prepare m s).1.faceStartEdge.getD f 0 + d < (prepare m s).2) ∧
    (∀ f d f' d', f < m.numFaces → d < m.faceVertices.getD f 0 → f' < m.numFaces →
      d' < m.faceVertices.getD f' 0 →
      (prepare m s).1.faceStartEdge.getD f 0 + d = (prepare m s).1.faceStartEdge.getD f' 0 + d' →
      f = f' ∧ d = d') ∧
    (∀ p, p < (prepare m s).2 → ∃ f d, f < m.numFaces ∧ d < m.faceVertices.getD f 0 ∧
      p = (prepare m s).1.faceStartEdge.getD f 0 + d) ∧
    (fillPairs m).map (fun p => (prepare m s).1.faceStartEdge.getD p.1 0 + p.2)
      = List.range (prepare m s).2 ∧
    (∀ pairs : List (Nat × Nat), (fillPairs m).Perm pairs →
      pairs.foldl (fun fs p => writeEdge w m (prepare m s).1 p.1 (m.faceVertices.getD p.1 0)
          ((prepare m s).1.faceStartEdge.getD p.1 0) fs p.2)
          ⟨(prepare m s).1.halfEdges, (prepare m s).1.halfEdges1⟩
        = fillWrites w m (prepare m s).1) := by
  have hn := prepare_numHalfEdges_of_len m s hlen
  have hinj : ∀ p ∈ fillPairs m, ∀ q ∈ fillPairs m,
      (prepare m s).1.faceStartEdge.getD p.1 0 + p.2
        = (prepare m s).1.faceStartEdge.getD q.1 0 + q.2 → p = q :=
    fun p hp q hq h => fillPairs_pos_inj_of_len m s hlen p q hp hq h
  refine ⟨?_, ?_, ?_, fillPairs_positions m s hlen, ?_⟩
  · intro f d hf hd
    rw [hn, prepare_faceStartEdge_of_len m s hlen f hf]
    exact flat_lt_sum m.faceVertices f d (by omega) hd
  · intro f d f' d' hf hd hf' hd' h
    have := hinj (f, d) ((mem_fillPairs m _).2 ⟨hf, hd⟩) (f', d')
      ((mem_fillPairs m _).2 ⟨hf', hd'⟩) h
    rw [Prod.mk.injEq] at this
    exact this
  · intro p hp
    rw [hn] at hp
    obtain ⟨f, d, hf, hd, hpos⟩ := flat_locate m.faceVertices p hp
    exact ⟨f, d, by omega, hd, by
      rw [prepare_faceStartEdge_of_len m s hlen f (by omega)]; exact hpos⟩
  · intro pairs hperm
    rw [fillWrites_eq_pairs]
    have h1 := foldl_writeEdge_halfEdges w m (prepare m s).1 pairs
      ⟨(prepare m s).1.halfEdges, (prepare m s).1.halfEdges1⟩
    have h2 := foldl_writeEdge_halfEdges1 w m (prepare m s).1 pairs
      ⟨(prepare m s).1.halfEdges, (prepare m s).1.halfEdges1⟩
    have h3 := foldl_writeEdge_halfEdges w m (prepare m s).1 (fillPairs m)
      ⟨(prepare m s).1.halfEdges, (prepare m s).1.halfEdges1⟩
    have h4 := foldl_writeEdge_halfEdges1 w m (prepare m s).1 (fillPairs m)
      ⟨(prepare m s).1.halfEdges, (prepare m s).1.halfEdges1⟩
    have e1 := foldl_set_perm
      (fun p : Nat × Nat => (prepare m s).1.faceStartEdge.getD p.1 0 + p.2)
      (fun p : Nat × Nat => mkHalfEdge w m (prepare m s).1 (m.faceVertices.getD p.1 0)
        ((prepare m s).1.faceStartEdge.getD p.1 0) p.2)
      (fillPairs m) pairs (prepare m s).1.halfEdges hperm hinj
    have e2 := foldl_set_perm
      (fun p : Nat × Nat => (prepare m s).1.faceStartEdge.getD p.1 0 + p.2)
      (fun p : Nat × Nat => mkKeyHalfEdge m (prepare m s).1 p.1 (m.faceVertices.getD p.1 0)
        ((prepare m s).1.faceStartEdge.getD p.1 0) p.2)
      (fillPairs m) pairs (prepare m s).1.halfEdges1 hperm hinj
    have hext : ∀ a b : FillState, a.halfEdges = b.halfEdges → a.halfEdges1 = b.halfEdges1 →
        a = b := by
      intro a b ha hb
      cases a; cases b
      simp only at ha hb
      rw [ha, hb]
    apply hext
    · rw [h1, h3]; exact e1.symm
    · rw [h2, h4]; exact e2.symm

theorem face_ownership_witness :
    twoTriangles.faceVertices.length = twoTriangles.numFaces ∧
    (fillPairs twoTriangles).map
        (fun p => (prepare twoTriangles ⟨[1], []⟩).1.faceStartEdge.getD p.1 0 + p.2)
      = [0, 1, 2, 3, 4, 5] ∧
    (fillPairs twoTriangles).map
        (fun p => (prepare twoTriangles ⟨[1], []⟩).1.faceStartEdge.getD p.1 0 + p.2)
      = List.range (prepare twoTriangles ⟨[1], []⟩).2 :=
  ⟨rfl, by decide, (face_ownership 32 twoTriangles ⟨[1], []⟩ rfl).2.2.2.1⟩

/-! ## Faces without vertices -/

theorem foldlM_skip {σ ι : Type} (F : σ → ι → Option σ) (p : ι → Bool)
    (h : ∀ s x, p x = false → F s x = some s) (l : List ι) (init : σ) :
    l.foldlM F init = (l.filter p).foldlM F init := by
  induction l generalizing init with
  | nil => rfl
  | cons x l ih =>
    by_cases hp : p x = true
    · rw [List.filter_cons_of_pos hp, List.foldlM_cons, List.foldlM_cons]
      cases F init x with
      | none => rfl
      | some s1 => exact ih s1
    · have hp' : p x = false := by simpa using hp
      rw [List.filter_cons_of_neg hp, List.foldlM_cons, h init x hp']
      exact ih init

/-- C25. Zero-vertex faces: for a face `f` with `faceVertices[f] == 0` the body of the fill
loop leaves both arrays as they are, whatever the other buffers hold, and reads no vertex
index; no pair `(f, d)` is among the positions the fill stage writes; the fill stage gives the
same result as the loop that skips face `f`; and after the prefix sum the next face starts
where `f` starts (`f` owns an empty range). -/
theorem zero_vertex_face (w : Nat) (m : SubdivMesh) (s : Schedule) (st : State) (f : Nat)
    (hN : m.faceVertices.getD f 0 = 0) :
    (∀ fs, fillFace w m st fs f = some fs) ∧
    (∀ (m' : SubdivMesh) (st' : State) (fs : FillState), m'.faceVertices.getD f 0 = 0 →
      fillFace w m' st' fs f = fillFace w m st fs f) ∧
    faceReads m st f = [] ∧
    (∀ p ∈ fillPairs m, p.1 ≠ f) ∧
    fill w m st
      = ((List.range m.numFaces).filter (fun g => decide (g ≠ f))).foldlM (fillFace w m st)
          ⟨st.halfEdges, st.halfEdges1⟩ ∧
    (m.faceVertices.length = m.numFaces → f + 1 < m.numFaces →
      (prepare m s).1.faceStartEdge.getD (f + 1) 0 = (prepare m s).1.faceStartEdge.getD f 0) := by
  have hface : ∀ (m' : SubdivMesh) (st' : State) (fs : FillState),
      m'.faceVertices.getD f 0 = 0 → fillFace w m' st' fs f = some fs := by
    intro m' st' fs h
    unfold fillFace
    simp only [h, List.range_zero]
    rfl
  refine ⟨fun fs => hface m st fs hN, ?_, ?_, ?_, ?_, ?_⟩
  · intro m' st' fs h
    rw [hface m' st' fs h, hface m st fs hN]
  · unfold faceReads
    rw [hN]
    rfl
  · intro p hp hpf
    rw [mem_fillPairs] at hp
    rw [hpf, hN] at hp
    omega
  · unfold fill
    apply foldlM_skip
    intro fs g hg
    have : g = f := by simpa using hg
    rw [this]
    exact hface m st fs hN
  · intro hlen hf
    rw [prepare_faceStartEdge_of_len m s hlen (f + 1) hf,
      prepare_faceStartEdge_of_len m s hlen f (by omega),
      sum_take_succ_getD m.faceVertices f (by omega), hN]
    rfl

theorem zero_vertex_face_witness :
    emptyFaceMesh.faceVertices.getD 1 0 = 0 ∧
    (initializeHalfEdgeStructures 32 emptyFaceMesh ⟨[], [(0, 6)]⟩).map (fun st => st.halfEdges)
      = (initializeHalfEdgeStructures 32 twoTrianglesOriented ⟨[], [(0, 6)]⟩).map
          (fun st => st.halfEdges) ∧
    (prepare emptyFaceMesh ⟨[], [(0, 6)]⟩).1.faceStartEdge = [0, 3, 3] ∧
    faceReads emptyFaceMesh (prepare emptyFaceMesh ⟨[], [(0, 6)]⟩).1 1 = [] :=
  ⟨rfl, by decide, by decide,
    (zero_vertex_face 32 emptyFaceMesh ⟨[], [(0, 6)]⟩ (prepare emptyFaceMesh ⟨[], [(0, 6)]⟩).1 1
      rfl).2.2.1⟩

/-! ## Start of a task and its item loop -/

/-- `for_for` starts its loop at `startIndex` with the local start `startLocal`, for the range
from `taskBegin` to `taskEnd`. -/
theorem for_for_start (task : ParallelForForTask) (t n : Nat) :
    for_for task t n
      = match startLocal task (taskBegin task t n) with
        | none => none
        | some j0 =>
          itemLoop task.sizes (taskEnd task t n) (task.sizes.length + 1)
            (startIndex task (taskBegin task t n)) j0 (taskBegin task t n) := by
  unfold for_for startLocal startIndex taskBegin taskEnd
  simp only
  generalize task.prefix_sum.get?
    (size_t (upper_bound task.prefix_sum (size_t ((t + 0) * task.K) / n) + 2 ^ 64 - 1)) = o
  cases o with
  | none => rfl
  | some p => rfl

/-- The start position found for a flat position `k0 < K`. -/
theorem start_spec (array2 : List (Option Nat)) (minStepSize k0 : Nat)
    (hMlt : array2.length < 2 ^ 64) (hsum : (array2.map subSize).sum < 2 ^ 64)
    (hk0 : k0 < (array2.map subSize).sum) :
    startIndex (ParallelForForTask.init array2 minStepSize) k0 < array2.length ∧
    ((array2.map subSize).take
      (startIndex (ParallelForForTask.init array2 minStepSize) k0)).sum ≤ k0 ∧
    k0 < ((array2.map subSize).take
        (startIndex (ParallelForForTask.init array2 minStepSize) k0)).sum
      + (array2.map subSize).getD (startIndex (ParallelForForTask.init array2 minStepSize) k0) 0 ∧
    startLocal (ParallelForForTask.init array2 minStepSize) k0
      = some (k0 - ((array2.map subSize).take
          (startIndex (ParallelForForTask.init array2 minStepSize) k0)).sum) := by
  have hpget := init_prefix_getD array2 minStepSize hsum
  have hplen := init_prefix_length array2 minStepSize
  have hM : 0 < array2.length := by
    rcases Nat.eq_zero_or_pos array2.length with h0 | h0
    · rw [List.length_eq_zero.1 h0] at hk0
      simp at hk0
    · exact h0
  have hslen : (array2.map subSize).length = array2.length := List.length_map _ _
  unfold startLocal startIndex
  generalize (ParallelForForTask.init array2 minStepSize).prefix_sum = P at *
  generalize array2.map subSize = sizes at *
  have hidxle := upper_bound_le P k0
  have hidxpos : 0 < upper_bound P k0 :=
    upper_bound_pos P k0 (by omega) (by rw [hpget 0 hM]; simp)
  have hbefore := upper_bound_before P k0
  have hat := upper_bound_at P k0
  generalize upper_bound P k0 = idx at *
  have hi0 : size_t (idx + 2 ^ 64 - 1) = idx - 1 := by
    unfold size_t
    omega
  rw [hi0]
  have hi0lt : idx - 1 < P.length := by omega
  have hPget : P.get? (idx - 1) = some ((sizes.take (idx - 1)).sum) := by
    rw [List.get?_eq_getElem?, List.getElem?_eq_getElem hi0lt,
      ← List.getD_eq_getElem _ 0 hi0lt, hpget (idx - 1) (by omega)]
  have hple : (sizes.take (idx - 1)).sum ≤ k0 := by
    have := hbefore (idx - 1) (by omega)
    rw [hpget (idx - 1) (by omega)] at this
    exact this
  have hsplit : (sizes.take idx).sum
      = (sizes.take (idx - 1)).sum + sizes.getD (idx - 1) 0 := by
    have := sum_take_succ_getD sizes (idx - 1) (by omega)
    rw [show idx - 1 + 1 = idx by omega] at this
    exact this
  have hk0lt : k0 < (sizes.take idx).sum := by
    by_cases hlt : idx < P.length
    · have := hat hlt
      rw [hpget idx (by omega)] at this
      exact this
    · rw [List.take_of_length_le (by omega)]
      exact hk0
  refine ⟨by omega, hple, by omega, ?_⟩
  have hj0 : size_t (k0 + 2 ^ 64 - (sizes.take (idx - 1)).sum)
      = k0 - (sizes.take (idx - 1)).sum := by
    unfold size_t
    omega
  rw [hPget, Option.map_some', hj0]

/-- C26. Chunk start lookup: for every flat start offset `k0 < K` (sizes and number of items
within `size_t`), the item index `i0` that `for_for` finds with `upper_bound` on the exclusive
prefix sums is an item of the array with `prefix_sum[i0] <= k0 < prefix_sum[i0] + sizes[i0]`,
it is the only such item, every item before it ends at or before `k0` (empty and null items
are passed over), and the local start `j0 = k0 - prefix_sum[i0]` is below `sizes[i0]`. The
start offset of every task `t < n` is below `K` when `K > 0` and `n*K` fits `size_t`. -/
theorem chunk_start_lookup (array2 : List (Option Nat)) (minStepSize k0 : Nat)
    (hMlt : array2.length < 2 ^ 64) (hsum : (array2.map subSize).sum < 2 ^ 64)
    (hk0 : k0 < (ParallelForForTask.init array2 minStepSize).K) :
    startIndex (ParallelForForTask.init array2 minStepSize) k0 < array2.length ∧
    (ParallelForForTask.init array2 minStepSize).prefix_sum.getD
        (startIndex (ParallelForForTask.init array2 minStepSize) k0) 0 ≤ k0 ∧
    k0 < (ParallelForForTask.init array2 minStepSize).prefix_sum.getD
          (startIndex (ParallelForForTask.init array2 minStepSize) k0) 0
        + (ParallelForForTask.init array2 minStepSize).sizes.getD
          (startIndex (ParallelForForTask.init array2 minStepSize) k0) 0 ∧
    (∀ i, i < array2.length →
      (ParallelForForTask.init array2 minStepSize).prefix_sum.getD i 0 ≤ k0 →
      k0 < (ParallelForForTask.init array2 minStepSize).prefix_sum.getD i 0
          + (ParallelForForTask.init array2 minStepSize).sizes.getD i 0 →
      i = startIndex (ParallelForForTask.init array2 minStepSize) k0) ∧
    (∀ i, i < startIndex (ParallelForForTask.init array2 minStepSize) k0 →
      (ParallelForForTask.init array2 minStepSize).prefix_sum.getD i 0
        + (ParallelForForTask.init array2 minStepSize).sizes.getD i 0 ≤ k0) ∧
    (∃ j0, startLocal (ParallelForForTask.init array2 minStepSize) k0 = some j0 ∧
      j0 = k0 - (ParallelForForTask.init array2 minStepSize).prefix_sum.getD
          (startIndex (ParallelForForTask.init array2 minStepSize) k0) 0 ∧
      j0 < (ParallelForForTask.init array2 minStepSize).sizes.getD
          (startIndex (ParallelForForTask.init array2 minStepSize) k0) 0) ∧
    (∀ n t, t < n → n * (ParallelForForTask.init array2 minStepSize).K < 2 ^ 64 →
      taskBegin (ParallelForForTask.init array2 minStepSize) t n
        < (ParallelForForTask.init array2 minStepSize).K) := by
  have hK := init_K array2 minStepSize hsum
  have hsizes := init_sizes array2 minStepSize
  have hpget := init_prefix_getD array2 minStepSize hsum
  rw [hK] at hk0
  obtain ⟨h1, h2, h3, h4⟩ := start_spec array2 minStepSize k0 hMlt hsum hk0
  have hslen : (array2.map subSize).length = array2.length := List.length_map _ _
  rw [hsizes, hK, hpget _ h1]
  refine ⟨h1, h2, h3, ?_, ?_, ⟨_, h4, rfl, by omega⟩, ?_⟩
  · intro i hi hle hlt
    rw [hpget i hi] at hle hlt
    exact (flat_inj (array2.map subSize) i
      (k0 - ((array2.map subSize).take i).sum)
      (startIndex (ParallelForForTask.init array2 minStepSize) k0)
      (k0 - ((array2.map subSize).take
        (startIndex (ParallelForForTask.init array2 minStepSize) k0)).sum)
      (by omega) (by omega) (by omega) (by omega) (by omega)).1
  · intro i hi
    rw [hpget i (by omega), ← sum_take_succ_getD (array2.map subSize) i (by omega)]
    exact Nat.le_trans (sum_take_mono (array2.map subSize) (i + 1) _ (by omega)) h2
  · intro n t ht hov
    unfold taskBegin
    rw [hK]
    have hle : t * (array2.map subSize).sum ≤ n * (array2.map subSize).sum :=
      Nat.mul_le_mul_right _ (Nat.le_of_lt ht)
    have hm0 : size_t ((t + 0) * (array2.map subSize).sum) = t * (array2.map subSize).sum := by
      unfold size_t
      rw [Nat.add_zero]
      exact Nat.mod_eq_of_lt (by omega)
    rw [hm0, Nat.div_lt_iff_lt_mul (by omega)]
    calc t * (array2.map subSize).sum < n * (array2.map subSize).sum :=
          Nat.mul_lt_mul_of_pos_right ht (by omega)
      _ = (array2.map subSize).sum * n := Nat.mul_comm _ _

theorem chunk_start_lookup_witness :
    (ParallelForForTask.init [some 3, none, some 0, some 2] 2).prefix_sum = [0, 3, 3, 3] ∧
    startIndex (ParallelForForTask.init [some 3, none, some 0, some 2] 2) 3 = 3 ∧
    startLocal (ParallelForForTask.init [some 3, none, some 0, some 2] 2) 3 = some 0 ∧
    startIndex (ParallelForForTask.init [some 3, none, some 0, some 2] 2) 3
      < [some 3, none, some 0, some 2].length :=
  ⟨by decide, by decide, by decide,
    (chunk_start_lookup [some 3, none, some 0, some 2] 2 3 (by decide) (by decide)
      (by decide)).1⟩

/-- The item loop from a state `(i, j0, k)` inside the array, with its iterations recorded: it
reads `sizes` at `i, i+1, ..` only, all inside the array, `k` does not decrease and stays
below `k1` at every loop test that passes, and the loop ends with `k = k1`. -/
theorem itemLoopTrace_spec (sizes : List Nat) (k1 : Nat) (hk1 : k1 < 2 ^ 64)
    (hsum : sizes.sum < 2 ^ 64) :
    ∀ fuel i j0 k, sizes.length < i + fuel → i ≤ sizes.length → k ≤ k1 →
      j0 ≤ sizes.getD i 0 → (k1 - k) + j0 ≤ (sizes.drop i).sum →
      ∃ steps, itemLoopTrace sizes k1 fuel i j0 k = some (steps, k1) ∧
        steps.map Prod.fst = List.range' i steps.length ∧
        i + steps.length ≤ sizes.length ∧
        (∀ st ∈ steps, k ≤ st.2 ∧ st.2 < k1) ∧
        (steps.map Prod.snd).Pairwise (fun a b => a ≤ b) := by
  intro fuel
  induction fuel with
  | zero => intro i j0 k h1 h2; omega
  | succ fuel ih =>
    intro i j0 k hfuel hi hk hj0 hrem
    unfold itemLoopTrace
    by_cases hlt : k < k1
    · have hiM : i < sizes.length := sum_drop_pos_lt sizes i (by omega)
      have hdrop := drop_sum_cons sizes i hiM
      have hget : sizes.get? i = some (sizes.getD i 0) := by
        rw [List.get?_eq_getElem?, List.getElem?_eq_getElem hiM, List.getD_eq_getElem _ _ hiM]
      have hdsum : (sizes.drop i).sum = sizes.getD i 0 + (sizes.drop (i + 1)).sum := by
        rw [hdrop, List.sum_cons]
      have hle : (sizes.drop i).sum ≤ sizes.sum := by
        have := List.sum_take_add_sum_drop sizes i
        omega
      have hsub : size_t (size_t (j0 + k1) + 2 ^ 64 - k) = j0 + (k1 - k) :=
        size_t_sub j0 k1 k hk hk1 (by omega)
      simp only [if_pos hlt, hget, hsub]
      have hr0 : j0 ≤ min (sizes.getD i 0) (j0 + (k1 - k)) := by
        rw [Nat.le_min]; exact ⟨hj0, by omega⟩
      have hr1 : min (sizes.getD i 0) (j0 + (k1 - k)) ≤ sizes.getD i 0 := Nat.min_le_left _ _
      have hadv := size_t_advance k (min (sizes.getD i 0) (j0 + (k1 - k))) j0 hr0
        (by omega) (by omega)
      rw [hadv]
      obtain ⟨steps, hsteps, hidx, hlen, hks, hpw⟩ :=
        ih (i + 1) 0 (k + (min (sizes.getD i 0) (j0 + (k1 - k)) - j0)) (by omega) (by omega)
          (by omega) (Nat.zero_le _) (by omega)
      rw [hsteps]
      refine ⟨(i, k) :: steps, rfl, ?_, ?_, ?_, ?_⟩
      · rw [List.map_cons, hidx, List.length_cons, List.range'_succ]
      · rw [List.length_cons]; omega
      · intro st hst
        rcases List.mem_cons.1 hst with rfl | hst
        · exact ⟨Nat.le_refl _, hlt⟩
        · have := hks st hst
          exact ⟨by omega, this.2⟩
      · rw [List.map_cons, List.pairwise_cons]
        refine ⟨?_, hpw⟩
        intro b hb
        rw [List.mem_map] at hb
        obtain ⟨st, hst, rfl⟩ := hb
        have := hks st hst
        omega
    · simp only [if_neg hlt]
      have hkk : k = k1 := by omega
      refine ⟨[], by rw [hkk], rfl, by simp; omega, by simp, by simp⟩

/-- C27. The item loop of `for_for` is safe and terminates: for every task `t < n` on a
non-empty array (sizes and number of items within `size_t`, `n*K` without overflow), the task
completes, its loop reads `sizes[i]` and `array2[i]` at `i = i0, i0+1, ..` only, each below the
number of items `M`, it makes at most `M - i0` iterations, `k` starts at `k0`, never decreases,
is below `k1` at every loop test that passes, and the loop ends with `k = k1`. -/
theorem item_loop_safe (array2 : List (Option Nat)) (minStepSize n t : Nat)
    (hM : 0 < array2.length) (hMlt : array2.length < 2 ^ 64) (ht : t < n)
    (hov : n * (array2.map subSize).sum < 2 ^ 64) :
    (for_for (ParallelForForTask.init array2 minStepSize) t n).isSome = true ∧
    ∃ steps, for_for_trace (ParallelForForTask.init array2 minStepSize) t n
        = some (steps, taskEnd (ParallelForForTask.init array2 minStepSize) t n) ∧
      steps.map Prod.fst
        = List.range' (startIndex (ParallelForForTask.init array2 minStepSize)
            (taskBegin (ParallelForForTask.init array2 minStepSize) t n)) steps.length ∧
      (∀ st ∈ steps, st.1 < array2.length) ∧
      steps.length ≤ array2.length - startIndex (ParallelForForTask.init array2 minStepSize)
          (taskBegin (ParallelForForTask.init array2 minStepSize) t n) ∧
      (∀ st ∈ steps, taskBegin (ParallelForForTask.init array2 minStepSize) t n ≤ st.2 ∧
        st.2 < taskEnd (ParallelForForTask.init array2 minStepSize) t n) ∧
      (steps.map Prod.snd).Pairwise (fun a b => a ≤ b) ∧
      taskBegin (ParallelForForTask.init array2 minStepSize) t n
        ≤ taskEnd (ParallelForForTask.init array2 minStepSize) t n := by
  constructor
  · obtain ⟨calls, hcalls, -⟩ := for_for_spec array2 minStepSize n t hM hMlt ht hov
    rw [hcalls]
    rfl
  have hn : 0 < n := by omega
  have hsum : (array2.map subSize).sum < 2 ^ 64 := by
    calc (array2.map subSize).sum = 1 * (array2.map subSize).sum := (Nat.one_mul _).symm
      _ ≤ n * (array2.map subSize).sum := Nat.mul_le_mul_right _ hn
      _ < 2 ^ 64 := hov
  have hK := init_K array2 minStepSize hsum
  have hsizes := init_sizes array2 minStepSize
  have hplen := init_prefix_length array2 minStepSize
  have hpget := init_prefix_getD array2 minStepSize hsum
  have hslen : (array2.map subSize).length = array2.length := List.length_map _ _
  have h01 := bounds_mono (array2.map subSize).sum n t
  have h1K := bounds_le (array2.map subSize).sum n t ht
  have hm0 : taskBegin (ParallelForForTask.init array2 minStepSize) t n
      = t * (array2.map subSize).sum / n := by
    unfold taskBegin size_t
    have : t * (array2.map subSize).sum ≤ n * (array2.map subSize).sum :=
      Nat.mul_le_mul_right _ (Nat.le_of_lt ht)
    rw [hK, Nat.add_zero, Nat.mod_eq_of_lt (by omega)]
  have hm1 : taskEnd (ParallelForForTask.init array2 minStepSize) t n
      = (t + 1) * (array2.map subSize).sum / n := by
    unfold taskEnd size_t
    have : (t + 1) * (array2.map subSize).sum ≤ n * (array2.map subSize).sum :=
      Nat.mul_le_mul_right _ ht
    rw [hK, Nat.mod_eq_of_lt (by omega)]
  unfold for_for_trace
  rw [hm0, hm1, hsizes]
  generalize t * (array2.map subSize).sum / n = k0 at *
  generalize (t + 1) * (array2.map subSize).sum / n = k1 at *
  unfold startLocal startIndex
  generalize (ParallelForForTask.init array2 minStepSize).prefix_sum = P at *
  generalize hsz : array2.map subSize = sizes at *
  have hidxle := upper_bound_le P k0
  have hidxpos : 0 < upper_bound P k0 :=
    upper_bound_pos P k0 (by omega) (by rw [hpget 0 hM]; simp)
  have hbefore := upper_bound_before P k0
  have hat := upper_bound_at P k0
  generalize upper_bound P k0 = idx at *
  have hi0 : size_t (idx + 2 ^ 64 - 1) = idx - 1 := by
    unfold size_t
    omega
  rw [hi0]
  have hi0lt : idx - 1 < P.length := by omega
  have hPget : P.get? (idx - 1) = some ((sizes.take (idx - 1)).sum) := by
    rw [List.get?_eq_getElem?, List.getElem?_eq_getElem hi0lt,
      ← List.getD_eq_getElem _ 0 hi0lt, hpget (idx - 1) (by omega)]
  have hple : (sizes.take (idx - 1)).sum ≤ k0 := by
    have := hbefore (idx - 1) (by omega)
    rw [hpget (idx - 1) (by omega)] at this
    exact this
  have hsplit : (sizes.take idx).sum
      = (sizes.take (idx - 1)).sum + sizes.getD (idx - 1) 0 := by
    have := sum_take_succ_getD sizes (idx - 1) (by omega)
    rw [show idx - 1 + 1 = idx by omega] at this
    exact this
  have hk0le : k0 ≤ (sizes.take idx).sum := by
    by_cases hlt : idx < P.length
    · have := hat hlt
      rw [hpget idx (by omega)] at this
      omega
    · rw [List.take_of_length_le (by omega)]
      omega
  have hparts := List.sum_take_add_sum_drop sizes (idx - 1)
  have hj0 : size_t (k0 + 2 ^ 64 - (sizes.take (idx - 1)).sum)
      = k0 - (sizes.take (idx - 1)).sum := by
    unfold size_t
    omega
  rw [hPget, Option.map_some', hj0]
  obtain ⟨steps, hsteps, hidx, hlen, hks, hpw⟩ :=
    itemLoopTrace_spec sizes k1 (by omega) (by omega) (sizes.length + 1) (idx - 1)
      (k0 - (sizes.take (idx - 1)).sum) k0 (by omega) (by omega) h01 (by omega) (by omega)
  refine ⟨steps, hsteps, hidx, ?_, by omega, hks, hpw, h01⟩
  intro st hst
  have hmem : st.1 ∈ steps.map Prod.fst := List.mem_map.2 ⟨st, hst, rfl⟩
  rw [hidx, List.mem_range'_1] at hmem
  omega

theorem item_loop_safe_witness :
    for_for_trace (ParallelForForTask.init [some 3, none, some 0, some 2] 2) 1 2
      = some ([(0, 2), (1, 3), (2, 3), (3, 3)], 5) ∧
    taskEnd (ParallelForForTask.init [some 3, none, some 0, some 2] 2) 1 2 = 5 ∧
    (for_for (ParallelForForTask.init [some 3, none, some 0, some 2] 2) 1 2).isSome = true :=
  ⟨by decide, by decide,
    (item_loop_safe [some 3, none, some 0, some 2] 2 2 1 (by decide) (by decide) (by decide)
      (by decide)).1⟩

/-! ## The cycle of a face -/

theorem fill_prev (w : Nat) (m : SubdivMesh) (s : Schedule) (hw : 32 ≤ w) (hw64 : w ≤ 64)
    (hwf : WellFormed m) (f d : Nat) (hf : f < m.numFaces) (hd : d < m.faceVertices.getD f 0) :
    prev (fillWrites w m (prepare m s).1).halfEdges
        ((prepare m s).1.faceStartEdge.getD f 0 + d)
      = (prepare m s).1.faceStartEdge.getD f 0
          + (d + m.faceVertices.getD f 0 - 1) % m.faceVertices.getD f 0 := by
  have hN := face_count_le m hwf f hf
  have hn := hwf.2.2.2.1
  have hp := pow31_le w hw
  unfold prev
  rw [fillWrites_halfEdges w m s hwf f d hf hd,
    (mkHalfEdge_offsets w m _ _ _ d (by omega) hw64 (by omega) hd).2]
  split
  · rename_i h
    subst h
    have h1 : (0 + m.faceVertices.getD f 0 - 1) % m.faceVertices.getD f 0
        = m.faceVertices.getD f 0 - 1 := by
      rw [Nat.zero_add]; exact Nat.mod_eq_of_lt (by omega)
    rw [h1]
    have : (((prepare m s).1.faceStartEdge.getD f 0 + 0 : Nat) : Int)
        + ((m.faceVertices.getD f 0 : Int) - 1)
        = (((prepare m s).1.faceStartEdge.getD f 0 + (m.faceVertices.getD f 0 - 1) : Nat)
            : Int) := by
      rw [Nat.cast_add, Nat.cast_add, Nat.cast_sub (by omega)]; norm_num
    rw [this, Int.toNat_ofNat]
  · rename_i h
    have h1 : (d + m.faceVertices.getD f 0 - 1) % m.faceVertices.getD f 0 = d - 1 := by
      rw [show d + m.faceVertices.getD f 0 - 1 = (d - 1) + m.faceVertices.getD f 0 by omega,
        Nat.add_mod_right]
      exact Nat.mod_eq_of_lt (by omega)
    rw [h1]
    have : (((prepare m s).1.faceStartEdge.getD f 0 + d : Nat) : Int) + -1
        = (((prepare m s).1.faceStartEdge.getD f 0 + (d - 1) : Nat) : Int) := by
      rw [Nat.cast_add, Nat.cast_add, Nat.cast_sub (by omega)]; norm_num; ring
    rw [this, Int.toNat_ofNat]

theorem succ_mod_pred_mod (N d : Nat) (hd : d < N) : ((d + 1) % N + N - 1) % N = d := by
  have hlt : (d + 1) % N < N := Nat.mod_lt _ (by omega)
  exact (succ_mod_pred N ((d + 1) % N) d hlt hd rfl).symm

theorem iterate_next (w : Nat) (m : SubdivMesh) (s : Schedule) (hw : 32 ≤ w) (hw64 : w ≤ 64)
    (hwf : WellFormed m) (f d : Nat) (hf : f < m.numFaces) (hd : d < m.faceVertices.getD f 0)
    (k : Nat) :
    Nat.iterate (next (fillWrites w m (prepare m s).1).halfEdges) k
        ((prepare m s).1.faceStartEdge.getD f 0 + d)
      = (prepare m s).1.faceStartEdge.getD f 0 + (d + k) % m.faceVertices.getD f 0 := by
  induction k with
  | zero => rw [Function.iterate_zero, id, Nat.add_zero, Nat.mod_eq_of_lt hd]
  | succ k ih =>
    rw [Function.iterate_succ_apply', ih,
      fill_next w m s hw hw64 hwf f _ hf (Nat.mod_lt _ (by omega)), Nat.mod_add_mod,
      Nat.add_assoc]

/-- C28. Face cycle: on a well-formed mesh, after the fill stage, for every half-edge `h` of a
face with `N >= 1` vertices starting at `faceStartEdge[f]`, `next(h)` and `prev(h)` lie in
`[faceStartEdge[f], faceStartEdge[f]+N)`, `prev(next(h)) = h` and `next(prev(h)) = h`, `N`
applications of `next` lead from `h` back to `h`, and the origin of `next(h)` is the end
vertex `vertexIndices[e + (de+1) % N]` from which the edge key of `h` is formed. -/
theorem face_cycle (w : Nat) (m : SubdivMesh) (s : Schedule) (fs : FillState)
    (hw : 32 ≤ w) (hw64 : w ≤ 64) (hwf : WellFormed m)
    (hfill : fill w m (prepare m s).1 = some fs) (f d : Nat) (hf : f < m.numFaces)
    (hd : d < m.faceVertices.getD f 0) :
    ((prepare m s).1.faceStartEdge.getD f 0
        ≤ next fs.halfEdges ((prepare m s).1.faceStartEdge.getD f 0 + d) ∧
      next fs.halfEdges ((prepare m s).1.faceStartEdge.getD f 0 + d)
        < (prepare m s).1.faceStartEdge.getD f 0 + m.faceVertices.getD f 0) ∧
    ((prepare m s).1.faceStartEdge.getD f 0
        ≤ prev fs.halfEdges ((prepare m s).1.faceStartEdge.getD f 0 + d) ∧
      prev fs.halfEdges ((prepare m s).1.faceStartEdge.getD f 0 + d)
        < (prepare m s).1.faceStartEdge.getD f 0 + m.faceVertices.getD f 0) ∧
    prev fs.halfEdges (next fs.halfEdges ((prepare m s).1.faceStartEdge.getD f 0 + d))
      = (prepare m s).1.faceStartEdge.getD f 0 + d ∧
    next fs.halfEdges (prev fs.halfEdges ((prepare m s).1.faceStartEdge.getD f 0 + d))
      = (prepare m s).1.faceStartEdge.getD f 0 + d ∧
    Nat.iterate (next fs.halfEdges) (m.faceVertices.getD f 0)
        ((prepare m s).1.faceStartEdge.getD f 0 + d)
      = (prepare m s).1.faceStartEdge.getD f 0 + d ∧
    origin fs.halfEdges (next fs.halfEdges ((prepare m s).1.faceStartEdge.getD f 0 + d))
      = m.vertexIndices.getD ((prepare m s).1.faceStartEdge.getD f 0
          + (d + 1) % m.faceVertices.getD f 0) 0 ∧
    keyAt fs.halfEdges1 ((prepare m s).1.faceStartEdge.getD f 0 + d)
      = (if holeSetLookup m.holes f then sentinel
        else Edge (origin fs.halfEdges ((prepare m s).1.faceStartEdge.getD f 0 + d))
          (origin fs.halfEdges
            (next fs.halfEdges ((prepare m s).1.faceStartEdge.getD f 0 + d)))) := by
  obtain ⟨-, hfs⟩ := fill_some_eq w m _ fs hfill
  have hNpos : 0 < m.faceVertices.getD f 0 := by omega
  have hn1 : (d + 1) % m.faceVertices.getD f 0 < m.faceVertices.getD f 0 := Nat.mod_lt _ hNpos
  have hp1 : (d + m.faceVertices.getD f 0 - 1) % m.faceVertices.getD f 0
      < m.faceVertices.getD f 0 := Nat.mod_lt _ hNpos
  have hnext := fill_next w m s hw hw64 hwf f d hf hd
  have hprev := fill_prev w m s hw hw64 hwf f d hf hd
  have horig : ∀ d', d' < m.faceVertices.getD f 0 →
      origin (fillWrites w m (prepare m s).1).halfEdges
          ((prepare m s).1.faceStartEdge.getD f 0 + d')
        = m.vertexIndices.getD ((prepare m s).1.faceStartEdge.getD f 0 + d') 0 :=
    fun d' hd' => fill_origin w m s hwf f d' hf hd'
  rw [hfs, hnext, hprev]
  refine ⟨⟨by omega, by omega⟩, ⟨by omega, by omega⟩, ?_, ?_, ?_, horig _ hn1, ?_⟩
  · rw [fill_prev w m s hw hw64 hwf f _ hf hn1, succ_mod_pred_mod _ d hd]
  · rw [fill_next w m s hw hw64 hwf f _ hf hp1, pred_mod_succ _ d hd]
  · rw [iterate_next w m s hw hw64 hwf f d hf hd, Nat.add_mod_right, Nat.mod_eq_of_lt hd]
  · rw [fill_key w m s hwf f d hf hd, horig d hd, horig _ hn1]

theorem face_cycle_witness :
    WellFormed twoTriangles ∧
    ∃ fs, fill 32 twoTriangles (prepare twoTriangles ⟨[], [(0, 6)]⟩).1 = some fs ∧
      next fs.halfEdges 5 = 3 ∧ prev fs.halfEdges 3 = 5 ∧
      Nat.iterate (next fs.halfEdges) 3 4 = 4 ∧
      prev fs.halfEdges
        (next fs.halfEdges ((prepare twoTriangles ⟨[], [(0, 6)]⟩).1.faceStartEdge.getD 1 0 + 2))
        = (prepare twoTriangles ⟨[], [(0, 6)]⟩).1.faceStartEdge.getD 1 0 + 2 :=
  ⟨by decide, fillWrites 32 twoTriangles (prepare twoTriangles ⟨[], [(0, 6)]⟩).1, by decide,
    by decide, by decide, by decide,
    (face_cycle 32 twoTriangles ⟨[], [(0, 6)]⟩ _ (by decide) (by decide) (by decide)
      (by decide) 1 2 (by decide) (by decide)).2.2.1⟩

/-! ## The edge of two opposite half-edges -/

/-- C29. Opposites share the same undirected edge: on a well-formed mesh, for every half-edge
`h` with a non-zero opposite offset and `o = opposite(h)`, the unordered pair of the origins of
`h` and `next(h)` is the unordered pair of the origins of `o` and `next(o)`, both `h` and `o`
are half-edges of faces, and no face that `h` or `o` belongs to is a hole. -/
theorem opposite_same_edge (w : Nat) (m : SubdivMesh) (s : Schedule) (st : State) (hw : 32 ≤ w)
    (hw64 : w ≤ 64) (hwf : WellFormed m) (hcs : IsChunking m.numEdges s.linkChunks)
    (hst : initializeHalfEdgeStructures w m s = some st) (h : Nat)
    (hopp : (st.halfEdges.getD h default).opposite_half_edge_ofs ≠ 0) :
    ((origin st.halfEdges h = origin st.halfEdges (opposite st.halfEdges h) ∧
        origin st.halfEdges (next st.halfEdges h)
          = origin st.halfEdges (next st.halfEdges (opposite st.halfEdges h))) ∨
      (origin st.halfEdges h = origin st.halfEdges (next st.halfEdges (opposite st.halfEdges h)) ∧
        origin st.halfEdges (next st.halfEdges h)
          = origin st.halfEdges (opposite st.halfEdges h))) ∧
    (∃ f d f' d', f < m.numFaces ∧ d < m.faceVertices.getD f 0 ∧ f' < m.numFaces ∧
      d' < m.faceVertices.getD f' 0 ∧ h = st.faceStartEdge.getD f 0 + d ∧
      opposite st.halfEdges h = st.faceStartEdge.getD f' 0 + d') ∧
    (∀ f d, f < m.numFaces → d < m.faceVertices.getD f 0 →
      (h = st.faceStartEdge.getD f 0 + d ∨
        opposite st.halfEdges h = st.faceStartEdge.getD f 0 + d) → f ∉ m.holes) := by
  obtain ⟨f, d, f', d', hf, hd, hf', hd', hpos, -, ho, -, hnh, hnh', hK⟩ :=
    mesh_opp_nonzero w m s st hw hw64 hwf hcs hst h hopp
  obtain ⟨a1, -, a3⟩ := mesh_frame w m s st hw hw64 hwf hcs hst f d hf hd
  obtain ⟨b1, -, b3⟩ := mesh_frame w m s st hw hw64 hwf hcs hst f' d' hf' hd'
  have hfse := (init_frame w m s st hwf hst).2
  refine ⟨?_, ⟨f, d, f', d', hf, hd, hf', hd', hpos, ho⟩, ?_⟩
  · rw [ho, hpos, a1, a3, b1, b3]
    have hinj := pair64_inj _ _ _ _ (vertex_lt m hwf _) (vertex_lt m hwf _)
      (vertex_lt m hwf _) (vertex_lt m hwf _) hK
    rcases hinj with ⟨e1, e2⟩ | ⟨e1, e2⟩
    · exact Or.inl ⟨e1.symm, e2.symm⟩
    · exact Or.inr ⟨e2.symm, e1.symm⟩
  · intro g e hg he hge
    rw [ho, hpos, hfse] at hge
    rcases hge with hge | hge
    · have := fillPairs_pos_inj m s hwf (f, d) (g, e) ((mem_fillPairs m _).2 ⟨hf, hd⟩)
        ((mem_fillPairs m _).2 ⟨hg, he⟩) hge
      rw [Prod.mk.injEq] at this
      rw [← this.1]
      exact hnh
    · have := fillPairs_pos_inj m s hwf (f', d') (g, e) ((mem_fillPairs m _).2 ⟨hf', hd'⟩)
        ((mem_fillPairs m _).2 ⟨hg, he⟩) hge
      rw [Prod.mk.injEq] at this
      rw [← this.1]
      exact hnh'

theorem opposite_same_edge_witness :
    WellFormed triangleAndHole ∧ WellFormed twoTriangles ∧ IsChunking 6 [(0, 6)] ∧
    (initializeHalfEdgeStructures 32 triangleAndHole ⟨[], [(0, 6)]⟩).map
        (fun st => st.halfEdges.map (fun h => h.opposite_half_edge_ofs))
      = some [0, 0, 0, 0, 0, 0] ∧
    ∃ st, initializeHalfEdgeStructures 32 twoTriangles ⟨[], [(0, 6)]⟩ = some st ∧
      (st.halfEdges.getD 1 default).opposite_half_edge_ofs ≠ 0 ∧
      opposite st.halfEdges 1 = 3 ∧
      ((origin st.halfEdges 1 = origin st.halfEdges (opposite st.halfEdges 1) ∧
          origin st.halfEdges (next st.halfEdges 1)
            = origin st.halfEdges (next st.halfEdges (opposite st.halfEdges 1))) ∨
        (origin st.halfEdges 1
            = origin st.halfEdges (next st.halfEdges (opposite st.halfEdges 1)) ∧
          origin st.halfEdges (next st.halfEdges 1)
            = origin st.halfEdges (opposite st.halfEdges 1))) :=
  ⟨by decide, by decide, ⟨[(0, 6)], by decide, by decide⟩, by decide,
    (initializeHalfEdgeStructures 32 twoTriangles ⟨[], [(0, 6)]⟩).get (by decide),
    by decide, by decide, by decide,
    (opposite_same_edge 32 twoTriangles ⟨[], [(0, 6)]⟩ _ (by decide) (by decide)
      (by decide) ⟨[(0, 6)], by decide, by decide⟩ (by decide) 1 (by decide)).1⟩

/-! ## Frame of the linking pass -/

/-- Every run is processed once: the runs of all ranges of a partition have no repetition. -/
theorem allRuns_nodup (recs : List KeyHalfEdge) (n : Nat) (hsorted : SortedKeys recs n)
    (hle : ∀ i, i < n → keyAt recs i ≤ sentinel) (cs : List (Nat × Nat))
    (hcs : IsChunking n cs) : (cs.flatMap (chunkRuns recs n)).Nodup := by
  have hb := isChunking_bounds n cs hcs
  rw [List.nodup_flatMap]
  refine ⟨fun c hc => chunkRuns_nodup recs n c (hb c hc).1 (hb c hc).2, ?_⟩
  apply (isChunking_nodup n cs hcs).pairwise_of_forall_ne
  intro c hc c' hc' hne r hr hr'
  rw [mem_chunkRuns recs n hsorted hle c (hb c hc).1 (hb c hc).2] at hr
  rw [mem_chunkRuns recs n hsorted hle c' (hb c' hc').1 (hb c' hc').2] at hr'
  exact hne (isChunking_unique n cs hcs c c' hc hc' r.1 hr.2 hr'.2)

theorem mem_runOppositeWrites (recs : List KeyHalfEdge) (r : Nat × Nat) (q : Nat) :
    q ∈ runOppositeWrites recs r ↔
      r.2 = 2 ∧ (q = edgeAt recs r.1 ∨ q = edgeAt recs (r.1 + 1)) := by
  unfold runOppositeWrites
  by_cases h2 : r.2 = 2
  · simp [h2]
  · simp [h2]

/-- C30. Frame of the linking pass: the pass changes no half-edge's origin vertex, next
offset, previous offset, edge crease weight or edge level (and not the length of the array);
for key records sorted by key that point to pairwise different half-edges and ranges that
partition the records, no half-edge occurs twice among the targets of the `setOpposite` calls
of the pass, and a half-edge that is not among them keeps its opposite offset; the vertex crease
weight of every half-edge is afterwards the one it had before the pass or `+infinity`. -/
theorem link_frame (w n : Nat) (recs : List KeyHalfEdge) (he0 : List HalfEdge)
    (cs : List (Nat × Nat)) (hsorted : SortedKeys recs n)
    (hle : ∀ i, i < n → keyAt recs i ≤ sentinel) (hd : DistinctEdges recs n n)
    (hcs : IsChunking n cs) :
    FrameEq he0 (linkPass w recs n cs he0) ∧
    (oppositeWrites recs n cs).Nodup ∧
    (∀ q, q ∉ oppositeWrites recs n cs →
      ((linkPass w recs n cs he0).getD q default).opposite_half_edge_ofs
        = (he0.getD q default).opposite_half_edge_ofs) ∧
    (∀ q, ((linkPass w recs n cs he0).getD q default).vertex_crease_weight
        = (he0.getD q default).vertex_crease_weight ∨
      ((linkPass w recs n cs he0).getD q default).vertex_crease_weight = f32_inf) := by
  rw [linkPass_eq]
  have hmem := mem_allRuns recs n hsorted hle cs hcs
  refine ⟨foldl_processRun_frame _ _ _ _, ?_, ?_, fun q => foldl_processRun_vcw_cases _ _ _ _ q⟩
  · unfold oppositeWrites
    rw [List.nodup_flatMap]
    constructor
    · intro r hr
      have hrun := (hmem r).1 hr
      have hbound : r.1 + r.2 ≤ n := hrun.1.2.2.1
      unfold runOppositeWrites
      by_cases h2 : r.2 = 2
      · rw [if_pos h2]
        simp only [Nat.add_zero, List.nodup_cons, List.mem_singleton, List.not_mem_nil,
          not_false_eq_true, List.nodup_nil, and_true]
        intro heq
        have := hd.2 r.1 (r.1 + 1) (by omega) (by omega) heq
        omega
      · rw [if_neg h2]
        exact List.nodup_nil
    · apply (allRuns_nodup recs n hsorted hle cs hcs).pairwise_of_forall_ne
      intro r hr r' hr' hne q hq hq'
      have hrun := (hmem r).1 hr
      have hrun' := (hmem r').1 hr'
      have hbound : r.1 + r.2 ≤ n := hrun.1.2.2.1
      have hbound' : r'.1 + r'.2 ≤ n := hrun'.1.2.2.1
      rw [mem_runOppositeWrites] at hq hq'
      obtain ⟨h2, hq⟩ := hq
      obtain ⟨h2', hq'⟩ := hq'
      have key : ∀ a a', a < 2 → a' < 2 → edgeAt recs (r.1 + a) = edgeAt recs (r'.1 + a') →
          False := by
        intro a a' ha ha' heq
        have hidx := hd.2 (r.1 + a) (r'.1 + a') (by omega) (by omega) heq
        exact hne (isMaxRun_eq_of_overlap recs n r r' hrun.1 hrun'.1 a a' (by omega) (by omega)
          hidx)
      rcases hq with hq | hq <;> rcases hq' with hq' | hq'
      · exact key 0 0 (by omega) (by omega) (hq.symm.trans hq')
      · exact key 0 1 (by omega) (by omega) (hq.symm.trans hq')
      · exact key 1 0 (by omega) (by omega) (hq.symm.trans hq')
      · exact key 1 1 (by omega) (by omega) (hq.symm.trans hq')
  · intro q hq
    apply foldl_processRun_opp_other
    intro r hr h2
    unfold oppositeWrites at hq
    rw [List.mem_flatMap] at hq
    constructor
    · intro heq
      exact hq ⟨r, hr, (mem_runOppositeWrites recs r q).2 ⟨h2, Or.inl heq⟩⟩
    · intro heq
      exact hq ⟨r, hr, (mem_runOppositeWrites recs r q).2 ⟨h2, Or.inr heq⟩⟩

theorem link_frame_witness :
    oppositeWrites (radix_sort_u64
      (fillWrites 32 twoTriangles (prepare twoTriangles ⟨[], [(0, 6)]⟩).1).halfEdges1 6) 6
      [(3, 6), (0, 3)] = [1, 3] ∧
    (initializeHalfEdgeStructures 32 threeTriangles ⟨[], [(0, 9)]⟩).map
        (fun st => st.halfEdges.map (fun h => (h.opposite_half_edge_ofs, h.vertex_crease_weight)))
      = some [(0, f32_inf), (0, f32_inf), (0, 0), (0, f32_inf), (0, f32_inf), (0, 0),
          (0, f32_inf), (0, f32_inf), (0, 0)] ∧
    (oppositeWrites (radix_sort_u64
      (fillWrites 32 twoTriangles (prepare twoTriangles ⟨[], [(0, 6)]⟩).1).halfEdges1 6) 6
      [(3, 6), (0, 3)]).Nodup :=
  ⟨by decide, by decide,
    (link_frame 32 6
      (radix_sort_u64 (fillWrites 32 twoTriangles (prepare twoTriangles ⟨[], [(0, 6)]⟩).1).halfEdges1 6)
      (fillWrites 32 twoTriangles (prepare twoTriangles ⟨[], [(0, 6)]⟩).1).halfEdges
      [(3, 6), (0, 3)]
      (linkInput_of_mesh 32 twoTriangles ⟨[], [(0, 6)]⟩ (by decide) (by decide) (by decide)).hsorted
      (linkInput_of_mesh 32 twoTriangles ⟨[], [(0, 6)]⟩ (by decide) (by decide) (by decide)).hle
      (linkInput_of_mesh 32 twoTriangles ⟨[], [(0, 6)]⟩ (by decide) (by decide) (by decide)).hd
      ⟨[(0, 3), (3, 6)], by decide, by decide⟩).2.1⟩

/-! ## Injectivity of the edge key -/

/-- C31. The canonical key is injective on undirected edges: for all 32-bit vertex indices
`a`, `b`, `c`, `d`, `pair64(a,b) = pair64(c,d)` implies that `{a,b}` and `{c,d}` are the same
unordered pair. Hence, on a well-formed mesh, two half-edges that the sorted key records put in
the same run (a maximal block of equal keys other than the sentinel) have the same two
endpoints: the origins of the half-edge and of its next half-edge agree as unordered pairs. -/
theorem key_injective (w : Nat) (m : SubdivMesh) (s : Schedule) (hw : 32 ≤ w) (hw64 : w ≤ 64)
    (hwf : WellFormed m) :
    (∀ a b c d, a < 2 ^ 32 → b < 2 ^ 32 → c < 2 ^ 32 → d < 2 ^ 32 →
      pair64 a b = pair64 c d → (a = c ∧ b = d) ∨ (a = d ∧ b = c)) ∧
    (∀ r, IsRun (radix_sort_u64 (fillWrites w m (prepare m s).1).halfEdges1 m.numEdges)
        m.numEdges r →
      ∀ i j, i < r.2 → j < r.2 →
        (origin (fillWrites w m (prepare m s).1).halfEdges
            (edgeAt (radix_sort_u64 (fillWrites w m (prepare m s).1).halfEdges1 m.numEdges)
              (r.1 + i))
          = origin (fillWrites w m (prepare m s).1).halfEdges
            (edgeAt (radix_sort_u64 (fillWrites w m (prepare m s).1).halfEdges1 m.numEdges)
              (r.1 + j)) ∧
        origin (fillWrites w m (prepare m s).1).halfEdges
            (next (fillWrites w m (prepare m s).1).halfEdges
              (edgeAt (radix_sort_u64 (fillWrites w m (prepare m s).1).halfEdges1 m.numEdges)
                (r.1 + i)))
          = origin (fillWrites w m (prepare m s).1).halfEdges
            (next (fillWrites w m (prepare m s).1).halfEdges
              (edgeAt (radix_sort_u64 (fillWrites w m (prepare m s).1).halfEdges1 m.numEdges)
                (r.1 + j)))) ∨
        (origin (fillWrites w m (prepare m s).1).halfEdges
            (edgeAt (radix_sort_u64 (fillWrites w m (prepare m s).1).halfEdges1 m.numEdges)
              (r.1 + i))
          = origin (fillWrites w m (prepare m s).1).halfEdges
            (next (fillWrites w m (prepare m s).1).halfEdges
              (edgeAt (radix_sort_u64 (fillWrites w m (prepare m s).1).halfEdges1 m.numEdges)
                (r.1 + j))) ∧
        origin (fillWrites w m (prepare m s).1).halfEdges
            (next (fillWrites w m (prepare m s).1).halfEdges
              (edgeAt (radix_sort_u64 (fillWrites w m (prepare m s).1).halfEdges1 m.numEdges)
                (r.1 + i)))
          = origin (fillWrites w m (prepare m s).1).halfEdges
            (edgeAt (radix_sort_u64 (fillWrites w m (prepare m s).1).halfEdges1 m.numEdges)
              (r.1 + j)))) := by
  refine ⟨pair64_inj, ?_⟩
  intro r hr i j hi hj
  have hin := linkInput_of_mesh w m s hw hw64 hwf
  have hbound : r.1 + r.2 ≤ m.numEdges := hr.1.2.2.1
  have hends : ∀ a, a < r.2 → ∃ f d, f < m.numFaces ∧ d < m.faceVertices.getD f 0 ∧
      origin (fillWrites w m (prepare m s).1).halfEdges
          (edgeAt (radix_sort_u64 (fillWrites w m (prepare m s).1).halfEdges1 m.numEdges)
            (r.1 + a))
        = m.vertexIndices.getD ((prepare m s).1.faceStartEdge.getD f 0 + d) 0 ∧
      origin (fillWrites w m (prepare m s).1).halfEdges
          (next (fillWrites w m (prepare m s).1).halfEdges
            (edgeAt (radix_sort_u64 (fillWrites w m (prepare m s).1).halfEdges1 m.numEdges)
              (r.1 + a)))
        = m.vertexIndices.getD ((prepare m s).1.faceStartEdge.getD f 0
            + (d + 1) % m.faceVertices.getD f 0) 0 ∧
      keyAt (radix_sort_u64 (fillWrites w m (prepare m s).1).halfEdges1 m.numEdges) r.1
        = Edge (m.vertexIndices.getD ((prepare m s).1.faceStartEdge.getD f 0 + d) 0)
            (m.vertexIndices.getD ((prepare m s).1.faceStartEdge.getD f 0
              + (d + 1) % m.faceVertices.getD f 0) 0) := by
    intro a ha
    have hk1 := hr.1.2.2.2.1 a ha
    have hk2 := hin.hK (r.1 + a) (by omega)
    have hlt := hin.hd.1 (r.1 + a) (by omega)
    obtain ⟨f, d, hf, hd, -, hpos, hkey⟩ := mesh_key_class w m s hwf _ hlt
      (by rw [← hk2, hk1]; exact hr.2)
    have hmod : (d + 1) % m.faceVertices.getD f 0 < m.faceVertices.getD f 0 :=
      Nat.mod_lt _ (by omega)
    refine ⟨f, d, hf, hd, ?_, ?_, ?_⟩
    · rw [hpos]; exact fill_origin w m s hwf f d hf hd
    · rw [hpos, fill_next w m s hw hw64 hwf f d hf hd]
      exact fill_origin w m s hwf f _ hf hmod
    · rw [← hk1, hk2, hkey]; rfl
  obtain ⟨f, d, -, -, a1, a2, a3⟩ := hends i hi
  obtain ⟨f', d', -, -, b1, b2, b3⟩ := hends j hj
  rw [a1, a2, b1, b2]
  exact pair64_inj _ _ _ _ (vertex_lt m hwf _) (vertex_lt m hwf _) (vertex_lt m hwf _)
    (vertex_lt m hwf _) (a3.symm.trans b3)

theorem key_injective_witness :
    WellFormed twoTriangles ∧
    IsRun (radix_sort_u64
      (fillWrites 32 twoTriangles (prepare twoTriangles ⟨[], [(0, 6)]⟩).1).halfEdges1 6) 6
      (2, 2) ∧
    pair64 1 2 = pair64 2 1 ∧
    ((1 = 2 ∧ 2 = 1) ∨ (1 = 1 ∧ 2 = 2)) :=
  ⟨by decide, by decide, by decide,
    (key_injective 32 twoTriangles ⟨[], [(0, 6)]⟩ (by decide) (by decide) (by decide)).1
      1 2 2 1 (by decide) (by decide) (by decide) (by decide) (by decide)⟩

/-! ## Static geometries -/

/-- C32. Static geometries cannot be modified: when the parent scene is static and already
built, each of `setMask`, `setBuffer`, `map`, `unmap` and `setDisplacementFunction` reports
`RTC_INVALID_OPERATION` (once, and nothing else) and leaves the geometry (mask, every buffer,
displacement function and bounds) and the parent scene as they are, `map` returning `NULL`;
when the scene is not static or not yet built, `setMask` reports nothing, stores exactly the
given mask and changes nothing else. -/
theorem static_guard {B : Type} (ops : BufferOps B) (mic : Bool) (g : Geometry B)
    (parent : Scene) :
    (parent.isStatic = true → parent.isBuild = true →
      (∀ mask, (setMask g parent mask).geometry = g ∧ (setMask g parent mask).parent = parent ∧
        (setMask g parent mask).errors = [RTCError.RTC_INVALID_OPERATION]) ∧
      (∀ type ptr offset stride,
        (setBuffer ops mic g parent type ptr offset stride).geometry = g ∧
        (setBuffer ops mic g parent type ptr offset stride).parent = parent ∧
        (setBuffer ops mic g parent type ptr offset stride).errors
          = [RTCError.RTC_INVALID_OPERATION]) ∧
      (∀ type, (map ops g parent type).1 = 0 ∧ (map ops g parent type).2.geometry = g ∧
        (map ops g parent type).2.parent = parent ∧
        (map ops g parent type).2.errors = [RTCError.RTC_INVALID_OPERATION]) ∧
      (∀ type, (unmap ops g parent type).geometry = g ∧
        (unmap ops g parent type).parent = parent ∧
        (unmap ops g parent type).errors = [RTCError.RTC_INVALID_OPERATION]) ∧
      (∀ func bounds, (setDisplacementFunction g parent func bounds).geometry = g ∧
        (setDisplacementFunction g parent func bounds).parent = parent ∧
        (setDisplacementFunction g parent func bounds).errors
          = [RTCError.RTC_INVALID_OPERATION])) ∧
    ((parent.isStatic = false ∨ parent.isBuild = false) →
      ∀ mask, (setMask g parent mask).geometry = { g with mask := mask } ∧
        (setMask g parent mask).geometry.mask = mask ∧
        (setMask g parent mask).parent = parent ∧ (setMask g parent mask).errors = []) := by
  constructor
  · intro hs hb
    refine ⟨?_, ?_, ?_, ?_, ?_⟩
    · intro mask
      simp [setMask, hs, hb]
    · intro type ptr offset stride
      simp [setBuffer, hs, hb]
    · intro type
      simp [map, hs, hb]
    · intro type
      simp [unmap, hs, hb]
    · intro func bounds
      simp [setDisplacementFunction, hs, hb]
  · intro h mask
    have hguard : (parent.isStatic && parent.isBuild) = false := by
      rcases h with h | h <;> simp [h]
    simp [setMask, hguard]

theorem static_guard_witness :
    (setMask exampleGeometry ⟨true, true, 0⟩ 5).geometry.mask = 0xFFFFFFFF ∧
    (setMask exampleGeometry ⟨true, false, 0⟩ 5).geometry.mask = 5 ∧
    (setBuffer exampleOps false exampleGeometry ⟨false, true, 0⟩
      RTCBufferType.RTC_FACE_BUFFER 128 0 4).geometry.faceVertices = ((128, 0, 4), false) ∧
    (map exampleOps exampleGeometry ⟨true, true, 0⟩ RTCBufferType.RTC_INDEX_BUFFER).1 = 0 ∧
    (map exampleOps exampleGeometry ⟨false, false, 0⟩ RTCBufferType.RTC_INDEX_BUFFER).1 = 64 ∧
    (setBuffer exampleOps false exampleGeometry ⟨true, true, 0⟩
      RTCBufferType.RTC_FACE_BUFFER 128 0 4).errors = [RTCError.RTC_INVALID_OPERATION] :=
  ⟨by decide, by decide, by decide, by decide, by decide,
    (((static_guard exampleOps false exampleGeometry ⟨true, true, 0⟩).1 rfl rfl).2.1
      RTCBufferType.RTC_FACE_BUFFER 128 0 4).2.2⟩

/-! ## The reference variant: first pass -/

theorem getD_set_eq {α : Type} (l : List α) (t q : Nat) (v d : α) :
    (l.set t v).getD q d = if t = q ∧ q < l.length then v else l.getD q d := by
  simp only [List.getD_eq_getElem?_getD, List.getElem?_set]
  by_cases hq : q < l.length
  · by_cases hn : t = q
    · subst hn
      simp [hq]
    · simp [hn]
  · rw [List.getElem?_eq_none (by omega)]
    by_cases hn : t = q
    · subst hn
      simp [hq]
    · simp [hn]

theorem exists_first (P : Nat → Prop) (i : Nat) (hi : P i) :
    ∃ F, F ≤ i ∧ P F ∧ ∀ j, j < F → ¬ P j := by
  classical
  exact ⟨Nat.find ⟨i, hi⟩, Nat.find_min' _ hi, Nat.find_spec _, fun j hj => Nat.find_min _ hj⟩

theorem exists_last (P : Nat → Prop) (t i : Nat) (hit : i < t) (hi : P i) :
    ∃ L, i ≤ L ∧ L < t ∧ P L ∧ ∀ j, L < j → j < t → ¬ P j := by
  induction t with
  | zero => omega
  | succ t ih =>
    by_cases hPt : P t
    · exact ⟨t, by omega, by omega, hPt, fun j h1 h2 => by omega⟩
    · rcases Nat.lt_or_ge i t with h | h
      · obtain ⟨L, h1, h2, h3, h4⟩ := ih h
        refine ⟨L, h1, by omega, h3, fun j hj1 hj2 => ?_⟩
        rcases Nat.lt_or_ge j t with hjt | hjt
        · exact h4 j hj1 hjt
        · have hjt2 : j = t := by omega
          subst hjt2
          exact hPt
      · have hit2 : i = t := by omega
        subst hit2
        exact absurd hi hPt

theorem refStep_none (w : Nat) (key : Nat → Nat) (val : Nat → HalfEdge) (st : RefState)
    (t : Nat) (h : st.edgeMap.find? (fun kv => kv.1 == key t) = none) :
    refStep w key val st t
      = ⟨st.halfEdges.set t (val t), st.edgeMap ++ [(key t, t)], st.nonManifoldEdges⟩ := by
  simp only [refStep, h]

theorem refStep_some (w : Nat) (key : Nat → Nat) (val : Nat → HalfEdge) (st : RefState)
    (t : Nat) (kv : Nat × Nat) (h : st.edgeMap.find? (fun kv => kv.1 == key t) = some kv) :
    refStep w key val st t
      = ⟨setOpposite w (setOpposite w (st.halfEdges.set t (val t)) t kv.2) kv.2 t,
          st.edgeMap,
          if hasOpposite ((st.halfEdges.set t (val t)).getD kv.2 default)
          then key t :: st.nonManifoldEdges else st.nonManifoldEdges⟩ := by
  simp only [refStep, h]

theorem setOpposite_shape (w : Nat) (he : List HalfEdge) (p q i : Nat) (v : HalfEdge)
    (h : ∃ o, he.getD i default = { v with opposite_half_edge_ofs := o }) :
    ∃ o, (setOpposite w he p q).getD i default = { v with opposite_half_edge_ofs := o } := by
  obtain ⟨o, ho⟩ := h
  unfold setOpposite
  rw [getD_modify]
  split
  · rw [ho]
    exact ⟨_, rfl⟩
  · exact ⟨o, ho⟩

theorem refInv_init (n : Nat) (key : Nat → Nat) (val : Nat → HalfEdge) :
    RefInv n key val 0 ⟨List.replicate n default, [], []⟩ where
  len := by simp
  shape := fun i hi => by omega
  mapNone := fun k _ => rfl
  mapSome := fun F hF => by omega
  oppLater := fun i F hi => by omega
  oppFirst := fun F L _ hL => by omega
  nm := fun k => by
    constructor
    · intro h
      simp at h
    · rintro ⟨i1, i2, i3, _, _, h3, _⟩
      omega

theorem refInv_step_none (w n : Nat) (key : Nat → Nat) (val : Nat → HalfEdge) (t : Nat)
    (st : RefState) (ht : t < n) (hval : (val t).opposite_half_edge_ofs = 0)
    (hinv : RefInv n key val t st)
    (hfind : st.edgeMap.find? (fun kv => kv.1 == key t) = none) :
    RefInv n key val (t + 1) (refStep w key val st t) := by
  have hno : ∀ i, i < t → key i ≠ key t := by
    intro i hi hk
    obtain ⟨F, hFi, hF, hmin⟩ := exists_first (fun j => key j = key t) i hk
    have h1 := hinv.mapSome F (by omega) (fun j hj => by rw [hF]; exact hmin j hj)
    rw [hF, hfind] at h1
    cases h1
  rw [refStep_none w key val st t hfind]
  have hget : ∀ q, ((st.halfEdges.set t (val t)).getD q default)
      = if t = q then val t else st.halfEdges.getD q default := by
    intro q
    rw [getD_set_eq]
    by_cases htq : t = q
    · subst htq
      simp [hinv.len, ht]
    · simp [htq]
  refine ⟨by simp [hinv.len], ?_, ?_, ?_, ?_, ?_, ?_⟩
  · intro i hi
    show ∃ o, (st.halfEdges.set t (val t)).getD i default = _
    rw [hget]
    by_cases hti : t = i
    · subst hti
      rw [if_pos rfl]
      exact ⟨_, rfl⟩
    · rw [if_neg hti]
      exact hinv.shape i (by omega)
  · intro k hk
    show (st.edgeMap ++ [(key t, t)]).find? (fun kv => kv.1 == k) = none
    rw [List.find?_append, hinv.mapNone k (fun i hi => hk i (by omega))]
    have hkt : key t ≠ k := hk t (by omega)
    simp [List.find?_cons, hkt]
  · intro F hF hmin
    show (st.edgeMap ++ [(key t, t)]).find? (fun kv => kv.1 == key F) = some (key F, F)
    rw [List.find?_append]
    rcases Nat.lt_or_ge F t with hFt | hFt
    · rw [hinv.mapSome F hFt hmin]
      rfl
    · have hFe : F = t := by omega
      subst hFe
      rw [hinv.mapNone (key F) hno]
      simp [List.find?_cons]
  · intro i F hi hFi hk hmin
    show ((st.halfEdges.set t (val t)).getD i default).opposite_half_edge_ofs = _
    rcases Nat.lt_or_ge i t with hit | hit
    · rw [hget, if_neg (by omega)]
      exact hinv.oppLater i F hit hFi hk hmin
    · have hie : i = t := by omega
      subst hie
      exact absurd hk (hno F hFi)
  · intro F L hFL hL hk hmin hmax
    show ((st.halfEdges.set t (val t)).getD F default).opposite_half_edge_ofs = _
    rcases Nat.lt_or_ge L t with hLt | hLt
    · rw [hget, if_neg (by omega)]
      exact hinv.oppFirst F L hFL hLt hk hmin (fun j h1 h2 => hmax j h1 (by omega))
    · have hLe : L = t := by omega
      subst hLe
      have hFe : F = L := by
        rcases Nat.lt_or_ge F L with h | h
        · exact absurd hk.symm (hno F h)
        · omega
      subst hFe
      rw [hget, if_pos rfl, hval]
      omega
  · intro k
    show k ∈ st.nonManifoldEdges ↔ _
    rw [hinv.nm k]
    constructor
    · rintro ⟨i1, i2, i3, h1, h2, h3, k1, k2, k3⟩
      exact ⟨i1, i2, i3, h1, h2, by omega, k1, k2, k3⟩
    · rintro ⟨i1, i2, i3, h1, h2, h3, k1, k2, k3⟩
      rcases Nat.lt_or_ge i3 t with h | h
      · exact ⟨i1, i2, i3, h1, h2, h, k1, k2, k3⟩
      · have he : i3 = t := by omega
        subst he
        exact absurd (k1.trans k3.symm) (hno i1 (by omega))

theorem refInv_step_some (w n : Nat) (key : Nat → Nat) (val : Nat → HalfEdge) (t : Nat)
    (st : RefState) (hw : 32 ≤ w) (hn : n < 2 ^ 31) (ht : t < n) (hinv : RefInv n key val t st)
    (kv : Nat × Nat) (hfind : st.edgeMap.find? (fun kv => kv.1 == key t) = some kv) :
    RefInv n key val (t + 1) (refStep w key val st t) := by
  have hex : ∃ i, i < t ∧ key i = key t := by
    by_contra hcon
    have h1 := hinv.mapNone (key t) (fun i hi hk => hcon ⟨i, hi, hk⟩)
    rw [hfind] at h1
    cases h1
  obtain ⟨i0, hi0, hki0⟩ := hex
  obtain ⟨F0, hF0i, hF0, hmin0⟩ := exists_first (fun j => key j = key t) i0 hki0
  have hF0t : F0 < t := by omega
  have hfirst : ∀ F, F < t → key F = key t → (∀ j, j < F → key j ≠ key t) → F = F0 := by
    intro F hF hk hmin
    rcases Nat.lt_trichotomy F F0 with h | h | h
    · exact absurd hk (hmin0 F h)
    · exact h
    · exact absurd hF0 (hmin F0 h)
  have hkv : kv = (key t, F0) := by
    have h1 := hinv.mapSome F0 hF0t (fun j hj => by rw [hF0]; exact hmin0 j hj)
    rw [hF0, hfind] at h1
    exact Option.some.inj h1
  subst hkv
  obtain ⟨L0, hFL0, hL0t, hL0, hmax0⟩ := exists_last (fun j => key j = key t) t F0 hF0t hF0
  have hoppF0 : (st.halfEdges.getD F0 default).opposite_half_edge_ofs = (L0 : Int) - (F0 : Int) :=
    hinv.oppFirst F0 L0 hFL0 hL0t (by rw [hL0, hF0]) (fun j hj => by rw [hF0]; exact hmin0 j hj)
      (fun j h1 h2 => by rw [hF0]; exact hmax0 j h1 h2)
  rw [refStep_some w key val st t _ hfind]
  have hget : ∀ q, ((st.halfEdges.set t (val t)).getD q default)
      = if t = q then val t else st.halfEdges.getD q default := by
    intro q
    rw [getD_set_eq]
    by_cases htq : t = q
    · subst htq
      simp [hinv.len, ht]
    · simp [htq]
  have hlen1 : (st.halfEdges.set t (val t)).length = n := by simp [hinv.len]
  have hlen2 : (setOpposite w (st.halfEdges.set t (val t)) t F0).length = n := by
    simp [setOpposite, hinv.len]
  have hopp : ∀ q, ((setOpposite w (setOpposite w (st.halfEdges.set t (val t)) t F0) F0 t).getD
        q default).opposite_half_edge_ofs
      = if q = F0 then (t : Int) - (F0 : Int)
        else if q = t then (F0 : Int) - (t : Int)
        else (st.halfEdges.getD q default).opposite_half_edge_ofs := by
    intro q
    rw [setOpposite_opp, setOpposite_opp, hlen1, hlen2]
    by_cases hq1 : q = F0
    · subst hq1
      rw [if_pos ⟨rfl, by omega⟩, if_pos rfl]
      exact wrap_index_diff w hw t q (by omega) (by omega)
    · rw [if_neg (fun h => hq1 h.1.symm), if_neg hq1]
      by_cases hq2 : q = t
      · subst hq2
        rw [if_pos ⟨rfl, ht⟩, if_pos rfl]
        exact wrap_index_diff w hw F0 q (by omega) (by omega)
      · rw [if_neg (fun h => hq2 h.1.symm), if_neg hq2, hget, if_neg (fun h => hq2 h.symm)]
  have hhas : hasOpposite ((st.halfEdges.set t (val t)).getD F0 default) = true ↔ L0 ≠ F0 := by
    rw [hget, if_neg (by omega), hasOpposite, hoppF0]
    simp only [decide_eq_true_eq]
    constructor
    · intro h1 h2
      apply h1
      rw [h2]
      omega
    · intro h1 h2
      apply h1
      omega
  refine ⟨hlen2 ▸ by simp [setOpposite, hinv.len], ?_, ?_, ?_, ?_, ?_, ?_⟩
  · intro i hi
    apply setOpposite_shape
    apply setOpposite_shape
    rw [hget]
    by_cases hti : t = i
    · subst hti
      rw [if_pos rfl]
      exact ⟨_, rfl⟩
    · rw [if_neg hti]
      exact hinv.shape i (by omega)
  · intro k hk
    exact hinv.mapNone k (fun i hi => hk i (by omega))
  · intro F hF hmin
    rcases Nat.lt_or_ge F t with hFt | hFt
    · exact hinv.mapSome F hFt hmin
    · have hFe : F = t := by omega
      subst hFe
      exact absurd hF0 (hmin F0 hF0t)
  · intro i F hi hFi hk hmin
    show ((setOpposite w (setOpposite w (st.halfEdges.set t (val t)) t F0) F0 t).getD
        i default).opposite_half_edge_ofs = _
    rw [hopp]
    rcases Nat.lt_or_ge i t with hit | hit
    · have hiF0 : i ≠ F0 := by
        intro h
        subst h
        exact absurd (hk.trans hF0) (hmin0 F hFi)
      rw [if_neg hiF0, if_neg (by omega)]
      exact hinv.oppLater i F hit hFi hk hmin
    · have hie : i = t := by omega
      subst hie
      have hFe : F = F0 := hfirst F hFi hk hmin
      subst hFe
      rw [if_neg (by omega), if_pos rfl]
  · intro F L hFL hL hk hmin hmax
    show ((setOpposite w (setOpposite w (st.halfEdges.set t (val t)) t F0) F0 t).getD
        F default).opposite_half_edge_ofs = _
    rw [hopp]
    by_cases hkF : key F = key t
    · have hFt : F < t := by
        rcases Nat.lt_or_ge F t with h | h
        · exact h
        · have hFe : F = t := by omega
          subst hFe
          exact absurd hF0 (hmin F0 hF0t)
      have hFe : F = F0 := hfirst F hFt hkF (fun j hj => by rw [← hkF]; exact hmin j hj)
      subst hFe
      have hLe : L = t := by
        rcases Nat.lt_or_ge L t with h | h
        · exact absurd hkF.symm (hmax t h (by omega))
        · omega
      subst hLe
      rw [if_pos rfl]
    · have hFF0 : F ≠ F0 := by
        intro h
        subst h
        exact hkF hF0
      have hFt : F ≠ t := by
        intro h
        subst h
        exact hkF rfl
      have hLt : L < t := by
        rcases Nat.lt_or_ge L t with h | h
        · exact h
        · have hLe : L = t := by omega
          subst hLe
          exact absurd hk.symm hkF
      rw [if_neg hFF0, if_neg hFt]
      exact hinv.oppFirst F L hFL hLt hk hmin (fun j h1 h2 => hmax j h1 (by omega))
  · intro k
    show k ∈ (if hasOpposite ((st.halfEdges.set t (val t)).getD F0 default) = true
      then key t :: st.nonManifoldEdges else st.nonManifoldEdges) ↔ _
    constructor
    · intro hk
      have hcases : k ∈ st.nonManifoldEdges ∨
          (hasOpposite ((st.halfEdges.set t (val t)).getD F0 default) = true ∧ k = key t) := by
        split at hk
        · rcases List.mem_cons.1 hk with h | h
          · exact Or.inr ⟨by assumption, h⟩
          · exact Or.inl h
        · exact Or.inl hk
      rcases hcases with h | ⟨h1, h2⟩
      · obtain ⟨i1, i2, i3, h1, h2, h3, k1, k2, k3⟩ := (hinv.nm k).1 h
        exact ⟨i1, i2, i3, h1, h2, by omega, k1, k2, k3⟩
      · have hne := hhas.1 h1
        exact ⟨F0, L0, t, by omega, hL0t, by omega, by rw [h2]; exact hF0,
          by rw [h2]; exact hL0, h2.symm⟩
    · rintro ⟨i1, i2, i3, h1, h2, h3, k1, k2, k3⟩
      rcases Nat.lt_or_ge i3 t with h | h
      · have hold := (hinv.nm k).2 ⟨i1, i2, i3, h1, h2, h, k1, k2, k3⟩
        split
        · exact List.mem_cons_of_mem _ hold
        · exact hold
      · have he : i3 = t := by omega
        subst he
        have hF1 : F0 ≤ i1 := by
          rcases Nat.lt_or_ge i1 F0 with h' | h'
          · exact absurd (k1.trans k3.symm) (hmin0 i1 h')
          · exact h'
        have hL2 : i2 ≤ L0 := by
          rcases Nat.lt_or_ge L0 i2 with h' | h'
          · exact absurd (k2.trans k3.symm) (hmax0 i2 h' h2)
          · exact h'
        have hh : hasOpposite ((st.halfEdges.set i3 (val i3)).getD F0 default) = true :=
          hhas.2 (by omega)
        rw [if_pos hh, ← k3]
        exact List.mem_cons_self _ _

theorem refInv_step (w n : Nat) (key : Nat → Nat) (val : Nat → HalfEdge) (t : Nat)
    (st : RefState) (hw : 32 ≤ w) (hn : n < 2 ^ 31) (ht : t < n)
    (hval : (val t).opposite_half_edge_ofs = 0) (hinv : RefInv n key val t st) :
    RefInv n key val (t + 1) (refStep w key val st t) := by
  cases hfind : st.edgeMap.find? (fun kv => kv.1 == key t) with
  | none => exact refInv_step_none w n key val t st ht hval hinv hfind
  | some kv => exact refInv_step_some w n key val t st hw hn ht hinv kv hfind

theorem refInv_fold (w n : Nat) (key : Nat → Nat) (val : Nat → HalfEdge) (hw : 32 ≤ w)
    (hn : n < 2 ^ 31) (hval : ∀ t, t < n → (val t).opposite_half_edge_ofs = 0) (t : Nat)
    (ht : t ≤ n) :
    RefInv n key val t
      ((List.range t).foldl (refStep w key val) ⟨List.replicate n default, [], []⟩) := by
  induction t with
  | zero => exact refInv_init n key val
  | succ t ih =>
    rw [List.range_succ, List.foldl_append]
    exact refInv_step w n key val t _ hw hn (by omega) (hval t (by omega)) (ih (by omega))

/-! ## The reference variant: second pass -/

theorem clearOpposite_frame (he : List HalfEdge) (p : Nat) :
    FrameEq he (he.modify (fun h => { h with opposite_half_edge_ofs := 0 }) p) := by
  refine ⟨by simp, fun q => ?_⟩
  rw [getD_modify]
  split <;> exact ⟨rfl, rfl, rfl, rfl, rfl⟩

theorem clearOpposite_vcw (he : List HalfEdge) (p q : Nat) :
    ((he.modify (fun h => { h with opposite_half_edge_ofs := 0 }) p).getD q
        default).vertex_crease_weight = (he.getD q default).vertex_crease_weight := by
  rw [getD_modify]
  split <;> rfl

theorem clearOpposite_opp (he : List HalfEdge) (p q : Nat) :
    ((he.modify (fun h => { h with opposite_half_edge_ofs := 0 }) p).getD q
        default).opposite_half_edge_ofs
      = if p = q ∧ q < he.length then 0 else (he.getD q default).opposite_half_edge_ofs := by
  rw [getD_modify]
  split <;> rfl

theorem refMarkStep_frame (key : Nat → Nat) (nm : List Nat) (he : List HalfEdge) (t : Nat) :
    FrameEq he (refMarkStep key nm he t) := by
  unfold refMarkStep
  split
  · exact frameEq_trans _ _ _ (clearOpposite_frame he t)
      (frameEq_trans _ _ _ (setVertexCreaseWeight_frame _ _ _)
        (setVertexCreaseWeight_frame _ _ _))
  · exact frameEq_refl he

theorem refMarkStep_opp (key : Nat → Nat) (nm : List Nat) (he : List HalfEdge) (t q : Nat) :
    ((refMarkStep key nm he t).getD q default).opposite_half_edge_ofs
      = if nm.contains (key t) = true ∧ t = q ∧ q < he.length then 0
        else (he.getD q default).opposite_half_edge_ofs := by
  unfold refMarkStep
  by_cases hc : nm.contains (key t) = true
  · rw [if_pos hc]
    simp only
    rw [setVertexCreaseWeight_opp, setVertexCreaseWeight_opp, clearOpposite_opp]
    by_cases h : t = q ∧ q < he.length
    · rw [if_pos h, if_pos ⟨hc, h⟩]
    · rw [if_neg h, if_neg (fun h2 => h h2.2)]
  · rw [if_neg hc, if_neg (fun h2 => hc h2.1)]

theorem refMarkStep_vcw (key : Nat → Nat) (nm : List Nat) (he : List HalfEdge) (t q : Nat) :
    ((refMarkStep key nm he t).getD q default).vertex_crease_weight
      = if nm.contains (key t) = true ∧ (t = q ∨ next he t = q) ∧ q < he.length then f32_inf
        else (he.getD q default).vertex_crease_weight := by
  unfold refMarkStep
  by_cases hc : nm.contains (key t) = true
  · rw [if_pos hc]
    simp only
    have hf1 := clearOpposite_frame he t
    have hf2 := setVertexCreaseWeight_frame
      (he.modify (fun h => { h with opposite_half_edge_ofs := 0 }) t) t f32_inf
    have hf := frameEq_trans _ _ _ hf1 hf2
    rw [setVertexCreaseWeight_vcw, setVertexCreaseWeight_vcw, clearOpposite_vcw,
      next_frameEq _ _ hf, hf.1, hf1.1]
    by_cases h1 : next he t = q ∧ q < he.length
    · rw [if_pos h1, if_pos ⟨hc, Or.inr h1.1, h1.2⟩]
    · rw [if_neg h1]
      by_cases h2 : t = q ∧ q < he.length
      · rw [if_pos h2, if_pos ⟨hc, Or.inl h2.1, h2.2⟩]
      · rw [if_neg h2, if_neg]
        rintro ⟨-, h3 | h3, h4⟩
        · exact h2 ⟨h3, h4⟩
        · exact h1 ⟨h3, h4⟩
  · rw [if_neg hc, if_neg (fun h2 => hc h2.1)]

theorem foldl_refMarkStep_frame (key : Nat → Nat) (nm : List Nat) (is : List Nat)
    (he : List HalfEdge) : FrameEq he (is.foldl (refMarkStep key nm) he) := by
  induction is generalizing he with
  | nil => exact frameEq_refl he
  | cons i is ih =>
    exact frameEq_trans _ _ _ (refMarkStep_frame key nm he i) (ih _)

theorem foldl_refMarkStep_opp_other (key : Nat → Nat) (nm : List Nat) (is : List Nat)
    (he : List HalfEdge) (q : Nat) (h : q ∈ is → nm.contains (key q) = false) :
    ((is.foldl (refMarkStep key nm) he).getD q default).opposite_half_edge_ofs
      = (he.getD q default).opposite_half_edge_ofs := by
  induction is generalizing he with
  | nil => rfl
  | cons i is ih =>
    simp only [List.foldl_cons]
    rw [ih _ (fun hq => h (List.mem_cons_of_mem _ hq)), refMarkStep_opp, if_neg]
    rintro ⟨h1, h2, -⟩
    subst h2
    rw [h (List.mem_cons_self _ _)] at h1
    cases h1

theorem foldl_refMarkStep_opp_cases (key : Nat → Nat) (nm : List Nat) (is : List Nat)
    (he : List HalfEdge) (q : Nat) :
    ((is.foldl (refMarkStep key nm) he).getD q default).opposite_half_edge_ofs
        = (he.getD q default).opposite_half_edge_ofs ∨
    ((is.foldl (refMarkStep key nm) he).getD q default).opposite_half_edge_ofs = 0 := by
  induction is generalizing he with
  | nil => left; rfl
  | cons i is ih =>
    simp only [List.foldl_cons]
    rcases ih (refMarkStep key nm he i) with h | h
    · rw [h, refMarkStep_opp]
      split
      · right; rfl
      · left; rfl
    · right; exact h

theorem foldl_refMarkStep_opp_target (key : Nat → Nat) (nm : List Nat) (is : List Nat)
    (he : List HalfEdge) (q : Nat) (hq : q ∈ is) (hlen : q < he.length)
    (hc : nm.contains (key q) = true) :
    ((is.foldl (refMarkStep key nm) he).getD q default).opposite_half_edge_ofs = 0 := by
  induction is generalizing he with
  | nil => simp at hq
  | cons j is ih =>
    simp only [List.foldl_cons]
    have hf := refMarkStep_frame key nm he j
    rcases List.mem_cons.1 hq with rfl | hmem
    · rcases foldl_refMarkStep_opp_cases key nm is (refMarkStep key nm he q) q with h | h
      · rw [h, refMarkStep_opp, if_pos ⟨hc, rfl, hlen⟩]
      · exact h
    · exact ih _ hmem (by rw [hf.1]; exact hlen)

theorem foldl_refMarkStep_vcw_cases (key : Nat → Nat) (nm : List Nat) (is : List Nat)
    (he : List HalfEdge) (q : Nat) :
    ((is.foldl (refMarkStep key nm) he).getD q default).vertex_crease_weight
        = (he.getD q default).vertex_crease_weight ∨
    ((is.foldl (refMarkStep key nm) he).getD q default).vertex_crease_weight = f32_inf := by
  induction is generalizing he with
  | nil => left; rfl
  | cons i is ih =>
    simp only [List.foldl_cons]
    rcases ih (refMarkStep key nm he i) with h | h
    · rw [h, refMarkStep_vcw]
      split
      · right; rfl
      · left; rfl
    · right; exact h

theorem foldl_refMarkStep_vcw_other (key : Nat → Nat) (nm : List Nat) (is : List Nat)
    (he : List HalfEdge) (q : Nat)
    (h : ∀ i ∈ is, nm.contains (key i) = true → q ≠ i ∧ q ≠ next he i) :
    ((is.foldl (refMarkStep key nm) he).getD q default).vertex_crease_weight
      = (he.getD q default).vertex_crease_weight := by
  induction is generalizing he with
  | nil => rfl
  | cons i is ih =>
    simp only [List.foldl_cons]
    have hf := refMarkStep_frame key nm he i
    rw [ih (refMarkStep key nm he i) (fun j hj hc => by
      rw [next_frameEq _ _ hf]
      exact h j (List.mem_cons_of_mem _ hj) hc), refMarkStep_vcw, if_neg]
    rintro ⟨hc, h1 | h1, -⟩
    · exact (h i (List.mem_cons_self _ _) hc).1 h1.symm
    · exact (h i (List.mem_cons_self _ _) hc).2 h1.symm

theorem foldl_refMarkStep_vcw_targets (key : Nat → Nat) (nm : List Nat) (is : List Nat)
    (he : List HalfEdge) (i : Nat) (hi : i ∈ is) (hc : nm.contains (key i) = true) (q : Nat)
    (hq : q < he.length) (hqi : q = i ∨ q = next he i) :
    ((is.foldl (refMarkStep key nm) he).getD q default).vertex_crease_weight = f32_inf := by
  induction is generalizing he with
  | nil => simp at hi
  | cons j is ih =>
    simp only [List.foldl_cons]
    have hf := refMarkStep_frame key nm he j
    rcases List.mem_cons.1 hi with rfl | hmem
    · rcases foldl_refMarkStep_vcw_cases key nm is (refMarkStep key nm he i) q with h | h
      · rw [h, refMarkStep_vcw, if_pos]
        refine ⟨hc, ?_, hq⟩
        rcases hqi with h1 | h1
        · left; exact h1.symm
        · right; exact h1.symm
      · exact h
    · apply ih _ hmem
      · rw [hf.1]; exact hq
      · rw [next_frameEq _ _ hf]; exact hqi

/-! ## The reference variant: the two passes as loops over the flat positions -/

theorem fillPairs_flat (m : SubdivMesh) (hlen : m.faceVertices.length = m.numFaces) :
    (fillPairs m).map (fun p => (m.faceVertices.take p.1).sum + p.2)
      = List.range m.faceVertices.sum := by
  have h := face_positions m.faceVertices m.faceVertices.length (Nat.le_refl _)
  rw [List.take_length, hlen] at h
  rw [← h]
  unfold fillPairs
  rw [List.map_flatMap]
  apply flatMap_congr_mem
  intro f _
  rw [List.map_map]
  rfl

theorem pairAt_spec (m : SubdivMesh) (hwf : WellFormed m) (t : Nat) (ht : t < m.numEdges) :
    pairAt m t ∈ fillPairs m ∧ (m.faceVertices.take (pairAt m t).1).sum + (pairAt m t).2 = t := by
  obtain ⟨hlen, -, hsum, -, -⟩ := hwf
  have hmap := fillPairs_flat m hlen
  rw [hsum] at hmap
  have hl : (fillPairs m).length = m.numEdges := by
    have h := congrArg List.length hmap
    rw [List.length_map, List.length_range] at h
    exact h
  have hlt : t < (fillPairs m).length := by omega
  have hp : pairAt m t = (fillPairs m).get ⟨t, hlt⟩ := by
    unfold pairAt
    rw [List.getD_eq_getElem _ _ hlt]
    rfl
  refine ⟨by rw [hp]; exact List.get_mem _ _ _, ?_⟩
  have h := congrArg (fun l => l.getD t 0) hmap
  simp only at h
  rw [List.getD_eq_getElem _ _ (by rw [List.length_map]; exact hlt),
    List.getD_eq_getElem _ _ (by rw [List.length_range]; exact ht), List.getElem_map,
    List.getElem_range] at h
  rw [hp]
  exact h

theorem pairAt_pos (m : SubdivMesh) (hwf : WellFormed m) (p : Nat × Nat)
    (hp : p ∈ fillPairs m) : pairAt m ((m.faceVertices.take p.1).sum + p.2) = p := by
  have hlt : (m.faceVertices.take p.1).sum + p.2 < m.numEdges := by
    have h1 := (mem_fillPairs m p).1 hp
    have h2 := fillPairs_pos_lt m ⟨[], []⟩ hwf p.1 p.2 h1.1 h1.2
    rw [prepare_faceStartEdge m _ hwf p.1 h1.1] at h2
    exact h2
  obtain ⟨hmem, hpos⟩ := pairAt_spec m hwf _ hlt
  apply fillPairs_pos_inj m ⟨[], []⟩ hwf _ _ hmem hp
  rw [prepare_faceStartEdge m _ hwf _ ((mem_fillPairs m _).1 hmem).1,
    prepare_faceStartEdge m _ hwf _ ((mem_fillPairs m _).1 hp).1]
  exact hpos

theorem foldl_pairs_positions {σ : Type} (m : SubdivMesh) (hwf : WellFormed m)
    (F : σ → Nat × Nat → σ) (G : σ → Nat → σ)
    (h : ∀ st p, p ∈ fillPairs m → F st p = G st ((m.faceVertices.take p.1).sum + p.2))
    (init : σ) : (fillPairs m).foldl F init = (List.range m.numEdges).foldl G init := by
  have hmap := fillPairs_flat m hwf.1
  rw [hwf.2.2.1] at hmap
  rw [← hmap, List.foldl_map]
  exact List.foldl_ext _ _ _ (fun a p hp => h a p hp)

theorem full_holes_nil (m : SubdivMesh) (hholes : m.holes = []) (i : Nat) :
    (full_holes m).getD i 0 = 0 := by
  unfold full_holes
  rw [hholes]
  simp only [List.length_nil, List.range_zero, List.foldl_nil]
  by_cases hi : i < m.numFaces
  · rw [List.getD_eq_getElem _ _ (by rw [List.length_replicate]; exact hi)]
    simp
  · rw [List.getD_eq_default _ _ (by rw [List.length_replicate]; omega)]

theorem refWrite_eq_refStep (w : Nat) (m : SubdivMesh) (hwf : WellFormed m)
    (hholes : m.holes = []) (st : RefState) (p : Nat × Nat) (hp : p ∈ fillPairs m) :
    refWrite w m p.1 (m.faceVertices.getD p.1 0) (m.faceVertices.take p.1).sum st p.2
      = refStep w (refKeyAt m) (refValAt w m) st ((m.faceVertices.take p.1).sum + p.2) := by
  unfold refWrite refStep refKeyAt refValAt
  rw [pairAt_pos m hwf p hp]
  simp only [full_holes_nil m hholes, ne_eq, not_true_eq_false, if_false]
  rfl

theorem refMark_eq_refMarkStep (m : SubdivMesh) (hwf : WellFormed m) (nm : List Nat)
    (he : List HalfEdge) (p : Nat × Nat) (hp : p ∈ fillPairs m) :
    refMark m nm (m.faceVertices.getD p.1 0) (m.faceVertices.take p.1).sum he p.2
      = refMarkStep (refKeyAt m) nm he ((m.faceVertices.take p.1).sum + p.2) := by
  unfold refMark refMarkStep refKeyAt
  rw [pairAt_pos m hwf p hp]
  rfl

theorem refEdges_unroll (w : Nat) (m : SubdivMesh) (i N j : Nat) (st : RefState)
    (hok : ∀ d, d < N → f32_ge_zero (edgeLevel m (j + d)) = true) :
    (List.range N).foldlM (refEdge w m i N j) st
      = some ((List.range N).foldl (refWrite w m i N j) st) := by
  rw [foldlM_option_all (fun d => f32_ge_zero (edgeLevel m (j + d))) (refWrite w m i N j)
    (refEdge w m i N j) (fun _ _ => rfl), if_pos]
  rw [List.all_eq_true]
  intro d hd
  exact hok d (List.mem_range.1 hd)

theorem refFaces_unroll (w : Nat) (m : SubdivMesh) (k : Nat) (hk : k ≤ m.faceVertices.length)
    (init : RefState)
    (hok : ∀ f, f < k → ∀ d, d < m.faceVertices.getD f 0 →
      f32_ge_zero (edgeLevel m ((m.faceVertices.take f).sum + d)) = true) :
    (List.range k).foldlM (refFace w m) (0, init)
      = some ((m.faceVertices.take k).sum,
          ((List.range k).flatMap
              (fun f => (List.range (m.faceVertices.getD f 0)).map (fun d => (f, d)))).foldl
            (fun st p => refWrite w m p.1 (m.faceVertices.getD p.1 0)
              (m.faceVertices.take p.1).sum st p.2) init) := by
  induction k with
  | zero => simp
  | succ k ih =>
    rw [List.range_succ, List.foldlM_append, ih (by omega) (fun f hf => hok f (by omega))]
    simp only [List.foldlM_cons, List.foldlM_nil, Option.bind_eq_bind, Option.some_bind,
      Option.pure_def, Option.bind_some]
    unfold refFace
    rw [refEdges_unroll w m k _ _ _ (hok k (by omega))]
    rw [List.flatMap_append, List.foldl_append, sum_take_succ_getD _ _ (by omega)]
    simp [List.foldl_map]

theorem refMarkFaces_unroll (m : SubdivMesh) (nm : List Nat) (k : Nat)
    (hk : k ≤ m.faceVertices.length) (he : List HalfEdge) :
    (List.range k).foldl (refMarkFace m nm) (0, he)
      = ((m.faceVertices.take k).sum,
          ((List.range k).flatMap
              (fun f => (List.range (m.faceVertices.getD f 0)).map (fun d => (f, d)))).foldl
            (fun he p => refMark m nm (m.faceVertices.getD p.1 0)
              (m.faceVertices.take p.1).sum he p.2) he) := by
  induction k with
  | zero => simp
  | succ k ih =>
    rw [List.range_succ, List.foldl_append, ih (by omega)]
    simp only [List.foldl_cons, List.foldl_nil]
    unfold refMarkFace
    rw [List.flatMap_append, List.foldl_append, sum_take_succ_getD _ _ (by omega)]
    simp [List.foldl_map]

theorem referenceVariant_eq (w : Nat) (m : SubdivMesh) (hwf : WellFormed m)
    (hholes : m.holes = [])
    (hok : ∀ f, f < m.numFaces → ∀ d, d < m.faceVertices.getD f 0 →
      f32_ge_zero (edgeLevel m ((m.faceVertices.take f).sum + d)) = true) :
    referenceVariant w m
      = some ((List.range m.numEdges).foldl
          (refMarkStep (refKeyAt m)
            ((List.range m.numEdges).foldl (refStep w (refKeyAt m) (refValAt w m))
              ⟨List.replicate m.numEdges default, [], []⟩).nonManifoldEdges)
          ((List.range m.numEdges).foldl (refStep w (refKeyAt m) (refValAt w m))
              ⟨List.replicate m.numEdges default, [], []⟩).halfEdges,
        (faceStartLoop (m.faceVertices.take m.numFaces) 0).1) := by
  unfold referenceVariant
  rw [refFaces_unroll w m m.numFaces (by rw [hwf.1]) _ hok]
  simp only [Option.map_some']
  rw [refMarkFaces_unroll m _ m.numFaces (by rw [hwf.1])]
  simp only
  have h1 := foldl_pairs_positions m hwf
    (fun st p => refWrite w m p.1 (m.faceVertices.getD p.1 0) (m.faceVertices.take p.1).sum st p.2)
    (refStep w (refKeyAt m) (refValAt w m))
    (fun st p hp => refWrite_eq_refStep w m hwf hholes st p hp)
    ⟨List.replicate m.numEdges default, [], []⟩
  unfold fillPairs at h1
  rw [h1]
  have h2 := fun nm he => foldl_pairs_positions m hwf
    (fun he p => refMark m nm (m.faceVertices.getD p.1 0) (m.faceVertices.take p.1).sum he p.2)
    (refMarkStep (refKeyAt m) nm)
    (fun he p hp => refMark_eq_refMarkStep m hwf nm he p hp) he
  unfold fillPairs at h2
  rw [h2]

/-! ## The reference variant: the result in terms of the key classes -/

theorem sort_three (P : Nat → Prop) (a b c : Nat) (hab : a ≠ b) (hac : a ≠ c) (hbc : b ≠ c)
    (ha : P a) (hb : P b) (hc : P c) :
    ∃ i1 i2 i3, i1 < i2 ∧ i2 < i3 ∧ P i1 ∧ P i2 ∧ P i3 := by
  rcases Nat.lt_or_gt_of_ne hab with h1 | h1 <;> rcases Nat.lt_or_gt_of_ne hac with h2 | h2 <;>
    rcases Nat.lt_or_gt_of_ne hbc with h3 | h3
  · exact ⟨a, b, c, h1, h3, ha, hb, hc⟩
  · exact ⟨a, c, b, h2, h3, ha, hc, hb⟩
  · omega
  · exact ⟨c, a, b, h2, h1, hc, ha, hb⟩
  · exact ⟨b, a, c, h1, h2, hb, ha, hc⟩
  · omega
  · exact ⟨b, c, a, h3, h2, hb, hc, ha⟩
  · exact ⟨c, b, a, h3, h1, hc, hb, ha⟩

theorem refInv_nm_contains (n : Nat) (key : Nat → Nat) (val : Nat → HalfEdge) (st : RefState)
    (inv : RefInv n key val n st) (q : Nat) (hq : q < n) :
    st.nonManifoldEdges.contains (key q) = true ↔
      ∃ q1 q2, q1 < n ∧ q2 < n ∧ q1 ≠ q ∧ q2 ≠ q ∧ q1 ≠ q2 ∧ key q1 = key q ∧
        key q2 = key q := by
  have hmem : st.nonManifoldEdges.contains (key q) = true ↔ key q ∈ st.nonManifoldEdges := by
    simp
  rw [hmem, inv.nm]
  constructor
  · rintro ⟨i1, i2, i3, h1, h2, h3, k1, k2, k3⟩
    by_cases e1 : i1 = q
    · exact ⟨i2, i3, by omega, h3, by omega, by omega, by omega, k2, k3⟩
    · by_cases e2 : i2 = q
      · exact ⟨i1, i3, by omega, h3, e1, by omega, by omega, k1, k3⟩
      · exact ⟨i1, i2, by omega, by omega, e1, e2, by omega, k1, k2⟩
  · rintro ⟨q1, q2, h1, h2, n1, n2, n12, k1, k2⟩
    obtain ⟨i1, i2, i3, a, b, c, d, e⟩ := sort_three (fun i => i < n ∧ key i = key q) q q1 q2
      (Ne.symm n1) (Ne.symm n2) n12 ⟨hq, rfl⟩ ⟨h1, k1⟩ ⟨h2, k2⟩
    exact ⟨i1, i2, i3, a, b, e.1, c.2, d.2, e.2⟩

theorem ref_opp_nonmanifold (n : Nat) (key : Nat → Nat) (val : Nat → HalfEdge) (st : RefState)
    (inv : RefInv n key val n st) (p q1 q2 : Nat) (hp : p < n) (hq1 : q1 < n) (hq2 : q2 < n)
    (h1 : q1 ≠ p) (h2 : q2 ≠ p) (h12 : q1 ≠ q2) (hK1 : key q1 = key p) (hK2 : key q2 = key p) :
    (((List.range n).foldl (refMarkStep key st.nonManifoldEdges) st.halfEdges).getD p
        default).opposite_half_edge_ofs = 0 :=
  foldl_refMarkStep_opp_target key _ _ _ p (List.mem_range.2 hp) (by rw [inv.len]; exact hp)
    ((refInv_nm_contains n key val st inv p hp).2 ⟨q1, q2, hq1, hq2, h1, h2, h12, hK1, hK2⟩)

theorem ref_opp_pair (n : Nat) (key : Nat → Nat) (val : Nat → HalfEdge) (st : RefState)
    (inv : RefInv n key val n st) (p q : Nat) (hp : p < n) (hq : q < n) (hpq : p ≠ q)
    (hK : key q = key p) (hclass : ∀ q', q' < n → key q' = key p → q' = p ∨ q' = q) :
    (((List.range n).foldl (refMarkStep key st.nonManifoldEdges) st.halfEdges).getD p
        default).opposite_half_edge_ofs = (q : Int) - (p : Int) := by
  rw [foldl_refMarkStep_opp_other]
  · rcases Nat.lt_or_gt_of_ne hpq with h | h
    · refine inv.oppFirst p q (by omega) hq hK (fun j hj hk => ?_) (fun j h1 h2 hk => ?_)
      · rcases hclass j (by omega) hk with e | e <;> omega
      · rcases hclass j h2 hk with e | e <;> omega
    · refine inv.oppLater p q hp h hK (fun j hj hk => ?_)
      rcases hclass j (by omega) hk with e | e <;> omega
  · intro _
    cases hc : st.nonManifoldEdges.contains (key p) with
    | false => rfl
    | true =>
      obtain ⟨q1, q2, h1, h2, n1, n2, n12, k1, k2⟩ :=
        (refInv_nm_contains n key val st inv p hp).1 hc
      rcases hclass q1 h1 k1 with e1 | e1
      · exact absurd e1 n1
      · rcases hclass q2 h2 k2 with e2 | e2
        · exact absurd e2 n2
        · exact absurd (e1.trans e2.symm) n12

theorem ref_opp_single (n : Nat) (key : Nat → Nat) (val : Nat → HalfEdge) (st : RefState)
    (inv : RefInv n key val n st) (p : Nat) (hp : p < n)
    (hclass : ∀ q', q' < n → key q' = key p → q' = p) :
    (((List.range n).foldl (refMarkStep key st.nonManifoldEdges) st.halfEdges).getD p
        default).opposite_half_edge_ofs = 0 := by
  rw [foldl_refMarkStep_opp_other]
  · rw [inv.oppFirst p p (Nat.le_refl _) hp rfl
      (fun j hj hk => by have := hclass j (by omega) hk; omega)
      (fun j h1 h2 hk => by have := hclass j h2 hk; omega)]
    omega
  · intro _
    cases hc : st.nonManifoldEdges.contains (key p) with
    | false => rfl
    | true =>
      obtain ⟨q1, q2, h1, h2, n1, n2, n12, k1, k2⟩ :=
        (refInv_nm_contains n key val st inv p hp).1 hc
      exact absurd (hclass q1 h1 k1) n1

theorem ref_vcw_forced (n : Nat) (key : Nat → Nat) (val : Nat → HalfEdge) (st : RefState)
    (inv : RefInv n key val n st) (p q q1 q2 : Nat) (hp : p < n) (hq : q < n) (hq1 : q1 < n)
    (hq2 : q2 < n) (h1 : q1 ≠ q) (h2 : q2 ≠ q) (h12 : q1 ≠ q2) (hK1 : key q1 = key q)
    (hK2 : key q2 = key q) (hpq : p = q ∨ p = next st.halfEdges q) :
    (((List.range n).foldl (refMarkStep key st.nonManifoldEdges) st.halfEdges).getD p
        default).vertex_crease_weight = f32_inf :=
  foldl_refMarkStep_vcw_targets key _ _ _ q (List.mem_range.2 hq)
    ((refInv_nm_contains n key val st inv q hq).2 ⟨q1, q2, hq1, hq2, h1, h2, h12, hK1, hK2⟩)
    p (by rw [inv.len]; exact hp) hpq

theorem ref_vcw_other (n : Nat) (key : Nat → Nat) (val : Nat → HalfEdge) (st : RefState)
    (inv : RefInv n key val n st) (p : Nat)
    (hno : ∀ q q1 q2, q < n → q1 < n → q2 < n → q1 ≠ q → q2 ≠ q → q1 ≠ q2 → key q1 = key q →
      key q2 = key q → p ≠ q ∧ p ≠ next st.halfEdges q) :
    (((List.range n).foldl (refMarkStep key st.nonManifoldEdges) st.halfEdges).getD p
        default).vertex_crease_weight = (st.halfEdges.getD p default).vertex_crease_weight := by
  apply foldl_refMarkStep_vcw_other
  intro i hi hc
  have hin := List.mem_range.1 hi
  obtain ⟨q1, q2, h1, h2, n1, n2, n12, k1, k2⟩ :=
    (refInv_nm_contains n key val st inv i hin).1 hc
  exact hno i q1 q2 hin h1 h2 n1 n2 n12 k1 k2

/-! ## The two variants on the flat positions -/

theorem refKeyAt_eq (w : Nat) (m : SubdivMesh) (s : Schedule) (hwf : WellFormed m)
    (hholes : m.holes = []) (t : Nat) (ht : t < m.numEdges) :
    keyAt (fillWrites w m (prepare m s).1).halfEdges1 t = refKeyAt m t := by
  obtain ⟨hmem, hpos⟩ := pairAt_spec m hwf t ht
  have hfd := (mem_fillPairs m _).1 hmem
  have h := mesh_key_nonhole w m s hwf _ _ hfd.1 hfd.2 (by rw [hholes]; simp)
  rw [prepare_faceStartEdge m s hwf _ hfd.1, hpos] at h
  exact h

theorem fill_next_at (w : Nat) (m : SubdivMesh) (s : Schedule) (hw : 32 ≤ w) (hw64 : w ≤ 64)
    (hwf : WellFormed m) (t : Nat) (ht : t < m.numEdges) :
    next (fillWrites w m (prepare m s).1).halfEdges t = nextAt m t := by
  obtain ⟨hmem, hpos⟩ := pairAt_spec m hwf t ht
  have hfd := (mem_fillPairs m _).1 hmem
  have h := fill_next w m s hw hw64 hwf _ _ hfd.1 hfd.2
  rw [prepare_faceStartEdge m s hwf _ hfd.1, hpos] at h
  exact h

theorem fill_vcw_at (w : Nat) (m : SubdivMesh) (s : Schedule) (hwf : WellFormed m) (t : Nat)
    (ht : t < m.numEdges) :
    ((fillWrites w m (prepare m s).1).halfEdges.getD t default).vertex_crease_weight
      = mapLookup (vertexCreaseMapInit m) (m.vertexIndices.getD t 0) f32_zero := by
  obtain ⟨hmem, hpos⟩ := pairAt_spec m hwf t ht
  have hfd := (mem_fillPairs m _).1 hmem
  have h := fillWrites_halfEdges w m s hwf _ _ hfd.1 hfd.2
  rw [prepare_faceStartEdge m s hwf _ hfd.1, hpos] at h
  rw [h]
  show mapLookup (vertexCreaseMapInit m) (m.vertexIndices.getD
    ((m.faceVertices.take (pairAt m t).1).sum + (pairAt m t).2) 0) f32_zero = _
  rw [hpos]

theorem refHalfEdge_next (w : Nat) (m : SubdivMesh) (N j d : Nat) (hw : 32 ≤ w)
    (hN : N < 2 ^ 31) :
    (refHalfEdge w m N j d).next_half_edge_ofs
      = (if d = N - 1 then -((N : Int) - 1) else 1) := by
  have hp := pow31_le w hw
  have hp2 : (2 : Int) ^ 31 ≤ 2 ^ (w - 1) := by exact_mod_cast hp
  show wrap w (if d = N - 1 then -((N : Int) - 1) else 1) = _
  apply wrap_of_bounds w _ (by omega)
  · split <;> omega
  · split <;> omega

theorem ref_next_at (w : Nat) (m : SubdivMesh) (s : Schedule) (hw : 32 ≤ w) (hw64 : w ≤ 64)
    (hwf : WellFormed m) (he : List HalfEdge) (t : Nat) (ht : t < m.numEdges)
    (hshape : ∃ o, he.getD t default = { refValAt w m t with opposite_half_edge_ofs := o }) :
    next he t = nextAt m t := by
  rw [← fill_next_at w m s hw hw64 hwf t ht]
  obtain ⟨o, ho⟩ := hshape
  obtain ⟨hmem, hpos⟩ := pairAt_spec m hwf t ht
  have hfd := (mem_fillPairs m _).1 hmem
  have hN := face_count_le m hwf _ hfd.1
  have hn := hwf.2.2.2.1
  have hp := pow31_le w hw
  have h := fillWrites_halfEdges w m s hwf _ _ hfd.1 hfd.2
  rw [prepare_faceStartEdge m s hwf _ hfd.1, hpos] at h
  unfold next
  rw [ho, h, (mkHalfEdge_offsets w m _ _ _ _ (by omega) hw64 (by omega) hfd.2).1]
  show ((t : Int) + (refValAt w m t).next_half_edge_ofs).toNat = _
  unfold refValAt
  rw [refHalfEdge_next w m _ _ _ hw (by omega)]

/-! ## Old versus new matcher -/

/-- C33. Old versus new matcher: on a well-formed mesh with an empty hole list and no half-edge
whose key equals the sentinel, for which the compiled sort-based construction returns, the
disabled map-based reference variant returns too, both give every half-edge the same opposite
offset, and both force the vertex crease weight to `+infinity` on the same set of half-edges:
on a half-edge that lies on a non-manifold edge or follows one in its face both end with
`+infinity`, and on every other half-edge each variant keeps the weight it wrote itself. -/
theorem matcher_equivalence (w : Nat) (m : SubdivMesh) (s : Schedule) (st : State)
    (hw : 32 ≤ w) (hw64 : w ≤ 64) (hwf : WellFormed m)
    (hcs : IsChunking m.numEdges s.linkChunks) (hholes : m.holes = [])
    (hsent : ∀ p, p < m.numEdges → refKeyAt m p ≠ sentinel)
    (hst : initializeHalfEdgeStructures w m s = some st) :
    ∃ ref, referenceVariant w m = some ref ∧
      (∀ p, (ref.1.getD p default).opposite_half_edge_ofs
        = (st.halfEdges.getD p default).opposite_half_edge_ofs) ∧
      (∀ p, p < m.numEdges → ForcedVertexCrease m p →
        (ref.1.getD p default).vertex_crease_weight = f32_inf ∧
        (st.halfEdges.getD p default).vertex_crease_weight = f32_inf) ∧
      (∀ p, p < m.numEdges → ¬ ForcedVertexCrease m p →
        (ref.1.getD p default).vertex_crease_weight
          = (full_vertex_crease_weights m).getD (m.vertexIndices.getD p 0) 0 ∧
        (st.halfEdges.getD p default).vertex_crease_weight
          = mapLookup (vertexCreaseMapInit m) (m.vertexIndices.getD p 0) f32_zero) := by
  have hokb : fillOk m (prepare m s).1 = true := by
    rw [← init_isSome w m s, hst]
    rfl
  have hok : ∀ f, f < m.numFaces → ∀ d, d < m.faceVertices.getD f 0 →
      f32_ge_zero (edgeLevel m ((m.faceVertices.take f).sum + d)) = true := by
    intro f hf d hd
    unfold fillOk at hokb
    rw [List.all_eq_true] at hokb
    have h1 := hokb f (List.mem_range.2 hf)
    rw [List.all_eq_true] at h1
    have h2 := h1 d (List.mem_range.2 hd)
    rw [prepare_faceStartEdge m s hwf f hf] at h2
    exact h2
  have href := referenceVariant_eq w m hwf hholes hok
  have inv := refInv_fold w m.numEdges (refKeyAt m) (refValAt w m) hw hwf.2.2.2.1
    (fun _ _ => rfl) m.numEdges (Nat.le_refl _)
  obtain ⟨R, hR, hhe, -⟩ := init_runs w m s st hw hw64 hwf hcs hst
  have hin := linkInput_of_mesh w m s hw hw64 hwf
  have hKeq := refKeyAt_eq w m s hwf hholes
  have hframe := foldl_processRun_frame w
    (radix_sort_u64 (fillWrites w m (prepare m s).1).halfEdges1 m.numEdges) R
    (fillWrites w m (prepare m s).1).halfEdges
  have hrframe := foldl_refMarkStep_frame (refKeyAt m)
    ((List.range m.numEdges).foldl (refStep w (refKeyAt m) (refValAt w m))
      ⟨List.replicate m.numEdges default, [], []⟩).nonManifoldEdges (List.range m.numEdges)
    ((List.range m.numEdges).foldl (refStep w (refKeyAt m) (refValAt w m))
      ⟨List.replicate m.numEdges default, [], []⟩).halfEdges
  have hKK : ∀ a b, a < m.numEdges → b < m.numEdges → refKeyAt m a = refKeyAt m b →
      keyAt (fillWrites w m (prepare m s).1).halfEdges1 a
        = keyAt (fillWrites w m (prepare m s).1).halfEdges1 b :=
    fun a b ha hb h => (hKeq a ha).trans (h.trans (hKeq b hb).symm)
  have hKs : ∀ a, a < m.numEdges →
      keyAt (fillWrites w m (prepare m s).1).halfEdges1 a ≠ sentinel :=
    fun a ha => by rw [hKeq a ha]; exact hsent a ha
  refine ⟨_, href, ?_, ?_, ?_⟩
  · intro p
    rw [hhe]
    by_cases hp : p < m.numEdges
    · by_cases h1 : ∃ q, q < m.numEdges ∧ q ≠ p ∧ refKeyAt m q = refKeyAt m p
      · obtain ⟨q, hq, hqp, hk⟩ := h1
        by_cases h2 : ∃ q2, q2 < m.numEdges ∧ q2 ≠ p ∧ q2 ≠ q ∧ refKeyAt m q2 = refKeyAt m p
        · obtain ⟨q2, hq2, hq2p, hq2q, hk2⟩ := h2
          rw [ref_opp_nonmanifold m.numEdges (refKeyAt m) (refValAt w m) _ inv p q q2 hp hq hq2
            hqp hq2p (Ne.symm hq2q) hk hk2]
          exact ((hub_nonmanifold w m.numEdges _ _ _ hin R hR p q q2 hp hq hq2 hqp hq2p
            (Ne.symm hq2q) (hKK q p hq hp hk) (hKK q2 p hq2 hp hk2) (hKs p hp)).1).symm
        · have hclass : ∀ q', q' < m.numEdges → refKeyAt m q' = refKeyAt m p →
              q' = p ∨ q' = q := by
            intro q' hq' hk'
            by_contra hcon
            exact h2 ⟨q', hq', fun e => hcon (Or.inl e), fun e => hcon (Or.inr e), hk'⟩
          rw [ref_opp_pair m.numEdges (refKeyAt m) (refValAt w m) _ inv p q hp hq (Ne.symm hqp)
            hk hclass]
          exact ((hub_pair w m.numEdges _ _ _ hin R hR p q hp hq (Ne.symm hqp)
            (hKK q p hq hp hk) (hKs p hp) (fun q' hq' hk' => hclass q' hq'
              ((hKeq q' hq').symm.trans (hk'.trans (hKeq p hp))))).1).symm
      · have hclass : ∀ q', q' < m.numEdges → refKeyAt m q' = refKeyAt m p → q' = p := by
          intro q' hq' hk'
          by_contra hcon
          exact h1 ⟨q', hq', hcon, hk'⟩
        rw [ref_opp_single m.numEdges (refKeyAt m) (refValAt w m) _ inv p hp hclass]
        symm
        by_contra hne
        obtain ⟨q, -, hq, hqp, hKq, -⟩ := hub_opp_nonzero w m.numEdges _ _ _ hin R hR p hne
        exact hqp (hclass q hq ((hKeq q hq).symm.trans (hKq.trans (hKeq p hp))))
    · rw [List.getD_eq_default _ _ (by rw [hrframe.1, inv.len]; omega),
        List.getD_eq_default _ _ (by rw [hframe.1, hin.hlen]; omega)]
  · rintro p hp ⟨q, hq, ⟨q1, hq1, q2, hq2, n1, n2, n12, k1, k2⟩, hpq⟩
    have hnr := ref_next_at w m s hw hw64 hwf _ q hq (inv.shape q hq)
    have hns := fill_next_at w m s hw hw64 hwf q hq
    refine ⟨ref_vcw_forced m.numEdges (refKeyAt m) (refValAt w m) _ inv p q q1 q2 hp hq hq1 hq2
      n1 n2 n12 k1 k2 (by rw [hnr]; exact hpq), ?_⟩
    rw [hhe]
    have hhub := hub_nonmanifold w m.numEdges _ _ _ hin R hR q q1 q2 hq hq1 hq2 n1 n2 n12
      (hKK q1 q hq1 hq k1) (hKK q2 q hq2 hq k2) (hKs q hq)
    rcases hpq with e | e
    · rw [e]
      exact hhub.2.1
    · rw [e, ← hns]
      exact hhub.2.2
  · intro p hp hnf
    constructor
    · show (((List.range m.numEdges).foldl (refMarkStep (refKeyAt m) _) _).getD p
        default).vertex_crease_weight = _
      rw [ref_vcw_other m.numEdges (refKeyAt m) (refValAt w m) _ inv p]
      · obtain ⟨o, ho⟩ := inv.shape p hp
        rw [ho]
        obtain ⟨-, hpos⟩ := pairAt_spec m hwf p hp
        show (full_vertex_crease_weights m).getD (m.vertexIndices.getD
          ((m.faceVertices.take (pairAt m p).1).sum + (pairAt m p).2) 0) 0 = _
        rw [hpos]
      · intro q q1 q2 hq hq1 hq2 n1 n2 n12 k1 k2
        rw [ref_next_at w m s hw hw64 hwf _ q hq (inv.shape q hq)]
        constructor
        · intro e
          exact hnf ⟨q, hq, ⟨q1, hq1, q2, hq2, n1, n2, n12, k1, k2⟩, Or.inl e⟩
        · intro e
          exact hnf ⟨q, hq, ⟨q1, hq1, q2, hq2, n1, n2, n12, k1, k2⟩, Or.inr e⟩
    · rw [hhe, foldl_processRun_vcw_other, fill_vcw_at w m s hwf p hp]
      intro r hr h3 i hi
      obtain ⟨q1, q2, hq1, hq2, h12, h1e, h2e, hk1, hk2, hke, hen⟩ :=
        run_members3 w m.numEdges _ _ _ hin r ((hR r).1 hr).1 h3 i hi
      have hon : OnNonManifoldEdge m (edgeAt
          (radix_sort_u64 (fillWrites w m (prepare m s).1).halfEdges1 m.numEdges) (r.1 + i)) :=
        ⟨q1, hq1, q2, hq2, h1e, h2e, h12,
          (hKeq q1 hq1).symm.trans ((hk1.trans hke.symm).trans (hKeq _ hen)),
          (hKeq q2 hq2).symm.trans ((hk2.trans hke.symm).trans (hKeq _ hen))⟩
      rw [fill_next_at w m s hw hw64 hwf _ hen]
      constructor
      · intro e
        exact hnf ⟨_, hen, hon, Or.inl e⟩
      · intro e
        exact hnf ⟨_, hen, hon, Or.inr e⟩

theorem matcher_equivalence_witness :
    WellFormed threeTriangles ∧ IsChunking 9 [(0, 9)] ∧
    (∀ p, p < 9 → refKeyAt threeTriangles p ≠ sentinel) ∧
    ForcedVertexCrease threeTriangles 0 ∧ ¬ ForcedVertexCrease threeTriangles 2 ∧
    (referenceVariant 32 threeTriangles).map
        (fun r => r.1.map (fun h => (h.opposite_half_edge_ofs, h.vertex_crease_weight)))
      = some [(0, f32_inf), (0, f32_inf), (0, 0), (0, f32_inf), (0, f32_inf), (0, 0),
          (0, f32_inf), (0, f32_inf), (0, 0)] ∧
    ∃ st, initializeHalfEdgeStructures 32 threeTriangles ⟨[], [(0, 9)]⟩ = some st ∧
      ∃ ref, referenceVariant 32 threeTriangles = some ref ∧
        (∀ p, (ref.1.getD p default).opposite_half_edge_ofs
          = (st.halfEdges.getD p default).opposite_half_edge_ofs) ∧
        (∀ p, p < threeTriangles.numEdges → ForcedVertexCrease threeTriangles p →
          (ref.1.getD p default).vertex_crease_weight = f32_inf ∧
          (st.halfEdges.getD p default).vertex_crease_weight = f32_inf) ∧
        (∀ p, p < threeTriangles.numEdges → ¬ ForcedVertexCrease threeTriangles p →
          (ref.1.getD p default).vertex_crease_weight
            = (full_vertex_crease_weights threeTriangles).getD
                (threeTriangles.vertexIndices.getD p 0) 0 ∧
          (st.halfEdges.getD p default).vertex_crease_weight
            = mapLookup (vertexCreaseMapInit threeTriangles)
                (threeTriangles.vertexIndices.getD p 0) f32_zero) :=
  ⟨by decide, ⟨[(0, 9)], by decide, by decide⟩, by decide, by decide, by decide, by decide,
    (initializeHalfEdgeStructures 32 threeTriangles ⟨[], [(0, 9)]⟩).get (by decide),
    by decide,
    matcher_equivalence 32 threeTriangles ⟨[], [(0, 9)]⟩ _ (by decide) (by decide) (by decide)
      ⟨[(0, 9)], by decide, by decide⟩ rfl (by decide) (by decide)⟩

end Embree
